import Mathlib

/-!
Verification of the page-level B+tree node engine (BasicNode / BTreeNode /
BTree) against its natural-language specification.

The C++ sources are shallowly embedded: a page is a structure holding the
header fields of `BasicNodeheader` (fences, space accounting, prefix length,
hint array) together with the slot array; the heap region is represented by
storing each slot's truncated key and payload bytes directly in the slot,
while `spaceUsed` and `dataOffset` are maintained numerically exactly as the
code maintains them.  Machine integers are `Nat`; byte values are `Nat`s that
are `< 256` for inputs produced by the C++ `uint8_t` type (carried as a
hypothesis where a theorem needs it).  Child pointers stored in inner-node
payloads are embedded as the subtree itself (`Payload.child`), with
`sizeof(BTreeNode*) = 8` for space accounting.
-/

namespace BtreeSpec

/-- `pageSize` from BTreeNode.h. -/
def pageSize : Nat := 4096

/-- `maxKVSize = pageSize / 4` from BTreeNode.h. -/
def maxKVSize : Nat := pageSize / 4

/-- `hintCount` from BasicNodeheader. -/
def hintCount : Nat := 16

/-- `sizeof(FatSlot)`: three uint16 plus a packed uint32 union. -/
def fatSlotSize : Nat := 10

/-- `sizeof(BasicNodeheader)` under the C++ layout: tag (1, padded to 8),
`upper` pointer (8), two FenceKeySlot (4 each), four uint16 (8), 16 uint32
hints (64). -/
def headerSize : Nat := 96

/-- `sizeof(BTreeNode*)`, the payload length of a child reference slot. -/
def childRefSize : Nat := 8

/-- Byte-list comparison: lexicographic, shorter list first on equal prefix.
This is the order realised by the code's `memcmp` followed by the length
tie-break in `BasicNode::lowerBound` and `BasicNode::validate`. -/
def bcmp : List Nat → List Nat → Ordering
  | [], [] => .eq
  | [], _ :: _ => .lt
  | _ :: _, [] => .gt
  | a :: as, b :: bs =>
    if a < b then .lt else if b < a then .gt else bcmp as bs

/-- Strict byte-list order. -/
def blt (a b : List Nat) : Prop := bcmp a b = .lt

/-- Non-strict byte-list order. -/
def ble (a b : List Nat) : Prop := bcmp a b ≠ .gt

instance (a b : List Nat) : Decidable (blt a b) := by
  unfold blt; infer_instance

instance (a b : List Nat) : Decidable (ble a b) := by
  unfold ble; infer_instance

/-- `memcmp(a, b, n)` on the first `n` bytes (call sites always have
`n ≤ min |a| |b|`; a list running out is treated as "equal so far"). -/
def memcmpN : List Nat → List Nat → Nat → Ordering
  | _, _, 0 => .eq
  | [], _, _ + 1 => .eq
  | _ :: _, [], _ + 1 => .eq
  | a :: as, b :: bs, n + 1 =>
    if a < b then .lt else if b < a then .gt else memcmpN as bs n

/-- `head` from util.h: the order-preserving 4-byte digest of a (truncated)
key, assembled big-endian from at most the first four bytes. -/
def headOf : List Nat → Nat
  | [] => 0
  | [k0] => k0 * 16777216
  | [k0, k1] => k0 * 16777216 + k1 * 65536
  | [k0, k1, k2] => k0 * 16777216 + k1 * 65536 + k2 * 256
  | k0 :: k1 :: k2 :: k3 :: _ => k0 * 16777216 + k1 * 65536 + k2 * 256 + k3

/-- Length of the longest common prefix of two byte lists; the loop in
`BasicNode::setFences` and the body of `BasicNode::commonPrefix`. -/
def commonPrefixLen : List Nat → List Nat → Nat
  | a :: as, b :: bs => if a = b then commonPrefixLen as bs + 1 else 0
  | _, _ => 0

/-- All entries of a byte list are genuine bytes. -/
def allBytes (l : List Nat) : Prop := ∀ b ∈ l, b < 256

instance (l : List Nat) : Decidable (allBytes l) := by
  unfold allBytes; infer_instance


/-- `NodeTag` from BTreeNode.h. -/
inductive NodeTag where
  | basicLeaf
  | basicInner
deriving DecidableEq, Repr

mutual
/-- A page: the fields of `BasicNodeheader` plus the slot array.  The heap
region is embedded by storing each slot's (truncated) key bytes and payload
directly in the slot; `spaceUsed` and `dataOffset` are tracked numerically
exactly as the code tracks them.  `count` is the length of `slots`. -/
inductive BTreeNode : Type where
  | mk (tag : NodeTag) (upper : Option BTreeNode)
       (lowerFence upperFence : List Nat)
       (spaceUsed dataOffset prefixLength : Nat)
       (hint : List Nat)
       (slots : List FatSlot) : BTreeNode

/-- `FatSlot`: truncated key bytes, the payload region, and the 4-byte head.
The `offset` field of the C++ slot is a heap position and is absorbed into
storing the bytes themselves. -/
inductive FatSlot : Type where
  | mk (key : List Nat) (payload : Payload) (head : Nat) : FatSlot

/-- Contents of a payload region: opaque bytes in a leaf, or a punned child
pointer (embedded as the subtree) in an inner node. -/
inductive Payload : Type where
  | bytes (val : List Nat) : Payload
  | child (t : BTreeNode) : Payload
end

def BTreeNode.tag : BTreeNode → NodeTag
  | .mk t _ _ _ _ _ _ _ _ => t

def BTreeNode.upper : BTreeNode → Option BTreeNode
  | .mk _ u _ _ _ _ _ _ _ => u

def BTreeNode.lowerFence : BTreeNode → List Nat
  | .mk _ _ lf _ _ _ _ _ _ => lf

def BTreeNode.upperFence : BTreeNode → List Nat
  | .mk _ _ _ uf _ _ _ _ _ => uf

def BTreeNode.spaceUsed : BTreeNode → Nat
  | .mk _ _ _ _ su _ _ _ _ => su

def BTreeNode.dataOffset : BTreeNode → Nat
  | .mk _ _ _ _ _ d _ _ _ => d

def BTreeNode.prefixLength : BTreeNode → Nat
  | .mk _ _ _ _ _ _ pl _ _ => pl

def BTreeNode.hint : BTreeNode → List Nat
  | .mk _ _ _ _ _ _ _ h _ => h

def BTreeNode.slots : BTreeNode → List FatSlot
  | .mk _ _ _ _ _ _ _ _ s => s

/-- `count`: number of live slots. -/
def BTreeNode.count (n : BTreeNode) : Nat := n.slots.length

def FatSlot.key : FatSlot → List Nat
  | .mk k _ _ => k

def FatSlot.payload : FatSlot → Payload
  | .mk _ p _ => p

def FatSlot.head : FatSlot → Nat
  | .mk _ _ h => h

/-- `payloadLen`: byte length of the payload region; a child reference is
`sizeof(BTreeNode*)` bytes. -/
def Payload.len : Payload → Nat
  | .bytes v => v.length
  | .child _ => childRefSize

/-- Placeholder slot used by total `getD` access; never influences results on
indices the code actually reads. -/
def defaultSlot : FatSlot := .mk [] (.bytes []) 0

/-- `slot(i)` access. -/
def BTreeNode.slotD (n : BTreeNode) (i : Nat) : FatSlot := n.slots.getD i defaultSlot

/-- `isLeaf`. -/
def BTreeNode.isLeaf (n : BTreeNode) : Bool := n.tag = .basicLeaf

/-- `isInner`. -/
def BTreeNode.isInner (n : BTreeNode) : Bool := !n.isLeaf

/-- `getPrefix()`: the first `prefixLength` bytes of the lower fence. -/
def BTreeNode.prefixBytes (n : BTreeNode) : List Nat := n.lowerFence.take n.prefixLength

/-- Full (reconstructed) key of a slot: prefix followed by the truncated key. -/
def BTreeNode.fullKey (n : BTreeNode) (s : FatSlot) : List Nat := n.prefixBytes ++ s.key

/-- `freeSpace()`: gap between the end of the slot array and `dataOffset`. -/
def BTreeNode.freeSpace (n : BTreeNode) : Nat :=
  n.dataOffset - (headerSize + n.count * fatSlotSize)

/-- `freeSpaceAfterCompaction()`. -/
def BTreeNode.freeSpaceAfterCompaction (n : BTreeNode) : Nat :=
  pageSize - (headerSize + n.count * fatSlotSize) - n.spaceUsed

/-- `BTreeNode::isUnderfull`. -/
def BTreeNode.isUnderfull (n : BTreeNode) : Bool :=
  pageSize * 3 / 4 ≤ n.freeSpaceAfterCompaction

/-- Fresh page as built by the `BasicNode(bool leaf)` constructor: tag set,
header fields at their in-class initializers, hints uninitialized (embedded
as zeros; they are rebuilt by `makeHint` before being consulted). -/
def newNode (t : NodeTag) : BTreeNode :=
  .mk t none [] [] 0 pageSize 0 (List.replicate hintCount 0) []

/-- Rebuild a node value with one field changed (the embedding's stand-in for
in-place mutation). -/
def BTreeNode.setUpper (n : BTreeNode) (u : Option BTreeNode) : BTreeNode :=
  .mk n.tag u n.lowerFence n.upperFence n.spaceUsed n.dataOffset n.prefixLength n.hint n.slots

def BTreeNode.setSlots (n : BTreeNode) (s : List FatSlot) : BTreeNode :=
  .mk n.tag n.upper n.lowerFence n.upperFence n.spaceUsed n.dataOffset n.prefixLength n.hint s

def BTreeNode.setHint (n : BTreeNode) (h : List Nat) : BTreeNode :=
  .mk n.tag n.upper n.lowerFence n.upperFence n.spaceUsed n.dataOffset n.prefixLength h n.slots

/-- `BasicNode::makeHint`. -/
def BTreeNode.makeHint (n : BTreeNode) : BTreeNode :=
  let dist := n.count / (hintCount + 1)
  n.setHint ((List.range hintCount).map fun i => (n.slotD (dist * (i + 1))).head)

/-- `BasicNode::updateHint(slotId)`. -/
def BTreeNode.updateHint (n : BTreeNode) (slotId : Nat) : BTreeNode :=
  let dist := n.count / (hintCount + 1)
  let begin_ : Nat :=
    if n.count > hintCount * 2 + 1 ∧ (n.count - 1) / (hintCount + 1) = dist ∧
        slotId / dist > 1 then
      slotId / dist - 1
    else 0
  n.setHint ((List.range hintCount).map fun i =>
    if i < begin_ then n.hint.getD i 0 else (n.slotD (dist * (i + 1))).head)

/-- `BasicNode::searchHint`: optionally narrow the binary-search interval.
`upper0` is the incoming upper bound (the slot count at the call site). -/
def BTreeNode.searchHint (n : BTreeNode) (keyHead : Nat) (lower0 upper0 : Nat) :
    Nat × Nat :=
  if n.count > hintCount * 2 then
    let dist := upper0 / (hintCount + 1)
    let pos := (n.hint.findIdx? fun h => keyHead ≤ h).getD hintCount
    let pos2 := (((n.hint.drop pos).findIdx? fun h => h ≠ keyHead).map
      (pos + ·)).getD hintCount
    (pos * dist, if pos2 < hintCount then (pos2 + 1) * dist else upper0)
  else (lower0, upper0)

/-- The binary-search loop of `BasicNode::lowerBound`: head comparison first,
then byte comparison of the truncated keys, then the length tie-break.
The structural parameter `fuel` bounds the interval width `upper - lower`,
which shrinks on every iteration; callers pass the initial width, so the
`fuel = 0` base case coincides with the loop's exit condition. -/
def BTreeNode.lbGo (n : BTreeNode) (key : List Nat) (keyHead : Nat) :
    Nat → Nat → Nat → Nat × Bool
  | 0, lower, _ => (lower, false)
  | fuel + 1, lower, upper =>
    if lower < upper then
      let mid := (upper - lower) / 2 + lower
      let sl := n.slotD mid
      if keyHead < sl.head then n.lbGo key keyHead fuel lower mid
      else if sl.head < keyHead then n.lbGo key keyHead fuel (mid + 1) upper
      else
        match memcmpN key sl.key (min key.length sl.key.length) with
        | .lt => n.lbGo key keyHead fuel lower mid
        | .gt => n.lbGo key keyHead fuel (mid + 1) upper
        | .eq =>
          if key.length < sl.key.length then n.lbGo key keyHead fuel lower mid
          else if sl.key.length < key.length then n.lbGo key keyHead fuel (mid + 1) upper
          else (mid, true)
    else (lower, false)

/-- The loop with its exact initial width. -/
def BTreeNode.lbLoop (n : BTreeNode) (key : List Nat) (keyHead lower upper : Nat) :
    Nat × Bool :=
  n.lbGo key keyHead (upper - lower) lower upper

/-- `BasicNode::lowerBound`.  The three out-of-range branches at the start are
`throw` statements in the source; they are embedded as `Except.error`. -/
def BTreeNode.lowerBound (n : BTreeNode) (key : List Nat) :
    Except Unit (Nat × Bool) :=
  match memcmpN key n.prefixBytes (min key.length n.prefixLength) with
  | .lt => .error ()
  | .gt => .error ()
  | .eq =>
    if key.length < n.prefixLength then .error ()
    else
      let key2 := key.drop n.prefixLength
      let keyHead := headOf key2
      let lu := n.searchHint keyHead 0 n.count
      .ok (n.lbLoop key2 keyHead lu.1 lu.2)

/-- `BasicNode::spaceNeeded(keyLength, payloadLength)` (keyLength is the full
key length; the source asserts `keyLength > prefixLength`). -/
def BTreeNode.spaceNeeded (n : BTreeNode) (keyLength payloadLength : Nat) : Nat :=
  keyLength - n.prefixLength + payloadLength + fatSlotSize

/-- `BTreeNode::spaceNeededInner(keyLength)`: dispatches to
`spaceNeeded(keyLength, sizeof(void*))` on an inner node. -/
def BTreeNode.spaceNeededInner (n : BTreeNode) (keyLength : Nat) : Nat :=
  n.spaceNeeded keyLength childRefSize

/-- `BasicNode::insertFence` followed by prefix computation:
`BasicNode::setFences`. -/
def BTreeNode.setFences (n : BTreeNode) (lowerKey upperKey : List Nat) : BTreeNode :=
  .mk n.tag n.upper lowerKey upperKey
    (n.spaceUsed + lowerKey.length + upperKey.length)
    (n.dataOffset - lowerKey.length - upperKey.length)
    (commonPrefixLen lowerKey upperKey) n.hint n.slots

/-- Build the slot record written by `FatSlot::write` inside
`BasicNode::storeKeyValue`: truncated key, payload, recomputed head. -/
def mkSlot (truncKey : List Nat) (payload : Payload) : FatSlot :=
  .mk truncKey payload (headOf truncKey)

/-- Heap bytes consumed by one stored entry (`space` in `storeKeyValue`). -/
def kvSpace (truncKey : List Nat) (payload : Payload) : Nat :=
  truncKey.length + payload.len

/-- `BasicNode::storeKeyValue` at the append position (`slotId = count`,
as used by `mergeRightInner` after `tmp.count++`): account the heap bytes and
write the slot. -/
def BTreeNode.appendKV (n : BTreeNode) (truncKey : List Nat) (payload : Payload) :
    BTreeNode :=
  .mk n.tag n.upper n.lowerFence n.upperFence
    (n.spaceUsed + kvSpace truncKey payload)
    (n.dataOffset - kvSpace truncKey payload)
    n.prefixLength n.hint (n.slots ++ [mkSlot truncKey payload])

/-- The slot-array shift plus `storeKeyValue` of `BasicNode::insert`:
insert a new slot at `slotId`, accounting the heap bytes. -/
def BTreeNode.insertKV (n : BTreeNode) (slotId : Nat) (truncKey : List Nat)
    (payload : Payload) : BTreeNode :=
  .mk n.tag n.upper n.lowerFence n.upperFence
    (n.spaceUsed + kvSpace truncKey payload)
    (n.dataOffset - kvSpace truncKey payload)
    n.prefixLength n.hint (n.slots.insertIdx slotId (mkSlot truncKey payload))

/-- The truncated key written for one entry copied by
`BasicNode::copyKeyValueRange`: in the first regime
(`prefixLength ≤ dst.prefixLength`, "prefix grows") the key is shortened by
the prefix difference; in the second (`copyKeyValue`) the full key is
reconstructed and re-truncated against the destination prefix. -/
def copiedKey (src dst : BTreeNode) (sl : FatSlot) : List Nat :=
  if src.prefixLength ≤ dst.prefixLength then
    sl.key.drop (dst.prefixLength - src.prefixLength)
  else
    (src.prefixBytes ++ sl.key).drop dst.prefixLength

/-- `BasicNode::copyKeyValueRange(dst, dstSlot, srcSlot, srcCount)`.  All call
sites pass `dstSlot = dst.count`, so the copied slots are appended; the heap
bytes of each copied entry are accounted exactly as the source does. -/
def copyKeyValueRange (src dst : BTreeNode) (srcSlot srcCount : Nat) : BTreeNode :=
  let rangeSlots := (src.slots.drop srcSlot).take srcCount
  let newSlots := rangeSlots.map fun sl => mkSlot (copiedKey src dst sl) sl.payload
  let space := (rangeSlots.map fun sl => kvSpace (copiedKey src dst sl) sl.payload).sum
  .mk dst.tag dst.upper dst.lowerFence dst.upperFence
    (dst.spaceUsed + space) (dst.dataOffset - space) dst.prefixLength dst.hint
    (dst.slots ++ newSlots)

/-- `BasicNode::compactify`: rebuild into a scratch node with the same fences,
copy every live slot, restore `upper`, overwrite `this`, rebuild hints. -/
def BTreeNode.compactify (n : BTreeNode) : BTreeNode :=
  let tmp := (newNode n.tag).setFences n.lowerFence n.upperFence
  let tmp2 := copyKeyValueRange n tmp 0 n.count
  (tmp2.setUpper n.upper).makeHint

/-- `BasicNode::requestSpaceFor`: returns whether space is available, along
with the node (compacted when compaction was needed). -/
def BTreeNode.requestSpaceFor (n : BTreeNode) (need : Nat) : Bool × BTreeNode :=
  if need ≤ n.freeSpace then (true, n)
  else if need ≤ n.freeSpaceAfterCompaction then (true, n.compactify)
  else (false, n)

/-- `BasicNode::insert`.  Space check (possibly compacting), `lowerBound`
(whose `found` result is ignored by the source), slot shift, `storeKeyValue`
of the truncated key, hint update.  Besides the source's boolean result the
embedding also returns the slot position used — information the C++ callers
recover through pointer identity when rewiring after a split. -/
def BTreeNode.insert (n : BTreeNode) (key : List Nat) (payload : Payload) :
    Except Unit (Bool × BTreeNode × Nat) :=
  match n.requestSpaceFor (n.spaceNeeded key.length payload.len) with
  | (false, _) => .ok (false, n, 0)
  | (true, n1) =>
    match n1.lowerBound key with
    | .error () => .error ()
    | .ok (slotId, _found) =>
      let n2 := n1.insertKV slotId (key.drop n1.prefixLength) payload
      .ok (true, n2.updateHint slotId, slotId)

/-- `BasicNode::removeSlot`: deduct the slot's heap bytes from `spaceUsed`,
close the slot-array gap, rebuild hints (`dataOffset` is not shrunk). -/
def BTreeNode.removeSlot (n : BTreeNode) (slotId : Nat) : BTreeNode :=
  let sl := n.slotD slotId
  (BTreeNode.mk n.tag n.upper n.lowerFence n.upperFence
    (n.spaceUsed - sl.key.length - sl.payload.len) n.dataOffset
    n.prefixLength n.hint (n.slots.eraseIdx slotId)).makeHint

/-- `BasicNode::remove`. -/
def BTreeNode.remove (n : BTreeNode) (key : List Nat) :
    Except Unit (Bool × BTreeNode) :=
  match n.lowerBound key with
  | .error () => .error ()
  | .ok (slotId, found) =>
    if found then .ok (true, n.removeSlot slotId) else .ok (false, n)

/-- `BasicNode::commonPrefix(slotA, slotB)`. -/
def BTreeNode.commonPrefix (n : BTreeNode) (slotA slotB : Nat) : Nat :=
  commonPrefixLen (n.slotD slotA).key (n.slotD slotB).key

/-- `BasicNode::SeparatorInfo`. -/
structure SeparatorInfo where
  length : Nat
  slot : Nat
  isTruncated : Bool
deriving DecidableEq, Repr

/-- The scan loop of `findSeparator` for leaves with `count > 16`: advance
from `i` while `commonPrefix(i, 0)` still equals `best`, stopping at `upper`.
Structural fuel bounds `upper - i`, which shrinks each step. -/
def BTreeNode.sepGo (n : BTreeNode) (best upper : Nat) : Nat → Nat → Nat
  | 0, i => i
  | fuel + 1, i =>
    if i < upper ∧ n.commonPrefix i 0 = best then n.sepGo best upper fuel (i + 1)
    else i

/-- The scan loop with its exact initial width. -/
def BTreeNode.sepScan (n : BTreeNode) (best upper i : Nat) : Nat :=
  n.sepGo best upper (upper - i) i

/-- `BasicNode::findSeparator`. -/
def BTreeNode.findSeparator (n : BTreeNode) : SeparatorInfo :=
  if n.isInner then
    let slotId := n.count / 2
    ⟨n.prefixLength + (n.slotD slotId).key.length, slotId, false⟩
  else
    let bestSlot :=
      if n.count > 16 then
        let lower := n.count / 2 - n.count / 16
        let upper := n.count / 2
        if n.commonPrefix lower 0 = n.commonPrefix (upper - 1) 0 then lower
        else n.sepScan (n.commonPrefix lower 0) upper (lower + 1)
      else (n.count - 1) / 2
    let common := n.commonPrefix bestSlot (bestSlot + 1)
    if bestSlot + 1 < n.count ∧ (n.slotD bestSlot).key.length > common ∧
        (n.slotD (bestSlot + 1)).key.length > common + 1 then
      ⟨n.prefixLength + common + 1, bestSlot, true⟩
    else
      ⟨n.prefixLength + (n.slotD bestSlot).key.length, bestSlot, false⟩

/-- `BasicNode::getSep`. -/
def BTreeNode.getSep (n : BTreeNode) (info : SeparatorInfo) : List Nat :=
  n.prefixBytes ++
    ((n.slotD (info.slot + if info.isTruncated then 1 else 0)).key.take
      (info.length - n.prefixLength))

/-- `BasicNode::getChild(slotId)`: `upper` at `slotId = count`, otherwise the
pointer stored in the slot's payload (`none` only on a malformed page). -/
def BTreeNode.getChild (n : BTreeNode) (slotId : Nat) : Option BTreeNode :=
  if slotId = n.count then n.upper
  else
    match (n.slotD slotId).payload with
    | .child t => some t
    | .bytes _ => none

/-- Replace the child reference read by `getChild n slotId` (the embedding of
writing through the child pointer's page). -/
def BTreeNode.setChild (n : BTreeNode) (slotId : Nat) (c : BTreeNode) : BTreeNode :=
  if slotId = n.count then n.setUpper (some c)
  else
    n.setSlots (n.slots.set slotId (.mk (n.slotD slotId).key (.child c)
      (n.slotD slotId).head))

/-- `BTreeNode::insertInner`: on an inner node, `BasicNode::insert` of the
separator with the child pointer as an 8-byte payload. -/
def BTreeNode.insertInner (n : BTreeNode) (key : List Nat) (c : BTreeNode) :
    Except Unit (Bool × BTreeNode × Nat) :=
  n.insert key (.child c)

/-- `BasicNode::splitNode(parent)`.  Returns `none` when the parent cannot
accommodate the separator (`requestSpaceFor` fails, nothing is mutated).
On success returns `(nodeLeft, nodeRight, parent2)` where `nodeRight` is the
scratch node whose bytes overwrite `this` and `parent2` is the parent after
`insertInner`; the caller rewires the tree.  In the source the parent
receives a pointer to `nodeLeft` before `nodeLeft` is filled; in this value
embedding the finished `nodeLeft` is inserted instead. -/
def BTreeNode.splitNode (n parent : BTreeNode) :
    Except Unit (Option (BTreeNode × BTreeNode × BTreeNode × Nat)) :=
  let sepInfo := n.findSeparator
  match parent.requestSpaceFor (parent.spaceNeededInner sepInfo.length) with
  | (false, _) => .ok none
  | (true, parent1) =>
    let sepKey := n.getSep sepInfo
    let nodeLeft0 := (newNode n.tag).setFences n.lowerFence sepKey
    let nodeRight0 := (newNode n.tag).setFences sepKey n.upperFence
    let pieces : BTreeNode × BTreeNode :=
      if n.isLeaf then
        let l := copyKeyValueRange n nodeLeft0 0 (sepInfo.slot + 1)
        let r := copyKeyValueRange n nodeRight0 l.count (n.count - l.count)
        (l, r)
      else
        let l0 := copyKeyValueRange n nodeLeft0 0 sepInfo.slot
        let r0 := copyKeyValueRange n nodeRight0 (l0.count + 1)
          (n.count - l0.count - 1)
        (l0.setUpper (n.getChild l0.count), r0.setUpper n.upper)
    let nodeLeft := pieces.1.makeHint
    let nodeRight := pieces.2.makeHint
    match parent1.insertInner sepKey nodeLeft with
    | .error () => .error ()
    | .ok (_, parent2, ipos) => .ok (some (nodeLeft, nodeRight, parent2, ipos))

/-- `BasicNode::mergeRightLeaf(right)`: check-then-commit merge of a leaf
into its right sibling's page; `none` when the conservative space bound
exceeds the page (nothing is mutated). -/
def mergeRightLeaf (n right : BTreeNode) : Option BTreeNode :=
  let tmp0 := (newNode .basicLeaf).setFences n.lowerFence right.upperFence
  let leftGrow := (n.prefixLength - tmp0.prefixLength) * n.count
  let rightGrow := (right.prefixLength - tmp0.prefixLength) * right.count
  let spaceUpperBound := n.spaceUsed + right.spaceUsed +
    (headerSize + (n.count + right.count) * fatSlotSize) + leftGrow + rightGrow
  if spaceUpperBound > pageSize then none
  else
    let tmp1 := copyKeyValueRange n tmp0 0 n.count
    let tmp2 := copyKeyValueRange right tmp1 0 right.count
    some tmp2.makeHint

/-- `BasicNode::mergeRightInner(sepKey, sepPrefixLen, sepRemainingLen, right)`:
as the leaf merge, but the separator pulled down from the parent is stored as
a regular slot whose payload is `this->upper`.  `sepKeyBytes` is the parent's
truncated separator key (`sepRemainingLen` bytes after the parent's
`sepPrefixLen`-byte prefix). -/
def mergeRightInner (n : BTreeNode) (sepKeyBytes : List Nat) (sepPrefixLen : Nat)
    (right : BTreeNode) : Option BTreeNode :=
  let sepRemainingLen := sepKeyBytes.length
  let tmp0 := (newNode .basicInner).setFences n.lowerFence right.upperFence
  let leftGrow := (n.prefixLength - tmp0.prefixLength) * n.count
  let rightGrow := (right.prefixLength - tmp0.prefixLength) * right.count
  let spaceUpperBound := n.spaceUsed + right.spaceUsed +
    (headerSize + (n.count + right.count) * fatSlotSize) + leftGrow + rightGrow +
    tmp0.spaceNeeded (sepPrefixLen + sepRemainingLen) childRefSize
  if spaceUpperBound > pageSize then none
  else
    let tmp1 := copyKeyValueRange n tmp0 0 n.count
    let upPayload : Payload := match n.upper with
      | some u => .child u
      | none => .bytes (List.replicate childRefSize 0)
    let tmp2 := tmp1.appendKV (sepKeyBytes.drop (tmp1.prefixLength - sepPrefixLen))
      upPayload
    let tmp3 := copyKeyValueRange right tmp2 0 right.count
    some (tmp3.setUpper right.upper).makeHint

/-- Modelled from the spec: the `BTreeNode::mergeRight` dispatcher invoked by
`BasicNode::mergeChildrenCheck` is declared by neither header in `src/`; per
§4.2.12 it performs the check-then-commit merge of `this` with its right
sibling into the right sibling's page, dispatching on the node variant (leaf
merge ignores the separator, inner merge pulls it down). -/
def mergeRight (n : BTreeNode) (sepKeyBytes : List Nat) (sepPrefixLen : Nat)
    (right : BTreeNode) : Option BTreeNode :=
  if n.isLeaf then mergeRightLeaf n right
  else mergeRightInner n sepKeyBytes sepPrefixLen right

/-- `BasicNode::mergeChildrenCheck(pos)`: redirect `pos = count` to
`count - 1` (`false` on an empty parent), merge child `pos` into child
`pos + 1`, and on success free the left child and remove the separator slot.
Returns the updated parent, or `none` when nothing changed. -/
def BTreeNode.mergeChildrenCheck (n : BTreeNode) (pos : Nat) : Option BTreeNode :=
  if pos = n.count ∧ n.count = 0 then none
  else
    let pos1 := if pos = n.count then n.count - 1 else pos
    match n.getChild pos1, n.getChild (pos1 + 1) with
    | some left, some right =>
      match mergeRight left (n.slotD pos1).key n.prefixLength right with
      | some merged => some ((n.setChild (pos1 + 1) merged).removeSlot pos1)
      | none => none
    | _, _ => none

mutual
/-- Number of pages freed by `BTreeNode::destroy`.  In the source the
`switch` falls through from the `BasicInner` case (which runs `destroyInner`)
into `case BasicLeaf: return;`, so control returns before `delete this` in
every case: recursion happens, freeing does not. -/
def destroyFreed : BTreeNode → Nat
  | .mk t u _ _ _ _ _ _ s =>
    match t with
    | .basicLeaf => 0
    | .basicInner => destroyFreedSlots s + destroyFreedOpt u

/-- `BasicNode::destroyInner`'s loop over `getChild(i)` for the slot array. -/
def destroyFreedSlots : List FatSlot → Nat
  | [] => 0
  | .mk _ p _ :: rest => destroyFreedPayload p + destroyFreedSlots rest

def destroyFreedPayload : Payload → Nat
  | .bytes _ => 0
  | .child t => destroyFreed t

/-- `upper->destroy()` at the end of `destroyInner`. -/
def destroyFreedOpt : Option BTreeNode → Nat
  | none => 0
  | some t => destroyFreed t
end

mutual
/-- Number of pages allocated for a (sub)tree: one per node. -/
def pageCount : BTreeNode → Nat
  | .mk _ u _ _ _ _ _ _ s => 1 + pageCountSlots s + pageCountOpt u

def pageCountSlots : List FatSlot → Nat
  | [] => 0
  | .mk _ p _ :: rest => pageCountPayload p + pageCountSlots rest

def pageCountPayload : Payload → Nat
  | .bytes _ => 0
  | .child t => pageCount t

def pageCountOpt : Option BTreeNode → Nat
  | none => 0
  | some t => pageCount t
end

/-- Failure modes of the embedded engine: `lbAbort` is exactly the three
`throw` branches at the start of `BasicNode::lowerBound`; `stuck` covers
exhausted recursion fuel and reads that cannot happen on well-formed trees
(a child payload that is not a pointer, a leaf payload that is not bytes);
`assertFail` is a failed `assert` — active in this build — namely
`assert(count > 1)` in `BasicNode::findSeparator` and
`assert(sepInfo.slot > 0)`, `assert(sepInfo.slot < count)` in
`BasicNode::splitNode`, which abort the process before any further
`lowerBound` call. -/
inductive Err where
  | lbAbort
  | stuck
  | assertFail
deriving DecidableEq, Repr

/-- Lift a node-level `Except Unit` result (whose error is a `lowerBound`
abort) into the engine error type. -/
def liftAbort : Except Unit α → Except Err α
  | .error () => .error .lbAbort
  | .ok a => .ok a

/-- `BTreeNode::descend`: walk inner nodes by `lowerBound` routing, returning
the descent path as `(node, pos)` pairs from the root down, plus the final
leaf.  The last pair is the `(parent, outPos)` the driver sees. -/
def descendPath : Nat → BTreeNode → List Nat →
    Except Err (List (BTreeNode × Nat) × BTreeNode)
  | 0, _, _ => .error .stuck
  | fuel + 1, n, key =>
    if n.isInner then
      match n.lowerBound key with
      | .error () => .error .lbAbort
      | .ok (pos, _) =>
        match n.getChild pos with
        | none => .error .stuck
        | some c =>
          match descendPath fuel c key with
          | .error e => .error e
          | .ok (path, leaf) => .ok ((n, pos) :: path, leaf)
    else .ok ([], n)

/-- Rebuild the tree after replacing the node at the end of a descent path. -/
def rebuild : List (BTreeNode × Nat) → BTreeNode → BTreeNode
  | [], sub => sub
  | (n, pos) :: rest, sub => n.setChild pos (rebuild rest sub)

/-- `BTree::lookup`: descend to a leaf, `lowerBound`, and return the payload
view (its bytes) on an exact match. -/
def BTree.lookup (fuel : Nat) (root : BTreeNode) (key : List Nat) :
    Except Err (Option (List Nat)) :=
  match descendPath fuel root key with
  | .error e => .error e
  | .ok (_, leaf) =>
    match leaf.lowerBound key with
    | .error () => .error .lbAbort
    | .ok (pos, found) =>
      if found then
        match (leaf.slotD pos).payload with
        | .bytes v => .ok (some v)
        | .child _ => .error .stuck
      else .ok none

/-- `BTreeNode::mergeChildrenCheck` — the dispatcher actually invoked by
`BTree::remove` through a `BTreeNode*` — is a stub:
`return false; // TODO perform merge`.  It ignores the object entirely. -/
def mergeChildrenCheckDispatch : Bool := false

/-- `BTree::remove`: descend, remove in the leaf, and — when the leaf became
underfull — run the merge-check step, whose dispatcher stub returns `false`
so the `continueMerge` loop never iterates. -/
def BTree.remove (fuel : Nat) (root : BTreeNode) (key : List Nat) :
    Except Err (Bool × BTreeNode) :=
  match descendPath fuel root key with
  | .error e => .error e
  | .ok (path, leaf) =>
    match leaf.remove key with
    | .error () => .error .lbAbort
    | .ok (false, _) => .ok (false, root)
    | .ok (true, leaf2) =>
      let root2 := rebuild path leaf2
      if leaf2.isUnderfull ∧ mergeChildrenCheckDispatch then
        .error .stuck
      else .ok (true, root2)

/-- The merge-check step of `BTree::remove` in isolation: when a removal
succeeds and the leaf is underfull, the driver calls
`parent->mergeChildrenCheck(pos)` on the `(parent, pos)` pair produced by the
descent.  Returns `some parentPair` when that step executes (`parentPair` is
`none` for a root leaf, i.e. a null parent pointer), `none` when it does not. -/
def BTree.removeMergeStep (fuel : Nat) (root : BTreeNode) (key : List Nat) :
    Except Err (Option (Option (BTreeNode × Nat))) :=
  match descendPath fuel root key with
  | .error e => .error e
  | .ok (path, leaf) =>
    match leaf.remove key with
    | .error () => .error .lbAbort
    | .ok (false, _) => .ok none
    | .ok (true, leaf2) =>
      if leaf2.isUnderfull then .ok (some path.getLast?) else .ok none

/-- `BTreeNode::makeInner(child)`. -/
def makeInner (child : BTreeNode) : BTreeNode :=
  (newNode .basicInner).setUpper (some child)

/-- The `assert(sepInfo.slot > 0)` and `assert(sepInfo.slot < count)`
checks of `BasicNode::splitNode`, evaluated on the node about to split. -/
def splitSlotOk (t : BTreeNode) : Prop :=
  0 < t.findSeparator.slot ∧ t.findSeparator.slot < t.count

instance (t : BTreeNode) : Decidable (splitSlotOk t) := by
  unfold splitSlotOk; infer_instance

/-- All the split-path asserts together: `findSeparator`'s `count > 1` and
the two separator-slot asserts.  A split the asserts let through satisfies
this predicate. -/
def splitOk (t : BTreeNode) : Prop :=
  1 < t.count ∧ splitSlotOk t

/-- `BTree::splitNode` plus `BTree::ensureSpace`: split the node at the given
depth of `key`'s descent path (creating a new root when the node has no
parent); when the parent cannot take the separator, split the parent first
(`ensureSpace` re-descends with an early stop, i.e. depth decreases by one).
After a successful `BasicNode::splitNode` the child reference that addressed
the split page now reaches `nodeRight` (its page was overwritten), which the
value embedding realises by `setChild` at the post-insert position.
`BasicNode::splitNode`'s asserts — active in this build — are modelled here
at its only call site, in the source's order: `findSeparator` asserts
`count > 1` before the parent space request, and the separator-slot asserts
fire after a granted request but before anything is mutated, so a space
refusal (`ok none`) still propagates to the parent split. -/
def BTree.splitAtDepth (fuel : Nat) (root : BTreeNode) (key : List Nat) :
    Nat → Except Err BTreeNode
  | 0 =>
    match descendPath fuel root key with
    | .error e => .error e
    | .ok (path, leaf) =>
      let target := match path.head? with
        | some (n, _) => n
        | none => leaf
      if target.count ≤ 1 then .error .assertFail
      else
        let p0 := makeInner target
        match target.splitNode p0 with
        | .error () =>
          if splitSlotOk target then .error .lbAbort else .error .assertFail
        | .ok none => .error .stuck
        | .ok (some (_, r, p2, ipos)) =>
          if splitSlotOk target then
            .ok (p2.setChild (if ipos ≤ 0 then 1 else 0) r)
          else .error .assertFail
  | depth + 1 =>
    match descendPath fuel root key with
    | .error e => .error e
    | .ok (path, leaf) =>
      let target := match path.getD (depth + 1) (leaf, 0) with
        | (n, _) => if depth + 1 < path.length then n else leaf
      match path.getD depth (root, 0) with
      | (parentNode, pos) =>
        if target.count ≤ 1 then .error .assertFail
        else
          match target.splitNode parentNode with
          | .error () =>
            if splitSlotOk target then .error .lbAbort else .error .assertFail
          | .ok none => BTree.splitAtDepth fuel root key depth
          | .ok (some (_, r, p2, ipos)) =>
            if splitSlotOk target then
              let newPos := if ipos ≤ pos then pos + 1 else pos
              .ok (rebuild (path.take depth) (p2.setChild newPos r))
            else .error .assertFail

/-- `BTree::insert`: descend to the leaf, try the leaf insert, and on a space
failure split (possibly cascading upward) and restart from the root. -/
def BTree.insert (fuel : Nat) (root : BTreeNode) (key payload : List Nat) :
    Except Err BTreeNode :=
  match fuel with
  | 0 => .error .stuck
  | fuel + 1 =>
    match descendPath (fuel + 1) root key with
    | .error e => .error e
    | .ok (path, leaf) =>
      match leaf.insert key (.bytes payload) with
      | .error () => .error .lbAbort
      | .ok (true, leaf2, _) => .ok (rebuild path leaf2)
      | .ok (false, _, _) =>
        match BTree.splitAtDepth (fuel + 1) root key path.length with
        | .error e => .error e
        | .ok root2 => BTree.insert fuel root2 key payload

/-! ## Ordering invariant (spec §3, invariant 1) -/

/-- Invariant 1 of §3: for all slot indices `i < count - 1`, the truncated
key of slot `i` is strictly below that of slot `i + 1` (byte comparison with
the shorter key first on an equal prefix) — the property asserted by
`BasicNode::validate`. -/
def ordInv (n : BTreeNode) : Prop :=
  ∀ i, i + 1 < n.count → blt (n.slotD i).key (n.slotD (i + 1)).key

/-- The empty tree (`BTree::BTree()` installs `makeLeaf()` as root). -/
def emptyTree : BTreeNode := newNode .basicLeaf

/-- A well-formed 32-entry leaf (sorted keys, consistent heads, hints and
space accounting, empty fences): slots `0..14` hold keys `[0, i]`, slots
`15..31` hold keys `[1, i]`.  In `findSeparator`'s scan window
`[count/2 - count/16, count/2) = [14, 16)`, `commonPrefix(14, 0) = 1` while
`commonPrefix(15, 0) = 0`. -/
def node32 : BTreeNode :=
  (BTreeNode.mk .basicLeaf none [] [] 64 4032 0 (List.replicate hintCount 0)
    (((List.range 15).map fun i => mkSlot [0, i] (.bytes [])) ++
      ((List.range 17).map fun i => mkSlot [1, 15 + i] (.bytes [])))).makeHint

/-- The slot range `splitNode` copies into the left sibling: `[0, slot+1)`
for a leaf, `[0, slot)` for an inner node (the separator moves up). -/
def splitRangeL (n : BTreeNode) : List FatSlot :=
  if n.isLeaf then n.slots.take (n.findSeparator.slot + 1)
  else n.slots.take n.findSeparator.slot

/-- The slot range `splitNode` copies into the right sibling:
`[slot+1, count)` for both variants. -/
def splitRangeR (n : BTreeNode) : List FatSlot :=
  n.slots.drop (n.findSeparator.slot + 1)

/-- Concrete leaf `[] < keys ≤ [5]` holding `[1] ↦ [7]`. -/
def leafA : BTreeNode :=
  .mk .basicLeaf none [] [5] 3 4093 0 (List.replicate hintCount 0)
    [mkSlot [1] (.bytes [7])]

/-- Concrete leaf `[5] < keys` holding `[9] ↦ [3]`. -/
def leafB : BTreeNode :=
  .mk .basicLeaf none [5] [] 3 4093 0 (List.replicate hintCount 0)
    [mkSlot [9] (.bytes [3])]

/-- Concrete inner node routing `≤ [5]` to `leafA` and the rest to `leafB`. -/
def innerEx : BTreeNode :=
  .mk .basicInner (some leafB) [] [] 9 4087 0 (List.replicate hintCount 0)
    [mkSlot [5] (.child leafA)]

/-- The merged leaf produced by `mergeRight leafA … leafB`. -/
def mergedEx : BTreeNode :=
  (mergeRight leafA [5] 0 leafB).getD emptyTree

/-- Concrete unbounded two-entry leaf `[1] ↦ [7]`, `[2] ↦ [9]`. -/
def leafC : BTreeNode :=
  .mk .basicLeaf none [] [] 4 4092 0 (List.replicate hintCount 0)
    [mkSlot [1] (.bytes [7]), mkSlot [2] (.bytes [9])]

/-- The `(nodeLeft, nodeRight, parent, ipos)` produced by splitting `leafC`
under a fresh root parent. -/
def splitC : BTreeNode × BTreeNode × BTreeNode × Nat :=
  match leafC.splitNode (makeInner leafC) with
  | .ok (some x) => x
  | _ => (emptyTree, emptyTree, emptyTree, 0)

/-- Big-endian base-256 value of the first `d` bytes (zero-padded); proof
device for the order-preservation of `headOf`. -/
def val256 : Nat → List Nat → Nat
  | 0, _ => 0
  | _ + 1, [] => 0
  | d + 1, x :: xs => x * 256 ^ d + val256 d xs

/-- Invariant 1 of §3 as a `Pairwise` statement: truncated keys strictly
increasing. -/
def sortedNode (n : BTreeNode) : Prop :=
  n.slots.Pairwise fun a b => blt a.key b.key

/-- Invariant 6 of §3: every slot's `head` is the digest of its truncated
key. -/
def headsOk (n : BTreeNode) : Prop := ∀ sl ∈ n.slots, sl.head = headOf sl.key

/-- All stored truncated keys are genuine byte strings. -/
def keysBytes (n : BTreeNode) : Prop := ∀ sl ∈ n.slots, allBytes sl.key

/-- Invariant 7 of §3: the hint array samples the slot heads at multiples of
`dist = count / (hintCount + 1)`. -/
def hintOk (n : BTreeNode) : Prop :=
  n.hint.length = hintCount ∧
  ∀ i < hintCount,
    n.hint.getD i 0 = (n.slotD (n.count / (hintCount + 1) * (i + 1))).head

/-- The page-level invariants `lowerBound` correctness rests on. -/
def wfPage (n : BTreeNode) : Prop :=
  sortedNode n ∧ headsOk n ∧ keysBytes n ∧ hintOk n

/-- Fence-interval membership (spec §3, invariant 4): the lower fence is
exclusive and the upper fence inclusive; an empty fence byte string stands
for an infinite bound. -/
def cover (lf uf key : List Nat) : Prop :=
  (lf = [] ∨ blt lf key) ∧ (uf = [] ∨ ble key uf)

/-- Strict fence-interval membership: as `cover`, but strictly below the
upper fence — the regime of the separator keys stored in inner nodes. -/
def coverS (lf uf key : List Nat) : Prop :=
  (lf = [] ∨ blt lf key) ∧ (uf = [] ∨ blt key uf)

instance (lf uf key : List Nat) : Decidable (cover lf uf key) := by
  unfold cover; infer_instance

instance (lf uf key : List Nat) : Decidable (coverS lf uf key) := by
  unfold coverS; infer_instance

/-- Invariant 8 of §3: the stored `prefixLength` is the length of the
fences' common prefix (what `setFences` computes). -/
def fencesOk (n : BTreeNode) : Prop :=
  n.prefixLength = commonPrefixLen n.lowerFence n.upperFence

/-- Both fences are genuine byte strings. -/
def fenceBytes (n : BTreeNode) : Prop :=
  allBytes n.lowerFence ∧ allBytes n.upperFence

/-- The lower fence expected of the `i`-th child of an inner node: the
node's own lower fence for the leftmost child, otherwise the full separator
key to the child's left. -/
def childLF (n : BTreeNode) (i : Nat) : List Nat :=
  if i = 0 then n.lowerFence else n.fullKey (n.slotD (i - 1))

/-- Tree-level well-formedness (§3): every page satisfies the page
invariants, fences and prefix agree, leaves hold byte payloads inside their
fence interval, and inner nodes hold strictly fenced separators whose child
pointers exist and carry exactly the adjacent separators as fences. -/
inductive WfT : BTreeNode → Prop where
  | leaf (n : BTreeNode) :
      n.tag = .basicLeaf →
      wfPage n → fencesOk n → fenceBytes n →
      (∀ sl ∈ n.slots, cover n.lowerFence n.upperFence (n.fullKey sl)) →
      (∀ sl ∈ n.slots, ∃ v, sl.payload = .bytes v) →
      WfT n
  | inner (n u : BTreeNode) :
      n.tag = .basicInner →
      wfPage n → fencesOk n → fenceBytes n →
      (∀ sl ∈ n.slots, coverS n.lowerFence n.upperFence (n.fullKey sl)) →
      (∀ sl ∈ n.slots, n.fullKey sl ≠ []) →
      n.upper = some u →
      (∀ i, i < n.count → (n.getChild i).isSome = true) →
      (∀ i c, i < n.count → n.getChild i = some c → WfT c) →
      (∀ i c, i < n.count → n.getChild i = some c →
        c.lowerFence = childLF n i ∧
        c.upperFence = n.fullKey (n.slotD i)) →
      WfT u →
      u.lowerFence = childLF n n.count →
      u.upperFence = n.upperFence →
      WfT n

mutual

/-- The full keys stored in the leaves of a subtree (the set a lookup can
hit); separator keys of inner nodes are not listed. -/
def treeKeys : BTreeNode → List (List Nat)
  | .mk t u lf _ _ _ pl _ s =>
    match t with
    | .basicLeaf => s.map fun sl => lf.take pl ++ sl.key
    | .basicInner => treeKeysSlots s ++ treeKeysOpt u

def treeKeysSlots : List FatSlot → List (List Nat)
  | [] => []
  | .mk _ p _ :: rest => treeKeysPayload p ++ treeKeysSlots rest

def treeKeysPayload : Payload → List (List Nat)
  | .bytes _ => []
  | .child c => treeKeys c

def treeKeysOpt : Option BTreeNode → List (List Nat)
  | none => []
  | some c => treeKeys c

end

/-- The chain structure of a successful descent: each path entry is an inner
node with the `lowerBound` routing position taken at it, each child link is
the `getChild` read, and the chain ends at the returned leaf. -/
inductive PathOk (key : List Nat) : BTreeNode → List (BTreeNode × Nat) →
    BTreeNode → Prop where
  | nil (leaf : BTreeNode) :
      leaf.isInner = false → PathOk key leaf [] leaf
  | cons (n c leaf : BTreeNode) (pos : Nat) (found : Bool)
      (rest : List (BTreeNode × Nat)) :
      n.isInner = true →
      n.lowerBound key = .ok (pos, found) →
      n.getChild pos = some c →
      PathOk key c rest leaf →
      PathOk key n ((n, pos) :: rest) leaf

/-- The leaf produced by inserting `[1] ↦ [7]` into the empty tree (the
slot shift, `storeKeyValue` and `updateHint` of `BasicNode::insert`). -/
def insertedC1 : BTreeNode :=
  (emptyTree.insertKV 0 [1] (.bytes [7])).updateHint 0

/-- Per-page size bounds as the driver's `maxKVSize` check maintains them:
fences (which are separators, i.e. full keys of stored entries) and
reconstructed entries stay within `maxKVSize` (plus a child reference for
inner separators). -/
def pageSized (n : BTreeNode) : Prop :=
  n.lowerFence.length ≤ maxKVSize ∧ n.upperFence.length ≤ maxKVSize ∧
  ∀ sl ∈ n.slots,
    n.prefixLength + sl.key.length ≤ maxKVSize ∧
    n.prefixLength + sl.key.length + sl.payload.len ≤ maxKVSize + childRefSize

instance (n : BTreeNode) : Decidable (pageSized n) := by
  unfold pageSized
  infer_instance

/-- The heap-byte accounting maintained by the page operations:
`spaceUsed` is the fence bytes plus the live entry bytes. -/
def spaceAcc (n : BTreeNode) : Prop :=
  n.spaceUsed = n.lowerFence.length + n.upperFence.length
    + (n.slots.map fun sl => sl.key.length + sl.payload.len).sum

instance (n : BTreeNode) : Decidable (spaceAcc n) := by
  unfold spaceAcc
  infer_instance

mutual

/-- `pageSized` and `spaceAcc` at every node of a subtree. -/
def treeSized : BTreeNode → Prop
  | .mk t u lf uf su d pl h s =>
    (pageSized (.mk t u lf uf su d pl h s) ∧
      spaceAcc (.mk t u lf uf su d pl h s)) ∧
    treeSizedSlots s ∧ treeSizedOpt u

def treeSizedSlots : List FatSlot → Prop
  | [] => True
  | .mk _ p _ :: rest => treeSizedPayload p ∧ treeSizedSlots rest

def treeSizedPayload : Payload → Prop
  | .bytes _ => True
  | .child c => treeSized c

def treeSizedOpt : Option BTreeNode → Prop
  | none => True
  | some c => treeSized c

end

/-- The node a depth parameter of `BTree::ensureSpace`/`BTree::splitNode`
addresses on a descent path: entry `d` of the path, or the leaf once `d`
reaches the path length. -/
def nodeAtDepth (path : List (BTreeNode × Nat)) (leaf : BTreeNode)
    (d : Nat) : BTreeNode :=
  if d < path.length then (path.getD d (leaf, 0)).1 else leaf

/-! ## Theorems -/

section OrderLemmas

theorem bcmp_self (a : List Nat) : bcmp a a = .eq := by
  induction a with
  | nil => rfl
  | cons x xs ih => simp [bcmp, ih]

theorem bcmp_eq_iff (a b : List Nat) : bcmp a b = .eq ↔ a = b := by
  induction a generalizing b with
  | nil => cases b <;> simp [bcmp]
  | cons x xs ih =>
    cases b with
    | nil => simp [bcmp]
    | cons y ys =>
      by_cases hxy : x < y
      · simp [bcmp, hxy]
        intro h; omega
      · by_cases hyx : y < x
        · simp [bcmp, hxy, hyx]
          intro h; omega
        · have hxy2 : x = y := by omega
          simp [bcmp, hxy, hyx, hxy2, ih]

theorem bcmp_swap (a b : List Nat) : bcmp b a = (bcmp a b).swap := by
  induction a generalizing b with
  | nil => cases b <;> simp [bcmp, Ordering.swap]
  | cons x xs ih =>
    cases b with
    | nil => simp [bcmp, Ordering.swap]
    | cons y ys =>
      by_cases hxy : x < y
      · have : ¬ y < x := by omega
        simp [bcmp, hxy, this, Ordering.swap]
      · by_cases hyx : y < x
        · simp [bcmp, hxy, hyx, Ordering.swap]
        · simp [bcmp, hxy, hyx, ih]

theorem blt_trans {a b c : List Nat} (h1 : blt a b) (h2 : blt b c) :
    blt a c := by
  unfold blt at *
  induction a generalizing b c with
  | nil =>
    cases c with
    | nil =>
      cases b with
      | nil => exact absurd h1 (by simp [bcmp])
      | cons y ys => exact absurd h2 (by simp [bcmp])
    | cons z zs => simp [bcmp]
  | cons x xs ih =>
    cases b with
    | nil => exact absurd h1 (by simp [bcmp])
    | cons y ys =>
      cases c with
      | nil => exact absurd h2 (by simp [bcmp])
      | cons z zs =>
        simp only [bcmp] at h1 h2 ⊢
        by_cases hxy : x < y
        · by_cases hyz : y < z
          · have hxz : x < z := by omega
            simp [hxz]
          · by_cases hzy : z < y
            · simp [hxy, hyz, hzy] at h2
            · have hyz2 : y = z := by omega
              subst hyz2
              simp [hxy]
        · by_cases hyx : y < x
          · simp [hxy, hyx] at h1
          · have hxy2 : x = y := by omega
            subst hxy2
            rw [if_neg hxy, if_neg hyx] at h1
            by_cases hyz : x < z
            · simp [hyz]
            · by_cases hzy : z < x
              · rw [if_neg hyz, if_pos hzy] at h2
                cases h2
              · have : x = z := by omega
                subst this
                rw [if_neg hyz, if_neg hzy] at h2 ⊢
                exact ih h1 h2

theorem blt_irrefl (a : List Nat) : ¬ blt a a := by
  unfold blt; rw [bcmp_self]; simp

theorem blt_asymm {a b : List Nat} (h : blt a b) : ¬ blt b a := by
  intro h2
  exact blt_irrefl a (blt_trans h h2)

theorem blt_or_eq_or_gt (a b : List Nat) :
    blt a b ∨ a = b ∨ blt b a := by
  unfold blt
  rcases h : bcmp a b with _ | _ | _
  · left; rfl
  · right; left; exact (bcmp_eq_iff a b).mp h
  · right; right
    rw [bcmp_swap, h]; rfl

theorem blt_append {p a b : List Nat} :
    blt (p ++ a) (p ++ b) ↔ blt a b := by
  unfold blt
  induction p with
  | nil => simp
  | cons x xs ih => simpa [bcmp] using ih

end OrderLemmas

mutual
theorem destroyFreed_eq_zero (t : BTreeNode) : destroyFreed t = 0 := by
  cases t with
  | mk tag u lf uf su d pl h s =>
    cases tag with
    | basicLeaf => simp [destroyFreed]
    | basicInner =>
      simp [destroyFreed, destroyFreedSlots_eq_zero s, destroyFreedOpt_eq_zero u]

theorem destroyFreedSlots_eq_zero (s : List FatSlot) : destroyFreedSlots s = 0 := by
  cases s with
  | nil => simp [destroyFreedSlots]
  | cons sl rest =>
    cases sl with
    | mk k p hd =>
      simp [destroyFreedSlots, destroyFreedPayload_eq_zero p,
        destroyFreedSlots_eq_zero rest]

theorem destroyFreedPayload_eq_zero (p : Payload) : destroyFreedPayload p = 0 := by
  cases p with
  | bytes v => simp [destroyFreedPayload]
  | child t => simp [destroyFreedPayload, destroyFreed_eq_zero t]

theorem destroyFreedOpt_eq_zero (o : Option BTreeNode) : destroyFreedOpt o = 0 := by
  cases o with
  | none => simp [destroyFreedOpt]
  | some t => simp [destroyFreedOpt, destroyFreed_eq_zero t]
end

theorem one_le_pageCount (t : BTreeNode) : 1 ≤ pageCount t := by
  cases t with
  | mk tag u lf uf su d pl h s =>
    simp only [pageCount]
    omega

/-- C9: the claim states that `destroy` recursively destroys all children of
an inner node and then frees the node's own page, so that after destroying
the root every allocated page has been freed.  The code refutes it: in
`BTreeNode::destroy` the `BasicInner` case falls through into
`case BasicLeaf: return;`, so control returns from the `switch` before
`delete this` on every path and no page is ever freed, while at least one
page is always allocated. -/
theorem c9_destroy_frees_no_page (t : BTreeNode) :
    destroyFreed t = 0 ∧ 1 ≤ pageCount t :=
  ⟨destroyFreed_eq_zero t, one_le_pageCount t⟩

/-- C4: the claim states that inserting an already-present key `k` with a
payload of the stored payload's length overwrites in place, leaving exactly
one slot holding `k` and the count unchanged.  Evaluating the code at the
failing input — insert `[1] ↦ [7]` into the empty tree, then insert
`[1] ↦ [8]` — shows the leaf ends with two slots, both holding key `[1]`
(`BasicNode::insert` ignores the `found` result of `lowerBound`), violating
`BasicNode::validate`'s strict-ordering assertion. -/
theorem c4_duplicate_insert_adds_second_slot :
    (do
      let t1 ← BTree.insert 2 emptyTree [1] [7]
      let t2 ← BTree.insert 2 t1 [1] [8]
      pure (t2.count, (t2.slotD 0).key, (t2.slotD 1).key))
      = Except.ok (2, [1], [1]) := by
  rfl

/-- C1 (counterexample): the claim states that for any tree, after
`insert(k, v)` a `lookup(k)` returns exactly `v`.  On a tree already
containing `k = [1]` with payload `[7]`, inserting `[1] ↦ [8]`
(`keyLen + payloadLen = 2 ≤ pageSize/4`) leaves a duplicate slot pair and
the subsequent lookup's binary search lands on the stale slot: it returns
`[7]`, not the inserted `[8]`. -/
theorem c1_insert_lookup_counterexample :
    (do
      let t1 ← BTree.insert 2 emptyTree [1] [7]
      let t2 ← BTree.insert 2 t1 [1] [8]
      BTree.lookup 2 t2 [1])
      = Except.ok (some [7]) ∧ ([7] : List Nat) ≠ [8] := by
  exact ⟨by rfl, by decide⟩

/-- C2 (counterexample): the claim states that after every public mutating
operation every node satisfies the ordering invariant (truncated keys
strictly increasing).  After the public operations insert `[1] ↦ [7]` and
insert `[1] ↦ [8]` on the empty tree, the root leaf holds two slots with
equal truncated keys, so the invariant fails. -/
theorem c2_ordering_invariant_counterexample :
    (do
        let t1 ← BTree.insert 2 emptyTree [1] [7]
        BTree.insert 2 t1 [1] [8] : Except Err BTreeNode)
      = Except.ok (BTreeNode.mk .basicLeaf none [] [] 4 4092 0
        (List.replicate 16 (headOf [1]))
        [mkSlot [1] (.bytes [8]), mkSlot [1] (.bytes [7])]) ∧
    ¬ ordInv (BTreeNode.mk .basicLeaf none [] [] 4 4092 0
        (List.replicate 16 (headOf [1]))
        [mkSlot [1] (.bytes [8]), mkSlot [1] (.bytes [7])]) := by
  refine ⟨rfl, ?_⟩
  intro hord
  have := hord 0 (by decide)
  exact absurd this (by decide)

/-- C10 (counterexample): the claim states that whenever a removal succeeds
and the leaf is underfull — so the merge-check step executes — the parent
produced by the descent is non-null.  On the tree holding only `[1] ↦ [7]`
(whose root is a leaf) removing `[1]` succeeds, the leaf is underfull, the
merge-check step executes, and the descent's parent is null (`none`). -/
theorem c10_null_parent_counterexample :
    (do
      let t1 ← BTree.insert 2 emptyTree [1] [7]
      BTree.removeMergeStep 2 t1 [1]) = Except.ok (some none) := by
  rfl

/-- C10 (amended): when the root is a leaf the parent produced by the descent
is null, yet `BTree::remove` of a present key still completes and returns
`true`: the merge-check call goes to the `BTreeNode::mergeChildrenCheck`
dispatcher, a stub returning `false` without accessing its object, so the
`continueMerge` loop never iterates and the null parent is never read. -/
theorem c10_root_leaf_remove_returns_true (root leaf2 : BTreeNode) (key : List Nat)
    (fuel : Nat) (hleaf : root.isInner = false)
    (hrem : root.remove key = .ok (true, leaf2)) :
    BTree.remove (fuel + 1) root key = .ok (true, leaf2) ∧
    BTree.removeMergeStep (fuel + 1) root key
      = .ok (if leaf2.isUnderfull then some none else none) := by
  constructor
  · unfold BTree.remove descendPath
    simp [hleaf, hrem, rebuild, mergeChildrenCheckDispatch]
  · unfold BTree.removeMergeStep descendPath
    simp [hleaf, hrem]
    split <;> simp

/-- Witness for `c10_root_leaf_remove_returns_true` at the single-entry root
leaf holding `[1] ↦ [7]`. -/
theorem c10_root_leaf_remove_returns_true_witness :
    BTree.remove 1 (BTreeNode.mk .basicLeaf none [] [] 2 4094 0
        (List.replicate 16 (headOf [1])) [mkSlot [1] (.bytes [7])]) [1]
      = .ok (true, (BTreeNode.mk .basicLeaf none [] [] 2 4094 0
        (List.replicate 16 (headOf [1])) [mkSlot [1] (.bytes [7])]).removeSlot 0) := by
  exact (c10_root_leaf_remove_returns_true _ _ [1] 0 (by decide) (by rfl)).1

/-! ### findSeparator scan characterisation (C7) -/

theorem sepGo_le {n : BTreeNode} {best upper : Nat} (fuel i : Nat) :
    i ≤ n.sepGo best upper fuel i := by
  induction fuel generalizing i with
  | zero => simp [BTreeNode.sepGo]
  | succ fuel ih =>
    simp only [BTreeNode.sepGo]
    split
    · exact le_trans (Nat.le_succ i) (ih (i + 1))
    · exact le_refl i

theorem sepGo_le_upper {n : BTreeNode} {best upper : Nat} (fuel i : Nat)
    (hfuel : upper ≤ i + fuel) (hi : i ≤ upper) :
    n.sepGo best upper fuel i ≤ upper := by
  induction fuel generalizing i with
  | zero =>
    simp only [BTreeNode.sepGo]
    exact hi
  | succ fuel ih =>
    simp only [BTreeNode.sepGo]
    split
    · rename_i h
      exact ih (i + 1) (by omega) (by omega)
    · exact hi

theorem sepGo_stable {n : BTreeNode} {best upper : Nat} (fuel i : Nat) :
    ∀ j, i ≤ j → j < n.sepGo best upper fuel i → n.commonPrefix j 0 = best := by
  induction fuel generalizing i with
  | zero =>
    intro j hij hlt
    simp [BTreeNode.sepGo] at hlt
    omega
  | succ fuel ih =>
    intro j hij hlt
    simp only [BTreeNode.sepGo] at hlt
    by_cases hc : i < upper ∧ n.commonPrefix i 0 = best
    · rw [if_pos hc] at hlt
      rcases Nat.eq_or_lt_of_le hij with h | h
      · subst h; exact hc.2
      · exact ih (i + 1) j h hlt
    · rw [if_neg hc] at hlt
      omega

theorem sepGo_breaks {n : BTreeNode} {best upper : Nat} (fuel i : Nat)
    (hfuel : upper ≤ i + fuel) :
    n.sepGo best upper fuel i < upper →
    n.commonPrefix (n.sepGo best upper fuel i) 0 ≠ best := by
  induction fuel generalizing i with
  | zero =>
    intro hlt
    simp [BTreeNode.sepGo] at hlt ⊢
    omega
  | succ fuel ih =>
    intro hlt
    simp only [BTreeNode.sepGo] at hlt ⊢
    by_cases hc : i < upper ∧ n.commonPrefix i 0 = best
    · rw [if_pos hc] at hlt ⊢
      exact ih (i + 1) (by omega) hlt
    · rw [if_neg hc] at hlt ⊢
      intro hbest
      exact hc ⟨hlt, hbest⟩

/-- `findSeparator` on a leaf returns the computed `bestSlot` in its `slot`
field regardless of the truncation decision. -/
theorem findSeparator_slot_leaf (n : BTreeNode) (hleaf : n.isLeaf = true)
    (hc : 16 < n.count) :
    n.findSeparator.slot =
      (if n.commonPrefix (n.count / 2 - n.count / 16) 0
          = n.commonPrefix (n.count / 2 - 1) 0
       then n.count / 2 - n.count / 16
       else n.sepScan (n.commonPrefix (n.count / 2 - n.count / 16) 0) (n.count / 2)
         (n.count / 2 - n.count / 16 + 1)) := by
  have hinner : n.isInner = false := by
    simp [BTreeNode.isInner, hleaf]
  unfold BTreeNode.findSeparator
  rw [hinner]
  simp only [Bool.false_eq_true, if_false, if_pos hc]
  split
  · split <;> rfl
  · split <;> rfl

/-- C7 (counterexample): the claim states that for a leaf with `count > 16`,
`findSeparator` returns the lowest slot in `[count/2 - count/16, count/2)`
whose `commonPrefix(·, 0)` attains the window maximum.  On `node32`
(`count = 32`, window `[14, 16)`) the maximum is `commonPrefix(14,0) = 1`,
attained at 14, but the code returns slot 15 with `commonPrefix(15,0) = 0`:
the scan stops at the first slot whose common prefix differs, not at the
argmax. -/
theorem c7_findSeparator_not_argmax :
    node32.isLeaf = true ∧ 16 < node32.count ∧
    node32.findSeparator.slot = 15 ∧
    node32.count / 2 - node32.count / 16 = 14 ∧ 15 < node32.count / 2 ∧
    node32.commonPrefix 15 0 < node32.commonPrefix 14 0 := by
  decide

/-- C7 (amended): for every leaf with `count > 16`, `findSeparator` returns a
slot in the window `[count/2 - count/16, count/2)`; it returns the window's
lower end when `commonPrefix(lower, 0) = commonPrefix(count/2 - 1, 0)`, and
otherwise the lowest index in the window at which `commonPrefix(·, 0)`
differs from `commonPrefix(lower, 0)` (the first break point of the common
prefix, not the argmax). -/
theorem c7_findSeparator_first_break (n : BTreeNode) (hleaf : n.isLeaf = true)
    (hc : 16 < n.count) :
    n.count / 2 - n.count / 16 ≤ n.findSeparator.slot ∧
    n.findSeparator.slot < n.count / 2 ∧
    (n.commonPrefix (n.count / 2 - n.count / 16) 0
        = n.commonPrefix (n.count / 2 - 1) 0 →
      n.findSeparator.slot = n.count / 2 - n.count / 16) ∧
    (n.commonPrefix (n.count / 2 - n.count / 16) 0
        ≠ n.commonPrefix (n.count / 2 - 1) 0 →
      n.commonPrefix n.findSeparator.slot 0
          ≠ n.commonPrefix (n.count / 2 - n.count / 16) 0 ∧
      ∀ j, n.count / 2 - n.count / 16 ≤ j → j < n.findSeparator.slot →
        n.commonPrefix j 0 = n.commonPrefix (n.count / 2 - n.count / 16) 0) := by
  have hslot := findSeparator_slot_leaf n hleaf hc
  set lower := n.count / 2 - n.count / 16 with hlowdef
  set upper := n.count / 2 with hupdef
  have hlu : lower < upper := by
    have h16 : 1 ≤ n.count / 16 := Nat.one_le_div_iff (by norm_num) |>.mpr (by omega)
    have h216 : n.count / 16 ≤ n.count / 2 :=
      Nat.div_le_div_left (by norm_num) (by norm_num)
    have h2 : 8 ≤ n.count / 2 := by omega
    omega
  by_cases heq : n.commonPrefix lower 0 = n.commonPrefix (upper - 1) 0
  · rw [hslot, if_pos heq]
    refine ⟨le_refl _, hlu, fun _ => rfl, fun hne => absurd heq hne⟩
  · rw [hslot, if_neg heq]
    have hne2 : lower + 1 ≤ upper := by omega
    unfold BTreeNode.sepScan
    have h1 : lower + 1 ≤ n.sepGo (n.commonPrefix lower 0) upper
        (upper - (lower + 1)) (lower + 1) := sepGo_le _ _
    have h2 : n.sepGo (n.commonPrefix lower 0) upper (upper - (lower + 1))
        (lower + 1) ≤ upper := sepGo_le_upper _ _ (by omega) hne2
    have hupne : lower < upper - 1 := by
      rcases Nat.lt_or_ge lower (upper - 1) with h | h
      · exact h
      · exfalso
        have : upper - 1 = lower := by omega
        rw [this] at heq
        exact heq rfl
    have h3 : n.sepGo (n.commonPrefix lower 0) upper (upper - (lower + 1))
        (lower + 1) < upper := by
      rcases Nat.lt_or_ge (n.sepGo (n.commonPrefix lower 0) upper
        (upper - (lower + 1)) (lower + 1)) upper with h | h
      · exact h
      · exfalso
        have hequp : n.sepGo (n.commonPrefix lower 0) upper
            (upper - (lower + 1)) (lower + 1) = upper := by omega
        have := @sepGo_stable n (n.commonPrefix lower 0)
          upper (upper - (lower + 1)) (lower + 1) (upper - 1)
          (by omega) (by omega)
        exact heq this.symm
    refine ⟨by omega, h3, fun habs => absurd habs heq, fun _ => ?_⟩
    constructor
    · exact sepGo_breaks _ _ (by omega) h3
    · intro j hj1 hj2
      rcases Nat.eq_or_lt_of_le hj1 with h | h
      · rw [← h]
      · exact sepGo_stable _ _ j h hj2

/-- Witness for `c7_findSeparator_first_break` at `node32`. -/
theorem c7_findSeparator_first_break_witness :
    node32.findSeparator.slot < node32.count / 2 :=
  (c7_findSeparator_first_break node32 (by decide) (by decide)).2.1

/-! ### Accessor lemmas -/

@[simp] theorem BTreeNode.tag_mk {t u lf uf su d pl h s} :
    (BTreeNode.mk t u lf uf su d pl h s).tag = t := rfl

@[simp] theorem BTreeNode.upper_mk {t u lf uf su d pl h s} :
    (BTreeNode.mk t u lf uf su d pl h s).upper = u := rfl

@[simp] theorem BTreeNode.lowerFence_mk {t u lf uf su d pl h s} :
    (BTreeNode.mk t u lf uf su d pl h s).lowerFence = lf := rfl

@[simp] theorem BTreeNode.upperFence_mk {t u lf uf su d pl h s} :
    (BTreeNode.mk t u lf uf su d pl h s).upperFence = uf := rfl

@[simp] theorem BTreeNode.spaceUsed_mk {t u lf uf su d pl h s} :
    (BTreeNode.mk t u lf uf su d pl h s).spaceUsed = su := rfl

@[simp] theorem BTreeNode.dataOffset_mk {t u lf uf su d pl h s} :
    (BTreeNode.mk t u lf uf su d pl h s).dataOffset = d := rfl

@[simp] theorem BTreeNode.prefixLength_mk {t u lf uf su d pl h s} :
    (BTreeNode.mk t u lf uf su d pl h s).prefixLength = pl := rfl

@[simp] theorem BTreeNode.hint_mk {t u lf uf su d pl h s} :
    (BTreeNode.mk t u lf uf su d pl h s).hint = h := rfl

@[simp] theorem BTreeNode.slots_mk {t u lf uf su d pl h s} :
    (BTreeNode.mk t u lf uf su d pl h s).slots = s := rfl

@[simp] theorem FatSlot.key_mk {k p h} : (FatSlot.mk k p h).key = k := rfl

@[simp] theorem FatSlot.payload_mk {k p h} : (FatSlot.mk k p h).payload = p := rfl

@[simp] theorem FatSlot.head_mk {k p h} : (FatSlot.mk k p h).head = h := rfl

@[simp] theorem mkSlot_key {k p} : (mkSlot k p).key = k := rfl

@[simp] theorem mkSlot_payload {k p} : (mkSlot k p).payload = p := rfl

@[simp] theorem BTreeNode.slots_makeHint (n : BTreeNode) : n.makeHint.slots = n.slots := rfl

@[simp] theorem BTreeNode.upper_makeHint (n : BTreeNode) : n.makeHint.upper = n.upper := rfl

@[simp] theorem BTreeNode.tag_makeHint (n : BTreeNode) : n.makeHint.tag = n.tag := rfl

@[simp] theorem BTreeNode.prefixLength_makeHint (n : BTreeNode) :
    n.makeHint.prefixLength = n.prefixLength := rfl

@[simp] theorem BTreeNode.lowerFence_makeHint (n : BTreeNode) :
    n.makeHint.lowerFence = n.lowerFence := rfl

@[simp] theorem BTreeNode.upperFence_makeHint (n : BTreeNode) :
    n.makeHint.upperFence = n.upperFence := rfl

@[simp] theorem BTreeNode.slots_removeSlot (n : BTreeNode) (i : Nat) :
    (n.removeSlot i).slots = n.slots.eraseIdx i := rfl

@[simp] theorem BTreeNode.upper_removeSlot (n : BTreeNode) (i : Nat) :
    (n.removeSlot i).upper = n.upper := rfl

theorem BTreeNode.slotD_eq_getD (n : BTreeNode) (i : Nat) :
    n.slotD i = (n.slots[i]?).getD defaultSlot := by
  simp [BTreeNode.slotD, List.getD_eq_getElem?_getD]

theorem BTreeNode.setChild_eq_of_lt (n : BTreeNode) {i : Nat} (c : BTreeNode)
    (h : i ≠ n.count) :
    n.setChild i c = n.setSlots (n.slots.set i
      (.mk (n.slotD i).key (.child c) (n.slotD i).head)) := by
  simp [BTreeNode.setChild, h]

theorem BTreeNode.setChild_eq_of_eq (n : BTreeNode) {i : Nat} (c : BTreeNode)
    (h : i = n.count) : n.setChild i c = n.setUpper (some c) := by
  simp [BTreeNode.setChild, h]

@[simp] theorem BTreeNode.tag_setSlots (n : BTreeNode) (s : List FatSlot) :
    (n.setSlots s).tag = n.tag := by
  cases n
  rfl

@[simp] theorem BTreeNode.slots_setSlots (n : BTreeNode) (s : List FatSlot) :
    (n.setSlots s).slots = s := rfl

@[simp] theorem BTreeNode.upper_setSlots (n : BTreeNode) (s : List FatSlot) :
    (n.setSlots s).upper = n.upper := rfl

@[simp] theorem BTreeNode.slots_setUpper (n : BTreeNode) (u : Option BTreeNode) :
    (n.setUpper u).slots = n.slots := rfl

@[simp] theorem BTreeNode.upper_setUpper (n : BTreeNode) (u : Option BTreeNode) :
    (n.setUpper u).upper = u := rfl

theorem getD_eraseIdx_lt {α : Type} {l : List α} {i j : Nat} (h : j < i) (d : α) :
    (l.eraseIdx i).getD j d = l.getD j d := by
  simp [List.getD_eq_getElem?_getD, List.getElem?_eraseIdx, h]

theorem getD_eraseIdx_ge {α : Type} {l : List α} {i j : Nat} (h : i ≤ j) (d : α) :
    (l.eraseIdx i).getD j d = l.getD (j + 1) d := by
  simp [List.getD_eq_getElem?_getD, List.getElem?_eraseIdx, Nat.not_lt.mpr h]

theorem getD_set_ne {α : Type} {l : List α} {i j : Nat} (h : i ≠ j) (a d : α) :
    (l.set i a).getD j d = l.getD j d := by
  simp [List.getD_eq_getElem?_getD, List.getElem?_set, h]

theorem getD_set_self {α : Type} {l : List α} {i : Nat} (h : i < l.length) (a d : α) :
    (l.set i a).getD i d = a := by
  simp [List.getD_eq_getElem?_getD, List.getElem?_set, h]

/-! ### C8: mergeChildrenCheck -/

/-- Structure of the node left behind by a successful merge step: `setChild`
at `pos1 + 1` followed by `removeSlot pos1`. -/
theorem setChild_removeSlot_spec (n merged : BTreeNode) (pos1 : Nat)
    (hpos1 : pos1 < n.count) :
    ((n.setChild (pos1 + 1) merged).removeSlot pos1).count = n.count - 1 ∧
    (∀ i, i < pos1 →
      (((n.setChild (pos1 + 1) merged).removeSlot pos1).slotD i).key
          = (n.slotD i).key ∧
      ((n.setChild (pos1 + 1) merged).removeSlot pos1).getChild i
          = n.getChild i) ∧
    ((n.setChild (pos1 + 1) merged).removeSlot pos1).getChild pos1
        = some merged ∧
    (∀ i, pos1 < i → i ≤ n.count - 1 →
      ((n.setChild (pos1 + 1) merged).removeSlot pos1).getChild i
          = n.getChild (i + 1)) ∧
    (∀ i, pos1 < i → i + 1 < n.count →
      (((n.setChild (pos1 + 1) merged).removeSlot pos1).slotD i).key
          = (n.slotD (i + 1)).key) := by
  have hlen : n.slots.length = n.count := rfl
  rcases Nat.lt_or_ge (pos1 + 1) n.count with hcase | hcase
  · -- the right child sits in slot pos1 + 1
    have hset := BTreeNode.setChild_eq_of_lt n merged (i := pos1 + 1) (by omega)
    have hslots : ((n.setChild (pos1 + 1) merged).removeSlot pos1).slots
        = (n.slots.set (pos1 + 1) (FatSlot.mk (n.slotD (pos1 + 1)).key
            (Payload.child merged) (n.slotD (pos1 + 1)).head)).eraseIdx pos1 := by
      rw [hset]; rfl
    have hup : ((n.setChild (pos1 + 1) merged).removeSlot pos1).upper = n.upper := by
      rw [hset]; rfl
    have hcnt : ((n.setChild (pos1 + 1) merged).removeSlot pos1).count
        = n.count - 1 := by
      rw [BTreeNode.count, hslots, List.length_eraseIdx_of_lt (by
        rw [List.length_set]; omega), List.length_set, hlen]
    refine ⟨hcnt, ?_, ?_, ?_, ?_⟩
    · intro i hi
      have hkey : ((n.setChild (pos1 + 1) merged).removeSlot pos1).slotD i
          = n.slotD i := by
        rw [BTreeNode.slotD, BTreeNode.slotD, hslots,
          getD_eraseIdx_lt (by omega), getD_set_ne (by omega)]
      refine ⟨by rw [hkey], ?_⟩
      unfold BTreeNode.getChild
      rw [hcnt, hkey, if_neg (by omega), if_neg (by omega)]
    · unfold BTreeNode.getChild
      rw [hcnt, if_neg (by omega), BTreeNode.slotD, hslots,
        getD_eraseIdx_ge (le_refl pos1),
        getD_set_self (by omega)]
      rfl
    · intro i hi1 hi2
      unfold BTreeNode.getChild
      rw [hcnt]
      by_cases hie : i = n.count - 1
      · rw [if_pos (by omega), if_pos (by omega), hup]
      · have hslot : ((n.setChild (pos1 + 1) merged).removeSlot pos1).slotD i
            = n.slotD (i + 1) := by
          rw [BTreeNode.slotD, BTreeNode.slotD, hslots,
            getD_eraseIdx_ge (by omega), getD_set_ne (by omega)]
        rw [if_neg (by omega), if_neg (by omega), hslot]
    · intro i hi1 hi2
      rw [BTreeNode.slotD, BTreeNode.slotD, hslots,
        getD_eraseIdx_ge (by omega), getD_set_ne (by omega)]
  · -- the right child is `upper`
    have hc : pos1 + 1 = n.count := by omega
    have hset := BTreeNode.setChild_eq_of_eq n merged (i := pos1 + 1) hc
    have hslots : ((n.setChild (pos1 + 1) merged).removeSlot pos1).slots
        = n.slots.eraseIdx pos1 := by
      rw [hset]; rfl
    have hup : ((n.setChild (pos1 + 1) merged).removeSlot pos1).upper
        = some merged := by
      rw [hset]; rfl
    have hcnt : ((n.setChild (pos1 + 1) merged).removeSlot pos1).count
        = n.count - 1 := by
      rw [BTreeNode.count, hslots, List.length_eraseIdx_of_lt (by omega), hlen]
    refine ⟨hcnt, ?_, ?_, ?_, ?_⟩
    · intro i hi
      have hkey : ((n.setChild (pos1 + 1) merged).removeSlot pos1).slotD i
          = n.slotD i := by
        rw [BTreeNode.slotD, BTreeNode.slotD, hslots, getD_eraseIdx_lt (by omega)]
      refine ⟨by rw [hkey], ?_⟩
      unfold BTreeNode.getChild
      rw [hcnt, hkey, if_neg (by omega), if_neg (by omega)]
    · unfold BTreeNode.getChild
      rw [hcnt, if_pos (by omega), hup]
    · intro i hi1 hi2
      omega
    · intro i hi1 hi2
      omega

/-- C8: the claim states that for an inner node and `pos ≤ count`,
`mergeChildrenCheck(pos)` redirects `pos = count` to `count - 1` (returning
false on an empty node), merges child `pos` into child `pos + 1` via
`mergeRight`, and exactly when the merge succeeds frees the left child,
removes the separator slot at `pos`, and returns true — otherwise false with
no change.  Characterised here on the embedded `BasicNode::mergeChildrenCheck`:
on merge failure the result is `none` (no change); on success the result node
has one slot fewer, children and separators below `pos` untouched, the merged
node in place of the pair, and children and separators above shifted down by
one (the left child is no longer referenced). -/
theorem c8_mergeChildrenCheck_behavior (n left right : BTreeNode) (pos pos1 : Nat)
    (hpos : pos ≤ n.count)
    (hnz : ¬ (pos = n.count ∧ n.count = 0))
    (hredir : pos1 = if pos = n.count then n.count - 1 else pos)
    (hl : n.getChild pos1 = some left) (hr : n.getChild (pos1 + 1) = some right) :
    (mergeRight left (n.slotD pos1).key n.prefixLength right = none →
      n.mergeChildrenCheck pos = none) ∧
    (∀ merged, mergeRight left (n.slotD pos1).key n.prefixLength right = some merged →
      n.mergeChildrenCheck pos
          = some ((n.setChild (pos1 + 1) merged).removeSlot pos1) ∧
      ((n.setChild (pos1 + 1) merged).removeSlot pos1).count = n.count - 1 ∧
      (∀ i, i < pos1 →
        (((n.setChild (pos1 + 1) merged).removeSlot pos1).slotD i).key
            = (n.slotD i).key ∧
        ((n.setChild (pos1 + 1) merged).removeSlot pos1).getChild i
            = n.getChild i) ∧
      ((n.setChild (pos1 + 1) merged).removeSlot pos1).getChild pos1
          = some merged ∧
      (∀ i, pos1 < i → i ≤ n.count - 1 →
        ((n.setChild (pos1 + 1) merged).removeSlot pos1).getChild i
            = n.getChild (i + 1)) ∧
      (∀ i, pos1 < i → i + 1 < n.count →
        (((n.setChild (pos1 + 1) merged).removeSlot pos1).slotD i).key
            = (n.slotD (i + 1)).key)) := by
  have hpos1 : pos1 < n.count := by
    by_cases h : pos = n.count
    · rw [hredir, if_pos h]; omega
    · rw [hredir, if_neg h]; omega
  have hdef : n.mergeChildrenCheck pos =
      match mergeRight left (n.slotD pos1).key n.prefixLength right with
      | some merged => some ((n.setChild (pos1 + 1) merged).removeSlot pos1)
      | none => none := by
    unfold BTreeNode.mergeChildrenCheck
    simp only [if_neg hnz, ← hredir, hl, hr]
  constructor
  · intro hmr
    rw [hdef, hmr]
  · intro merged hmr
    rw [hdef, hmr]
    exact ⟨rfl, setChild_removeSlot_spec n merged pos1 hpos1⟩

/-- Witness for `c8_mergeChildrenCheck_behavior` at the two-leaf inner node
`innerEx` with `pos = 0`: the merge succeeds and the parent ends with the
separator slot removed and the merged leaf in place. -/
theorem c8_mergeChildrenCheck_behavior_witness :
    innerEx.mergeChildrenCheck 0
      = some ((innerEx.setChild 1 mergedEx).removeSlot 0) :=
  ((c8_mergeChildrenCheck_behavior innerEx leafA leafB 0 0 (by decide)
    (by decide) (by decide) (by rfl) (by rfl)).2 mergedEx (by rfl)).1

/-! ### C6: split slot distribution -/

theorem prefixBytes_length (n : BTreeNode) (h : n.prefixLength ≤ n.lowerFence.length) :
    n.prefixBytes.length = n.prefixLength := by
  simp [BTreeNode.prefixBytes, h]

/-- Both regimes of the copy write the same truncated key: the full source
key with the destination prefix removed. -/
theorem copiedKey_eq_fullKey_drop (src dst : BTreeNode) (sl : FatSlot)
    (hsl : src.prefixLength ≤ src.lowerFence.length) :
    copiedKey src dst sl = (src.fullKey sl).drop dst.prefixLength := by
  unfold copiedKey BTreeNode.fullKey
  split
  · rename_i h
    have hlen : src.prefixBytes.length = src.prefixLength := prefixBytes_length src hsl
    have hx : dst.prefixLength = src.prefixBytes.length + (dst.prefixLength - src.prefixLength) := by
      omega
    conv_rhs => rw [hx]
    rw [List.drop_append]
  · rfl

/-- A copied slot's full key in the destination reproduces the source's full
key, provided the source's full key carries the destination prefix. -/
theorem prefix_append_copied (src dst : BTreeNode) (sl : FatSlot)
    (hsl : src.prefixLength ≤ src.lowerFence.length)
    (hcompat : (src.fullKey sl).take dst.prefixLength = dst.prefixBytes) :
    dst.prefixBytes ++ copiedKey src dst sl = src.fullKey sl := by
  rw [copiedKey_eq_fullKey_drop src dst sl hsl, ← hcompat, List.take_append_drop]

@[simp] theorem BTreeNode.slots_copyKeyValueRange (src dst : BTreeNode)
    (srcSlot srcCount : Nat) :
    (copyKeyValueRange src dst srcSlot srcCount).slots
      = dst.slots ++ ((src.slots.drop srcSlot).take srcCount).map
          (fun sl => mkSlot (copiedKey src dst sl) sl.payload) := rfl

@[simp] theorem BTreeNode.prefixLength_copyKeyValueRange (src dst : BTreeNode)
    (srcSlot srcCount : Nat) :
    (copyKeyValueRange src dst srcSlot srcCount).prefixLength
      = dst.prefixLength := rfl

@[simp] theorem BTreeNode.lowerFence_copyKeyValueRange (src dst : BTreeNode)
    (srcSlot srcCount : Nat) :
    (copyKeyValueRange src dst srcSlot srcCount).lowerFence
      = dst.lowerFence := rfl

@[simp] theorem BTreeNode.upper_copyKeyValueRange (src dst : BTreeNode)
    (srcSlot srcCount : Nat) :
    (copyKeyValueRange src dst srcSlot srcCount).upper = dst.upper := rfl

@[simp] theorem BTreeNode.tag_copyKeyValueRange (src dst : BTreeNode)
    (srcSlot srcCount : Nat) :
    (copyKeyValueRange src dst srcSlot srcCount).tag = dst.tag := rfl

@[simp] theorem BTreeNode.slots_setFences (n : BTreeNode) (lk uk : List Nat) :
    (n.setFences lk uk).slots = n.slots := rfl

@[simp] theorem BTreeNode.lowerFence_setFences (n : BTreeNode) (lk uk : List Nat) :
    (n.setFences lk uk).lowerFence = lk := rfl

@[simp] theorem BTreeNode.prefixLength_setFences (n : BTreeNode) (lk uk : List Nat) :
    (n.setFences lk uk).prefixLength = commonPrefixLen lk uk := rfl

@[simp] theorem BTreeNode.prefixBytes_makeHint (n : BTreeNode) :
    n.makeHint.prefixBytes = n.prefixBytes := rfl

@[simp] theorem BTreeNode.dataOffset_makeHint (n : BTreeNode) :
    n.makeHint.dataOffset = n.dataOffset := rfl

@[simp] theorem BTreeNode.dataOffset_setUpper (n : BTreeNode)
    (u : Option BTreeNode) : (n.setUpper u).dataOffset = n.dataOffset := rfl

@[simp] theorem BTreeNode.dataOffset_setFences (n : BTreeNode)
    (lk uk : List Nat) :
    (n.setFences lk uk).dataOffset
      = n.dataOffset - lk.length - uk.length := rfl

@[simp] theorem BTreeNode.dataOffset_copyKeyValueRange (src dst : BTreeNode)
    (srcSlot srcCount : Nat) :
    (copyKeyValueRange src dst srcSlot srcCount).dataOffset
      = dst.dataOffset - (((src.slots.drop srcSlot).take srcCount).map
          fun sl => kvSpace (copiedKey src dst sl) sl.payload).sum := rfl

@[simp] theorem dataOffset_newNode (t : NodeTag) :
    (newNode t).dataOffset = pageSize := rfl

@[simp] theorem BTreeNode.spaceUsed_makeHint (n : BTreeNode) :
    n.makeHint.spaceUsed = n.spaceUsed := rfl

@[simp] theorem BTreeNode.spaceUsed_setUpper (n : BTreeNode)
    (u : Option BTreeNode) : (n.setUpper u).spaceUsed = n.spaceUsed := rfl

@[simp] theorem BTreeNode.spaceUsed_setFences (n : BTreeNode)
    (lk uk : List Nat) :
    (n.setFences lk uk).spaceUsed
      = n.spaceUsed + lk.length + uk.length := rfl

@[simp] theorem BTreeNode.spaceUsed_copyKeyValueRange (src dst : BTreeNode)
    (srcSlot srcCount : Nat) :
    (copyKeyValueRange src dst srcSlot srcCount).spaceUsed
      = dst.spaceUsed + (((src.slots.drop srcSlot).take srcCount).map
          fun sl => kvSpace (copiedKey src dst sl) sl.payload).sum := rfl

@[simp] theorem spaceUsed_newNode (t : NodeTag) :
    (newNode t).spaceUsed = 0 := rfl


/-- The full keys and payloads written by one `copyKeyValueRange` call, as a
map over the copied range. -/
theorem copyKeyValueRange_entries (src dst : BTreeNode) (srcSlot srcCount : Nat)
    (hsl : src.prefixLength ≤ src.lowerFence.length)
    (hcompat : ∀ sl ∈ (src.slots.drop srcSlot).take srcCount,
      (src.fullKey sl).take dst.prefixLength = dst.prefixBytes) :
    ((copyKeyValueRange src dst srcSlot srcCount).slots.drop dst.slots.length).map
        (copyKeyValueRange src dst srcSlot srcCount).fullKey
      = ((src.slots.drop srcSlot).take srcCount).map src.fullKey ∧
    ((copyKeyValueRange src dst srcSlot srcCount).slots.drop dst.slots.length).map
        FatSlot.payload
      = ((src.slots.drop srcSlot).take srcCount).map FatSlot.payload := by
  have hpb : (copyKeyValueRange src dst srcSlot srcCount).prefixBytes
      = dst.prefixBytes := rfl
  constructor
  · rw [BTreeNode.slots_copyKeyValueRange, List.drop_left' rfl, List.map_map]
    refine List.map_congr_left ?_
    intro sl hmem
    show (copyKeyValueRange src dst srcSlot srcCount).prefixBytes
        ++ (mkSlot (copiedKey src dst sl) sl.payload).key = src.fullKey sl
    rw [hpb, mkSlot_key]
    exact prefix_append_copied src dst sl hsl (hcompat sl hmem)
  · rw [BTreeNode.slots_copyKeyValueRange, List.drop_left' rfl, List.map_map]
    refine List.map_congr_left ?_
    intro sl _
    rfl

/-- C6: the claim states that a leaf split sends slots `[0, bestSlot+1]`
(the pivot staying left) to the left node and `[bestSlot+1, count)` to the
right node, while an inner split sends `[0, bestSlot)` left,
`[bestSlot+1, count)` right, moves the separator key of slot `bestSlot` to
the parent, sets the left node's `upper` to the child of slot `bestSlot`,
and the right node's `upper` to the original `upper`.  The theorem states
this of `BasicNode::splitNode`'s output `(l, r, p2)`: the left and right
siblings carry exactly the claimed slot ranges (same full keys and payloads,
re-truncated against the new fences), with the claimed `upper` wiring, and
in the inner case the separator handed to the parent is the full key of slot
`bestSlot`. -/
theorem c6_splitNode_distribution (n parent l r p2 : BTreeNode) (ipos : Nat)
    (hsl : n.prefixLength ≤ n.lowerFence.length)
    (hcnt : n.findSeparator.slot + 1 ≤ n.count)
    (hsplit : n.splitNode parent = .ok (some (l, r, p2, ipos)))
    (hcompatL : ∀ sl ∈ splitRangeL n,
      (n.fullKey sl).take l.prefixLength = l.prefixBytes)
    (hcompatR : ∀ sl ∈ splitRangeR n,
      (n.fullKey sl).take r.prefixLength = r.prefixBytes) :
    l.slots.map l.fullKey = (splitRangeL n).map n.fullKey ∧
    l.slots.map FatSlot.payload = (splitRangeL n).map FatSlot.payload ∧
    r.slots.map r.fullKey = (splitRangeR n).map n.fullKey ∧
    r.slots.map FatSlot.payload = (splitRangeR n).map FatSlot.payload ∧
    (n.isLeaf = true →
      l.count = n.findSeparator.slot + 1 ∧
      r.count = n.count - (n.findSeparator.slot + 1)) ∧
    (n.isLeaf = false →
      l.count = n.findSeparator.slot ∧
      r.count = n.count - n.findSeparator.slot - 1 ∧
      l.upper = n.getChild n.findSeparator.slot ∧
      r.upper = n.upper ∧
      n.getSep n.findSeparator = n.fullKey (n.slotD n.findSeparator.slot)) := by
  unfold BTreeNode.splitNode at hsplit
  simp only [] at hsplit
  rcases hreq : parent.requestSpaceFor (parent.spaceNeededInner n.findSeparator.length)
    with ⟨b, parent1⟩
  rw [hreq] at hsplit
  cases b with
  | false => simp at hsplit
  | true =>
    simp only at hsplit
    by_cases hleaf : n.isLeaf = true
    · -- leaf split
      rw [if_pos hleaf] at hsplit
      rcases hins : parent1.insertInner (n.getSep n.findSeparator)
          (copyKeyValueRange n ((newNode n.tag).setFences n.lowerFence
            (n.getSep n.findSeparator)) 0 (n.findSeparator.slot + 1)).makeHint
        with _ | ⟨_succ, p2x, iposx⟩
      · rw [hins] at hsplit
        simp at hsplit
      · rw [hins] at hsplit
        simp only [Except.ok.injEq, Option.some.injEq, Prod.mk.injEq] at hsplit
        obtain ⟨hle, hre, _, _⟩ := hsplit
        have hc2 : n.findSeparator.slot + 1 ≤ n.slots.length := hcnt
        have hLslots : l.slots = (splitRangeL n).map
            (fun sl => mkSlot (copiedKey n ((newNode n.tag).setFences n.lowerFence
              (n.getSep n.findSeparator)) sl) sl.payload) := by
          rw [← hle]
          simp [splitRangeL, hleaf, List.drop_zero, newNode]
        have hccnt : (copyKeyValueRange n ((newNode n.tag).setFences n.lowerFence
            (n.getSep n.findSeparator)) 0 (n.findSeparator.slot + 1)).count
              = n.findSeparator.slot + 1 := by
          rw [BTreeNode.count]
          simp only [BTreeNode.slots_copyKeyValueRange, BTreeNode.slots_setFences]
          rw [show (newNode n.tag).slots = [] from rfl, List.nil_append,
            List.length_map, List.drop_zero, List.length_take]
          omega
        have hLcount : l.count = n.findSeparator.slot + 1 := by
          rw [← hle]
          exact hccnt
        have hRslots : r.slots = (splitRangeR n).map
            (fun sl => mkSlot (copiedKey n ((newNode n.tag).setFences
              (n.getSep n.findSeparator) n.upperFence) sl) sl.payload) := by
          rw [← hre]
          simp only [BTreeNode.slots_makeHint, BTreeNode.slots_copyKeyValueRange,
            BTreeNode.slots_setFences]
          rw [hccnt]
          simp only [splitRangeR]
          rw [show (newNode n.tag).slots = [] from rfl, List.nil_append,
            List.take_of_length_le (by rw [List.length_drop, BTreeNode.count] <;> omega)]
        have hlpb : l.prefixBytes = ((newNode n.tag).setFences n.lowerFence
            (n.getSep n.findSeparator)).prefixBytes := by rw [← hle]; rfl
        have hlpl : l.prefixLength = ((newNode n.tag).setFences n.lowerFence
            (n.getSep n.findSeparator)).prefixLength := by rw [← hle]; rfl
        have hrpb : r.prefixBytes = ((newNode n.tag).setFences
            (n.getSep n.findSeparator) n.upperFence).prefixBytes := by rw [← hre]; rfl
        have hrpl : r.prefixLength = ((newNode n.tag).setFences
            (n.getSep n.findSeparator) n.upperFence).prefixLength := by rw [← hre]; rfl
        refine ⟨?_, ?_, ?_, ?_, fun _ => ⟨hLcount, ?_⟩, fun hfalse => absurd hleaf (by rw [hfalse]; simp)⟩
        · rw [hLslots, List.map_map]
          refine List.map_congr_left ?_
          intro sl hmem
          show l.prefixBytes ++ (mkSlot _ sl.payload).key = n.fullKey sl
          rw [mkSlot_key, hlpb]
          exact prefix_append_copied n _ sl hsl
            (by rw [← hlpl, ← hlpb]; exact hcompatL sl hmem)
        · rw [hLslots, List.map_map]
          exact List.map_congr_left fun sl _ => rfl
        · rw [hRslots, List.map_map]
          refine List.map_congr_left ?_
          intro sl hmem
          show r.prefixBytes ++ (mkSlot _ sl.payload).key = n.fullKey sl
          rw [mkSlot_key, hrpb]
          exact prefix_append_copied n _ sl hsl
            (by rw [← hrpl, ← hrpb]; exact hcompatR sl hmem)
        · rw [hRslots, List.map_map]
          exact List.map_congr_left fun sl _ => rfl
        · rw [BTreeNode.count, hRslots, List.length_map, splitRangeR,
            List.length_drop]
          rfl
    · -- inner split
      rw [if_neg hleaf] at hsplit
      rcases hins : parent1.insertInner (n.getSep n.findSeparator)
          ((copyKeyValueRange n ((newNode n.tag).setFences n.lowerFence
              (n.getSep n.findSeparator)) 0 n.findSeparator.slot).setUpper
            (n.getChild (copyKeyValueRange n ((newNode n.tag).setFences n.lowerFence
              (n.getSep n.findSeparator)) 0 n.findSeparator.slot).count)).makeHint
        with _ | ⟨_succ, p2x, iposx⟩
      · rw [hins] at hsplit
        simp at hsplit
      · rw [hins] at hsplit
        simp only [Except.ok.injEq, Option.some.injEq, Prod.mk.injEq] at hsplit
        obtain ⟨hle, hre, _, _⟩ := hsplit
        have hc2 : n.findSeparator.slot + 1 ≤ n.slots.length := hcnt
        have hL0count : (copyKeyValueRange n ((newNode n.tag).setFences n.lowerFence
            (n.getSep n.findSeparator)) 0 n.findSeparator.slot).count
              = n.findSeparator.slot := by
          rw [BTreeNode.count]
          simp only [BTreeNode.slots_copyKeyValueRange, BTreeNode.slots_setFences]
          rw [show (newNode n.tag).slots = [] from rfl, List.nil_append,
            List.length_map, List.drop_zero, List.length_take]
          omega
        have hLslots : l.slots = (splitRangeL n).map
            (fun sl => mkSlot (copiedKey n ((newNode n.tag).setFences n.lowerFence
              (n.getSep n.findSeparator)) sl) sl.payload) := by
          rw [← hle]
          simp [splitRangeL, hleaf, List.drop_zero, newNode]
        have hLcount : l.count = n.findSeparator.slot := by
          rw [BTreeNode.count, hLslots, List.length_map, splitRangeL, if_neg hleaf,
            List.length_take]
          omega
        have hRslots : r.slots = (splitRangeR n).map
            (fun sl => mkSlot (copiedKey n ((newNode n.tag).setFences
              (n.getSep n.findSeparator) n.upperFence) sl) sl.payload) := by
          rw [← hre]
          simp only [BTreeNode.slots_makeHint, BTreeNode.slots_setUpper,
            BTreeNode.slots_copyKeyValueRange, BTreeNode.slots_setFences]
          rw [hL0count]
          simp only [splitRangeR]
          rw [show (newNode n.tag).slots = [] from rfl, List.nil_append,
            List.take_of_length_le (by rw [List.length_drop, BTreeNode.count] <;> omega)]
        have hlpb : l.prefixBytes = ((newNode n.tag).setFences n.lowerFence
            (n.getSep n.findSeparator)).prefixBytes := by rw [← hle]; rfl
        have hlpl : l.prefixLength = ((newNode n.tag).setFences n.lowerFence
            (n.getSep n.findSeparator)).prefixLength := by rw [← hle]; rfl
        have hrpb : r.prefixBytes = ((newNode n.tag).setFences
            (n.getSep n.findSeparator) n.upperFence).prefixBytes := by rw [← hre]; rfl
        have hrpl : r.prefixLength = ((newNode n.tag).setFences
            (n.getSep n.findSeparator) n.upperFence).prefixLength := by rw [← hre]; rfl
        have hlf : n.isLeaf = false := by
          revert hleaf
          cases n.isLeaf <;> simp
        have hsep : n.getSep n.findSeparator = n.fullKey (n.slotD n.findSeparator.slot) := by
          have hinner : n.isInner = true := by
            simp [BTreeNode.isInner, hlf]
          have hfs : n.findSeparator =
              ⟨n.prefixLength + (n.slotD (n.count / 2)).key.length, n.count / 2,
                false⟩ := by
            unfold BTreeNode.findSeparator
            rw [hinner]
            simp
          rw [hfs]
          unfold BTreeNode.getSep
          simp only [BTreeNode.fullKey]
          congr 1
          rw [if_neg (by simp), Nat.add_zero, Nat.add_sub_cancel_left,
            List.take_length]
        refine ⟨?_, ?_, ?_, ?_, fun htrue => absurd htrue hleaf,
          fun _ => ⟨hLcount, ?_, ?_, ?_, hsep⟩⟩
        · rw [hLslots, List.map_map]
          refine List.map_congr_left ?_
          intro sl hmem
          show l.prefixBytes ++ (mkSlot _ sl.payload).key = n.fullKey sl
          rw [mkSlot_key, hlpb]
          exact prefix_append_copied n _ sl hsl
            (by rw [← hlpl, ← hlpb]; exact hcompatL sl hmem)
        · rw [hLslots, List.map_map]
          exact List.map_congr_left fun sl _ => rfl
        · rw [hRslots, List.map_map]
          refine List.map_congr_left ?_
          intro sl hmem
          show r.prefixBytes ++ (mkSlot _ sl.payload).key = n.fullKey sl
          rw [mkSlot_key, hrpb]
          exact prefix_append_copied n _ sl hsl
            (by rw [← hrpl, ← hrpb]; exact hcompatR sl hmem)
        · rw [hRslots, List.map_map]
          exact List.map_congr_left fun sl _ => rfl
        · rw [BTreeNode.count, hRslots, List.length_map, splitRangeR,
            List.length_drop]
          rfl
        · rw [← hle]
          simp only [BTreeNode.upper_makeHint, BTreeNode.upper_setUpper]
          rw [hL0count]
        · rw [← hre]
          rfl

/-- Witness for `c6_splitNode_distribution`: splitting the two-entry leaf
`leafC` leaves the pivot slot in the left sibling. -/
theorem c6_splitNode_distribution_witness :
    splitC.1.slots.map splitC.1.fullKey = (splitRangeL leafC).map leafC.fullKey :=
  (c6_splitNode_distribution leafC (makeInner leafC) splitC.1 splitC.2.1
    splitC.2.2.1 splitC.2.2.2 (by decide) (by decide) (by rfl) (by decide)
    (by decide)).1

/-! ### Order preservation of the head digest -/

theorem headOf_eq_val256 (l : List Nat) : headOf l = val256 4 l := by
  match l with
  | [] => rfl
  | [k0] =>
    show k0 * 16777216 = k0 * 256 ^ 3 + 0
    ring
  | [k0, k1] =>
    show k0 * 16777216 + k1 * 65536 = k0 * 256 ^ 3 + (k1 * 256 ^ 2 + 0)
    ring
  | [k0, k1, k2] =>
    show k0 * 16777216 + k1 * 65536 + k2 * 256
        = k0 * 256 ^ 3 + (k1 * 256 ^ 2 + (k2 * 256 ^ 1 + 0))
    ring
  | k0 :: k1 :: k2 :: k3 :: rest =>
    show k0 * 16777216 + k1 * 65536 + k2 * 256 + k3
        = k0 * 256 ^ 3 + (k1 * 256 ^ 2 + (k2 * 256 ^ 1 + (k3 * 256 ^ 0 + 0)))
    ring

theorem val256_lt {d : Nat} {l : List Nat} (h : allBytes l) :
    val256 d l < 256 ^ d := by
  induction d generalizing l with
  | zero => simp [val256]
  | succ d ih =>
    cases l with
    | nil => simp [val256]
    | cons x xs =>
      have hx : x < 256 := h x (by simp)
      have hxs : allBytes xs := fun b hb => h b (by simp [hb])
      have := ih hxs
      simp only [val256, pow_succ]
      nlinarith

theorem val256_mono {d : Nat} {a b : List Nat} (ha : allBytes a)
    (hb : allBytes b) (h : bcmp a b ≠ .gt) : val256 d a ≤ val256 d b := by
  induction d generalizing a b with
  | zero => simp [val256]
  | succ d ih =>
    cases a with
    | nil => cases b <;> simp [val256]
    | cons x xs =>
      cases b with
      | nil => simp [bcmp] at h
      | cons y ys =>
        simp only [bcmp] at h
        by_cases hxy : x < y
        · have hx : val256 d xs < 256 ^ d :=
            val256_lt (fun c hc => ha c (by simp [hc]))
          simp only [val256]
          nlinarith
        · by_cases hyx : y < x
          · simp [hxy, hyx] at h
          · have hxy2 : x = y := by omega
            subst hxy2
            rw [if_neg hxy, if_neg hyx] at h
            have := ih (fun c hc => ha c (by simp [hc]))
              (fun c hc => hb c (by simp [hc])) h
            simp only [val256]
            omega

theorem headOf_mono {a b : List Nat} (ha : allBytes a) (hb : allBytes b)
    (h : bcmp a b ≠ .gt) : headOf a ≤ headOf b := by
  rw [headOf_eq_val256, headOf_eq_val256]
  exact val256_mono ha hb h

theorem blt_of_headOf_lt {a b : List Nat} (ha : allBytes a) (hb : allBytes b)
    (h : headOf a < headOf b) : blt a b := by
  rcases blt_or_eq_or_gt a b with h1 | h1 | h1
  · exact h1
  · subst h1; omega
  · exfalso
    have : headOf b ≤ headOf a := headOf_mono hb ha (by
      unfold blt at h1
      rw [h1]
      simp)
    omega

/-- The code's key comparison — `memcmp` over `min` of the lengths followed
by the length tie-break — computes exactly `bcmp`. -/
theorem memcmp_len_eq_bcmp (a b : List Nat) :
    (match memcmpN a b (min a.length b.length) with
     | .lt => Ordering.lt
     | .gt => Ordering.gt
     | .eq =>
       if a.length < b.length then Ordering.lt
       else if b.length < a.length then Ordering.gt
       else Ordering.eq)
      = bcmp a b := by
  induction a generalizing b with
  | nil =>
    cases b with
    | nil => rfl
    | cons y ys => simp [memcmpN, bcmp]
  | cons x xs ih =>
    cases b with
    | nil => simp [memcmpN, bcmp]
    | cons y ys =>
      have hmin : min (x :: xs).length (y :: ys).length
          = min xs.length ys.length + 1 := by
        simp [Nat.succ_min_succ]
      rw [hmin]
      simp only [memcmpN, bcmp]
      by_cases hxy : x < y
      · simp [hxy]
      · by_cases hyx : y < x
        · simp [hxy, hyx]
        · simp only [if_neg hxy, if_neg hyx]
          rw [← ih ys]
          simp [List.length_cons]

/-- `memcmp` over a shared prefix reports equality. -/
theorem memcmpN_eq_of_take_eq {a b : List Nat} {m : Nat}
    (h : a.take m = b.take m) : memcmpN a b m = .eq := by
  induction m generalizing a b with
  | zero => cases a <;> cases b <;> rfl
  | succ m ih =>
    cases a with
    | nil => cases b <;> simp_all [memcmpN]
    | cons x xs =>
      cases b with
      | nil => simp at h
      | cons y ys =>
        simp only [List.take_succ_cons, List.cons.injEq] at h
        simp [memcmpN, h.1, ih h.2]

/-! ### lowerBound correctness -/

theorem slotD_eq_getElem (n : BTreeNode) {i : Nat} (h : i < n.slots.length) :
    n.slotD i = n.slots[i] := by
  simp [BTreeNode.slotD, List.getD_eq_getElem?_getD, List.getElem?_eq_getElem h]

theorem slotD_mem (n : BTreeNode) {i : Nat} (h : i < n.count) :
    n.slotD i ∈ n.slots := by
  rw [slotD_eq_getElem n h]
  exact List.getElem_mem h

theorem sorted_lt {n : BTreeNode} (hs : sortedNode n) {i j : Nat} (hij : i < j)
    (hj : j < n.count) : blt (n.slotD i).key (n.slotD j).key := by
  have hi : i < n.slots.length := lt_of_lt_of_le hij (le_of_lt hj)
  rw [slotD_eq_getElem n hi, slotD_eq_getElem n hj]
  exact List.pairwise_iff_getElem.mp hs i j hi hj hij

theorem findIdx?_some_spec {α : Type} (d : α) {p : α → Bool} {l : List α}
    {s i : Nat} (h : List.findIdx? p l s = some i) :
    s ≤ i ∧ i - s < l.length ∧ p (l.getD (i - s) d) = true ∧
      ∀ j < i - s, p (l.getD j d) = false := by
  induction l generalizing s with
  | nil => simp [List.findIdx?] at h
  | cons x xs ih =>
    rw [List.findIdx?_cons] at h
    by_cases hp : p x
    · rw [if_pos hp] at h
      injection h with h
      subst h
      refine ⟨le_refl s, by simp, by simpa using hp, fun j hj => by omega⟩
    · rw [if_neg hp] at h
      obtain ⟨h1, h2, h3, h4⟩ := ih h
      have hiss : i - s = (i - (s + 1)) + 1 := by omega
      refine ⟨by omega, by simp; omega, by rw [hiss]; simpa using h3, ?_⟩
      intro j hj
      cases j with
      | zero => simpa using hp
      | succ j =>
        have := h4 j (by omega)
        simpa using this

theorem findIdx?_none_spec {α : Type} (d : α) {p : α → Bool} {l : List α}
    {s : Nat} (h : List.findIdx? p l s = none) :
    ∀ j < l.length, p (l.getD j d) = false := by
  induction l generalizing s with
  | nil => simp
  | cons x xs ih =>
    rw [List.findIdx?_cons] at h
    by_cases hp : p x
    · rw [if_pos hp] at h
      cases h
    · rw [if_neg hp] at h
      intro j hj
      cases j with
      | zero => simpa using hp
      | succ j => simpa using ih h j (by simpa using hj)

theorem getD_drop {α : Type} (l : List α) (s q : Nat) (d : α) :
    (l.drop s).getD q d = l.getD (s + q) d := by
  simp [List.getD_eq_getElem?_getD, List.getElem?_drop]

/-- Soundness of the hint narrowing: everything left of the returned lower
bound is strictly below the (prefix-truncated) query, everything at or right
of the returned upper bound strictly above. -/
theorem searchHint_spec (n : BTreeNode) (key2 : List Nat)
    (hs : sortedNode n) (hh : headsOk n) (hkb : keysBytes n)
    (hhint : hintOk n) (hqb : allBytes key2) :
    (n.searchHint (headOf key2) 0 n.count).1
        ≤ (n.searchHint (headOf key2) 0 n.count).2 ∧
    (n.searchHint (headOf key2) 0 n.count).2 ≤ n.count ∧
    (∀ j < (n.searchHint (headOf key2) 0 n.count).1,
      blt (n.slotD j).key key2) ∧
    (∀ j, (n.searchHint (headOf key2) 0 n.count).2 ≤ j → j < n.count →
      blt key2 (n.slotD j).key) := by
  unfold BTreeNode.searchHint
  by_cases hc : n.count > hintCount * 2
  case neg =>
    rw [if_neg hc]
    exact ⟨Nat.zero_le _, le_refl _, fun j hj => by omega,
      fun j hj1 hj2 => by omega⟩
  case pos =>
  rw [if_pos hc]
  simp only
  obtain ⟨hlen, hvals⟩ := hhint
  simp only [hintCount] at hlen hvals hc ⊢
  norm_num only at hvals hc ⊢
  have hdist1 : 1 ≤ n.count / 17 := by
    rw [Nat.le_div_iff_mul_le (by norm_num)]
    omega
  have h17 : n.count / 17 * 17 ≤ n.count := Nat.div_mul_le_self n.count 17
  have hsample : ∀ q, q + 1 ≤ 16 → n.count / 17 * (q + 1) < n.count := by
    intro q hq
    have h1 : n.count / 17 * (q + 1) ≤ n.count / 17 * 16 :=
      Nat.mul_le_mul_left _ hq
    omega
  have hheadAt : ∀ m, m < n.count → (n.slotD m).head = headOf (n.slotD m).key :=
    fun m hm => hh (n.slotD m) (slotD_mem n hm)
  have hlowBlock : ∀ p, 1 ≤ p → p ≤ 16 →
      (n.slotD (n.count / 17 * p)).head < headOf key2 →
      ∀ j, j < p * (n.count / 17) → blt (n.slotD j).key key2 := by
    intro p hp1 hp16 hhead j hj
    have hidx : n.count / 17 * p < n.count := by
      have := hsample (p - 1) (by omega)
      have hpp : p - 1 + 1 = p := by omega
      rwa [hpp] at this
    have hblt : blt (n.slotD (n.count / 17 * p)).key key2 := by
      refine blt_of_headOf_lt (hkb _ (slotD_mem n hidx)) hqb ?_
      rw [← hheadAt _ hidx]
      exact hhead
    have hj2 : j < n.count / 17 * p := by
      rw [Nat.mul_comm] at hj
      exact hj
    exact blt_trans (sorted_lt hs hj2 hidx) hblt
  have hhighBlock : ∀ p, p ≤ 16 →
      headOf key2 < (n.slotD (n.count / 17 * p)).head →
      ∀ j, p * (n.count / 17) ≤ j → j < n.count →
      blt key2 (n.slotD j).key := by
    intro p hp16 hhead j hj1 hj2
    rcases Nat.eq_zero_or_pos p with hp0 | hp0
    · subst hp0
      simp only [Nat.mul_zero] at hhead
      have hblt : blt key2 (n.slotD 0).key := by
        rcases Nat.eq_zero_or_pos n.count with hc0 | hc0
        · omega
        · refine blt_of_headOf_lt hqb (hkb _ (slotD_mem n hc0)) ?_
          rw [← hheadAt _ hc0]
          exact hhead
      rcases Nat.eq_zero_or_pos j with hj0 | hj0
      · subst hj0; exact hblt
      · exact blt_trans hblt (sorted_lt hs hj0 hj2)
    · have hidx : n.count / 17 * p < n.count := by
        have := hsample (p - 1) (by omega)
        have hpp : p - 1 + 1 = p := by omega
        rwa [hpp] at this
      have hblt : blt key2 (n.slotD (n.count / 17 * p)).key := by
        refine blt_of_headOf_lt hqb (hkb _ (slotD_mem n hidx)) ?_
        rw [← hheadAt _ hidx]
        exact hhead
      have hj1m : n.count / 17 * p ≤ j := by
        rw [Nat.mul_comm] at hj1
        omega
      rcases Nat.eq_or_lt_of_le hj1m with he | hlt
      · rw [← he]; exact hblt
      · exact blt_trans hblt (sorted_lt hs hlt hj2)
  rcases hfi : n.hint.findIdx? (fun h => decide (headOf key2 ≤ h))
    with _ | p
  · -- no hint reaches the query head
    have hnone := findIdx?_none_spec 0 hfi
    have hdrop : n.hint.drop hintCount = [] := by
      apply List.drop_eq_nil_of_le
      simp [hintCount]
      omega
    simp only [Option.getD_none, hintCount] at hdrop ⊢
    rw [hdrop, List.findIdx?_nil]
    simp only [Option.map_none', Option.getD_none]
    have h16 := hsample 15 (by omega)
    norm_num only at h16
    refine ⟨?_, ?_, ?_, ?_⟩
    · rw [if_neg (by omega)]
      rw [Nat.mul_comm]
      omega
    · rw [if_neg (by omega)]
    · intro j hj
      refine hlowBlock 16 (by omega) (by omega) ?_ j hj
      have h15 := hnone 15 (by omega)
      have hv := hvals 15 (by omega)
      norm_num only at hv
      rw [← hv]
      simpa using h15
    · intro j hj1 hj2
      rw [if_neg (by omega)] at hj1
      omega
  · -- some hint reaches the query head
    obtain ⟨-, hplen, hpv, hpbelow⟩ := findIdx?_some_spec 0 hfi
    rw [hlen] at hplen
    simp only [Nat.sub_zero] at hpv hpbelow
    simp only [Option.getD_some, hintCount]
    have hlowWin : ∀ j, j < p * (n.count / 17) → blt (n.slotD j).key key2 := by
      intro j hj
      rcases Nat.eq_zero_or_pos p with hp0 | hp0
      · subst hp0
        simp at hj
      · refine hlowBlock p hp0 (by omega) ?_ j hj
        have hbel := hpbelow (p - 1) (by omega)
        have hv := hvals (p - 1) (by omega)
        have hq : p - 1 + 1 = p := by omega
        rw [hq] at hv
        rw [← hv]
        have hbel2 := of_decide_eq_false hbel
        omega
    rcases hfi2 : (n.hint.drop p).findIdx? (fun h => decide (h ≠ headOf key2))
      with _ | q
    · -- all hints from p onward equal the query head
      simp only [Option.map_none', Option.getD_none]
      have h16 := hsample 15 (by omega)
      norm_num only at h16
      have hple : p * (n.count / 17) ≤ 16 * (n.count / 17) :=
        Nat.mul_le_mul_right _ (by omega)
      refine ⟨?_, ?_, hlowWin, ?_⟩
      · rw [if_neg (by omega)]
        have : (16 : Nat) * (n.count / 17) = n.count / 17 * 16 := Nat.mul_comm _ _
        omega
      · rw [if_neg (by omega)]
      · intro j hj1 hj2
        rw [if_neg (by omega)] at hj1
        omega
    · -- hint p+q is the first one differing from the query head
      obtain ⟨-, hqlen, hqv, hqbelow⟩ := findIdx?_some_spec 0 hfi2
      simp only [Nat.sub_zero] at hqv hqbelow
      rw [List.length_drop, hlen] at hqlen
      have hgq : ∀ m, (n.hint.drop p).getD m 0 = n.hint.getD (p + m) 0 :=
        fun m => getD_drop n.hint p m 0
      have hne : n.hint.getD (p + q) 0 ≠ headOf key2 := by
        have h1 := of_decide_eq_true hqv
        rwa [hgq] at h1
      simp only [Option.map_some', Option.getD_some]
      by_cases hpq16 : p + q < 16
      · rw [if_pos hpq16]
        have habove : headOf key2 < n.hint.getD (p + q) 0 := by
          rcases Nat.eq_zero_or_pos q with hq0 | hq0
          · subst hq0
            simp only [Nat.add_zero] at hne ⊢
            have : headOf key2 ≤ n.hint.getD p 0 := by simpa using hpv
            omega
          · have heq : n.hint.getD (p + (q - 1)) 0 = headOf key2 := by
              have hb := of_decide_eq_false (hqbelow (q - 1) (by omega))
              rw [hgq] at hb
              simpa using hb
            have hmono : n.hint.getD (p + (q - 1)) 0 ≤ n.hint.getD (p + q) 0 := by
              have hv1 := hvals (p + (q - 1)) (by omega)
              have hv2 := hvals (p + q) (by omega)
              rw [hv1, hv2]
              have hidx2 : n.count / 17 * (p + q + 1) < n.count :=
                hsample (p + q) (by omega)
              have hidx1 : n.count / 17 * (p + (q - 1) + 1) < n.count := by
                refine lt_of_le_of_lt (Nat.mul_le_mul_left _ (by omega)) hidx2
              rw [hheadAt _ hidx1, hheadAt _ hidx2]
              refine headOf_mono (hkb _ (slotD_mem n hidx1))
                (hkb _ (slotD_mem n hidx2)) ?_
              have hstep : n.count / 17 * (p + (q - 1) + 1)
                  < n.count / 17 * (p + q + 1) := by
                refine Nat.mul_lt_mul_of_le_of_lt (le_refl _) (by omega) ?_
                omega
              have hso := sorted_lt hs hstep hidx2
              unfold blt at hso
              rw [hso]
              simp
            omega
        refine ⟨?_, ?_, hlowWin, ?_⟩
        · exact Nat.mul_le_mul_right _ (by omega)
        · have := hsample (p + q) (by omega)
          rw [Nat.mul_comm]
          exact le_of_lt this
        · intro j hj1 hj2
          refine hhighBlock (p + q + 1) (by omega) ?_ j hj1 hj2
          have hv := hvals (p + q) (by omega)
          rw [hv] at habove
          exact habove
      · rw [if_neg hpq16]
        have h16 := hsample 15 (by omega)
        norm_num only at h16
        have hple : p * (n.count / 17) ≤ 16 * (n.count / 17) :=
          Nat.mul_le_mul_right _ (by omega)
        refine ⟨?_, le_refl _, hlowWin, ?_⟩
        · have : (16 : Nat) * (n.count / 17) = n.count / 17 * 16 := Nat.mul_comm _ _
          omega
        · intro j hj1 hj2
          omega

theorem ble_iff (a b : List Nat) : ble a b ↔ blt a b ∨ a = b := by
  unfold ble blt
  rcases h : bcmp a b with _ | _ | _
  · simp
  · simp [(bcmp_eq_iff a b).mp h]
  · simp only [ne_eq, not_true_eq_false, false_iff, not_or]
    refine ⟨by simp, ?_⟩
    intro h2
    subst h2
    rw [bcmp_self] at h
    cases h

theorem ble_refl (a : List Nat) : ble a a := (ble_iff a a).mpr (Or.inr rfl)

theorem ble_of_blt {a b : List Nat} (h : blt a b) : ble a b :=
  (ble_iff a b).mpr (Or.inl h)

theorem blt_of_blt_of_ble {a b c : List Nat} (h1 : blt a b) (h2 : ble b c) :
    blt a c := by
  rcases (ble_iff b c).mp h2 with h3 | h3
  · exact blt_trans h1 h3
  · rwa [← h3]

theorem blt_of_ble_of_blt {a b c : List Nat} (h1 : ble a b) (h2 : blt b c) :
    blt a c := by
  rcases (ble_iff a b).mp h1 with h3 | h3
  · exact blt_trans h3 h2
  · rwa [h3]

theorem ble_trans {a b c : List Nat} (h1 : ble a b) (h2 : ble b c) :
    ble a c := by
  rcases (ble_iff a b).mp h1 with h3 | h3
  · exact ble_of_blt (blt_of_blt_of_ble h3 h2)
  · rwa [h3]

theorem commonPrefixLen_nil_left (b : List Nat) : commonPrefixLen [] b = 0 := by
  cases b <;> rfl

theorem commonPrefixLen_nil_right (a : List Nat) : commonPrefixLen a [] = 0 := by
  cases a <;> rfl

theorem commonPrefixLen_le_left (a b : List Nat) :
    commonPrefixLen a b ≤ a.length := by
  induction a generalizing b with
  | nil =>
    rw [commonPrefixLen_nil_left]
    exact Nat.zero_le _
  | cons x xs ih =>
    cases b with
    | nil => rw [commonPrefixLen_nil_right]; simp
    | cons y ys =>
      unfold commonPrefixLen
      split
      · simpa using ih ys
      · simp

/-- A key strictly above the lower fence and at or below the upper fence
starts with any common prefix of the fences (and is at least that long) —
the argument behind the spec's "outside the node's fence range" remark. -/
theorem cover_take_prefix {pl : Nat} :
    ∀ {lf uf key : List Nat}, pl ≤ commonPrefixLen lf uf →
    blt lf key → ble key uf →
    pl ≤ key.length ∧ key.take pl = lf.take pl := by
  induction pl with
  | zero => intro lf uf key _ _ _; simp
  | succ pl ih =>
    intro lf uf key hpl hlo hhi
    cases lf with
    | nil => rw [commonPrefixLen_nil_left] at hpl; omega
    | cons x lf' =>
      cases uf with
      | nil => rw [commonPrefixLen_nil_right] at hpl; omega
      | cons y uf' =>
        unfold commonPrefixLen at hpl
        by_cases hxy : x = y
        case neg => rw [if_neg hxy] at hpl; omega
        case pos =>
        rw [if_pos hxy] at hpl
        subst hxy
        cases key with
        | nil => unfold blt bcmp at hlo; cases hlo
        | cons k key' =>
          unfold blt bcmp at hlo
          unfold ble bcmp at hhi
          by_cases hxk : x < k
          · rw [if_neg (by omega), if_pos hxk] at hhi
            exact absurd rfl hhi
          · by_cases hkx : k < x
            · rw [if_neg hxk, if_pos hkx] at hlo
              cases hlo
            · rw [if_neg hxk, if_neg hkx] at hlo hhi
              have hk : k = x := by omega
              subst hk
              obtain ⟨h1, h2⟩ := ih (Nat.lt_succ_iff.mp (Nat.lt_of_lt_of_le
                (Nat.lt_succ_self pl) hpl)) hlo hhi
              refine ⟨by simpa using h1, ?_⟩
              simp [List.take_succ_cons, h2]

/-- For a page whose prefix agrees with its fences, every covered key passes
the prefix checks at the top of `lowerBound`. -/
theorem cover_prefixOk {n : BTreeNode} {key : List Nat}
    (hf : fencesOk n) (hc : cover n.lowerFence n.upperFence key) :
    n.prefixLength ≤ key.length ∧ key.take n.prefixLength = n.prefixBytes := by
  obtain ⟨hlo, hhi⟩ := hc
  unfold fencesOk at hf
  unfold BTreeNode.prefixBytes
  rcases hlo with hlo | hlo
  · rw [hlo, commonPrefixLen_nil_left] at hf
    rw [hf]
    simp
  · rcases hhi with hhi | hhi
    · rw [hhi, commonPrefixLen_nil_right] at hf
      rw [hf]
      simp
    · have := cover_take_prefix (le_of_eq hf) hlo hhi
      rw [this.2]
      exact ⟨this.1, rfl⟩

/-- Correctness of the binary-search loop of `lowerBound`: started on a
window whose outside is already decided, it returns a position decided on
both sides, with an honest exact-match flag. -/
theorem lbGo_spec (n : BTreeNode) (key2 : List Nat) (fuel : Nat)
    (hs : sortedNode n) (hh : headsOk n) (hkb : keysBytes n)
    (hqb : allBytes key2) :
    ∀ lower upper, upper ≤ n.count → lower ≤ upper → upper - lower ≤ fuel →
    (∀ j < lower, blt (n.slotD j).key key2) →
    (∀ j, upper ≤ j → j < n.count → blt key2 (n.slotD j).key) →
    lower ≤ (n.lbGo key2 (headOf key2) fuel lower upper).1 ∧
    (n.lbGo key2 (headOf key2) fuel lower upper).1 ≤ upper ∧
    (∀ j < (n.lbGo key2 (headOf key2) fuel lower upper).1,
      blt (n.slotD j).key key2) ∧
    ((n.lbGo key2 (headOf key2) fuel lower upper).2 = true →
      (n.lbGo key2 (headOf key2) fuel lower upper).1 < upper ∧
      (n.slotD (n.lbGo key2 (headOf key2) fuel lower upper).1).key = key2) ∧
    ((n.lbGo key2 (headOf key2) fuel lower upper).2 = false →
      ∀ j, (n.lbGo key2 (headOf key2) fuel lower upper).1 ≤ j → j < n.count →
        blt key2 (n.slotD j).key) := by
  induction fuel with
  | zero =>
    intro lower upper hup hlu hfuel hlow hhigh
    simp only [BTreeNode.lbGo]
    refine ⟨le_refl _, hlu, hlow, ?_, ?_⟩
    · intro h; cases h
    · intro _ j hj1 hj2
      exact hhigh j (by omega) hj2
  | succ fuel ih =>
    intro lower upper hup hlu hfuel hlow hhigh
    simp only [BTreeNode.lbGo]
    by_cases hlt : lower < upper
    case neg =>
      rw [if_neg hlt]
      refine ⟨le_refl _, hlu, hlow, ?_, ?_⟩
      · intro h; cases h
      · intro _ j hj1 hj2
        exact hhigh j (by omega) hj2
    case pos =>
    rw [if_pos hlt]
    set mid := (upper - lower) / 2 + lower with hmiddef
    have hmlow : lower ≤ mid := by omega
    have hmup : mid < upper := by omega
    have hmc : mid < n.count := by omega
    have hheadm : (n.slotD mid).head = headOf (n.slotD mid).key :=
      hh _ (slotD_mem n hmc)
    have hleft : blt key2 (n.slotD mid).key →
        lower ≤ (n.lbGo key2 (headOf key2) fuel lower mid).1 ∧
        (n.lbGo key2 (headOf key2) fuel lower mid).1 ≤ upper ∧
        (∀ j < (n.lbGo key2 (headOf key2) fuel lower mid).1,
          blt (n.slotD j).key key2) ∧
        ((n.lbGo key2 (headOf key2) fuel lower mid).2 = true →
          (n.lbGo key2 (headOf key2) fuel lower mid).1 < upper ∧
          (n.slotD (n.lbGo key2 (headOf key2) fuel lower mid).1).key = key2) ∧
        ((n.lbGo key2 (headOf key2) fuel lower mid).2 = false →
          ∀ j, (n.lbGo key2 (headOf key2) fuel lower mid).1 ≤ j →
            j < n.count → blt key2 (n.slotD j).key) := by
      intro hbm
      have hhigh' : ∀ j, mid ≤ j → j < n.count → blt key2 (n.slotD j).key := by
        intro j hj1 hj2
        rcases Nat.eq_or_lt_of_le hj1 with he | hlt2
        · rw [← he]; exact hbm
        · exact blt_trans hbm (sorted_lt hs hlt2 hj2)
      obtain ⟨a, b, c, d, e⟩ := ih lower mid (le_of_lt hmc) hmlow (by omega)
        hlow hhigh'
      exact ⟨a, le_trans b (le_of_lt hmup), c,
        fun hf => ⟨lt_trans (d hf).1 hmup, (d hf).2⟩, e⟩
    have hright : blt (n.slotD mid).key key2 →
        lower ≤ (n.lbGo key2 (headOf key2) fuel (mid + 1) upper).1 ∧
        (n.lbGo key2 (headOf key2) fuel (mid + 1) upper).1 ≤ upper ∧
        (∀ j < (n.lbGo key2 (headOf key2) fuel (mid + 1) upper).1,
          blt (n.slotD j).key key2) ∧
        ((n.lbGo key2 (headOf key2) fuel (mid + 1) upper).2 = true →
          (n.lbGo key2 (headOf key2) fuel (mid + 1) upper).1 < upper ∧
          (n.slotD (n.lbGo key2 (headOf key2) fuel (mid + 1) upper).1).key
            = key2) ∧
        ((n.lbGo key2 (headOf key2) fuel (mid + 1) upper).2 = false →
          ∀ j, (n.lbGo key2 (headOf key2) fuel (mid + 1) upper).1 ≤ j →
            j < n.count → blt key2 (n.slotD j).key) := by
      intro hbm
      have hlow' : ∀ j < mid + 1, blt (n.slotD j).key key2 := by
        intro j hj
        rcases Nat.eq_or_lt_of_le (Nat.lt_succ_iff.mp hj) with he | hlt2
        · rw [he]; exact hbm
        · exact blt_trans (sorted_lt hs hlt2 hmc) hbm
      obtain ⟨a, b, c, d, e⟩ := ih (mid + 1) upper hup (by omega) (by omega)
        hlow' hhigh
      exact ⟨le_trans (by omega) a, b, c, d, e⟩
    by_cases h1 : headOf key2 < (n.slotD mid).head
    · rw [if_pos h1]
      exact hleft (blt_of_headOf_lt hqb (hkb _ (slotD_mem n hmc))
        (by rwa [hheadm] at h1))
    · rw [if_neg h1]
      by_cases h2 : (n.slotD mid).head < headOf key2
      · rw [if_pos h2]
        exact hright (blt_of_headOf_lt (hkb _ (slotD_mem n hmc)) hqb
          (by rwa [hheadm] at h2))
      · rw [if_neg h2]
        have hb := memcmp_len_eq_bcmp key2 (n.slotD mid).key
        rcases hm : memcmpN key2 (n.slotD mid).key
            (min key2.length (n.slotD mid).key.length) with _ | _ | _
        · rw [hm] at hb
          simp only [hm]
          exact hleft hb.symm
        · rw [hm] at hb
          simp only [hm]
          by_cases hl1 : key2.length < (n.slotD mid).key.length
          · rw [if_pos hl1] at hb ⊢
            exact hleft hb.symm
          · rw [if_neg hl1] at hb ⊢
            by_cases hl2 : (n.slotD mid).key.length < key2.length
            · rw [if_pos hl2] at hb ⊢
              refine hright ?_
              unfold blt
              rw [bcmp_swap, ← hb]
              rfl
            · rw [if_neg hl2] at hb ⊢
              have hkey : key2 = (n.slotD mid).key := (bcmp_eq_iff _ _).mp hb.symm
              refine ⟨hmlow, le_of_lt hmup, ?_, ?_, ?_⟩
              · intro j hj
                have := sorted_lt hs (show j < mid from hj) hmc
                rwa [← hkey] at this
              · intro _
                exact ⟨hmup, hkey.symm⟩
              · intro hf; cases hf
        · rw [hm] at hb
          simp only [hm]
          refine hright ?_
          unfold blt
          rw [bcmp_swap, ← hb]
          rfl

/-- `BasicNode::lowerBound` on a well-formed page, for a key carrying the
page prefix: no abort, the returned position splits the slots around the
key, and the found flag reports an exact (truncated) match. -/
theorem lowerBound_spec (n : BTreeNode) (key : List Nat)
    (hw : wfPage n)
    (hpl : n.prefixLength ≤ key.length)
    (hpre : key.take n.prefixLength = n.prefixBytes)
    (hqb : allBytes (key.drop n.prefixLength)) :
    ∃ pos found, n.lowerBound key = .ok (pos, found) ∧
      pos ≤ n.count ∧
      (∀ j < pos, blt (n.slotD j).key (key.drop n.prefixLength)) ∧
      (found = true → pos < n.count ∧
        (n.slotD pos).key = key.drop n.prefixLength) ∧
      (found = false → ∀ j, pos ≤ j → j < n.count →
        blt (key.drop n.prefixLength) (n.slotD j).key) := by
  obtain ⟨hs, hh, hkb, hhint⟩ := hw
  have hmemeq : memcmpN key n.prefixBytes (min key.length n.prefixLength)
      = .eq := by
    rw [Nat.min_eq_right hpl]
    refine memcmpN_eq_of_take_eq ?_
    rw [hpre]
    unfold BTreeNode.prefixBytes
    rw [List.take_take, Nat.min_self]
  unfold BTreeNode.lowerBound
  rw [hmemeq]
  rw [if_neg (by omega)]
  obtain ⟨hA, hB, hC, hD⟩ := searchHint_spec n (key.drop n.prefixLength)
    hs hh hkb hhint hqb
  unfold BTreeNode.lbLoop
  obtain ⟨a, b, c, d, e⟩ := lbGo_spec n (key.drop n.prefixLength)
    ((n.searchHint (headOf (key.drop n.prefixLength)) 0 n.count).2
      - (n.searchHint (headOf (key.drop n.prefixLength)) 0 n.count).1)
    hs hh hkb hqb
    (n.searchHint (headOf (key.drop n.prefixLength)) 0 n.count).1
    (n.searchHint (headOf (key.drop n.prefixLength)) 0 n.count).2
    hB hA (le_refl _) hC hD
  refine ⟨_, _, rfl, le_trans b hB, c,
    fun hf => ⟨lt_of_lt_of_le (d hf).1 hB, (d hf).2⟩, e⟩

/-! ### Descent correctness -/

theorem ble_append {p a b : List Nat} :
    ble (p ++ a) (p ++ b) ↔ ble a b := by
  unfold ble
  induction p with
  | nil => simp
  | cons x xs ih => simpa [bcmp] using ih

theorem allBytes_drop {l : List Nat} (m : Nat) (h : allBytes l) :
    allBytes (l.drop m) :=
  fun b hb => h b (List.drop_subset m l hb)

theorem WfT.toWfPage {n : BTreeNode} (h : WfT n) : wfPage n := by
  cases h <;> assumption

theorem WfT.toFencesOk {n : BTreeNode} (h : WfT n) : fencesOk n := by
  cases h <;> assumption

theorem WfT.toFenceBytes {n : BTreeNode} (h : WfT n) : fenceBytes n := by
  cases h <;> assumption

theorem isInner_iff (n : BTreeNode) : n.isInner = true ↔ n.tag = .basicInner := by
  unfold BTreeNode.isInner BTreeNode.isLeaf
  cases n.tag <;> simp

theorem isLeaf_of_not_isInner {n : BTreeNode} (h : ¬ n.isInner = true) :
    n.tag = .basicLeaf := by
  unfold BTreeNode.isInner BTreeNode.isLeaf at h
  cases htag : n.tag
  · rfl
  · rw [htag] at h
    simp at h

/-- A covered key decomposes as the node's prefix followed by its truncated
remainder. -/
theorem cover_key_decomp {n : BTreeNode} {key : List Nat}
    (hf : fencesOk n) (hc : cover n.lowerFence n.upperFence key) :
    key = n.prefixBytes ++ key.drop n.prefixLength := by
  rw [← (cover_prefixOk hf hc).2]
  exact (List.take_append_drop _ _).symm

theorem treeKeysSlots_subset {s : List FatSlot} {sl : FatSlot} (h : sl ∈ s) :
    ∀ k ∈ treeKeysPayload sl.payload, k ∈ treeKeysSlots s := by
  induction s with
  | nil => cases h
  | cons a rest ih =>
    intro k hk
    rcases List.mem_cons.mp h with he | hm
    · subst he
      cases sl with
      | mk ak ap ah =>
        simp only [treeKeysSlots]
        exact List.mem_append_left _ hk
    · cases a with
      | mk ak ap ah =>
        simp only [treeKeysSlots]
        exact List.mem_append_right _ (ih hm k hk)

theorem treeKeys_child_subset {n : BTreeNode} (htag : n.tag = .basicInner)
    {i : Nat} {c : BTreeNode} (hgc : n.getChild i = some c) :
    ∀ k ∈ treeKeys c, k ∈ treeKeys n := by
  cases n with
  | mk t u lf uf su doff pl hnt s =>
    have ht : t = .basicInner := htag
    subst ht
    unfold BTreeNode.getChild at hgc
    intro k hk
    show k ∈ treeKeysSlots s ++ treeKeysOpt u
    by_cases hi : i = (BTreeNode.mk .basicInner u lf uf su doff pl hnt s).count
    · rw [if_pos hi] at hgc
      refine List.mem_append_right _ ?_
      have hu : u = some c := hgc
      rw [hu]
      exact hk
    · rw [if_neg hi] at hgc
      rcases hp : ((BTreeNode.mk .basicInner u lf uf su doff pl hnt s).slotD
          i).payload with v | ct
      · rw [hp] at hgc
        cases hgc
      · rw [hp] at hgc
        have hcc : ct = c := by
          injection hgc
        subst hcc
        by_cases hilt : i < s.length
        · have hmem : (BTreeNode.mk .basicInner u lf uf su doff pl hnt s).slotD
              i ∈ s := slotD_mem _ hilt
          refine List.mem_append_left _ ?_
          have := treeKeysSlots_subset hmem k (by rw [hp]; exact hk)
          exact this
        · exfalso
          have hd : (BTreeNode.mk .basicInner u lf uf su doff pl hnt s).slotD
              i = defaultSlot := by
            unfold BTreeNode.slotD
            exact List.getD_eq_default _ _ (show s.length ≤ i by omega)
          rw [hd] at hp
          cases hp

theorem treeKeys_leaf {n : BTreeNode} (htag : n.tag = .basicLeaf) :
    treeKeys n = n.slots.map fun sl => n.prefixBytes ++ sl.key := by
  cases n with
  | mk t u lf uf su doff pl hnt s =>
    have ht : t = .basicLeaf := htag
    subst ht
    rfl

theorem treeKeys_inner {n : BTreeNode} (htag : n.tag = .basicInner) :
    treeKeys n = treeKeysSlots n.slots ++ treeKeysOpt n.upper := by
  cases n with
  | mk t u lf uf su doff pl hnt s =>
    have ht : t = .basicInner := htag
    subst ht
    rfl

theorem mem_treeKeysSlots {k : List Nat} : ∀ {s : List FatSlot},
    k ∈ treeKeysSlots s → ∃ sl ∈ s, k ∈ treeKeysPayload sl.payload := by
  intro s
  induction s with
  | nil =>
    intro h
    cases h
  | cons a rest ih =>
    intro h
    cases a with
    | mk ak ap ah =>
      simp only [treeKeysSlots] at h
      rcases List.mem_append.mp h with h1 | h2
      · exact ⟨.mk ak ap ah, List.mem_cons_self _ _, h1⟩
      · obtain ⟨sl, hm, hp⟩ := ih h2
        exact ⟨sl, List.mem_cons_of_mem _ hm, hp⟩

/-- Routing soundness of `BTreeNode::descend` (spec §4.4): on a well-formed
tree, a descent for a covered key never reaches the out-of-range throws of
`lowerBound`, and it ends at a well-formed leaf that covers the key, whose
stored keys all belong to the tree. -/
theorem descendPath_spec : ∀ (fuel : Nat) (n : BTreeNode) (key : List Nat),
    WfT n → cover n.lowerFence n.upperFence key → allBytes key →
    descendPath fuel n key ≠ .error .lbAbort ∧
    ∀ path leaf, descendPath fuel n key = .ok (path, leaf) →
      WfT leaf ∧ leaf.tag = .basicLeaf ∧
      cover leaf.lowerFence leaf.upperFence key ∧
      ∀ k ∈ treeKeys leaf, k ∈ treeKeys n := by
  intro fuel
  induction fuel with
  | zero =>
    intro n key _ _ _
    refine ⟨by simp [descendPath], ?_⟩
    intro path leaf h
    simp [descendPath] at h
  | succ fuel ih =>
    intro n key hw hcov hkb
    by_cases hin : n.isInner = true
    case neg =>
      have hleaf := isLeaf_of_not_isInner hin
      have hstep : descendPath (fuel + 1) n key = .ok ([], n) := by
        simp only [descendPath]
        rw [if_neg hin]
      rw [hstep]
      refine ⟨by simp, ?_⟩
      intro path leaf h
      injection h with h
      injection h with h1 h2
      subst h1
      subst h2
      exact ⟨hw, hleaf, hcov, fun k hk => hk⟩
    case pos =>
    have htag := (isInner_iff n).mp hin
    cases hw with
    | leaf _ htagL => rw [htag] at htagL; cases htagL
    | inner _ u htagI hwp hfok hfb hcovS hsne hup hchsome hchwf hchfence hwu hulf huuf =>
    have hprefix := cover_prefixOk hfok hcov
    have hkd := cover_key_decomp hfok hcov
    obtain ⟨pos, found, hlb, hposle, hwin1, hfT, hfF⟩ :=
      lowerBound_spec n key hwp hprefix.1 hprefix.2 (allBytes_drop _ hkb)
    have hstep : descendPath (fuel + 1) n key =
        (match n.getChild pos with
         | none => .error .stuck
         | some c =>
           match descendPath fuel c key with
           | .error e => .error e
           | .ok (path, leaf) => .ok ((n, pos) :: path, leaf)) := by
      simp only [descendPath]
      rw [if_pos hin, hlb]
    -- the child reached by the routing position, and its cover
    have hchild : ∀ c, n.getChild pos = some c →
        WfT c ∧ cover c.lowerFence c.upperFence key := by
      intro c hgc
      by_cases hposc : pos = n.count
      · have hcu : c = u := by
          unfold BTreeNode.getChild at hgc
          rw [if_pos hposc] at hgc
          rw [hup] at hgc
          injection hgc with h
          exact h.symm
        subst hcu
        refine ⟨hwu, ?_, ?_⟩
        · rw [hulf]
          unfold childLF
          by_cases hc0 : n.count = 0
          · rw [if_pos hc0]
            exact hcov.1
          · rw [if_neg hc0]
            right
            unfold BTreeNode.fullKey
            rw [hkd]
            refine blt_append.mpr ?_
            exact hwin1 (n.count - 1) (by omega)
        · rw [huuf]
          exact hcov.2
      · have hposlt : pos < n.count := by omega
        obtain ⟨hclf, hcuf⟩ := hchfence pos c hposlt hgc
        refine ⟨hchwf pos c hposlt hgc, ?_, ?_⟩
        · rw [hclf]
          unfold childLF
          by_cases hp0 : pos = 0
          · rw [if_pos hp0]
            exact hcov.1
          · rw [if_neg hp0]
            right
            unfold BTreeNode.fullKey
            rw [hkd]
            refine blt_append.mpr ?_
            exact hwin1 (pos - 1) (by omega)
        · rw [hcuf]
          right
          unfold BTreeNode.fullKey
          rw [hkd]
          refine ble_append.mpr ?_
          cases found with
          | true =>
            rw [(hfT rfl).2]
            exact ble_refl _
          | false =>
            exact ble_of_blt (hfF rfl pos (le_refl _) hposlt)
    rcases hgc : n.getChild pos with _ | c
    · -- malformed child read: `stuck`, not an abort
      rw [hstep, hgc]
      refine ⟨by simp, ?_⟩
      intro path leaf h
      simp at h
    · obtain ⟨hwc, hcovc⟩ := hchild c hgc
      obtain ⟨hne, hok⟩ := ih c key hwc hcovc hkb
      rcases hrec : descendPath fuel c key with e | pr
      · have h3 : descendPath (fuel + 1) n key = .error e := by
          rw [hstep, hgc]
          simp only [hrec]
        rw [h3]
        refine ⟨?_, ?_⟩
        · intro hcontra
          injection hcontra with he
          subst he
          exact hne hrec
        · intro path leaf h
          cases h
      · rcases pr with ⟨path0, leaf0⟩
        have h3 : descendPath (fuel + 1) n key
            = .ok ((n, pos) :: path0, leaf0) := by
          rw [hstep, hgc]
          simp only [hrec]
        rw [h3]
        refine ⟨by simp, ?_⟩
        intro path leaf h
        injection h with h
        injection h with h1 h2
        subst h2
        obtain ⟨hwl, htl, hcl, hsub⟩ := hok path0 leaf0 hrec
        exact ⟨hwl, htl, hcl, fun k hk =>
          treeKeys_child_subset htagI hgc k (hsub k hk)⟩

/-- C5 helper: an exact `lowerBound` match inside a well-formed leaf that
covers the key means the key is stored in the leaf. -/
theorem found_mem_treeKeys {leaf : BTreeNode} {key : List Nat} {pos : Nat}
    (htag : leaf.tag = .basicLeaf)
    (hfok : fencesOk leaf) (hcov : cover leaf.lowerFence leaf.upperFence key)
    (hposlt : pos < leaf.count)
    (hkeq : (leaf.slotD pos).key = key.drop leaf.prefixLength) :
    key ∈ treeKeys leaf := by
  rw [treeKeys_leaf htag]
  refine List.mem_map.mpr ⟨leaf.slotD pos, slotD_mem _ hposlt, ?_⟩
  rw [hkeq]
  exact (cover_key_decomp hfok hcov).symm

/-- The empty tree is well formed. -/
theorem wfT_emptyTree : WfT emptyTree := by
  refine WfT.leaf _ rfl ⟨?_, ?_, ?_, ?_⟩ rfl ⟨?_, ?_⟩ ?_ ?_
  · exact List.Pairwise.nil
  · intro sl h; cases h
  · intro sl h; cases h
  · exact ⟨by decide, by decide⟩
  · intro b h; cases h
  · intro b h; cases h
  · intro sl h; cases h
  · intro sl h; cases h

/-- C5: `BTree::remove` of a key absent from a well-formed tree that covers
it returns `false` and hands back the tree unchanged (the spec's
tree-equivalence check; fuel exhaustion surfaces as an error, never as a
mutated tree). -/
theorem c5_remove_absent_unchanged (fuel : Nat) (root : BTreeNode)
    (key : List Nat) (hw : WfT root)
    (hcov : cover root.lowerFence root.upperFence key) (hkb : allBytes key)
    (habs : key ∉ treeKeys root) :
    ∀ res, BTree.remove fuel root key = .ok res → res = (false, root) := by
  intro res hres
  rcases hd : descendPath fuel root key with e | pr
  · have hval : BTree.remove fuel root key = .error e := by
      unfold BTree.remove
      rw [hd]
    rw [hval] at hres
    cases hres
  · rcases pr with ⟨path, leaf⟩
    obtain ⟨hne, hok⟩ := descendPath_spec fuel root key hw hcov hkb
    obtain ⟨hwl, htl, hcl, hsub⟩ := hok path leaf hd
    have hprefix := cover_prefixOk hwl.toFencesOk hcl
    obtain ⟨pos, found, hlb, hposle, hwin1, hfT, hfF⟩ :=
      lowerBound_spec leaf key hwl.toWfPage hprefix.1 hprefix.2
        (allBytes_drop _ hkb)
    cases found with
    | true =>
      exfalso
      obtain ⟨hplt, hkeq⟩ := hfT rfl
      exact habs (hsub key (found_mem_treeKeys htl hwl.toFencesOk hcl hplt hkeq))
    | false =>
      have hrm : leaf.remove key = .ok (false, leaf) := by
        unfold BTreeNode.remove
        rw [hlb]
        rfl
      have hval : BTree.remove fuel root key = .ok (false, root) := by
        unfold BTree.remove
        rw [hd]
        simp only [hrm]
      rw [hval] at hres
      injection hres with h
      exact h.symm

theorem c5_remove_absent_unchanged_witness :
    BTree.remove 1 emptyTree [1] = .ok (false, emptyTree) ∧
    ((false : Bool), emptyTree) = (false, emptyTree) :=
  ⟨by rfl, c5_remove_absent_unchanged 1 emptyTree [1] wfT_emptyTree
    ⟨Or.inl rfl, Or.inl rfl⟩ (by decide) (by decide) (false, emptyTree)
    (by rfl)⟩

/-! ### Page-operation invariant preservation -/

@[simp] theorem BTreeNode.slots_setHint (n : BTreeNode) (h : List Nat) :
    (n.setHint h).slots = n.slots := rfl

@[simp] theorem BTreeNode.slots_updateHint (n : BTreeNode) (i : Nat) :
    (n.updateHint i).slots = n.slots := rfl

@[simp] theorem BTreeNode.tag_updateHint (n : BTreeNode) (i : Nat) :
    (n.updateHint i).tag = n.tag := rfl

@[simp] theorem BTreeNode.upper_updateHint (n : BTreeNode) (i : Nat) :
    (n.updateHint i).upper = n.upper := rfl

@[simp] theorem BTreeNode.lowerFence_updateHint (n : BTreeNode) (i : Nat) :
    (n.updateHint i).lowerFence = n.lowerFence := rfl

@[simp] theorem BTreeNode.upperFence_updateHint (n : BTreeNode) (i : Nat) :
    (n.updateHint i).upperFence = n.upperFence := rfl

@[simp] theorem BTreeNode.prefixLength_updateHint (n : BTreeNode) (i : Nat) :
    (n.updateHint i).prefixLength = n.prefixLength := rfl

@[simp] theorem BTreeNode.slots_insertKV (n : BTreeNode) (i : Nat)
    (k : List Nat) (p : Payload) :
    (n.insertKV i k p).slots = n.slots.insertIdx i (mkSlot k p) := rfl

@[simp] theorem BTreeNode.tag_insertKV (n : BTreeNode) (i : Nat)
    (k : List Nat) (p : Payload) : (n.insertKV i k p).tag = n.tag := rfl

@[simp] theorem BTreeNode.upper_insertKV (n : BTreeNode) (i : Nat)
    (k : List Nat) (p : Payload) : (n.insertKV i k p).upper = n.upper := rfl

@[simp] theorem BTreeNode.lowerFence_insertKV (n : BTreeNode) (i : Nat)
    (k : List Nat) (p : Payload) :
    (n.insertKV i k p).lowerFence = n.lowerFence := rfl

@[simp] theorem BTreeNode.upperFence_insertKV (n : BTreeNode) (i : Nat)
    (k : List Nat) (p : Payload) :
    (n.insertKV i k p).upperFence = n.upperFence := rfl

@[simp] theorem BTreeNode.prefixLength_insertKV (n : BTreeNode) (i : Nat)
    (k : List Nat) (p : Payload) :
    (n.insertKV i k p).prefixLength = n.prefixLength := rfl

@[simp] theorem BTreeNode.hint_insertKV (n : BTreeNode) (i : Nat)
    (k : List Nat) (p : Payload) : (n.insertKV i k p).hint = n.hint := rfl

@[simp] theorem BTreeNode.upperFence_setFences (n : BTreeNode)
    (lk uk : List Nat) : (n.setFences lk uk).upperFence = uk := rfl

@[simp] theorem BTreeNode.tag_setFences (n : BTreeNode) (lk uk : List Nat) :
    (n.setFences lk uk).tag = n.tag := rfl

@[simp] theorem BTreeNode.upperFence_copyKeyValueRange (src dst : BTreeNode)
    (srcSlot srcCount : Nat) :
    (copyKeyValueRange src dst srcSlot srcCount).upperFence
      = dst.upperFence := rfl

@[simp] theorem BTreeNode.tag_setUpper (n : BTreeNode) (u : Option BTreeNode) :
    (n.setUpper u).tag = n.tag := rfl

@[simp] theorem BTreeNode.lowerFence_setUpper (n : BTreeNode)
    (u : Option BTreeNode) : (n.setUpper u).lowerFence = n.lowerFence := rfl

@[simp] theorem BTreeNode.upperFence_setUpper (n : BTreeNode)
    (u : Option BTreeNode) : (n.setUpper u).upperFence = n.upperFence := rfl

@[simp] theorem BTreeNode.prefixLength_setUpper (n : BTreeNode)
    (u : Option BTreeNode) : (n.setUpper u).prefixLength = n.prefixLength := rfl

@[simp] theorem newNode_slots (t : NodeTag) : (newNode t).slots = [] := rfl

@[simp] theorem newNode_tag (t : NodeTag) : (newNode t).tag = t := rfl

/-- `spaceAcc` of a node built by copying a slot range into a fresh fenced
page (the shape of `compactify`'s scratch node and of both split
siblings). -/
theorem spaceAcc_copy_fresh (src : BTreeNode) (t : NodeTag)
    (a b : List Nat) (s c : Nat) (u : Option BTreeNode) :
    spaceAcc (((copyKeyValueRange src ((newNode t).setFences a b) s c).setUpper
      u).makeHint) := by
  unfold spaceAcc
  simp only [BTreeNode.spaceUsed_makeHint, BTreeNode.spaceUsed_setUpper,
    BTreeNode.spaceUsed_copyKeyValueRange, BTreeNode.spaceUsed_setFences,
    spaceUsed_newNode, BTreeNode.slots_makeHint, BTreeNode.slots_setUpper,
    BTreeNode.slots_copyKeyValueRange, BTreeNode.slots_setFences,
    BTreeNode.lowerFence_makeHint, BTreeNode.lowerFence_setUpper,
    BTreeNode.lowerFence_copyKeyValueRange, BTreeNode.lowerFence_setFences,
    BTreeNode.upperFence_makeHint, BTreeNode.upperFence_setUpper,
    BTreeNode.upperFence_copyKeyValueRange, BTreeNode.upperFence_setFences,
    newNode_slots]
  rw [List.nil_append, List.map_map]
  have hm : (((src.slots.drop s).take c).map
        ((fun sl => sl.key.length + sl.payload.len) ∘
          fun sl => mkSlot (copiedKey src ((newNode t).setFences a b) sl)
            sl.payload))
      = ((src.slots.drop s).take c).map
          fun sl => kvSpace (copiedKey src ((newNode t).setFences a b) sl)
            sl.payload := rfl
  rw [hm]
  omega

/-- Variant of `spaceAcc_copy_fresh` without the `setUpper` step (leaf
siblings). -/
theorem spaceAcc_copy_fresh2 (src : BTreeNode) (t : NodeTag)
    (a b : List Nat) (s c : Nat) :
    spaceAcc ((copyKeyValueRange src
      ((newNode t).setFences a b) s c).makeHint) := by
  have h := spaceAcc_copy_fresh src t a b s c
    (copyKeyValueRange src ((newNode t).setFences a b) s c).upper
  unfold spaceAcc at h ⊢
  exact h

theorem hint_makeHint (n : BTreeNode) : n.makeHint.hint
    = (List.range hintCount).map
        fun i => (n.slotD (n.count / (hintCount + 1) * (i + 1))).head := rfl

/-- `makeHint` establishes the hint invariant on any node. -/
theorem hintOk_makeHint (n : BTreeNode) : hintOk n.makeHint := by
  constructor
  · rw [hint_makeHint]
    simp
  · intro i hi
    rw [hint_makeHint]
    rw [List.getD_eq_getElem?_getD, List.getElem?_map, List.getElem?_range hi]
    simp only [Option.map_some', Option.getD_some]
    rfl

theorem map_insertIdx {α β : Type} (f : α → β) (l : List α) (p : Nat) (x : α) :
    (l.insertIdx p x).map f = (l.map f).insertIdx p (f x) := by
  induction l generalizing p with
  | nil => cases p <;> rfl
  | cons a l ih =>
    cases p with
    | zero => rfl
    | succ p =>
      show f a :: (l.insertIdx p x).map f = f a :: (l.map f).insertIdx p (f x)
      rw [ih p]

theorem getD_insertIdx_lt {α : Type} {l : List α} {p j : Nat} (x d : α)
    (hp : p ≤ l.length) (hj : j < p) :
    (l.insertIdx p x).getD j d = l.getD j d := by
  have hjl : j < l.length := lt_of_lt_of_le hj hp
  rw [List.getD_eq_getElem?_getD, List.getD_eq_getElem?_getD,
    List.getElem?_eq_getElem hjl, List.getElem?_eq_getElem
      (by rw [List.length_insertIdx _ _ hp]; omega)]
  rw [List.getElem_insertIdx_of_lt l x p j hj hjl]

/-- Inserting an element at a position whose left window is below it and
whose right window is above it preserves pairwise sortedness. -/
theorem pairwise_insertIdx {α : Type} {R : α → α → Prop} :
    ∀ (l : List α) (p : Nat) (x : α), p ≤ l.length →
    l.Pairwise R →
    (∀ y ∈ l.take p, R y x) → (∀ y ∈ l.drop p, R x y) →
    (l.insertIdx p x).Pairwise R := by
  intro l
  induction l with
  | nil =>
    intro p x hp _ _ hright
    have hp0 : p = 0 := by simpa using hp
    subst hp0
    simp
  | cons a l ih =>
    intro p x hp hpw hleft hright
    cases p with
    | zero =>
      show (x :: a :: l).Pairwise R
      refine List.pairwise_cons.mpr ⟨?_, hpw⟩
      intro y hy
      exact hright y (by simpa using hy)
    | succ p =>
      show (a :: l.insertIdx p x).Pairwise R
      obtain ⟨ha, hpl⟩ := List.pairwise_cons.mp hpw
      have hp' : p ≤ l.length := by simpa using hp
      refine List.pairwise_cons.mpr ⟨?_, ?_⟩
      · intro y hy
        rcases (List.mem_insertIdx hp').mp hy with he | hm
        · subst he
          exact hleft a (by simp)
        · exact ha y hm
      · refine ih p x hp' hpl ?_ ?_
        · intro y hy
          exact hleft y (by simpa using List.mem_cons_of_mem a hy)
        · intro y hy
          exact hright y hy

/-- Copying into a same-fence scratch node keeps every truncated key. -/
theorem copiedKey_self {n : BTreeNode} (hf : fencesOk n) (sl : FatSlot) :
    copiedKey n ((newNode n.tag).setFences n.lowerFence n.upperFence) sl
      = sl.key := by
  unfold copiedKey
  rw [BTreeNode.prefixLength_setFences, ← hf]
  rw [if_pos (le_refl _)]
  simp

theorem compactify_slots {n : BTreeNode} (hf : fencesOk n) :
    n.compactify.slots = n.slots.map fun sl => mkSlot sl.key sl.payload := by
  unfold BTreeNode.compactify
  simp only [BTreeNode.slots_makeHint, BTreeNode.slots_setUpper,
    BTreeNode.slots_copyKeyValueRange, BTreeNode.slots_setFences, newNode_slots,
    List.nil_append, List.drop_zero]
  have htake : List.take n.count n.slots = n.slots :=
    List.take_of_length_le (le_refl _)
  rw [htake]
  refine List.map_congr_left ?_
  intro sl _
  rw [copiedKey_self hf sl]

@[simp] theorem compactify_tag (n : BTreeNode) : n.compactify.tag = n.tag := rfl

@[simp] theorem compactify_upper (n : BTreeNode) :
    n.compactify.upper = n.upper := rfl

@[simp] theorem compactify_lowerFence (n : BTreeNode) :
    n.compactify.lowerFence = n.lowerFence := rfl

@[simp] theorem compactify_upperFence (n : BTreeNode) :
    n.compactify.upperFence = n.upperFence := rfl

theorem compactify_fencesOk (n : BTreeNode) : fencesOk n.compactify := rfl

theorem compactify_prefixLength {n : BTreeNode} (hf : fencesOk n) :
    n.compactify.prefixLength = n.prefixLength := hf.symm

theorem compactify_keys {n : BTreeNode} (hf : fencesOk n) :
    n.compactify.slots.map FatSlot.key = n.slots.map FatSlot.key := by
  rw [compactify_slots hf, List.map_map]
  rfl

theorem compactify_payloads {n : BTreeNode} (hf : fencesOk n) :
    n.compactify.slots.map FatSlot.payload = n.slots.map FatSlot.payload := by
  rw [compactify_slots hf, List.map_map]
  rfl

/-- `compactify` preserves the page invariants. -/
theorem compactify_wfPage {n : BTreeNode} (hw : wfPage n) (hf : fencesOk n) :
    wfPage n.compactify := by
  obtain ⟨hs, hh, hkb, _⟩ := hw
  refine ⟨?_, ?_, ?_, hintOk_makeHint _⟩
  · show n.compactify.slots.Pairwise _
    rw [compactify_slots hf, List.pairwise_map]
    exact hs
  · intro sl hmem
    rw [compactify_slots hf] at hmem
    obtain ⟨sl0, _, heq⟩ := List.mem_map.mp hmem
    subst heq
    rfl
  · intro sl hmem
    rw [compactify_slots hf] at hmem
    obtain ⟨sl0, hm0, heq⟩ := List.mem_map.mp hmem
    subst heq
    exact hkb sl0 hm0

theorem hint_updateHint (n : BTreeNode) (slotId : Nat) :
    (n.updateHint slotId).hint = (List.range hintCount).map fun i =>
      if i < (if n.count > hintCount * 2 + 1 ∧
          (n.count - 1) / (hintCount + 1) = n.count / (hintCount + 1) ∧
          slotId / (n.count / (hintCount + 1)) > 1 then
        slotId / (n.count / (hintCount + 1)) - 1 else 0) then
        n.hint.getD i 0
      else (n.slotD (n.count / (hintCount + 1) * (i + 1))).head := rfl

/-- `updateHint` re-establishes the hint invariant provided the entries it
keeps already match the fresh samples. -/
theorem hintOk_updateHint (n : BTreeNode) (slotId : Nat)
    (h : ∀ i < hintCount,
      n.count > hintCount * 2 + 1 →
      (n.count - 1) / (hintCount + 1) = n.count / (hintCount + 1) →
      slotId / (n.count / (hintCount + 1)) > 1 →
      i < slotId / (n.count / (hintCount + 1)) - 1 →
      n.hint.getD i 0 = (n.slotD (n.count / (hintCount + 1) * (i + 1))).head) :
    hintOk (n.updateHint slotId) := by
  constructor
  · rw [hint_updateHint]
    simp
  · intro i hi
    rw [hint_updateHint]
    rw [List.getD_eq_getElem?_getD, List.getElem?_map, List.getElem?_range hi]
    simp only [Option.map_some', Option.getD_some]
    have hrhs : ((n.updateHint slotId).slotD
        ((n.updateHint slotId).count / (hintCount + 1) * (i + 1))).head
        = (n.slotD (n.count / (hintCount + 1) * (i + 1))).head := rfl
    rw [hrhs]
    by_cases hcond : n.count > hintCount * 2 + 1 ∧
        (n.count - 1) / (hintCount + 1) = n.count / (hintCount + 1) ∧
        slotId / (n.count / (hintCount + 1)) > 1
    · rw [if_pos hcond]
      by_cases hib : i < slotId / (n.count / (hintCount + 1)) - 1
      · rw [if_pos hib]
        exact h i hi hcond.1 hcond.2.1 hcond.2.2 hib
      · rw [if_neg hib]
    · rw [if_neg hcond]
      rw [if_neg (by omega)]

/-- The node built by the insert path of `BasicNode::insert` — slot shift,
`storeKeyValue`, `updateHint` — preserves every page invariant and carries
exactly the old entries plus the new one at the `lowerBound` position. -/
theorem inserted_node_spec (n1 n2 : BTreeNode) (key2 : List Nat)
    (payload : Payload) (slotId : Nat)
    (hn2 : n2 = (n1.insertKV slotId key2 payload).updateHint slotId)
    (hw1 : wfPage n1)
    (hsle : slotId ≤ n1.count)
    (hwin1 : ∀ j < slotId, blt (n1.slotD j).key key2)
    (hwin2 : ∀ j, slotId ≤ j → j < n1.count → blt key2 (n1.slotD j).key)
    (hqb : allBytes key2) :
    n2.tag = n1.tag ∧ n2.upper = n1.upper ∧ n2.lowerFence = n1.lowerFence ∧
    n2.upperFence = n1.upperFence ∧ n2.prefixLength = n1.prefixLength ∧
    n2.slots.map FatSlot.key
      = (n1.slots.map FatSlot.key).insertIdx slotId key2 ∧
    n2.slots.map FatSlot.payload
      = (n1.slots.map FatSlot.payload).insertIdx slotId payload ∧
    wfPage n2 := by
  obtain ⟨hs, hh, hkb, hhint⟩ := hw1
  subst hn2
  refine ⟨rfl, rfl, rfl, rfl, rfl, ?_, ?_, ?_⟩
  · simp only [BTreeNode.slots_updateHint, BTreeNode.slots_insertKV]
    rw [map_insertIdx]
    rfl
  · simp only [BTreeNode.slots_updateHint, BTreeNode.slots_insertKV]
    rw [map_insertIdx]
    rfl
  · refine ⟨?_, ?_, ?_, ?_⟩
    · show (n1.slots.insertIdx slotId (mkSlot key2 payload)).Pairwise _
      refine pairwise_insertIdx _ slotId _ hsle hs ?_ ?_
      · intro y hy
        obtain ⟨j, hj, hyj⟩ := List.mem_iff_getElem.mp hy
        have hjlen : j < n1.slots.length := by
          have := hj
          rw [List.length_take] at this
          omega
        have hjlt : j < slotId := by
          have := hj
          rw [List.length_take] at this
          omega
        have hyv : y = n1.slots[j] := by
          rw [← hyj]
          exact List.getElem_take _
        show blt y.key (mkSlot key2 payload).key
        rw [mkSlot_key, hyv, ← slotD_eq_getElem n1 hjlen]
        exact hwin1 j hjlt
      · intro y hy
        obtain ⟨j, hj, hyj⟩ := List.mem_iff_getElem.mp hy
        have hjlen : slotId + j < n1.slots.length := by
          have := hj
          rw [List.length_drop] at this
          omega
        have hyv : y = n1.slots[slotId + j] := by
          rw [← hyj]
          exact (List.getElem_drop _)
        show blt (mkSlot key2 payload).key y.key
        rw [mkSlot_key, hyv, ← slotD_eq_getElem n1 hjlen]
        exact hwin2 (slotId + j) (by omega) hjlen
    · intro sl hmem
      have hmem2 : sl ∈ n1.slots.insertIdx slotId (mkSlot key2 payload) := hmem
      rcases (List.mem_insertIdx hsle).mp hmem2 with he | hm
      · subst he
        rfl
      · exact hh sl hm
    · intro sl hmem
      have hmem2 : sl ∈ n1.slots.insertIdx slotId (mkSlot key2 payload) := hmem
      rcases (List.mem_insertIdx hsle).mp hmem2 with he | hm
      · subst he
        exact hqb
      · exact hkb sl hm
    · refine hintOk_updateHint _ _ ?_
      intro i hi hc1 hc2 hc3 hib
      have hmc : (n1.insertKV slotId key2 payload).count = n1.count + 1 := by
        show (n1.slots.insertIdx slotId _).length = n1.slots.length + 1
        exact List.length_insertIdx _ _ hsle
      rw [hmc] at hc1 hc2 hc3 hib ⊢
      simp only [Nat.add_sub_cancel] at hc2
      have hD0 : 0 < (n1.count + 1) / (hintCount + 1) := by
        rcases Nat.eq_zero_or_pos ((n1.count + 1) / (hintCount + 1)) with hz | hp
        · rw [hz] at hc3
          simp [Nat.div_zero] at hc3
        · exact hp
      have hlt : (n1.count + 1) / (hintCount + 1) * (i + 1) < slotId := by
        set D := (n1.count + 1) / (hintCount + 1) with hDdef
        have h1 : i + 1 ≤ slotId / D - 1 := by omega
        have h2 : D * (i + 1) ≤ D * (slotId / D - 1) :=
          Nat.mul_le_mul_left _ h1
        have h4 : D * (slotId / D - 1) + D = D * (slotId / D) := by
          rw [← Nat.mul_succ]
          congr 1
          omega
        have h5 : D * (slotId / D) = slotId / D * D := Nat.mul_comm _ _
        have h6 : slotId / D * D ≤ slotId := Nat.div_mul_le_self _ _
        omega
      have hhintEq : (n1.insertKV slotId key2 payload).hint = n1.hint := rfl
      rw [hhintEq]
      have hslEq : (n1.insertKV slotId key2 payload).slotD
          ((n1.count + 1) / (hintCount + 1) * (i + 1))
          = n1.slotD ((n1.count + 1) / (hintCount + 1) * (i + 1)) := by
        show (n1.slots.insertIdx slotId _).getD _ _ = _
        exact getD_insertIdx_lt _ _ hsle hlt
      rw [hslEq]
      have := hhint.2 i hi
      rw [hc2] at this
      exact this

theorem requestSpaceFor_cases (n : BTreeNode) (need : Nat) :
    n.requestSpaceFor need = (false, n) ∨ n.requestSpaceFor need = (true, n) ∨
    n.requestSpaceFor need = (true, n.compactify) := by
  unfold BTreeNode.requestSpaceFor
  by_cases h1 : need ≤ n.freeSpace
  · rw [if_pos h1]
    right; left; rfl
  · rw [if_neg h1]
    by_cases h2 : need ≤ n.freeSpaceAfterCompaction
    · rw [if_pos h2]
      right; right; rfl
    · rw [if_neg h2]
      left; rfl

theorem compactify_count (n : BTreeNode) (hf : fencesOk n) :
    n.compactify.count = n.count := by
  show n.compactify.slots.length = n.slots.length
  rw [compactify_slots hf, List.length_map]

theorem compactify_prefixBytes {n : BTreeNode} (hf : fencesOk n) :
    n.compactify.prefixBytes = n.prefixBytes := by
  unfold BTreeNode.prefixBytes
  rw [compactify_lowerFence, compactify_prefixLength hf]

/-- `BasicNode::insert` of a key absent from a well-formed page carrying the
page prefix: either the space check fails and nothing changes, or the result
page holds exactly the old entries plus the new one at the ordered position,
and satisfies every page invariant. -/
theorem insert_spec (n : BTreeNode) (key : List Nat) (payload : Payload)
    (hw : wfPage n) (hf : fencesOk n)
    (hpl : n.prefixLength ≤ key.length)
    (hpre : key.take n.prefixLength = n.prefixBytes)
    (hqb : allBytes (key.drop n.prefixLength))
    (habs : ∀ sl ∈ n.slots, sl.key ≠ key.drop n.prefixLength) :
    n.insert key payload = .ok (false, n, 0) ∨
    ∃ n2 slotId, n.insert key payload = .ok (true, n2, slotId) ∧
      slotId ≤ n.count ∧
      n2.tag = n.tag ∧ n2.upper = n.upper ∧ n2.lowerFence = n.lowerFence ∧
      n2.upperFence = n.upperFence ∧ n2.prefixLength = n.prefixLength ∧
      n2.slots.map FatSlot.key
        = (n.slots.map FatSlot.key).insertIdx slotId (key.drop n.prefixLength) ∧
      n2.slots.map FatSlot.payload
        = (n.slots.map FatSlot.payload).insertIdx slotId payload ∧
      wfPage n2 ∧ fencesOk n2 := by
  rcases requestSpaceFor_cases n (n.spaceNeeded key.length payload.len)
    with hr | hr | hr
  · left
    unfold BTreeNode.insert
    rw [hr]
  · -- space available without compaction
    obtain ⟨pos, found, hlb, hposle, hwin1, hfT, hfF⟩ :=
      lowerBound_spec n key hw hpl hpre hqb
    have hfound : found = false := by
      cases found with
      | false => rfl
      | true =>
        obtain ⟨hplt, hkeq⟩ := hfT rfl
        exact absurd hkeq (habs _ (slotD_mem n hplt))
    subst hfound
    obtain ⟨h1, h2, h3, h4, h5, h6, h7, h8⟩ := inserted_node_spec n
      ((n.insertKV pos (key.drop n.prefixLength) payload).updateHint pos)
      (key.drop n.prefixLength) payload pos rfl hw hposle hwin1
      (fun j hj1 hj2 => hfF rfl j hj1 hj2) hqb
    right
    refine ⟨_, pos, ?_, hposle, h1, h2, h3, h4, h5, h6, h7, h8, ?_⟩
    · unfold BTreeNode.insert
      rw [hr]
      simp only [hlb]
    · unfold fencesOk
      rw [h5, h3, h4]
      exact hf
  · -- space available after compaction
    have hw1 : wfPage n.compactify := compactify_wfPage hw hf
    have hpl1 : n.compactify.prefixLength ≤ key.length := by
      rw [compactify_prefixLength hf]
      exact hpl
    have hpre1 : key.take n.compactify.prefixLength
        = n.compactify.prefixBytes := by
      rw [compactify_prefixLength hf, compactify_prefixBytes hf]
      exact hpre
    have hqb1 : allBytes (key.drop n.compactify.prefixLength) := by
      rw [compactify_prefixLength hf]
      exact hqb
    have habs1 : ∀ sl ∈ n.compactify.slots,
        sl.key ≠ key.drop n.compactify.prefixLength := by
      intro sl hmem
      rw [compactify_prefixLength hf]
      rw [compactify_slots hf] at hmem
      obtain ⟨sl0, hm0, heq⟩ := List.mem_map.mp hmem
      subst heq
      rw [mkSlot_key]
      exact habs sl0 hm0
    obtain ⟨pos, found, hlb, hposle, hwin1, hfT, hfF⟩ :=
      lowerBound_spec n.compactify key hw1 hpl1 hpre1 hqb1
    have hfound : found = false := by
      cases found with
      | false => rfl
      | true =>
        obtain ⟨hplt, hkeq⟩ := hfT rfl
        exact absurd hkeq (habs1 _ (slotD_mem n.compactify hplt))
    subst hfound
    obtain ⟨h1, h2, h3, h4, h5, h6, h7, h8⟩ := inserted_node_spec n.compactify
      ((n.compactify.insertKV pos (key.drop n.compactify.prefixLength)
        payload).updateHint pos)
      (key.drop n.compactify.prefixLength) payload pos rfl hw1 hposle hwin1
      (fun j hj1 hj2 => hfF rfl j hj1 hj2) hqb1
    right
    refine ⟨_, pos, ?_, ?_, ?_, ?_, ?_, ?_, ?_, ?_, ?_, h8, ?_⟩
    · unfold BTreeNode.insert
      rw [hr]
      simp only [hlb]
    · rw [← compactify_count n hf]
      exact hposle
    · rw [h1, compactify_tag]
    · rw [h2, compactify_upper]
    · rw [h3, compactify_lowerFence]
    · rw [h4, compactify_upperFence]
    · rw [h5, compactify_prefixLength hf]
    · rw [h6, compactify_keys hf, compactify_prefixLength hf]
    · rw [h7, compactify_payloads hf]
    · unfold fencesOk
      rw [h5, h3, h4, compactify_lowerFence, compactify_upperFence]
      exact compactify_prefixLength hf ▸ hf

/-! ### Ordering preservation of the page operations -/

theorem ordInv_of_sorted {n : BTreeNode} (h : sortedNode n) : ordInv n :=
  fun i hi => sorted_lt h (Nat.lt_succ_self i) hi

/-- Sortedness in terms of the stored entries' full keys. -/
theorem sortedNode_iff_fullKeys (m : BTreeNode) :
    sortedNode m ↔ (m.slots.map m.fullKey).Pairwise blt := by
  rw [List.pairwise_map]
  unfold sortedNode
  constructor
  · refine fun h => h.imp ?_
    intro a b hab
    exact blt_append.mpr hab
  · refine fun h => h.imp ?_
    intro a b hab
    exact blt_append.mp hab

theorem sorted_removeSlot {n : BTreeNode} (h : sortedNode n) (i : Nat) :
    sortedNode (n.removeSlot i) := by
  show (n.slots.eraseIdx i).Pairwise _
  exact List.Pairwise.sublist (List.eraseIdx_sublist n.slots i) h

theorem pairwise_fullKeys_sublist {n : BTreeNode} (hs : sortedNode n)
    {s : List FatSlot} (hsub : s.Sublist n.slots) :
    (s.map n.fullKey).Pairwise blt :=
  List.Pairwise.sublist (hsub.map n.fullKey)
    ((sortedNode_iff_fullKeys n).mp hs)

/-- The structural content of `BasicNode::splitNode`: tags, fences, prefix
and hint invariants, slot ranges and `upper` wiring of both siblings, and
the parent-insert step. -/
theorem splitNode_parts (n parent l r p2 : BTreeNode) (ipos : Nat)
    (hcnt : n.findSeparator.slot + 1 ≤ n.count)
    (hsplit : n.splitNode parent = .ok (some (l, r, p2, ipos))) :
    l.tag = n.tag ∧ r.tag = n.tag ∧
    l.lowerFence = n.lowerFence ∧ l.upperFence = n.getSep n.findSeparator ∧
    r.lowerFence = n.getSep n.findSeparator ∧ r.upperFence = n.upperFence ∧
    fencesOk l ∧ fencesOk r ∧ hintOk l ∧ hintOk r ∧
    l.prefixLength
      = commonPrefixLen n.lowerFence (n.getSep n.findSeparator) ∧
    r.prefixLength
      = commonPrefixLen (n.getSep n.findSeparator) n.upperFence ∧
    l.slots = (splitRangeL n).map (fun sl => mkSlot (copiedKey n
      ((newNode n.tag).setFences n.lowerFence (n.getSep n.findSeparator)) sl)
      sl.payload) ∧
    r.slots = (splitRangeR n).map (fun sl => mkSlot (copiedKey n
      ((newNode n.tag).setFences (n.getSep n.findSeparator) n.upperFence) sl)
      sl.payload) ∧
    (n.isLeaf = true → l.upper = none ∧ r.upper = none) ∧
    (n.isLeaf = false → l.upper = n.getChild n.findSeparator.slot ∧
      r.upper = n.upper) ∧
    spaceAcc l ∧ spaceAcc r ∧
    ∃ parent1 b, (parent1 = parent ∨ parent1 = parent.compactify) ∧
      parent.requestSpaceFor (parent.spaceNeededInner n.findSeparator.length)
        = (true, parent1) ∧
      parent1.insertInner (n.getSep n.findSeparator) l = .ok (b, p2, ipos) := by
  unfold BTreeNode.splitNode at hsplit
  simp only [] at hsplit
  rcases hreq : parent.requestSpaceFor
      (parent.spaceNeededInner n.findSeparator.length) with ⟨b0, parent1⟩
  rw [hreq] at hsplit
  have hp1 : parent1 = parent ∨ parent1 = parent.compactify := by
    rcases requestSpaceFor_cases parent
        (parent.spaceNeededInner n.findSeparator.length) with h | h | h
    · rw [hreq] at h
      exact Or.inl (congrArg Prod.snd h)
    · rw [hreq] at h
      exact Or.inl (congrArg Prod.snd h)
    · rw [hreq] at h
      exact Or.inr (congrArg Prod.snd h)
  cases b0 with
  | false => simp at hsplit
  | true =>
    simp only at hsplit
    by_cases hleaf : n.isLeaf = true
    · rw [if_pos hleaf] at hsplit
      rcases hins : parent1.insertInner (n.getSep n.findSeparator)
          (copyKeyValueRange n ((newNode n.tag).setFences n.lowerFence
            (n.getSep n.findSeparator)) 0 (n.findSeparator.slot + 1)).makeHint
        with _ | ⟨bx, p2x, iposx⟩
      · rw [hins] at hsplit
        simp at hsplit
      · rw [hins] at hsplit
        simp only [Except.ok.injEq, Option.some.injEq, Prod.mk.injEq] at hsplit
        obtain ⟨hle, hre, hp2e, hipose⟩ := hsplit
        have hc2 : n.findSeparator.slot + 1 ≤ n.slots.length := hcnt
        have hccnt : (copyKeyValueRange n ((newNode n.tag).setFences n.lowerFence
            (n.getSep n.findSeparator)) 0 (n.findSeparator.slot + 1)).count
              = n.findSeparator.slot + 1 := by
          rw [BTreeNode.count]
          simp only [BTreeNode.slots_copyKeyValueRange, BTreeNode.slots_setFences]
          rw [show (newNode n.tag).slots = [] from rfl, List.nil_append,
            List.length_map, List.drop_zero, List.length_take]
          omega
        have hLslots : l.slots = (splitRangeL n).map
            (fun sl => mkSlot (copiedKey n ((newNode n.tag).setFences n.lowerFence
              (n.getSep n.findSeparator)) sl) sl.payload) := by
          rw [← hle]
          simp [splitRangeL, hleaf, List.drop_zero, newNode]
        have hRslots : r.slots = (splitRangeR n).map
            (fun sl => mkSlot (copiedKey n ((newNode n.tag).setFences
              (n.getSep n.findSeparator) n.upperFence) sl) sl.payload) := by
          rw [← hre]
          simp only [BTreeNode.slots_makeHint, BTreeNode.slots_copyKeyValueRange,
            BTreeNode.slots_setFences]
          rw [hccnt]
          simp only [splitRangeR]
          rw [show (newNode n.tag).slots = [] from rfl, List.nil_append,
            List.take_of_length_le
              (by rw [List.length_drop, BTreeNode.count] <;> omega)]
        refine ⟨by rw [← hle]; try rfl, by rw [← hre]; try rfl,
          by rw [← hle]; try rfl, by rw [← hle]; try rfl,
          by rw [← hre]; try rfl, by rw [← hre]; try rfl,
          by rw [← hle]; try rfl, by rw [← hre]; try rfl,
          by rw [← hle]; exact hintOk_makeHint _,
          by rw [← hre]; exact hintOk_makeHint _,
          by rw [← hle]; try rfl, by rw [← hre]; try rfl,
          hLslots, hRslots,
          fun _ => ⟨by rw [← hle]; try rfl, by rw [← hre]; try rfl⟩,
          fun hfalse => absurd hleaf (by rw [hfalse]; simp),
          by rw [← hle]; exact spaceAcc_copy_fresh2 _ _ _ _ _ _,
          by rw [← hre]; exact spaceAcc_copy_fresh2 _ _ _ _ _ _,
          parent1, bx, hp1, rfl, ?_⟩
        rw [← hle, hins, hp2e, hipose]
    · rw [if_neg hleaf] at hsplit
      rcases hins : parent1.insertInner (n.getSep n.findSeparator)
          ((copyKeyValueRange n ((newNode n.tag).setFences n.lowerFence
              (n.getSep n.findSeparator)) 0 n.findSeparator.slot).setUpper
            (n.getChild (copyKeyValueRange n ((newNode n.tag).setFences n.lowerFence
              (n.getSep n.findSeparator)) 0 n.findSeparator.slot).count)).makeHint
        with _ | ⟨bx, p2x, iposx⟩
      · rw [hins] at hsplit
        simp at hsplit
      · rw [hins] at hsplit
        simp only [Except.ok.injEq, Option.some.injEq, Prod.mk.injEq] at hsplit
        obtain ⟨hle, hre, hp2e, hipose⟩ := hsplit
        have hc2 : n.findSeparator.slot + 1 ≤ n.slots.length := hcnt
        have hL0count : (copyKeyValueRange n ((newNode n.tag).setFences n.lowerFence
            (n.getSep n.findSeparator)) 0 n.findSeparator.slot).count
              = n.findSeparator.slot := by
          rw [BTreeNode.count]
          simp only [BTreeNode.slots_copyKeyValueRange, BTreeNode.slots_setFences]
          rw [show (newNode n.tag).slots = [] from rfl, List.nil_append,
            List.length_map, List.drop_zero, List.length_take]
          omega
        have hLslots : l.slots = (splitRangeL n).map
            (fun sl => mkSlot (copiedKey n ((newNode n.tag).setFences n.lowerFence
              (n.getSep n.findSeparator)) sl) sl.payload) := by
          rw [← hle]
          simp [splitRangeL, hleaf, List.drop_zero, newNode]
        have hRslots : r.slots = (splitRangeR n).map
            (fun sl => mkSlot (copiedKey n ((newNode n.tag).setFences
              (n.getSep n.findSeparator) n.upperFence) sl) sl.payload) := by
          rw [← hre]
          simp only [BTreeNode.slots_makeHint, BTreeNode.slots_setUpper,
            BTreeNode.slots_copyKeyValueRange, BTreeNode.slots_setFences]
          rw [hL0count]
          simp only [splitRangeR]
          rw [show (newNode n.tag).slots = [] from rfl, List.nil_append,
            List.take_of_length_le
              (by rw [List.length_drop, BTreeNode.count] <;> omega)]
        refine ⟨by rw [← hle]; try rfl, by rw [← hre]; try rfl,
          by rw [← hle]; try rfl, by rw [← hle]; try rfl,
          by rw [← hre]; try rfl, by rw [← hre]; try rfl,
          by rw [← hle]; try rfl, by rw [← hre]; try rfl,
          by rw [← hle]; exact hintOk_makeHint _,
          by rw [← hre]; exact hintOk_makeHint _,
          by rw [← hle]; try rfl, by rw [← hre]; try rfl,
          hLslots, hRslots,
          fun htrue => absurd htrue hleaf,
          fun _ => ⟨?_, by rw [← hre]; try rfl⟩,
          by rw [← hle]; exact spaceAcc_copy_fresh _ _ _ _ _ _ _,
          by rw [← hre]; exact spaceAcc_copy_fresh _ _ _ _ _ _ _,
          parent1, bx, hp1, rfl, ?_⟩
        · rw [← hle]
          simp only [BTreeNode.upper_makeHint, BTreeNode.upper_setUpper]
          rw [hL0count]
        · rw [← hle, hins, hp2e, hipose]

theorem splitRangeL_sublist (n : BTreeNode) : (splitRangeL n).Sublist n.slots := by
  unfold splitRangeL
  split
  · exact List.take_sublist _ _
  · exact List.take_sublist _ _

theorem splitRangeR_sublist (n : BTreeNode) : (splitRangeR n).Sublist n.slots :=
  List.drop_sublist _ _

/-- Both split outputs are sorted. -/
theorem splitNode_sorted {n parent l r p2 : BTreeNode} {ipos : Nat}
    (hs : sortedNode n) (hsl : n.prefixLength ≤ n.lowerFence.length)
    (hcnt : n.findSeparator.slot + 1 ≤ n.count)
    (hsplit : n.splitNode parent = .ok (some (l, r, p2, ipos)))
    (hcompatL : ∀ sl ∈ splitRangeL n,
      (n.fullKey sl).take l.prefixLength = l.prefixBytes)
    (hcompatR : ∀ sl ∈ splitRangeR n,
      (n.fullKey sl).take r.prefixLength = r.prefixBytes) :
    sortedNode l ∧ sortedNode r := by
  obtain ⟨_, _, hllf, hluf, hrlf, hruf, _, _, _, _, hlpl, hrpl, hLslots,
    hRslots, _, _, _, _, _⟩ := splitNode_parts n parent l r p2 ipos hcnt hsplit
  have hlpb : l.prefixBytes = ((newNode n.tag).setFences n.lowerFence
      (n.getSep n.findSeparator)).prefixBytes := by
    unfold BTreeNode.prefixBytes
    rw [hllf, hlpl]
    rfl
  have hlplB : l.prefixLength = ((newNode n.tag).setFences n.lowerFence
      (n.getSep n.findSeparator)).prefixLength := by
    rw [hlpl]
    rfl
  have hrpb : r.prefixBytes = ((newNode n.tag).setFences
      (n.getSep n.findSeparator) n.upperFence).prefixBytes := by
    unfold BTreeNode.prefixBytes
    rw [hrlf, hrpl]
    rfl
  have hrplB : r.prefixLength = ((newNode n.tag).setFences
      (n.getSep n.findSeparator) n.upperFence).prefixLength := by
    rw [hrpl]
    rfl
  have hLfull : l.slots.map l.fullKey = (splitRangeL n).map n.fullKey := by
    rw [hLslots, List.map_map]
    refine List.map_congr_left ?_
    intro sl hmem
    show l.prefixBytes ++ (mkSlot _ sl.payload).key = n.fullKey sl
    rw [mkSlot_key, hlpb]
    exact prefix_append_copied n _ sl hsl
      (by rw [← hlplB, ← hlpb]; exact hcompatL sl hmem)
  have hRfull : r.slots.map r.fullKey = (splitRangeR n).map n.fullKey := by
    rw [hRslots, List.map_map]
    refine List.map_congr_left ?_
    intro sl hmem
    show r.prefixBytes ++ (mkSlot _ sl.payload).key = n.fullKey sl
    rw [mkSlot_key, hrpb]
    exact prefix_append_copied n _ sl hsl
      (by rw [← hrplB, ← hrpb]; exact hcompatR sl hmem)
  constructor
  · rw [sortedNode_iff_fullKeys, hLfull]
    exact pairwise_fullKeys_sublist hs (splitRangeL_sublist n)
  · rw [sortedNode_iff_fullKeys, hRfull]
    exact pairwise_fullKeys_sublist hs (splitRangeR_sublist n)

@[simp] theorem BTreeNode.slots_appendKV (n : BTreeNode) (k : List Nat)
    (p : Payload) : (n.appendKV k p).slots = n.slots ++ [mkSlot k p] := rfl

@[simp] theorem BTreeNode.prefixLength_appendKV (n : BTreeNode) (k : List Nat)
    (p : Payload) : (n.appendKV k p).prefixLength = n.prefixLength := rfl

@[simp] theorem BTreeNode.lowerFence_appendKV (n : BTreeNode) (k : List Nat)
    (p : Payload) : (n.appendKV k p).lowerFence = n.lowerFence := rfl

@[simp] theorem BTreeNode.upperFence_appendKV (n : BTreeNode) (k : List Nat)
    (p : Payload) : (n.appendKV k p).upperFence = n.upperFence := rfl

/-- The page produced by a leaf or inner merge is sorted, provided the two
pages are sorted and ordered around the pulled-down separator. -/
theorem mergeRight_sorted (n right m : BTreeNode) (sepKeyBytes : List Nat)
    (sepPrefixLen : Nat) (S : List Nat)
    (hs : sortedNode n) (hsr : sortedNode right)
    (hsl : n.prefixLength ≤ n.lowerFence.length)
    (hslr : right.prefixLength ≤ right.lowerFence.length)
    (hcompatL : ∀ sl ∈ n.slots, (n.fullKey sl).take
      (commonPrefixLen n.lowerFence right.upperFence)
        = n.lowerFence.take (commonPrefixLen n.lowerFence right.upperFence))
    (hcompatR : ∀ sl ∈ right.slots, (right.fullKey sl).take
      (commonPrefixLen n.lowerFence right.upperFence)
        = n.lowerFence.take (commonPrefixLen n.lowerFence right.upperFence))
    (hcross : ∀ a ∈ n.slots, ∀ b ∈ right.slots,
      blt (n.fullKey a) (right.fullKey b))
    (hS : n.isLeaf = false →
      n.lowerFence.take (commonPrefixLen n.lowerFence right.upperFence)
      ++ sepKeyBytes.drop (commonPrefixLen n.lowerFence right.upperFence
        - sepPrefixLen) = S)
    (hSl : n.isLeaf = false → ∀ a ∈ n.slots, blt (n.fullKey a) S)
    (hSr : n.isLeaf = false → ∀ b ∈ right.slots, blt S (right.fullKey b))
    (hm : mergeRight n sepKeyBytes sepPrefixLen right = some m) :
    sortedNode m := by
  have htakeN : List.take n.count n.slots = n.slots :=
    List.take_of_length_le (le_refl _)
  have htakeR : List.take right.count right.slots = right.slots :=
    List.take_of_length_le (le_refl _)
  unfold mergeRight at hm
  by_cases hleaf : n.isLeaf = true
  · rw [if_pos hleaf] at hm
    unfold mergeRightLeaf at hm
    simp only [] at hm
    split at hm
    · cases hm
    · have hme : (copyKeyValueRange right (copyKeyValueRange n
          ((newNode .basicLeaf).setFences n.lowerFence right.upperFence)
          0 n.count) 0 right.count).makeHint = m := by
        injection hm
      have hpb : m.prefixBytes = n.lowerFence.take
          (commonPrefixLen n.lowerFence right.upperFence) := by
        rw [← hme]
        rfl
      have hpl : m.prefixLength
          = commonPrefixLen n.lowerFence right.upperFence := by
        rw [← hme]
        rfl
      have hms : m.slots
          = n.slots.map (fun sl => mkSlot (copiedKey n
              ((newNode .basicLeaf).setFences n.lowerFence right.upperFence)
              sl) sl.payload)
            ++ right.slots.map (fun sl => mkSlot (copiedKey right
              (copyKeyValueRange n ((newNode .basicLeaf).setFences n.lowerFence
                right.upperFence) 0 n.count) sl) sl.payload) := by
        rw [← hme]
        simp only [BTreeNode.slots_makeHint, BTreeNode.slots_copyKeyValueRange,
          BTreeNode.slots_setFences, newNode_slots, List.nil_append,
          List.drop_zero]
        rw [htakeN, htakeR]
      have hfull : m.slots.map m.fullKey
          = n.slots.map n.fullKey ++ right.slots.map right.fullKey := by
        rw [hms, List.map_append, List.map_map, List.map_map]
        congr 1
        · refine List.map_congr_left ?_
          intro sl hmem
          show m.prefixBytes ++ (mkSlot _ sl.payload).key = n.fullKey sl
          rw [mkSlot_key]
          have hpb0 : m.prefixBytes = ((newNode NodeTag.basicLeaf).setFences
              n.lowerFence right.upperFence).prefixBytes := by
            rw [← hme]
            rfl
          rw [hpb0]
          refine prefix_append_copied n _ sl hsl ?_
          exact hcompatL sl hmem
        · refine List.map_congr_left ?_
          intro sl hmem
          show m.prefixBytes ++ (mkSlot _ sl.payload).key = right.fullKey sl
          rw [mkSlot_key]
          have hpb1 : m.prefixBytes = (copyKeyValueRange n
              ((newNode NodeTag.basicLeaf).setFences n.lowerFence
                right.upperFence) 0 n.count).prefixBytes := by
            rw [← hme]
            rfl
          rw [hpb1]
          refine prefix_append_copied right _ sl hslr ?_
          exact hcompatR sl hmem
      rw [sortedNode_iff_fullKeys, hfull]
      rw [List.pairwise_append]
      exact ⟨(sortedNode_iff_fullKeys n).mp hs,
        (sortedNode_iff_fullKeys right).mp hsr,
        fun a ha b hb => by
          obtain ⟨a0, ha0, hae⟩ := List.mem_map.mp ha
          obtain ⟨b0, hb0, hbe⟩ := List.mem_map.mp hb
          rw [← hae, ← hbe]
          exact hcross a0 ha0 b0 hb0⟩
  · rw [if_neg hleaf] at hm
    have hlf : n.isLeaf = false := by
      cases h2 : n.isLeaf
      · rfl
      · exact absurd h2 hleaf
    replace hS := hS hlf
    replace hSl := hSl hlf
    replace hSr := hSr hlf
    unfold mergeRightInner at hm
    simp only [] at hm
    split at hm
    · cases hm
    · have hme : (((copyKeyValueRange right ((copyKeyValueRange n
          ((newNode .basicInner).setFences n.lowerFence right.upperFence)
          0 n.count).appendKV (sepKeyBytes.drop ((copyKeyValueRange n
            ((newNode .basicInner).setFences n.lowerFence right.upperFence)
            0 n.count).prefixLength - sepPrefixLen))
          (match n.upper with
           | some u => Payload.child u
           | none => Payload.bytes (List.replicate childRefSize 0)))
          0 right.count).setUpper right.upper).makeHint) = m := by
        injection hm
      have hpb : m.prefixBytes = n.lowerFence.take
          (commonPrefixLen n.lowerFence right.upperFence) := by
        rw [← hme]
        rfl
      have hpl : m.prefixLength
          = commonPrefixLen n.lowerFence right.upperFence := by
        rw [← hme]
        rfl
      have hms : m.slots
          = (n.slots.map (fun sl => mkSlot (copiedKey n
              ((newNode .basicInner).setFences n.lowerFence right.upperFence)
              sl) sl.payload)
            ++ [mkSlot (sepKeyBytes.drop (commonPrefixLen n.lowerFence
                right.upperFence - sepPrefixLen))
              (match n.upper with
               | some u => Payload.child u
               | none => Payload.bytes (List.replicate childRefSize 0))])
            ++ right.slots.map (fun sl => mkSlot (copiedKey right
              ((copyKeyValueRange n ((newNode .basicInner).setFences
                n.lowerFence right.upperFence) 0 n.count).appendKV
                (sepKeyBytes.drop (commonPrefixLen n.lowerFence
                  right.upperFence - sepPrefixLen))
                (match n.upper with
                 | some u => Payload.child u
                 | none => Payload.bytes (List.replicate childRefSize 0)))
              sl) sl.payload) := by
        rw [← hme]
        simp only [BTreeNode.slots_makeHint, BTreeNode.slots_setUpper,
          BTreeNode.slots_copyKeyValueRange, BTreeNode.slots_appendKV,
          BTreeNode.prefixLength_copyKeyValueRange,
          BTreeNode.prefixLength_setFences, BTreeNode.slots_setFences,
          newNode_slots, List.nil_append, List.drop_zero]
        rw [htakeN, htakeR]
      have hfull : m.slots.map m.fullKey
          = (n.slots.map n.fullKey ++ [S]) ++ right.slots.map right.fullKey := by
        rw [hms, List.map_append, List.map_append, List.map_map, List.map_map]
        congr 1
        · congr 1
          · refine List.map_congr_left ?_
            intro sl hmem
            show m.prefixBytes ++ (mkSlot _ sl.payload).key = n.fullKey sl
            rw [mkSlot_key]
            have hpb0 : m.prefixBytes = ((newNode NodeTag.basicInner).setFences
                n.lowerFence right.upperFence).prefixBytes := by
              rw [← hme]
              rfl
            rw [hpb0]
            refine prefix_append_copied n _ sl hsl ?_
            exact hcompatL sl hmem
          · show [m.fullKey _] = [S]
            congr 1
            show m.prefixBytes ++ (mkSlot _ _).key = S
            rw [mkSlot_key, hpb]
            exact hS
        · refine List.map_congr_left ?_
          intro sl hmem
          show m.prefixBytes ++ (mkSlot _ sl.payload).key = right.fullKey sl
          rw [mkSlot_key]
          have hpb1 : m.prefixBytes = ((copyKeyValueRange n
              ((newNode NodeTag.basicInner).setFences n.lowerFence
                right.upperFence) 0 n.count).appendKV
              (sepKeyBytes.drop (commonPrefixLen n.lowerFence right.upperFence
                - sepPrefixLen))
              (match n.upper with
               | some u => Payload.child u
               | none => Payload.bytes
                   (List.replicate childRefSize 0))).prefixBytes := by
            rw [← hme]
            rfl
          rw [hpb1]
          refine prefix_append_copied right _ sl hslr ?_
          exact hcompatR sl hmem
      rw [sortedNode_iff_fullKeys, hfull]
      rw [List.pairwise_append, List.pairwise_append]
      refine ⟨⟨(sortedNode_iff_fullKeys n).mp hs, List.pairwise_singleton _ _,
        ?_⟩, (sortedNode_iff_fullKeys right).mp hsr, ?_⟩
      · intro a ha b hb
        obtain ⟨a0, ha0, hae⟩ := List.mem_map.mp ha
        rw [List.mem_singleton] at hb
        subst hb
        rw [← hae]
        exact hSl a0 ha0
      · intro a ha b hb
        obtain ⟨b0, hb0, hbe⟩ := List.mem_map.mp hb
        rw [← hbe]
        rcases List.mem_append.mp ha with ha1 | ha2
        · obtain ⟨a0, ha0, hae⟩ := List.mem_map.mp ha1
          rw [← hae]
          exact hcross a0 ha0 b0 hb0
        · rw [List.mem_singleton] at ha2
          subst ha2
          exact hSr b0 hb0

/-- C2 (amended): after each page-mutating operation — insert of a key whose
truncated form is not already stored (the counterexample shows a duplicate
insert violates the invariant), remove, split, merge, compactify — every
produced node satisfies the ordering invariant of §3, provided the operands
satisfy the page invariants and, for split and merge, the prefix- and
order-compatibility conditions that hold for fence-respecting nodes. -/
theorem c2_ordering_invariant_after_ops (n : BTreeNode) (hw : wfPage n)
    (hf : fencesOk n) :
    (∀ key payload b n2 sid,
      n.prefixLength ≤ key.length → key.take n.prefixLength = n.prefixBytes →
      allBytes (key.drop n.prefixLength) →
      (∀ sl ∈ n.slots, sl.key ≠ key.drop n.prefixLength) →
      n.insert key payload = .ok (b, n2, sid) → ordInv n2) ∧
    (∀ key b n2, n.remove key = .ok (b, n2) → ordInv n2) ∧
    ordInv n.compactify ∧
    (∀ parent l r p2 ipos,
      n.findSeparator.slot + 1 ≤ n.count →
      (∀ sl ∈ splitRangeL n,
        (n.fullKey sl).take l.prefixLength = l.prefixBytes) →
      (∀ sl ∈ splitRangeR n,
        (n.fullKey sl).take r.prefixLength = r.prefixBytes) →
      n.splitNode parent = .ok (some (l, r, p2, ipos)) →
      ordInv l ∧ ordInv r) ∧
    (∀ right m sepKeyBytes sepPrefixLen S,
      wfPage right → fencesOk right →
      (∀ sl ∈ n.slots, (n.fullKey sl).take
        (commonPrefixLen n.lowerFence right.upperFence)
          = n.lowerFence.take (commonPrefixLen n.lowerFence right.upperFence)) →
      (∀ sl ∈ right.slots, (right.fullKey sl).take
        (commonPrefixLen n.lowerFence right.upperFence)
          = n.lowerFence.take (commonPrefixLen n.lowerFence right.upperFence)) →
      (∀ a ∈ n.slots, ∀ b ∈ right.slots,
        blt (n.fullKey a) (right.fullKey b)) →
      (n.isLeaf = false →
        n.lowerFence.take (commonPrefixLen n.lowerFence right.upperFence)
        ++ sepKeyBytes.drop (commonPrefixLen n.lowerFence right.upperFence
          - sepPrefixLen) = S) →
      (n.isLeaf = false → ∀ a ∈ n.slots, blt (n.fullKey a) S) →
      (n.isLeaf = false → ∀ b ∈ right.slots, blt S (right.fullKey b)) →
      mergeRight n sepKeyBytes sepPrefixLen right = some m →
      ordInv m) := by
  have hsl : n.prefixLength ≤ n.lowerFence.length := by
    rw [hf]
    exact commonPrefixLen_le_left _ _
  refine ⟨?_, ?_, ?_, ?_, ?_⟩
  · intro key payload b n2 sid hpl hpre hqb habs hins
    rcases insert_spec n key payload hw hf hpl hpre hqb habs with h | h
    · rw [h] at hins
      injection hins with h2
      injection h2 with _ h3
      injection h3 with h4 _
      rw [← h4]
      exact ordInv_of_sorted hw.1
    · obtain ⟨n2x, sidx, heq, _, _, _, _, _, _, _, _, hw2, _⟩ := h
      rw [heq] at hins
      injection hins with h2
      injection h2 with _ h3
      injection h3 with h4 _
      rw [← h4]
      exact ordInv_of_sorted hw2.1
  · intro key b n2 hrm
    unfold BTreeNode.remove at hrm
    rcases hlb : n.lowerBound key with e | pr
    · rw [hlb] at hrm
      cases hrm
    · rcases pr with ⟨pos, found⟩
      rw [hlb] at hrm
      cases found with
      | true =>
        have : n2 = n.removeSlot pos := by
          have h2 := hrm
          simp only [if_pos rfl] at h2
          injection h2 with h3
          injection h3 with _ h4
          exact h4.symm
        rw [this]
        exact ordInv_of_sorted (sorted_removeSlot hw.1 pos)
      | false =>
        have : n2 = n := by
          have h2 := hrm
          simp only [Bool.false_eq_true, if_neg (by simp : ¬ False)] at h2
          injection h2 with h3
          injection h3 with _ h4
          exact h4.symm
        rw [this]
        exact ordInv_of_sorted hw.1
  · exact ordInv_of_sorted (compactify_wfPage hw hf).1
  · intro parent l r p2 ipos hcnt hcompatL hcompatR hsplit
    obtain ⟨hl, hr⟩ := splitNode_sorted hw.1 hsl hcnt hsplit hcompatL hcompatR
    exact ⟨ordInv_of_sorted hl, ordInv_of_sorted hr⟩
  · intro right m sepKeyBytes sepPrefixLen S hwr hfr hcompatL hcompatR hcross
      hS hSl hSr hm
    have hslr : right.prefixLength ≤ right.lowerFence.length := by
      rw [hfr]
      exact commonPrefixLen_le_left _ _
    exact ordInv_of_sorted (mergeRight_sorted n right m sepKeyBytes
      sepPrefixLen S hw.1 hwr.1 hsl hslr hcompatL hcompatR hcross hS hSl
      hSr hm)

theorem c2_ordering_invariant_after_ops_witness : ordInv emptyTree.compactify :=
  (c2_ordering_invariant_after_ops emptyTree wfT_emptyTree.toWfPage
    rfl).2.2.1

/-! ### Descent paths and rebuilding -/

theorem isInner_false_of_not {n : BTreeNode} (h : ¬ n.isInner = true) :
    n.isInner = false := by
  cases hh : n.isInner
  · rfl
  · exact absurd hh h

theorem descendPath_length : ∀ (fuel : Nat) (n : BTreeNode) (key : List Nat)
    (path : List (BTreeNode × Nat)) (leaf : BTreeNode),
    descendPath fuel n key = .ok (path, leaf) → path.length < fuel := by
  intro fuel
  induction fuel with
  | zero =>
    intro n key path leaf h
    cases h
  | succ fuel ih =>
    intro n key path leaf h
    by_cases hin : n.isInner = true
    · rw [show descendPath (fuel + 1) n key = (match n.lowerBound key with
        | .error () => .error .lbAbort
        | .ok (pos, _) =>
          match n.getChild pos with
          | none => .error .stuck
          | some c =>
            match descendPath fuel c key with
            | .error e => .error e
            | .ok (path, leaf) => .ok ((n, pos) :: path, leaf))
        from by simp only [descendPath]; rw [if_pos hin]] at h
      rcases hlb : n.lowerBound key with e | ⟨pos, found⟩
      · rw [hlb] at h
        cases h
      · rw [hlb] at h
        simp only [] at h
        rcases hgc : n.getChild pos with _ | c
        · rw [hgc] at h
          cases h
        · rw [hgc] at h
          simp only [] at h
          rcases hrec : descendPath fuel c key with e | ⟨path0, leaf0⟩
          · rw [hrec] at h
            cases h
          · rw [hrec] at h
            simp only [] at h
            injection h with h2
            injection h2 with h3 h4
            subst h4
            rw [← h3]
            have := ih c key path0 leaf0 hrec
            simp only [List.length_cons]
            omega
    · rw [show descendPath (fuel + 1) n key = .ok ([], n)
        from by simp only [descendPath]; rw [if_neg hin]] at h
      injection h with h2
      injection h2 with h3 _
      rw [← h3]
      simp

theorem descendPath_pathOk : ∀ (fuel : Nat) (n : BTreeNode) (key : List Nat)
    (path : List (BTreeNode × Nat)) (leaf : BTreeNode),
    descendPath fuel n key = .ok (path, leaf) → PathOk key n path leaf := by
  intro fuel
  induction fuel with
  | zero =>
    intro n key path leaf h
    cases h
  | succ fuel ih =>
    intro n key path leaf h
    by_cases hin : n.isInner = true
    · rw [show descendPath (fuel + 1) n key = (match n.lowerBound key with
        | .error () => .error .lbAbort
        | .ok (pos, _) =>
          match n.getChild pos with
          | none => .error .stuck
          | some c =>
            match descendPath fuel c key with
            | .error e => .error e
            | .ok (path, leaf) => .ok ((n, pos) :: path, leaf))
        from by simp only [descendPath]; rw [if_pos hin]] at h
      rcases hlb : n.lowerBound key with e | ⟨pos, found⟩
      · rw [hlb] at h
        cases h
      · rw [hlb] at h
        simp only [] at h
        rcases hgc : n.getChild pos with _ | c
        · rw [hgc] at h
          cases h
        · rw [hgc] at h
          simp only [] at h
          rcases hrec : descendPath fuel c key with e | ⟨path0, leaf0⟩
          · rw [hrec] at h
            cases h
          · rw [hrec] at h
            simp only [] at h
            injection h with h2
            injection h2 with h3 h4
            rw [← h3, ← h4]
            exact PathOk.cons n c leaf0 pos found path0 hin hlb hgc
              (ih c key path0 leaf0 hrec)
    · rw [show descendPath (fuel + 1) n key = .ok ([], n)
        from by simp only [descendPath]; rw [if_neg hin]] at h
      injection h with h2
      injection h2 with h3 h4
      rw [← h3, ← h4]
      exact PathOk.nil n (isInner_false_of_not hin)

theorem getChild_cases {n : BTreeNode} {pos : Nat} {c : BTreeNode}
    (h : n.getChild pos = some c) :
    (pos = n.count ∧ n.upper = some c) ∨
    (pos < n.count ∧ (n.slotD pos).payload = .child c) := by
  unfold BTreeNode.getChild at h
  by_cases hp : pos = n.count
  · rw [if_pos hp] at h
    exact Or.inl ⟨hp, h⟩
  · rw [if_neg hp] at h
    rcases hpp : (n.slotD pos).payload with v | ct
    · rw [hpp] at h
      cases h
    · rw [hpp] at h
      injection h with h2
      subst h2
      refine Or.inr ⟨?_, rfl⟩
      by_cases hlen : pos < n.count
      · exact hlen
      · exfalso
        have hd : n.slotD pos = defaultSlot := by
          unfold BTreeNode.slotD
          refine List.getD_eq_default _ _ ?_
          show n.slots.length ≤ pos
          unfold BTreeNode.count at hlen
          omega
        rw [hd] at hpp
        cases hpp

theorem count_setChild (n : BTreeNode) (pos : Nat) (c : BTreeNode) :
    (n.setChild pos c).count = n.count := by
  unfold BTreeNode.setChild
  split
  · rfl
  · show (n.slots.set _ _).length = n.slots.length
    simp

theorem getChild_setChild_self (n : BTreeNode) (pos : Nat) (c : BTreeNode)
    (hpos : pos ≤ n.count) :
    (n.setChild pos c).getChild pos = some c := by
  by_cases hp : pos = n.count
  · rw [BTreeNode.setChild_eq_of_eq n c hp]
    unfold BTreeNode.getChild
    rw [if_pos (show pos = (n.setUpper (some c)).count from hp)]
    rfl
  · have hlt : pos < n.count := by omega
    rw [BTreeNode.setChild_eq_of_lt n c hp]
    unfold BTreeNode.getChild
    rw [if_neg (by
      rw [show (n.setSlots (n.slots.set pos (.mk (n.slotD pos).key
          (.child c) (n.slotD pos).head))).count
          = n.slots.length from by simp [BTreeNode.count]]
      exact hp)]
    have hself : ((n.setSlots (n.slots.set pos (.mk (n.slotD pos).key
        (.child c) (n.slotD pos).head))).slotD pos)
        = .mk (n.slotD pos).key (.child c) (n.slotD pos).head := by
      show (n.slots.set pos _).getD pos _ = _
      exact getD_set_self hlt _ _
    rw [hself]
    rfl

theorem slotD_setChild_key (n : BTreeNode) (pos : Nat) (c : BTreeNode)
    (i : Nat) : ((n.setChild pos c).slotD i).key = (n.slotD i).key := by
  unfold BTreeNode.setChild
  split
  · rfl
  · show ((n.slots.set pos _).getD i _).key = _
    by_cases hip : pos = i
    · subst hip
      by_cases hlen : pos < n.slots.length
      · rw [getD_set_self hlen]
        rfl
      · rw [List.set_eq_of_length_le (by omega)]
        rfl
    · rw [getD_set_ne hip]
      rfl

theorem slotD_setChild_head (n : BTreeNode) (pos : Nat) (c : BTreeNode)
    (i : Nat) : ((n.setChild pos c).slotD i).head = (n.slotD i).head := by
  unfold BTreeNode.setChild
  split
  · rfl
  · show ((n.slots.set pos _).getD i _).head = _
    by_cases hip : pos = i
    · subst hip
      by_cases hlen : pos < n.slots.length
      · rw [getD_set_self hlen]
        rfl
      · rw [List.set_eq_of_length_le (by omega)]
        rfl
    · rw [getD_set_ne hip]
      rfl

theorem isInner_setChild (n : BTreeNode) (pos : Nat) (c : BTreeNode) :
    (n.setChild pos c).isInner = n.isInner := by
  unfold BTreeNode.setChild
  split
  · rfl
  · rfl

theorem hint_setChild (n : BTreeNode) (pos : Nat) (c : BTreeNode) :
    (n.setChild pos c).hint = n.hint := by
  unfold BTreeNode.setChild
  split
  · rfl
  · rfl

theorem lowerFence_setChild (n : BTreeNode) (pos : Nat) (c : BTreeNode) :
    (n.setChild pos c).lowerFence = n.lowerFence := by
  unfold BTreeNode.setChild
  split
  · rfl
  · rfl

theorem prefixLength_setChild (n : BTreeNode) (pos : Nat) (c : BTreeNode) :
    (n.setChild pos c).prefixLength = n.prefixLength := by
  unfold BTreeNode.setChild
  split
  · rfl
  · rfl

theorem searchHint_congr (n n' : BTreeNode) (kh l0 u0 : Nat)
    (hcnt : n'.count = n.count) (hhint : n'.hint = n.hint)
    (hhd : ∀ i, (n'.slotD i).head = (n.slotD i).head) :
    n'.searchHint kh l0 u0 = n.searchHint kh l0 u0 := by
  unfold BTreeNode.searchHint
  rw [hcnt, hhint]

theorem lbGo_congr (n n' : BTreeNode) (key : List Nat) (kh : Nat)
    (hk : ∀ i, (n'.slotD i).key = (n.slotD i).key)
    (hhd : ∀ i, (n'.slotD i).head = (n.slotD i).head) :
    ∀ fuel lower upper,
      n'.lbGo key kh fuel lower upper = n.lbGo key kh fuel lower upper := by
  intro fuel
  induction fuel with
  | zero =>
    intro lower upper
    rfl
  | succ fuel ih =>
    intro lower upper
    simp only [BTreeNode.lbGo]
    rw [hk ((upper - lower) / 2 + lower), hhd ((upper - lower) / 2 + lower)]
    simp only [ih]

theorem lowerBound_congr (n n' : BTreeNode) (key : List Nat)
    (hlf : n'.lowerFence = n.lowerFence)
    (hpl : n'.prefixLength = n.prefixLength)
    (hcnt : n'.count = n.count) (hhint : n'.hint = n.hint)
    (hk : ∀ i, (n'.slotD i).key = (n.slotD i).key)
    (hhd : ∀ i, (n'.slotD i).head = (n.slotD i).head) :
    n'.lowerBound key = n.lowerBound key := by
  have hpb : n'.prefixBytes = n.prefixBytes := by
    unfold BTreeNode.prefixBytes
    rw [hlf, hpl]
  unfold BTreeNode.lowerBound
  simp only []
  rw [hpb, hpl]
  rw [searchHint_congr n n' (headOf (List.drop n.prefixLength key)) 0
    n'.count hcnt hhint hhd, hcnt]
  unfold BTreeNode.lbLoop
  rw [lbGo_congr n n' (List.drop n.prefixLength key)
    (headOf (List.drop n.prefixLength key)) hk hhd]

theorem lowerBound_setChild (n : BTreeNode) (pos : Nat) (c : BTreeNode)
    (key : List Nat) :
    (n.setChild pos c).lowerBound key = n.lowerBound key :=
  lowerBound_congr n _ key (lowerFence_setChild n pos c)
    (prefixLength_setChild n pos c) (count_setChild n pos c)
    (hint_setChild n pos c) (slotD_setChild_key n pos c)
    (slotD_setChild_head n pos c)

/-- Replacing the node at the end of a descent path and re-descending for
the same key reaches the replacement. -/
theorem rebuild_descend (key : List Nat) :
    ∀ (path : List (BTreeNode × Nat)) (n leaf sub : BTreeNode),
    PathOk key n path leaf →
    sub.isInner = false →
    ∀ fuel, path.length < fuel →
    ∃ path2, descendPath fuel (rebuild path sub) key = .ok (path2, sub) := by
  intro path
  induction path with
  | nil =>
    intro n leaf sub hp hsub fuel hfuel
    rcases fuel with _ | fuel
    · omega
    · refine ⟨[], ?_⟩
      show descendPath (fuel + 1) sub key = .ok ([], sub)
      simp only [descendPath]
      rw [if_neg (by rw [hsub]; simp)]
  | cons hd rest ih =>
    intro n leaf sub hp hsub fuel hfuel
    cases hp with
    | cons _ c _ pos found _ hin hlb hgc hrest =>
      rcases fuel with _ | fuel
      · omega
      · have hposle : pos ≤ n.count := by
          rcases getChild_cases hgc with ⟨h1, _⟩ | ⟨h1, _⟩
          · omega
          · omega
        obtain ⟨path2, hrec⟩ := ih c leaf sub hrest hsub fuel
          (by simp only [List.length_cons] at hfuel; omega)
        refine ⟨(n.setChild pos (rebuild rest sub), pos) :: path2, ?_⟩
        show descendPath (fuel + 1) (n.setChild pos (rebuild rest sub)) key
          = .ok ((n.setChild pos (rebuild rest sub), pos) :: path2, sub)
        simp only [descendPath]
        rw [if_pos (by rw [isInner_setChild]; exact hin)]
        rw [lowerBound_setChild n pos (rebuild rest sub) key, hlb]
        simp only []
        rw [getChild_setChild_self n pos (rebuild rest sub) hposle]
        simp only [hrec]

theorem getD_insertIdx_self {α : Type} {l : List α} {p : Nat} (x d : α)
    (hp : p ≤ l.length) : (l.insertIdx p x).getD p d = x := by
  rw [List.getD_eq_getElem?_getD, List.getElem?_eq_getElem
    (by rw [List.length_insertIdx _ _ hp]; omega)]
  rw [List.getElem_insertNth_self l x p hp]
  rfl

theorem getD_map {α β : Type} (f : α → β) (l : List α) (i : Nat) (d : α) :
    (l.map f).getD i (f d) = f (l.getD i d) := by
  rw [List.getD_eq_getElem?_getD, List.getD_eq_getElem?_getD,
    List.getElem?_map]
  cases l[i]? <;> rfl

/-- A key stored in a well-formed page is found by `lowerBound`, exactly at
its slot. -/
theorem lowerBound_found_of_mem (m : BTreeNode) (key : List Nat)
    (hw : wfPage m) (hpl : m.prefixLength ≤ key.length)
    (hpre : key.take m.prefixLength = m.prefixBytes)
    (hqb : allBytes (key.drop m.prefixLength))
    (j : Nat) (hj : j < m.count)
    (hkey : (m.slotD j).key = key.drop m.prefixLength) :
    m.lowerBound key = .ok (j, true) := by
  obtain ⟨pos, found, hlb, hposle, hwin1, hfT, hfF⟩ :=
    lowerBound_spec m key hw hpl hpre hqb
  cases found with
  | false =>
    exfalso
    by_cases hlt : j < pos
    · have := hwin1 j hlt
      rw [hkey] at this
      exact blt_irrefl _ this
    · have := hfF rfl j (by omega) hj
      rw [← hkey] at this
      exact blt_irrefl _ this
  | true =>
    obtain ⟨hplt, hkeq⟩ := hfT rfl
    have hpj : pos = j := by
      rcases Nat.lt_trichotomy pos j with h | h | h
      · have := sorted_lt hw.1 h hj
        rw [hkeq, hkey] at this
        exact absurd this (blt_irrefl _)
      · exact h
      · have := sorted_lt hw.1 h hplt
        rw [hkeq, hkey] at this
        exact absurd this (blt_irrefl _)
    rw [← hpj]
    exact hlb

/-! ### Separator bounds and page-fullness arithmetic -/

theorem sum_map_le {α : Type} (l : List α) (f : α → Nat) (B : Nat)
    (h : ∀ x ∈ l, f x ≤ B) : (l.map f).sum ≤ l.length * B := by
  induction l with
  | nil => simp
  | cons a rest ih =>
    simp only [List.map_cons, List.sum_cons, List.length_cons]
    have h1 : f a ≤ B := h a (by simp)
    have h2 : (rest.map f).sum ≤ rest.length * B :=
      ih fun x hx => h x (by simp [hx])
    have : (rest.length + 1) * B = rest.length * B + B := by ring
    omega

theorem requestSpaceFor_false {n : BTreeNode} {need : Nat} {n' : BTreeNode}
    {b : Bool} (h : n.requestSpaceFor need = (b, n')) (hb : b = false) :
    n.freeSpaceAfterCompaction < need := by
  subst hb
  unfold BTreeNode.requestSpaceFor at h
  by_cases h1 : need ≤ n.freeSpace
  · rw [if_pos h1] at h
    cases h
  · rw [if_neg h1] at h
    by_cases h2 : need ≤ n.freeSpaceAfterCompaction
    · rw [if_pos h2] at h
      cases h
    · omega

theorem blt_take_of_lt_length {a : List Nat} {m : Nat} (h : m < a.length) :
    blt (a.take m) a := by
  induction a generalizing m with
  | nil => simp at h
  | cons x a' ih =>
    cases m with
    | zero =>
      show bcmp [] (x :: a') = .lt
      rfl
    | succ m =>
      show bcmp (x :: a'.take m) (x :: a') = .lt
      unfold bcmp
      rw [if_neg (by omega), if_neg (by omega)]
      exact ih (by simpa using h)

theorem blt_take_succ_of_blt : ∀ (a b : List Nat) (c : Nat),
    commonPrefixLen a b = c → c < a.length → c < b.length →
    blt a b → blt a (b.take (c + 1)) := by
  intro a
  induction a with
  | nil =>
    intro b c _ ha _ _
    simp at ha
  | cons x a' ih =>
    intro b c hc ha hb hab
    cases b with
    | nil => simp at hb
    | cons y b' =>
      unfold commonPrefixLen at hc
      by_cases hxy : x = y
      · rw [if_pos hxy] at hc
        subst hxy
        cases c with
        | zero => omega
        | succ c' =>
          have hc' : commonPrefixLen a' b' = c' := by omega
          have hab' : blt a' b' := by
            unfold blt bcmp at hab
            rw [if_neg (by omega), if_neg (by omega)] at hab
            exact hab
          have := ih b' c' hc' (by simpa using ha) (by simpa using hb) hab'
          show bcmp (x :: a') (x :: b'.take (c' + 1)) = .lt
          unfold bcmp
          rw [if_neg (by omega), if_neg (by omega)]
          exact this
      · rw [if_neg hxy] at hc
        subst hc
        have hxy2 : x < y := by
          unfold blt bcmp at hab
          by_cases h1 : x < y
          · exact h1
          · rw [if_neg h1] at hab
            rw [if_pos (by omega)] at hab
            cases hab
        show bcmp (x :: a') (y :: b'.take 0) = .lt
        show bcmp (x :: a') (y :: []) = .lt
        unfold bcmp
        rw [if_pos hxy2]

/-- `findSeparator` on an inner node. -/
theorem findSeparator_inner_spec (n : BTreeNode) (hinner : n.isInner = true) :
    n.findSeparator = ⟨n.prefixLength + (n.slotD (n.count / 2)).key.length,
      n.count / 2, false⟩ := by
  unfold BTreeNode.findSeparator
  rw [hinner]
  simp

/-- `findSeparator` on a leaf: the returned slot bounds, and the guard facts
of the truncated regime. -/
theorem findSeparator_leaf_spec (n : BTreeNode) (hleaf : n.isLeaf = true)
    (hc1 : 1 ≤ n.count) :
    n.findSeparator.slot + 1 ≤ n.count ∧
    (3 ≤ n.count → n.findSeparator.slot + 1 < n.count) ∧
    (n.findSeparator.isTruncated = true →
      n.findSeparator.slot + 1 < n.count ∧
      (n.slotD n.findSeparator.slot).key.length
        > n.commonPrefix n.findSeparator.slot (n.findSeparator.slot + 1) ∧
      (n.slotD (n.findSeparator.slot + 1)).key.length
        > n.commonPrefix n.findSeparator.slot (n.findSeparator.slot + 1) + 1 ∧
      n.findSeparator.length = n.prefixLength
        + n.commonPrefix n.findSeparator.slot (n.findSeparator.slot + 1) + 1) ∧
    (n.findSeparator.isTruncated = false →
      n.findSeparator.length
        = n.prefixLength + (n.slotD n.findSeparator.slot).key.length) := by
  have hinner : n.isInner = false := by
    unfold BTreeNode.isInner
    rw [hleaf]
    rfl
  unfold BTreeNode.findSeparator
  rw [hinner]
  simp only [Bool.false_eq_true, if_false]
  set B := (if n.count > 16 then
      if n.commonPrefix (n.count / 2 - n.count / 16) 0
          = n.commonPrefix (n.count / 2 - 1) 0 then
        n.count / 2 - n.count / 16
      else n.sepScan (n.commonPrefix (n.count / 2 - n.count / 16) 0)
        (n.count / 2) (n.count / 2 - n.count / 16 + 1)
    else (n.count - 1) / 2) with hBdef
  have hBbound : B + 1 ≤ n.count ∧ (3 ≤ n.count → B + 1 < n.count) := by
    rw [hBdef]
    by_cases h16 : n.count > 16
    · rw [if_pos h16]
      have hlow : n.count / 2 - n.count / 16 + 1 ≤ n.count / 2 := by omega
      split
      · omega
      · have h1 : n.sepScan (n.commonPrefix (n.count / 2 - n.count / 16) 0)
            (n.count / 2) (n.count / 2 - n.count / 16 + 1) ≤ n.count / 2 := by
          unfold BTreeNode.sepScan
          exact sepGo_le_upper _ _ (by omega) (by omega)
        omega
    · rw [if_neg h16]
      omega
  by_cases hG : B + 1 < n.count ∧ (n.slotD B).key.length > n.commonPrefix B (B + 1) ∧
      (n.slotD (B + 1)).key.length > n.commonPrefix B (B + 1) + 1
  · rw [if_pos hG]
    refine ⟨hBbound.1, hBbound.2, ?_, ?_⟩
    · intro _
      exact ⟨hG.1, hG.2.1, hG.2.2, rfl⟩
    · intro h
      cases h
  · rw [if_neg hG]
    refine ⟨hBbound.1, hBbound.2, ?_, ?_⟩
    · intro h
      cases h
    · intro _
      rfl

/-- `getSep` of an untruncated separator is the full key of the separator
slot. -/
theorem getSep_untrunc (n : BTreeNode)
    (hsl : n.prefixLength ≤ n.lowerFence.length)
    (ht : n.findSeparator.isTruncated = false)
    (hlen : n.findSeparator.length
      = n.prefixLength + (n.slotD n.findSeparator.slot).key.length) :
    n.getSep n.findSeparator = n.fullKey (n.slotD n.findSeparator.slot) ∧
    (n.getSep n.findSeparator).length = n.findSeparator.length := by
  unfold BTreeNode.getSep
  rw [ht]
  simp only [Bool.false_eq_true, if_false, Nat.add_zero]
  rw [hlen, Nat.add_sub_cancel_left, List.take_length]
  refine ⟨rfl, ?_⟩
  rw [List.length_append, prefixBytes_length n hsl]

/-- `getSep` of a truncated separator is the prefix plus the first
`common + 1` bytes of the next slot's key. -/
theorem getSep_trunc (n : BTreeNode)
    (hsl : n.prefixLength ≤ n.lowerFence.length)
    (ht : n.findSeparator.isTruncated = true)
    (hlen : n.findSeparator.length = n.prefixLength
      + n.commonPrefix n.findSeparator.slot (n.findSeparator.slot + 1) + 1)
    (hk1 : (n.slotD (n.findSeparator.slot + 1)).key.length
      > n.commonPrefix n.findSeparator.slot (n.findSeparator.slot + 1) + 1) :
    n.getSep n.findSeparator = n.prefixBytes
      ++ (n.slotD (n.findSeparator.slot + 1)).key.take
        (n.commonPrefix n.findSeparator.slot (n.findSeparator.slot + 1) + 1) ∧
    (n.getSep n.findSeparator).length = n.findSeparator.length := by
  unfold BTreeNode.getSep
  rw [ht]
  simp only [if_true]
  rw [hlen]
  rw [show n.prefixLength + n.commonPrefix n.findSeparator.slot
      (n.findSeparator.slot + 1) + 1 - n.prefixLength
      = n.commonPrefix n.findSeparator.slot (n.findSeparator.slot + 1) + 1
    by omega]
  refine ⟨rfl, ?_⟩
  rw [List.length_append, prefixBytes_length n hsl, List.length_take]
  omega

/-- Separator bounds when the separator is some slot's full key. -/
theorem sep_bounds_of_eq_fullKey (n : BTreeNode) (hs : sortedNode n)
    (hBlt : n.findSeparator.slot < n.count)
    (hSeq : n.getSep n.findSeparator
      = n.fullKey (n.slotD n.findSeparator.slot)) :
    (∀ j, j ≤ n.findSeparator.slot → j < n.count →
      ble (n.fullKey (n.slotD j)) (n.getSep n.findSeparator)) ∧
    (∀ j, n.findSeparator.slot < j → j < n.count →
      blt (n.getSep n.findSeparator) (n.fullKey (n.slotD j))) := by
  constructor
  · intro j hj1 hj2
    rw [hSeq]
    rcases Nat.eq_or_lt_of_le hj1 with he | hlt
    · rw [he]
      exact ble_refl _
    · refine ble_of_blt ?_
      unfold BTreeNode.fullKey
      exact blt_append.mpr (sorted_lt hs hlt hBlt)
  · intro j hj1 hj2
    rw [hSeq]
    unfold BTreeNode.fullKey
    exact blt_append.mpr (sorted_lt hs hj1 hj2)

/-- Order bounds of the chosen separator: at or above every slot up to
`bestSlot`, strictly below every slot past it. -/
theorem getSep_bounds (n : BTreeNode) (hs : sortedNode n)
    (hsl : n.prefixLength ≤ n.lowerFence.length) (hc1 : 1 ≤ n.count) :
    (∀ j, j ≤ n.findSeparator.slot → j < n.count →
      ble (n.fullKey (n.slotD j)) (n.getSep n.findSeparator)) ∧
    (∀ j, n.findSeparator.slot < j → j < n.count →
      blt (n.getSep n.findSeparator) (n.fullKey (n.slotD j))) := by
  by_cases hleaf : n.isLeaf = true
  case neg =>
    have hlf : n.isLeaf = false := by
      cases hh : n.isLeaf
      · rfl
      · exact absurd hh hleaf
    have hinner : n.isInner = true := by
      unfold BTreeNode.isInner
      rw [hlf]
      rfl
    have hfs := findSeparator_inner_spec n hinner
    have hslotB : n.findSeparator.slot = n.count / 2 := by rw [hfs]
    refine sep_bounds_of_eq_fullKey n hs (by omega) ?_
    refine (getSep_untrunc n hsl (by rw [hfs]) (by rw [hfs])).1
  case pos =>
    obtain ⟨hb1, _, htrunc, huntrunc⟩ := findSeparator_leaf_spec n hleaf hc1
    by_cases ht : n.findSeparator.isTruncated = true
    · obtain ⟨hblt, hk0, hk1, hlen⟩ := htrunc ht
      obtain ⟨hSeq, _⟩ := getSep_trunc n hsl ht hlen hk1
      have hBlt : n.findSeparator.slot < n.count := by omega
      have hkeyblt : blt (n.slotD n.findSeparator.slot).key
          (n.slotD (n.findSeparator.slot + 1)).key :=
        sorted_lt hs (Nat.lt_succ_self _) hblt
      have hsepB : blt (n.fullKey (n.slotD n.findSeparator.slot))
          (n.getSep n.findSeparator) := by
        rw [hSeq]
        unfold BTreeNode.fullKey
        refine blt_append.mpr ?_
        refine blt_take_succ_of_blt _ _
          (n.commonPrefix n.findSeparator.slot (n.findSeparator.slot + 1))
          rfl (by omega) (by omega) hkeyblt
      have hsepB1 : blt (n.getSep n.findSeparator)
          (n.fullKey (n.slotD (n.findSeparator.slot + 1))) := by
        rw [hSeq]
        unfold BTreeNode.fullKey
        refine blt_append.mpr ?_
        exact blt_take_of_lt_length (by omega)
      constructor
      · intro j hj1 hj2
        rcases Nat.eq_or_lt_of_le hj1 with he | hlt
        · rw [he]
          exact ble_of_blt hsepB
        · refine ble_of_blt (blt_trans ?_ hsepB)
          unfold BTreeNode.fullKey
          exact blt_append.mpr (sorted_lt hs hlt hBlt)
      · intro j hj1 hj2
        rcases Nat.eq_or_lt_of_le (show n.findSeparator.slot + 1 ≤ j
            by omega) with he | hlt
        · rw [← he]
          exact hsepB1
        · refine blt_trans hsepB1 ?_
          unfold BTreeNode.fullKey
          exact blt_append.mpr (sorted_lt hs hlt hj2)
    · have ht2 : n.findSeparator.isTruncated = false := by
        cases hh : n.findSeparator.isTruncated
        · rfl
        · exact absurd hh ht
      refine sep_bounds_of_eq_fullKey n hs (by omega) ?_
      exact (getSep_untrunc n hsl ht2 (huntrunc ht2)).1

/-! ### Separator facts: position, length, bytes, strict fence bounds -/

theorem blt_nil_right (a : List Nat) : ¬ blt a [] := by
  intro h
  unfold blt at h
  cases a with
  | nil => rw [show bcmp [] [] = .eq from rfl] at h; cases h
  | cons x a' => rw [show bcmp (x :: a') [] = .gt from rfl] at h; cases h

theorem blt_nil_left {a : List Nat} (h : a ≠ []) : blt [] a := by
  cases a with
  | nil => exact absurd rfl h
  | cons x a' =>
    show bcmp [] (x :: a') = .lt
    rfl

theorem blt_ne_nil {a b : List Nat} (h : blt a b) : b ≠ [] :=
  fun hb => blt_nil_right a (hb ▸ h)

theorem commonPrefixLen_ge_of_take_eq :
    ∀ (p : Nat) (a b : List Nat), p ≤ a.length → p ≤ b.length →
      a.take p = b.take p → p ≤ commonPrefixLen a b := by
  intro p
  induction p with
  | zero =>
    intro a b _ _ _
    omega
  | succ p ih =>
    intro a b ha hb heq
    cases a with
    | nil => simp at ha
    | cons x a' =>
      cases b with
      | nil => simp at hb
      | cons y b' =>
        simp only [List.take_succ_cons, List.cons.injEq] at heq
        unfold commonPrefixLen
        rw [if_pos heq.1]
        have := ih a' b' (by simpa using ha) (by simpa using hb) heq.2
        omega

theorem allBytes_take {l : List Nat} (m : Nat) (h : allBytes l) :
    allBytes (l.take m) :=
  fun b hb => h b (List.take_subset m l hb)

theorem allBytes_append {a b : List Nat} (ha : allBytes a) (hb : allBytes b) :
    allBytes (a ++ b) := by
  intro x hx
  rcases List.mem_append.mp hx with h | h
  · exact ha x h
  · exact hb x h

theorem isLeaf_true_iff (n : BTreeNode) :
    n.isLeaf = true ↔ n.tag = .basicLeaf := by
  unfold BTreeNode.isLeaf
  cases n.tag <;> simp

/-- `findSeparator`'s slot on a node holding at least three slots is at
least 1. -/
theorem findSeparator_slot_pos (n : BTreeNode) (hc3 : 3 ≤ n.count) :
    1 ≤ n.findSeparator.slot := by
  by_cases hinner : n.isInner = true
  · rw [findSeparator_inner_spec n hinner]
    show 1 ≤ n.count / 2
    omega
  · have hinner' : n.isInner = false := by
      cases h : n.isInner
      · rfl
      · exact absurd h hinner
    have hleaf : n.isLeaf = true :=
      (isLeaf_true_iff n).mpr (isLeaf_of_not_isInner hinner)
    by_cases h16 : 16 < n.count
    · rw [findSeparator_slot_leaf n hleaf h16]
      split
      · omega
      · unfold BTreeNode.sepScan
        have h := @sepGo_le n (n.commonPrefix (n.count / 2 - n.count / 16) 0)
          (n.count / 2) (n.count / 2 - (n.count / 2 - n.count / 16 + 1))
          (n.count / 2 - n.count / 16 + 1)
        omega
    · unfold BTreeNode.findSeparator
      rw [hinner']
      simp only [Bool.false_eq_true, if_false, if_neg h16]
      split
      · show 1 ≤ (n.count - 1) / 2
        omega
      · show 1 ≤ (n.count - 1) / 2
        omega

/-- `findSeparator`'s slot on a node holding at least three slots leaves at
least one slot to its right. -/
theorem findSeparator_slot_succ_lt (n : BTreeNode) (hc3 : 3 ≤ n.count) :
    n.findSeparator.slot + 1 < n.count := by
  by_cases hinner : n.isInner = true
  · rw [findSeparator_inner_spec n hinner]
    show n.count / 2 + 1 < n.count
    omega
  · have hleaf : n.isLeaf = true :=
      (isLeaf_true_iff n).mpr (isLeaf_of_not_isInner hinner)
    exact (findSeparator_leaf_spec n hleaf (by omega)).2.1 hc3

/-- On a small leaf the separator slot is the middle index. -/
theorem findSeparator_slot_leaf_small (n : BTreeNode)
    (hleaf : n.isLeaf = true) (hc : ¬ 16 < n.count) :
    n.findSeparator.slot = (n.count - 1) / 2 := by
  have hinner : n.isInner = false := by
    simp [BTreeNode.isInner, hleaf]
  unfold BTreeNode.findSeparator
  rw [hinner]
  simp only [Bool.false_eq_true, if_false, if_neg hc]
  split <;> rfl

/-- A leaf the separator-slot asserts let through holds at least three
slots. -/
theorem splitOk_leaf_count3 (n : BTreeNode) (hleaf : n.isLeaf = true)
    (hsOk : splitOk n) : 3 ≤ n.count := by
  by_cases hc : 16 < n.count
  · omega
  · have hslot := findSeparator_slot_leaf_small n hleaf hc
    have h1 := hsOk.2.1
    rw [hslot] at h1
    omega

/-- Length, byte-ness and size bound of the chosen separator. -/
theorem getSep_facts (n : BTreeNode) (hw : wfPage n) (hfok : fencesOk n)
    (hfb : fenceBytes n) (hc1 : 1 ≤ n.count) :
    (n.getSep n.findSeparator).length = n.findSeparator.length ∧
    allBytes (n.getSep n.findSeparator) ∧
    (pageSized n → (n.getSep n.findSeparator).length ≤ maxKVSize) := by
  obtain ⟨hs, hh, hkb, hhint⟩ := hw
  have hsl : n.prefixLength ≤ n.lowerFence.length := by
    rw [hfok]
    exact commonPrefixLen_le_left _ _
  have hpbBytes : allBytes n.prefixBytes := allBytes_take _ hfb.1
  by_cases hinner : n.isInner = true
  · have hfs := findSeparator_inner_spec n hinner
    have hBlt : n.findSeparator.slot < n.count := by
      rw [hfs]
      show n.count / 2 < n.count
      omega
    obtain ⟨hSeq, hSlen⟩ := getSep_untrunc n hsl (by rw [hfs]) (by rw [hfs])
    refine ⟨hSlen, ?_, ?_⟩
    · rw [hSeq]
      exact allBytes_append hpbBytes (hkb _ (slotD_mem n hBlt))
    · intro hps
      rw [hSlen, hfs]
      show n.prefixLength + (n.slotD (n.count / 2)).key.length ≤ maxKVSize
      exact (hps.2.2 _ (slotD_mem n (by omega))).1
  · have hleaf : n.isLeaf = true :=
      (isLeaf_true_iff n).mpr (isLeaf_of_not_isInner hinner)
    obtain ⟨hb1, _, htrunc, huntrunc⟩ := findSeparator_leaf_spec n hleaf hc1
    by_cases ht : n.findSeparator.isTruncated = true
    · obtain ⟨hblt, hk0, hk1, hlen⟩ := htrunc ht
      obtain ⟨hSeq, hSlen⟩ := getSep_trunc n hsl ht hlen hk1
      refine ⟨hSlen, ?_, ?_⟩
      · rw [hSeq]
        exact allBytes_append hpbBytes
          (allBytes_take _ (hkb _ (slotD_mem n hblt)))
      · intro hps
        rw [hSlen, hlen]
        have := (hps.2.2 _ (slotD_mem n hblt)).1
        omega
    · have ht2 : n.findSeparator.isTruncated = false := by
        cases hh2 : n.findSeparator.isTruncated
        · rfl
        · exact absurd hh2 ht
      obtain ⟨hSeq, hSlen⟩ := getSep_untrunc n hsl ht2 (huntrunc ht2)
      have hBlt : n.findSeparator.slot < n.count := by omega
      refine ⟨hSlen, ?_, ?_⟩
      · rw [hSeq]
        exact allBytes_append hpbBytes (hkb _ (slotD_mem n hBlt))
      · intro hps
        rw [hSlen, huntrunc ht2]
        exact (hps.2.2 _ (slotD_mem n hBlt)).1

/-- Strict fence bounds of the separator on a node holding at least three
fence-covered slots. -/
theorem sep_strict (n : BTreeNode) (hs : sortedNode n)
    (hsl : n.prefixLength ≤ n.lowerFence.length) (hc3 : 3 ≤ n.count)
    (hcovL : ∀ sl ∈ n.slots,
      n.lowerFence = [] ∨ blt n.lowerFence (n.fullKey sl))
    (hcovU : ∀ sl ∈ n.slots,
      n.upperFence = [] ∨ ble (n.fullKey sl) n.upperFence) :
    (n.lowerFence = [] ∨ blt n.lowerFence (n.getSep n.findSeparator)) ∧
    (n.upperFence = [] ∨ blt (n.getSep n.findSeparator) n.upperFence) ∧
    n.getSep n.findSeparator ≠ [] := by
  obtain ⟨hlo, hhi⟩ := getSep_bounds n hs hsl (by omega)
  have hB1 : 1 ≤ n.findSeparator.slot := findSeparator_slot_pos n hc3
  have hB2 : n.findSeparator.slot + 1 < n.count := findSeparator_slot_succ_lt n hc3
  have h0B : blt (n.fullKey (n.slotD 0)) (n.getSep n.findSeparator) := by
    refine blt_of_blt_of_ble ?_ (hlo _ (le_refl _) (by omega))
    unfold BTreeNode.fullKey
    exact blt_append.mpr (sorted_lt hs (by omega) (by omega))
  have hSB1 : blt (n.getSep n.findSeparator)
      (n.fullKey (n.slotD (n.findSeparator.slot + 1))) :=
    hhi _ (Nat.lt_succ_self _) hB2
  refine ⟨?_, ?_, blt_ne_nil h0B⟩
  · rcases hcovL _ (slotD_mem n (show 0 < n.count by omega)) with h | h
    · exact Or.inl h
    · exact Or.inr (blt_trans h h0B)
  · rcases hcovU _ (slotD_mem n hB2) with h | h
    · exact Or.inl h
    · exact Or.inr (blt_of_blt_of_ble hSB1 h)

/-- Strict fence bounds and nonemptiness of the separator of any node the
split asserts let through: a leaf then holds three slots (`sep_strict`),
and an inner node's separator is a stored slot key, strictly fenced and
nonempty by the tree invariant. -/
theorem sep_strict2 (t : BTreeNode) (hw : WfT t) (hsOk : splitOk t) :
    (t.lowerFence = [] ∨ blt t.lowerFence (t.getSep t.findSeparator)) ∧
    (t.upperFence = [] ∨ blt (t.getSep t.findSeparator) t.upperFence) ∧
    t.getSep t.findSeparator ≠ [] := by
  obtain ⟨hs, hh, hkb, hhint⟩ := hw.toWfPage
  have hfok := hw.toFencesOk
  have hsl : t.prefixLength ≤ t.lowerFence.length := by
    rw [hfok]
    exact commonPrefixLen_le_left _ _
  by_cases hleaf : t.isLeaf = true
  · have hc3 : 3 ≤ t.count := splitOk_leaf_count3 t hleaf hsOk
    have hcovL : ∀ sl ∈ t.slots,
        t.lowerFence = [] ∨ blt t.lowerFence (t.fullKey sl) := by
      cases hw with
      | leaf _ _ _ _ _ hcov _ => exact fun sl hm => (hcov sl hm).1
      | inner _ _ _ _ _ _ hcovS _ _ _ _ _ _ _ _ =>
        exact fun sl hm => (hcovS sl hm).1
    have hcovU : ∀ sl ∈ t.slots,
        t.upperFence = [] ∨ ble (t.fullKey sl) t.upperFence := by
      cases hw with
      | leaf _ _ _ _ _ hcov _ => exact fun sl hm => (hcov sl hm).2
      | inner _ _ _ _ _ _ hcovS _ _ _ _ _ _ _ _ =>
        intro sl hm
        rcases (hcovS sl hm).2 with h | h
        · exact Or.inl h
        · exact Or.inr (ble_of_blt h)
    exact sep_strict t hs hsl hc3 hcovL hcovU
  · have hlf : t.isLeaf = false := by
      cases hh2 : t.isLeaf
      · rfl
      · exact absurd hh2 hleaf
    have hinner : t.isInner = true := by
      show (!t.isLeaf) = true
      rw [hlf]
      rfl
    have hfsI := findSeparator_inner_spec t hinner
    have hSeq : t.getSep t.findSeparator
        = t.fullKey (t.slotD t.findSeparator.slot) :=
      (getSep_untrunc t hsl (by rw [hfsI]) (by rw [hfsI])).1
    have hmem := slotD_mem t hsOk.2.2
    have htagI : t.tag = .basicInner := (isInner_iff t).mp hinner
    cases hw with
    | leaf _ htagL _ _ _ _ _ =>
      rw [htagI] at htagL
      cases htagL
    | inner _ u htg hwp2 hfok2 hfb2 hcovS hsne2 hup hchsome hchwf hchfence
        hwu hulf huuf =>
      refine ⟨?_, ?_, ?_⟩
      · rw [hSeq]
        exact (hcovS _ hmem).1
      · rw [hSeq]
        rcases (hcovS _ hmem).2 with h | h
        · exact Or.inl h
        · exact Or.inr h
      · rw [hSeq]
        exact hsne2 _ hmem

/-! ### Space accounting across compaction -/

theorem slots_take_count (n : BTreeNode) : n.slots.take n.count = n.slots :=
  List.take_length _

/-- The per-entry heap bytes summed by `compactify`'s copy are the live entry
bytes. -/
theorem compactify_kvmap (n : BTreeNode) (hf : fencesOk n) :
    ((n.slots.drop 0).take n.count).map
        (fun sl => kvSpace (copiedKey n
          ((newNode n.tag).setFences n.lowerFence n.upperFence) sl) sl.payload)
      = n.slots.map fun sl => sl.key.length + sl.payload.len := by
  rw [List.drop_zero, slots_take_count]
  refine List.map_congr_left ?_
  intro sl _
  rw [copiedKey_self hf]
  rfl

theorem compactify_dataOffset {n : BTreeNode} (hf : fencesOk n) :
    n.compactify.dataOffset
      = pageSize - n.lowerFence.length - n.upperFence.length
        - ((n.slots.map fun sl => sl.key.length + sl.payload.len).sum) := by
  unfold BTreeNode.compactify
  simp only [BTreeNode.dataOffset_makeHint, BTreeNode.dataOffset_setUpper,
    BTreeNode.dataOffset_copyKeyValueRange, BTreeNode.dataOffset_setFences,
    dataOffset_newNode]
  rw [compactify_kvmap n hf]

/-- `compactify` re-establishes the heap-byte accounting from scratch. -/
theorem compactify_spaceAcc (n : BTreeNode) (hf : fencesOk n) :
    spaceAcc n.compactify := by
  unfold spaceAcc
  rw [compactify_lowerFence, compactify_upperFence, compactify_slots hf]
  have hu : n.compactify.spaceUsed
      = n.lowerFence.length + n.upperFence.length
        + ((n.slots.map fun sl => sl.key.length + sl.payload.len).sum) := by
    unfold BTreeNode.compactify
    simp only [BTreeNode.spaceUsed_makeHint, BTreeNode.spaceUsed_setUpper,
      BTreeNode.spaceUsed_copyKeyValueRange, BTreeNode.spaceUsed_setFences,
      spaceUsed_newNode]
    rw [compactify_kvmap n hf]
    omega
  rw [hu]
  have hm : ((n.slots.map fun sl => mkSlot sl.key sl.payload).map
        fun sl => sl.key.length + sl.payload.len)
      = n.slots.map fun sl => sl.key.length + sl.payload.len := by
    rw [List.map_map]
    rfl
  rw [hm]

theorem freeSpace_compactify {n : BTreeNode} (hf : fencesOk n)
    (hacc : spaceAcc n) :
    n.compactify.freeSpace = n.freeSpaceAfterCompaction := by
  unfold BTreeNode.freeSpace BTreeNode.freeSpaceAfterCompaction
  rw [compactify_count n hf, compactify_dataOffset hf]
  unfold spaceAcc at hacc
  rw [hacc]
  have h10 : fatSlotSize = 10 := rfl
  rw [h10]
  omega

/-- Once `requestSpaceFor` has granted space, asking the granted node again
for the same amount succeeds without further compaction. -/
theorem request_again_true (P P1 : BTreeNode) (need : Nat)
    (hf : fencesOk P) (hacc : spaceAcc P)
    (hreq : P.requestSpaceFor need = (true, P1)) :
    P1.requestSpaceFor need = (true, P1) := by
  unfold BTreeNode.requestSpaceFor at hreq
  by_cases h1 : need ≤ P.freeSpace
  · rw [if_pos h1] at hreq
    injection hreq with _ h2
    subst h2
    unfold BTreeNode.requestSpaceFor
    rw [if_pos h1]
  · rw [if_neg h1] at hreq
    by_cases h2 : need ≤ P.freeSpaceAfterCompaction
    · rw [if_pos h2] at hreq
      injection hreq with _ h3
      subst h3
      unfold BTreeNode.requestSpaceFor
      rw [if_pos (by rw [freeSpace_compactify hf hacc]; exact h2)]
    · rw [if_neg h2] at hreq
      injection hreq with hb _
      cases hb

/-- `lowerBound` reaches none of its three abort branches whenever the key
carries the page prefix. -/
theorem lowerBound_no_abort (n : BTreeNode) (key : List Nat)
    (hpl : n.prefixLength ≤ key.length)
    (hpre : key.take n.prefixLength = n.prefixBytes) :
    ∃ pos found, n.lowerBound key = .ok (pos, found) := by
  have hmemeq : memcmpN key n.prefixBytes (min key.length n.prefixLength)
      = .eq := by
    rw [Nat.min_eq_right hpl]
    refine memcmpN_eq_of_take_eq ?_
    rw [hpre]
    unfold BTreeNode.prefixBytes
    rw [List.take_take, Nat.min_self]
  unfold BTreeNode.lowerBound
  rw [hmemeq]
  rw [if_neg (by omega)]
  exact ⟨_, _, rfl⟩

/-- Unfolding of `BasicNode::insert` when the space check succeeds on the
node itself. -/
theorem insert_of_request_self (n1 : BTreeNode) (key : List Nat)
    (payload : Payload)
    (hreq : n1.requestSpaceFor (n1.spaceNeeded key.length payload.len)
      = (true, n1))
    {pos : Nat} {found : Bool}
    (hlb : n1.lowerBound key = .ok (pos, found)) :
    n1.insert key payload = .ok (true,
      (n1.insertKV pos (key.drop n1.prefixLength) payload).updateHint pos,
      pos) := by
  unfold BTreeNode.insert
  rw [hreq]
  simp only [hlb]

/-- `BasicNode::insert` never aborts on a page whose prefix the key
carries. -/
theorem insert_no_abort (n : BTreeNode) (key : List Nat) (payload : Payload)
    (hf : fencesOk n)
    (hpl : n.prefixLength ≤ key.length)
    (hpre : key.take n.prefixLength = n.prefixBytes) :
    n.insert key payload ≠ .error () := by
  rcases requestSpaceFor_cases n (n.spaceNeeded key.length payload.len)
    with hr | hr | hr
  · unfold BTreeNode.insert
    rw [hr]
    simp
  · obtain ⟨pos, found, hlb⟩ := lowerBound_no_abort n key hpl hpre
    unfold BTreeNode.insert
    rw [hr]
    simp only [hlb]
    simp
  · obtain ⟨pos, found, hlb⟩ := lowerBound_no_abort n.compactify key
      (by rw [compactify_prefixLength hf]; exact hpl)
      (by rw [compactify_prefixLength hf, compactify_prefixBytes hf]
          exact hpre)
    unfold BTreeNode.insert
    rw [hr]
    simp only [hlb]
    simp

/-! ### Subtree extraction of the size and well-formedness invariants -/

theorem treeSized_iff (n : BTreeNode) :
    treeSized n ↔ (pageSized n ∧ spaceAcc n) ∧
      treeSizedSlots n.slots ∧ treeSizedOpt n.upper := by
  cases n with
  | mk t u lf uf su d pl h s => exact Iff.rfl

theorem treeSizedSlots_iff (s : List FatSlot) :
    treeSizedSlots s ↔ ∀ sl ∈ s, treeSizedPayload sl.payload := by
  induction s with
  | nil => simp [treeSizedSlots]
  | cons a rest ih =>
    cases a with
    | mk k p hd =>
      simp only [treeSizedSlots]
      constructor
      · rintro ⟨hp, hrest⟩ sl hmem
        rcases List.mem_cons.mp hmem with he | hm
        · subst he
          exact hp
        · exact ih.mp hrest sl hm
      · intro h
        refine ⟨?_, ih.mpr fun sl hm => h sl (by simp [hm])⟩
        have := h (FatSlot.mk k p hd) (by simp)
        exact this

theorem treeSized_child {n : BTreeNode} (hts : treeSized n) {i : Nat}
    {c : BTreeNode} (hgc : n.getChild i = some c) : treeSized c := by
  rw [treeSized_iff] at hts
  rcases getChild_cases hgc with ⟨hieq, hup⟩ | ⟨hilt, hpay⟩
  · have h := hts.2.2
    rw [hup] at h
    exact h
  · have hmem := slotD_mem n hilt
    have h := (treeSizedSlots_iff n.slots).mp hts.2.1 _ hmem
    rw [hpay] at h
    exact h

/-- The well-formedness and fence equations of a child read through
`getChild` on a well-formed inner node. -/
theorem wfT_child {n : BTreeNode} (hw : WfT n) (htag : n.tag = .basicInner)
    {i : Nat} {c : BTreeNode} (hgc : n.getChild i = some c) :
    WfT c ∧ c.lowerFence = childLF n i ∧
      c.upperFence
        = (if i = n.count then n.upperFence else n.fullKey (n.slotD i)) := by
  cases hw with
  | leaf _ htagL => rw [htag] at htagL; cases htagL
  | inner _ u htagI hwp hfok hfb hcovS hsne hup hchsome hchwf hchfence hwu
      hulf huuf =>
    rcases getChild_cases hgc with ⟨hieq, hupc⟩ | ⟨hilt, hpay⟩
    · subst hieq
      rw [hup] at hupc
      injection hupc with hcu
      subst hcu
      rw [if_pos rfl]
      exact ⟨hwu, hulf, huuf⟩
    · refine ⟨hchwf i c hilt hgc, (hchfence i c hilt hgc).1, ?_⟩
      rw [if_neg (by omega)]
      exact (hchfence i c hilt hgc).2

/-! ### Node facts along a descent path -/

theorem nodeAtDepth_cons (a : BTreeNode × Nat)
    (rest : List (BTreeNode × Nat)) (leaf : BTreeNode) (d : Nat) :
    nodeAtDepth (a :: rest) leaf (d + 1) = nodeAtDepth rest leaf d := by
  unfold nodeAtDepth
  rw [List.length_cons]
  by_cases h : d < rest.length
  · rw [if_pos (by omega), if_pos h]
    rfl
  · rw [if_neg (by omega), if_neg h]

theorem pathOk_head (key : List Nat) (c leaf : BTreeNode)
    (rest : List (BTreeNode × Nat)) (hp : PathOk key c rest leaf) :
    nodeAtDepth rest leaf 0 = c := by
  cases hp with
  | nil _ h =>
    unfold nodeAtDepth
    simp
  | cons _ c2 _ pos found rest2 hin hlb hgc hrest =>
    unfold nodeAtDepth
    rw [if_pos (by simp)]
    rfl

/-- Along a successful descent on a well-formed, size-bounded tree, every
path entry is a well-formed, size-bounded inner node whose recorded
position is its `lowerBound` routing result and whose recorded child link
reads the next node of the chain. -/
theorem pathOk_nodeFacts (key : List Nat) :
    ∀ (n : BTreeNode) (path : List (BTreeNode × Nat)) (leaf : BTreeNode),
      PathOk key n path leaf → WfT n → treeSized n →
      WfT leaf ∧ treeSized leaf ∧
      ∀ d, d < path.length →
        WfT (path.getD d (leaf, 0)).1 ∧
        treeSized (path.getD d (leaf, 0)).1 ∧
        (path.getD d (leaf, 0)).1.isInner = true ∧
        (∃ fd, (path.getD d (leaf, 0)).1.lowerBound key
          = .ok ((path.getD d (leaf, 0)).2, fd)) ∧
        (path.getD d (leaf, 0)).1.getChild (path.getD d (leaf, 0)).2
          = some (nodeAtDepth path leaf (d + 1)) := by
  intro n path
  induction path generalizing n with
  | nil =>
    intro leaf hp hw hts
    cases hp with
    | nil _ hleaf =>
      refine ⟨hw, hts, ?_⟩
      intro d hd
      simp at hd
  | cons a rest ih =>
    intro leaf hp hw hts
    cases hp with
    | cons _ c _ pos found _ hin hlb hgc hrest =>
      have htag : n.tag = .basicInner := (isInner_iff n).mp hin
      have hcw : WfT c := (wfT_child hw htag hgc).1
      have hct : treeSized c := treeSized_child hts hgc
      obtain ⟨hwl, htl, hrest2⟩ := ih c leaf hrest hcw hct
      refine ⟨hwl, htl, ?_⟩
      intro d hd
      cases d with
      | zero =>
        refine ⟨hw, hts, hin, ⟨found, hlb⟩, ?_⟩
        rw [nodeAtDepth_cons, pathOk_head key c leaf rest hrest]
        exact hgc
      | succ d =>
        have hd2 : d < rest.length := by simpa using hd
        have h := hrest2 d hd2
        rw [nodeAtDepth_cons]
        exact h

/-! ### Index access to slot ranges -/

theorem mem_take_spec {α : Type} {l : List α} {m : Nat} {x : α}
    (h : x ∈ l.take m) :
    ∃ j, j < m ∧ ∃ hj : j < l.length, l.get ⟨j, hj⟩ = x := by
  obtain ⟨j, hj, hje⟩ := List.mem_iff_getElem.mp h
  have hjb : j < m ∧ j < l.length := by
    rw [List.length_take] at hj
    omega
  refine ⟨j, hjb.1, hjb.2, ?_⟩
  rw [← hje]
  show l.get ⟨j, hjb.2⟩ = (l.take m).get ⟨j, hj⟩
  simp [List.getElem_take]

theorem mem_drop_spec {α : Type} {l : List α} {m : Nat} {x : α}
    (h : x ∈ l.drop m) :
    ∃ j, m ≤ j ∧ ∃ hj : j < l.length, l.get ⟨j, hj⟩ = x := by
  obtain ⟨j, hj, hje⟩ := List.mem_iff_getElem.mp h
  have hjb : m + j < l.length := by
    rw [List.length_drop] at hj
    omega
  refine ⟨m + j, by omega, hjb, ?_⟩
  rw [← hje]
  show l.get ⟨m + j, hjb⟩ = (l.drop m).get ⟨j, hj⟩
  simp [List.getElem_drop]

theorem map_eq_imp_getElem {α β : Type} {f g : α → β} {xs ys : List α}
    (h : xs.map f = ys.map g) {j : Nat} (hx : j < xs.length)
    (hy : j < ys.length) :
    f (xs.get ⟨j, hx⟩) = g (ys.get ⟨j, hy⟩) := by
  have h2 := congrArg (fun l => l.getD j (f (xs.get ⟨j, hx⟩))) h
  simp only [] at h2
  rw [List.getD_eq_getElem _ _ (by simpa using hx),
    List.getD_eq_getElem _ _ (by simpa using hy)] at h2
  simpa using h2

/-! ### Well-formedness of the split siblings -/

/-- The two siblings produced by `BasicNode::splitNode` on a full
well-formed, size-bounded node are themselves well formed and size bounded,
and carry the separator as their shared fence. -/
theorem splitNode_sibs (t P l r p2 : BTreeNode) (ipos : Nat)
    (hw : WfT t) (hts : treeSized t) (hsOk : splitOk t)
    (hsplit : t.splitNode P = .ok (some (l, r, p2, ipos))) :
    WfT l ∧ WfT r ∧ treeSized l ∧ treeSized r ∧
    l.lowerFence = t.lowerFence ∧
    l.upperFence = t.getSep t.findSeparator ∧
    r.lowerFence = t.getSep t.findSeparator ∧
    r.upperFence = t.upperFence ∧
    (∀ k ∈ treeKeys l, k ∈ treeKeys t) ∧
    (∀ k ∈ treeKeys r, k ∈ treeKeys t) := by
  obtain ⟨hs, hh, hkb, hhint⟩ := hw.toWfPage
  have hfok := hw.toFencesOk
  have hfb := hw.toFenceBytes
  have hps : pageSized t := ((treeSized_iff t).mp hts).1.1
  have hslotsS : treeSizedSlots t.slots := ((treeSized_iff t).mp hts).2.1
  have hsl : t.prefixLength ≤ t.lowerFence.length := by
    rw [hfok]
    exact commonPrefixLen_le_left _ _
  have hB1 : 1 ≤ t.findSeparator.slot := hsOk.2.1
  have hB2 : t.findSeparator.slot + 1 ≤ t.count := hsOk.2.2
  obtain ⟨hSlen, hSbytes, hSsize'⟩ :=
    getSep_facts t ⟨hs, hh, hkb, hhint⟩ hfok hfb (by omega)
  have hSsize := hSsize' hps
  have hcovL : ∀ sl ∈ t.slots,
      t.lowerFence = [] ∨ blt t.lowerFence (t.fullKey sl) := by
    cases hw with
    | leaf _ _ _ _ _ hcov _ => exact fun sl hm => (hcov sl hm).1
    | inner _ _ _ _ _ _ hcovS _ _ _ _ _ _ _ _ =>
      exact fun sl hm => (hcovS sl hm).1
  have hcovU : ∀ sl ∈ t.slots,
      t.upperFence = [] ∨ ble (t.fullKey sl) t.upperFence := by
    cases hw with
    | leaf _ _ _ _ _ hcov _ => exact fun sl hm => (hcov sl hm).2
    | inner _ _ _ _ _ _ hcovS _ _ _ _ _ _ _ _ =>
      intro sl hm
      rcases (hcovS sl hm).2 with h | h
      · exact Or.inl h
      · exact Or.inr (ble_of_blt h)
  obtain ⟨hSlo, hShi, hSne⟩ := sep_strict2 t hw hsOk
  obtain ⟨hlo, hhiB⟩ := getSep_bounds t hs hsl (by omega)
  obtain ⟨hlt, hrt, hllf, hluf, hrlf, hruf, hlfok, hrfok, hlhint, hrhint,
    hlpl, hrpl, hLslots, hRslots, hUleaf, hUinner, hlacc, hracc, _⟩ :=
    splitNode_parts t P l r p2 ipos (by omega) hsplit
  set S := t.getSep t.findSeparator with hSdef
  set dstL := (newNode t.tag).setFences t.lowerFence S with hdstL
  set dstR := (newNode t.tag).setFences S t.upperFence with hdstR
  have hlplB : l.prefixLength = dstL.prefixLength := by
    rw [hlpl, hdstL]
    rfl
  have hrplB : r.prefixLength = dstR.prefixLength := by
    rw [hrpl, hdstR]
    rfl
  have hlPB : l.prefixBytes = dstL.prefixBytes := by
    unfold BTreeNode.prefixBytes
    rw [hllf, hlpl, hdstL]
    rfl
  have hrPB : r.prefixBytes = dstR.prefixBytes := by
    unfold BTreeNode.prefixBytes
    rw [hrlf, hrpl, hdstR]
    rfl
  have hlplLen : l.prefixLength ≤ l.lowerFence.length := by
    rw [hllf, hlpl]
    exact commonPrefixLen_le_left _ _
  have hrplLen : r.prefixLength ≤ r.lowerFence.length := by
    rw [hrlf, hrpl]
    exact commonPrefixLen_le_left _ _
  have hcompatL' : ∀ j, j < t.count → j ≤ t.findSeparator.slot →
      (t.fullKey (t.slotD j)).take l.prefixLength = l.prefixBytes := by
    intro j hj hjB
    have hble : ble (t.fullKey (t.slotD j)) S := hlo j hjB hj
    rcases hcovL _ (slotD_mem t hj) with hnil | hblt
    · have h0 : l.prefixLength = 0 := by
        rw [hlpl, hnil, commonPrefixLen_nil_left]
      unfold BTreeNode.prefixBytes
      rw [h0]
      simp
    · have hcp := cover_take_prefix (le_of_eq hlpl) hblt hble
      rw [hcp.2]
      unfold BTreeNode.prefixBytes
      rw [hllf, hlpl]
  have hcompatR' : ∀ j, j < t.count → t.findSeparator.slot < j →
      (t.fullKey (t.slotD j)).take r.prefixLength = r.prefixBytes := by
    intro j hj hjB
    have hblt : blt S (t.fullKey (t.slotD j)) := hhiB j hjB hj
    rcases hcovU _ (slotD_mem t hj) with hnil | hble
    · have h0 : r.prefixLength = 0 := by
        rw [hrpl, hnil, commonPrefixLen_nil_right]
      unfold BTreeNode.prefixBytes
      rw [h0]
      simp
    · have hcp := cover_take_prefix (le_of_eq hrpl) hblt hble
      rw [hcp.2]
      unfold BTreeNode.prefixBytes
      rw [hrlf, hrpl]
  have hcompatL : ∀ sl ∈ splitRangeL t,
      (t.fullKey sl).take l.prefixLength = l.prefixBytes := by
    intro sl hm
    unfold splitRangeL at hm
    by_cases hlv : t.isLeaf = true
    · rw [if_pos hlv] at hm
      obtain ⟨j, hjm, hjl, hje⟩ := mem_take_spec hm
      have hsd : t.slotD j = sl := by
        rw [slotD_eq_getElem t hjl]
        simpa using hje
      rw [← hsd]
      exact hcompatL' j hjl (by omega)
    · rw [if_neg hlv] at hm
      obtain ⟨j, hjm, hjl, hje⟩ := mem_take_spec hm
      have hsd : t.slotD j = sl := by
        rw [slotD_eq_getElem t hjl]
        simpa using hje
      rw [← hsd]
      exact hcompatL' j hjl (by omega)
  have hcompatR : ∀ sl ∈ splitRangeR t,
      (t.fullKey sl).take r.prefixLength = r.prefixBytes := by
    intro sl hm
    unfold splitRangeR at hm
    obtain ⟨j, hjm, hjl, hje⟩ := mem_drop_spec hm
    have hsd : t.slotD j = sl := by
      rw [slotD_eq_getElem t hjl]
      simpa using hje
    rw [← hsd]
    exact hcompatR' j hjl (by omega)
  obtain ⟨hsortL, hsortR⟩ :=
    splitNode_sorted hs hsl (by omega) hsplit hcompatL hcompatR
  have hlIdx : ∀ sl ∈ l.slots, ∃ j, j < t.count ∧
      (t.isLeaf = true → j < t.findSeparator.slot + 1) ∧
      (t.isLeaf = false → j < t.findSeparator.slot) ∧
      l.fullKey sl = t.fullKey (t.slotD j) ∧
      sl.payload = (t.slotD j).payload := by
    intro sl hm
    rw [hLslots] at hm
    obtain ⟨sl0, hm0, he⟩ := List.mem_map.mp hm
    have hfull : l.fullKey sl = t.fullKey sl0 := by
      rw [← he]
      show l.prefixBytes ++ (mkSlot (copiedKey t dstL sl0) sl0.payload).key
        = t.fullKey sl0
      rw [mkSlot_key, hlPB]
      refine prefix_append_copied t dstL sl0 hsl ?_
      rw [← hlplB, ← hlPB]
      exact hcompatL sl0 hm0
    have hpay : sl.payload = sl0.payload := by
      rw [← he]
      rfl
    unfold splitRangeL at hm0
    by_cases hlv : t.isLeaf = true
    · rw [if_pos hlv] at hm0
      obtain ⟨j, hjm, hjl, hje⟩ := mem_take_spec hm0
      have hsd : t.slotD j = sl0 := by
        rw [slotD_eq_getElem t hjl]
        simpa using hje
      refine ⟨j, hjl, fun _ => hjm, fun hlf => absurd hlv (by rw [hlf]; simp),
        ?_, ?_⟩
      · rw [hfull, hsd]
      · rw [hpay, hsd]
    · rw [if_neg hlv] at hm0
      obtain ⟨j, hjm, hjl, hje⟩ := mem_take_spec hm0
      have hsd : t.slotD j = sl0 := by
        rw [slotD_eq_getElem t hjl]
        simpa using hje
      refine ⟨j, hjl, fun _ => by omega, fun _ => hjm, ?_, ?_⟩
      · rw [hfull, hsd]
      · rw [hpay, hsd]
  have hrIdx : ∀ sl ∈ r.slots, ∃ j, t.findSeparator.slot < j ∧ j < t.count ∧
      r.fullKey sl = t.fullKey (t.slotD j) ∧
      sl.payload = (t.slotD j).payload := by
    intro sl hm
    rw [hRslots] at hm
    obtain ⟨sl0, hm0, he⟩ := List.mem_map.mp hm
    have hfull : r.fullKey sl = t.fullKey sl0 := by
      rw [← he]
      show r.prefixBytes ++ (mkSlot (copiedKey t dstR sl0) sl0.payload).key
        = t.fullKey sl0
      rw [mkSlot_key, hrPB]
      refine prefix_append_copied t dstR sl0 hsl ?_
      rw [← hrplB, ← hrPB]
      exact hcompatR sl0 hm0
    have hpay : sl.payload = sl0.payload := by
      rw [← he]
      rfl
    unfold splitRangeR at hm0
    obtain ⟨j, hjm, hjl, hje⟩ := mem_drop_spec hm0
    have hsd : t.slotD j = sl0 := by
      rw [slotD_eq_getElem t hjl]
      simpa using hje
    refine ⟨j, by omega, hjl, ?_, ?_⟩
    · rw [hfull, hsd]
    · rw [hpay, hsd]
  have hentLk : l.slots.map l.fullKey = (splitRangeL t).map t.fullKey := by
    rw [hLslots, List.map_map]
    refine List.map_congr_left ?_
    intro sl hmem
    show l.prefixBytes ++ (mkSlot (copiedKey t dstL sl) sl.payload).key
      = t.fullKey sl
    rw [mkSlot_key, hlPB]
    refine prefix_append_copied t dstL sl hsl ?_
    rw [← hlplB, ← hlPB]
    exact hcompatL sl hmem
  have hentRk : r.slots.map r.fullKey = (splitRangeR t).map t.fullKey := by
    rw [hRslots, List.map_map]
    refine List.map_congr_left ?_
    intro sl hmem
    show r.prefixBytes ++ (mkSlot (copiedKey t dstR sl) sl.payload).key
      = t.fullKey sl
    rw [mkSlot_key, hrPB]
    refine prefix_append_copied t dstR sl hsl ?_
    rw [← hrplB, ← hrPB]
    exact hcompatR sl hmem
  have hentLp : l.slots.map FatSlot.payload
      = (splitRangeL t).map FatSlot.payload := by
    rw [hLslots, List.map_map]
    rfl
  have hentRp : r.slots.map FatSlot.payload
      = (splitRangeR t).map FatSlot.payload := by
    rw [hRslots, List.map_map]
    rfl
  have hheadsL : headsOk l := by
    intro sl hm
    rw [hLslots] at hm
    obtain ⟨sl0, _, he⟩ := List.mem_map.mp hm
    rw [← he]
    rfl
  have hheadsR : headsOk r := by
    intro sl hm
    rw [hRslots] at hm
    obtain ⟨sl0, _, he⟩ := List.mem_map.mp hm
    rw [← he]
    rfl
  have hkbL : keysBytes l := by
    intro sl hm
    obtain ⟨j, hj, _, _, hfull, _⟩ := hlIdx sl hm
    have hFB : allBytes (l.fullKey sl) := by
      rw [hfull]
      unfold BTreeNode.fullKey
      exact allBytes_append (allBytes_take _ hfb.1) (hkb _ (slotD_mem t hj))
    intro b hb
    refine hFB b ?_
    unfold BTreeNode.fullKey
    exact List.mem_append_right _ hb
  have hkbR : keysBytes r := by
    intro sl hm
    obtain ⟨j, _, hj, hfull, _⟩ := hrIdx sl hm
    have hFB : allBytes (r.fullKey sl) := by
      rw [hfull]
      unfold BTreeNode.fullKey
      exact allBytes_append (allBytes_take _ hfb.1) (hkb _ (slotD_mem t hj))
    intro b hb
    refine hFB b ?_
    unfold BTreeNode.fullKey
    exact List.mem_append_right _ hb
  have hwpL : wfPage l := ⟨hsortL, hheadsL, hkbL, hlhint⟩
  have hwpR : wfPage r := ⟨hsortR, hheadsR, hkbR, hrhint⟩
  have hfbL : fenceBytes l := by
    constructor
    · rw [hllf]
      exact hfb.1
    · rw [hluf]
      exact hSbytes
  have hfbR : fenceBytes r := by
    constructor
    · rw [hrlf]
      exact hSbytes
    · rw [hruf]
      exact hfb.2
  have hfullLen : ∀ (m : BTreeNode) (sl : FatSlot),
      m.prefixLength ≤ m.lowerFence.length →
      (m.fullKey sl).length = m.prefixLength + sl.key.length := by
    intro m sl hple
    unfold BTreeNode.fullKey
    rw [List.length_append, prefixBytes_length m hple]
  have hpsL : pageSized l := by
    refine ⟨by rw [hllf]; exact hps.1, by rw [hluf]; exact hSsize, ?_⟩
    intro sl hm
    obtain ⟨j, hj, _, _, hfull, hpay⟩ := hlIdx sl hm
    have h1 := congrArg List.length hfull
    rw [hfullLen l sl hlplLen, hfullLen t _ hsl] at h1
    have hb := hps.2.2 _ (slotD_mem t hj)
    have hb1 := hb.1
    have hb2 := hb.2
    have hpl2 : sl.payload.len = ((t.slotD j).payload).len := by
      rw [hpay]
    constructor
    · omega
    · rw [hpl2]
      omega
  have hpsR : pageSized r := by
    refine ⟨by rw [hrlf]; exact hSsize, by rw [hruf]; exact hps.2.1, ?_⟩
    intro sl hm
    obtain ⟨j, _, hj, hfull, hpay⟩ := hrIdx sl hm
    have h1 := congrArg List.length hfull
    rw [hfullLen r sl hrplLen, hfullLen t _ hsl] at h1
    have hb := hps.2.2 _ (slotD_mem t hj)
    have hb1 := hb.1
    have hb2 := hb.2
    have hpl2 : sl.payload.len = ((t.slotD j).payload).len := by
      rw [hpay]
    constructor
    · omega
    · rw [hpl2]
      omega
  have htszL : treeSizedSlots l.slots := by
    rw [treeSizedSlots_iff]
    intro sl hm
    obtain ⟨j, hj, _, _, _, hpay⟩ := hlIdx sl hm
    rw [hpay]
    exact (treeSizedSlots_iff t.slots).mp hslotsS _ (slotD_mem t hj)
  have htszR : treeSizedSlots r.slots := by
    rw [treeSizedSlots_iff]
    intro sl hm
    obtain ⟨j, _, hj, _, hpay⟩ := hrIdx sl hm
    rw [hpay]
    exact (treeSizedSlots_iff t.slots).mp hslotsS _ (slotD_mem t hj)
  by_cases hleaf : t.isLeaf = true
  · have htagLf : t.tag = .basicLeaf := (isLeaf_true_iff t).mp hleaf
    have hpayB : ∀ sl ∈ t.slots, ∃ v, sl.payload = .bytes v := by
      cases hw with
      | leaf _ _ _ _ _ _ hp => exact hp
      | inner _ _ htagI _ _ _ _ _ _ _ _ _ _ _ _ =>
        rw [htagLf] at htagI
        cases htagI
    have hlWf : WfT l := by
      refine WfT.leaf l (by rw [hlt, htagLf]) hwpL hlfok hfbL ?_ ?_
      · intro sl hm
        obtain ⟨j, hj, hjB', _, hfull, _⟩ := hlIdx sl hm
        have hjB : j ≤ t.findSeparator.slot := by
          have := hjB' hleaf
          omega
        refine ⟨?_, ?_⟩
        · rw [hllf, hfull]
          exact hcovL _ (slotD_mem t hj)
        · rw [hluf, hfull]
          exact Or.inr (hlo j hjB hj)
      · intro sl hm
        obtain ⟨j, hj, _, _, _, hpay⟩ := hlIdx sl hm
        rw [hpay]
        exact hpayB _ (slotD_mem t hj)
    have hrWf : WfT r := by
      refine WfT.leaf r (by rw [hrt, htagLf]) hwpR hrfok hfbR ?_ ?_
      · intro sl hm
        obtain ⟨j, hjB, hj, hfull, _⟩ := hrIdx sl hm
        refine ⟨?_, ?_⟩
        · rw [hrlf, hfull]
          exact Or.inr (hhiB j hjB hj)
        · rw [hruf, hfull]
          exact hcovU _ (slotD_mem t hj)
      · intro sl hm
        obtain ⟨j, _, hj, _, hpay⟩ := hrIdx sl hm
        rw [hpay]
        exact hpayB _ (slotD_mem t hj)
    refine ⟨hlWf, hrWf, ?_, ?_, hllf, hluf, hrlf, hruf, ?_, ?_⟩
    · rw [treeSized_iff]
      refine ⟨⟨hpsL, hlacc⟩, htszL, ?_⟩
      rw [(hUleaf hleaf).1]
      trivial
    · rw [treeSized_iff]
      refine ⟨⟨hpsR, hracc⟩, htszR, ?_⟩
      rw [(hUleaf hleaf).2]
      trivial
    · intro k hk
      rw [treeKeys_leaf (show l.tag = .basicLeaf by rw [hlt, htagLf])] at hk
      obtain ⟨sl, hm, he⟩ := List.mem_map.mp hk
      obtain ⟨j, hj, _, _, hfull, _⟩ := hlIdx sl hm
      rw [treeKeys_leaf htagLf]
      refine List.mem_map.mpr ⟨t.slotD j, slotD_mem t hj, ?_⟩
      rw [← he]
      exact hfull.symm
    · intro k hk
      rw [treeKeys_leaf (show r.tag = .basicLeaf by rw [hrt, htagLf])] at hk
      obtain ⟨sl, hm, he⟩ := List.mem_map.mp hk
      obtain ⟨j, _, hj, hfull, _⟩ := hrIdx sl hm
      rw [treeKeys_leaf htagLf]
      refine List.mem_map.mpr ⟨t.slotD j, slotD_mem t hj, ?_⟩
      rw [← he]
      exact hfull.symm
  · have hlf2 : t.isLeaf = false := by
      cases hx : t.isLeaf
      · rfl
      · exact absurd hx hleaf
    have hinner : t.isInner = true := by
      unfold BTreeNode.isInner
      rw [hlf2]
      rfl
    have htagI : t.tag = .basicInner := (isInner_iff t).mp hinner
    have hfsI := findSeparator_inner_spec t hinner
    have hSeq : S = t.fullKey (t.slotD t.findSeparator.slot) := by
      rw [hSdef]
      exact (getSep_untrunc t hsl (by rw [hfsI]) (by rw [hfsI])).1
    cases hw with
    | leaf _ htagL _ _ _ _ _ =>
      rw [htagI] at htagL
      cases htagL
    | inner _ u htg hwp2 hfok2 hfb2 hcovS hsne2 hup hchsome hchwf hchfence
        hwu hulf huuf =>
      have hB2' : t.findSeparator.slot + 1 ≤ t.slots.length := hB2
      have hrangeL : splitRangeL t = t.slots.take t.findSeparator.slot := by
        unfold splitRangeL
        rw [hlf2]
        simp
      have hrangeR : splitRangeR t
          = t.slots.drop (t.findSeparator.slot + 1) := rfl
      have hLc : l.count = t.findSeparator.slot := by
        show l.slots.length = _
        rw [hLslots, List.length_map, hrangeL, List.length_take]
        omega
      have hRc : r.count = t.count - t.findSeparator.slot - 1 := by
        show r.slots.length = _
        rw [hRslots, List.length_map, hrangeR, List.length_drop]
        rfl
      have hfkL : ∀ j, j < t.findSeparator.slot →
          l.fullKey (l.slotD j) = t.fullKey (t.slotD j) := by
        intro j hj
        have hjl : j < l.slots.length := by
          have : l.slots.length = t.findSeparator.slot := hLc
          omega
        have hjr : j < (splitRangeL t).length := by
          rw [hrangeL, List.length_take]
          omega
        have hjt : j < t.slots.length := by omega
        have h2 := map_eq_imp_getElem hentLk hjl hjr
        rw [List.get_eq_getElem, List.get_eq_getElem] at h2
        have h3 : (splitRangeL t)[j] = t.slots[j] := by
          simp [hrangeL, List.getElem_take]
        rw [h3] at h2
        rw [slotD_eq_getElem l hjl, slotD_eq_getElem t hjt]
        exact h2
      have hplL : ∀ j, j < t.findSeparator.slot →
          (l.slotD j).payload = (t.slotD j).payload := by
        intro j hj
        have hjl : j < l.slots.length := by
          have : l.slots.length = t.findSeparator.slot := hLc
          omega
        have hjr : j < (splitRangeL t).length := by
          rw [hrangeL, List.length_take]
          omega
        have hjt : j < t.slots.length := by omega
        have h2 := map_eq_imp_getElem hentLp hjl hjr
        rw [List.get_eq_getElem, List.get_eq_getElem] at h2
        have h3 : (splitRangeL t)[j] = t.slots[j] := by
          simp [hrangeL, List.getElem_take]
        rw [h3] at h2
        rw [slotD_eq_getElem l hjl, slotD_eq_getElem t hjt]
        exact h2
      have hfkR : ∀ j, j < r.slots.length →
          r.fullKey (r.slotD j)
            = t.fullKey (t.slotD (t.findSeparator.slot + 1 + j)) := by
        intro j hj
        have hjr : j < (splitRangeR t).length := by
          rw [hRslots, List.length_map] at hj
          exact hj
        have hjt : t.findSeparator.slot + 1 + j < t.slots.length := by
          rw [hrangeR, List.length_drop] at hjr
          omega
        have h2 := map_eq_imp_getElem hentRk hj hjr
        rw [List.get_eq_getElem, List.get_eq_getElem] at h2
        have h3 : (splitRangeR t)[j]
            = t.slots[t.findSeparator.slot + 1 + j] := by
          simp [hrangeR, List.getElem_drop]
        rw [h3] at h2
        rw [slotD_eq_getElem r hj, slotD_eq_getElem t hjt]
        exact h2
      have hplR : ∀ j, j < r.slots.length →
          (r.slotD j).payload
            = (t.slotD (t.findSeparator.slot + 1 + j)).payload := by
        intro j hj
        have hjr : j < (splitRangeR t).length := by
          rw [hRslots, List.length_map] at hj
          exact hj
        have hjt : t.findSeparator.slot + 1 + j < t.slots.length := by
          rw [hrangeR, List.length_drop] at hjr
          omega
        have h2 := map_eq_imp_getElem hentRp hj hjr
        rw [List.get_eq_getElem, List.get_eq_getElem] at h2
        have h3 : (splitRangeR t)[j]
            = t.slots[t.findSeparator.slot + 1 + j] := by
          simp [hrangeR, List.getElem_drop]
        rw [h3] at h2
        rw [slotD_eq_getElem r hj, slotD_eq_getElem t hjt]
        exact h2
      have hgcL : ∀ j, j < t.findSeparator.slot →
          l.getChild j = t.getChild j := by
        intro j hj
        unfold BTreeNode.getChild
        rw [if_neg (show ¬ j = l.count by rw [hLc]; omega),
          if_neg (show ¬ j = t.count by omega),
          hplL j hj]
      have hgcR : ∀ j, j < r.count →
          r.getChild j = t.getChild (t.findSeparator.slot + 1 + j) := by
        intro j hj
        have hj2 : t.findSeparator.slot + 1 + j < t.count := by
          rw [hRc] at hj
          omega
        unfold BTreeNode.getChild
        rw [if_neg (show ¬ j = r.count by omega),
          if_neg (show ¬ t.findSeparator.slot + 1 + j = t.count by omega),
          hplR j hj]
      have hchB := hchsome t.findSeparator.slot (by omega)
      rcases hgcBx : t.getChild t.findSeparator.slot with _ | uB
      · rw [hgcBx] at hchB
        simp at hchB
      · have hlu : l.upper = some uB := by
          rw [(hUinner hlf2).1, hgcBx]
        have hlWfT : WfT l := by
          refine WfT.inner l uB (by rw [hlt, htagI]) hwpL hlfok hfbL ?_ ?_
            hlu ?_ ?_ ?_ ?_ ?_ ?_
          · intro sl hm
            obtain ⟨j, hj, _, hjB', hfull, _⟩ := hlIdx sl hm
            have hjB : j < t.findSeparator.slot := hjB' hlf2
            refine ⟨?_, ?_⟩
            · rw [hllf, hfull]
              exact (hcovS _ (slotD_mem t hj)).1
            · rw [hluf, hfull, hSeq]
              refine Or.inr ?_
              unfold BTreeNode.fullKey
              exact blt_append.mpr (sorted_lt hs hjB (by omega))
          · intro sl hm
            obtain ⟨j, hj, _, _, hfull, _⟩ := hlIdx sl hm
            rw [hfull]
            exact hsne2 _ (slotD_mem t hj)
          · intro i hi
            have hi' : i < t.findSeparator.slot := by
              rw [hLc] at hi
              exact hi
            rw [hgcL i hi']
            exact hchsome i (by omega)
          · intro i c hi hgc
            have hi' : i < t.findSeparator.slot := by
              rw [hLc] at hi
              exact hi
            rw [hgcL i hi'] at hgc
            exact hchwf i c (by omega) hgc
          · intro i c hi hgc
            have hi' : i < t.findSeparator.slot := by
              rw [hLc] at hi
              exact hi
            rw [hgcL i hi'] at hgc
            obtain ⟨h1, h2⟩ := hchfence i c (by omega) hgc
            constructor
            · rw [h1]
              unfold childLF
              by_cases hi0 : i = 0
              · rw [if_pos hi0, if_pos hi0, hllf]
              · rw [if_neg hi0, if_neg hi0]
                exact (hfkL (i - 1) (by omega)).symm
            · rw [h2]
              exact (hfkL i hi').symm
          · exact hchwf _ uB (by omega) hgcBx
          · obtain ⟨hf1, _⟩ := hchfence _ uB (by omega) hgcBx
            rw [hf1]
            unfold childLF
            rw [if_neg (show ¬ t.findSeparator.slot = 0 by omega),
              if_neg (show ¬ l.count = 0 by rw [hLc]; omega), hLc]
            exact (hfkL (t.findSeparator.slot - 1) (by omega)).symm
          · obtain ⟨_, hf2⟩ := hchfence _ uB (by omega) hgcBx
            rw [hf2, hluf, hSeq]
        have hgcU : t.getChild t.count = some u := by
          unfold BTreeNode.getChild
          rw [if_pos rfl]
          exact hup
        have hru : r.upper = some u := by
          rw [(hUinner hlf2).2, hup]
        have hrWfT : WfT r := by
          refine WfT.inner r u (by rw [hrt, htagI]) hwpR hrfok hfbR ?_ ?_
            hru ?_ ?_ ?_ hwu ?_ ?_
          · intro sl hm
            obtain ⟨j, hjB, hj, hfull, _⟩ := hrIdx sl hm
            refine ⟨?_, ?_⟩
            · rw [hrlf, hfull]
              exact Or.inr (hhiB j hjB hj)
            · rw [hruf, hfull]
              exact (hcovS _ (slotD_mem t hj)).2
          · intro sl hm
            obtain ⟨j, _, hj, hfull, _⟩ := hrIdx sl hm
            rw [hfull]
            exact hsne2 _ (slotD_mem t hj)
          · intro i hi
            rw [hgcR i hi]
            refine hchsome _ ?_
            rw [hRc] at hi
            omega
          · intro i c hi hgc
            rw [hgcR i hi] at hgc
            refine hchwf _ c ?_ hgc
            rw [hRc] at hi
            omega
          · intro i c hi hgc
            rw [hgcR i hi] at hgc
            have hib : t.findSeparator.slot + 1 + i < t.count := by
              rw [hRc] at hi
              omega
            obtain ⟨h1, h2⟩ := hchfence _ c hib hgc
            constructor
            · rw [h1]
              unfold childLF
              rw [if_neg (show ¬ t.findSeparator.slot + 1 + i = 0 by omega)]
              by_cases hi0 : i = 0
              · rw [if_pos hi0]
                subst hi0
                have hidx : t.findSeparator.slot + 1 + 0 - 1
                    = t.findSeparator.slot := by omega
                rw [hidx, hrlf, hSeq]
              · rw [if_neg hi0]
                have hidx : t.findSeparator.slot + 1 + i - 1
                    = t.findSeparator.slot + 1 + (i - 1) := by omega
                rw [hidx]
                refine (hfkR (i - 1) ?_).symm
                have : i < r.slots.length := hi
                omega
            · rw [h2]
              exact (hfkR i hi).symm
          · rw [hulf]
            unfold childLF
            rw [if_neg (show ¬ t.count = 0 by omega)]
            by_cases hr0 : r.count = 0
            · rw [if_pos hr0, hrlf, hSeq]
              have hidx : t.count - 1 = t.findSeparator.slot := by
                rw [hRc] at hr0
                omega
              rw [hidx]
            · rw [if_neg hr0]
              have hidx : t.findSeparator.slot + 1 + (r.count - 1)
                  = t.count - 1 := by
                rw [hRc]
                rw [hRc] at hr0
                omega
              have h4 := hfkR (r.count - 1)
                (show r.count - 1 < r.slots.length by
                  have hrr : r.slots.length = r.count := rfl
                  rw [hrr, hRc]
                  rw [hRc] at hr0
                  omega)
              rw [hidx] at h4
              exact h4.symm
          · rw [huuf, hruf]
        refine ⟨hlWfT, hrWfT, ?_, ?_, hllf, hluf, hrlf, hruf, ?_, ?_⟩
        · rw [treeSized_iff]
          refine ⟨⟨hpsL, hlacc⟩, htszL, ?_⟩
          rw [hlu]
          exact treeSized_child hts hgcBx
        · rw [treeSized_iff]
          refine ⟨⟨hpsR, hracc⟩, htszR, ?_⟩
          rw [hru]
          exact treeSized_child hts hgcU
        · intro k hk
          rw [treeKeys_inner (show l.tag = .basicInner by
            rw [hlt, htagI])] at hk
          rcases List.mem_append.mp hk with hk1 | hk2
          · obtain ⟨sl, hm, hp⟩ := mem_treeKeysSlots hk1
            obtain ⟨j, hj, _, _, _, hpay⟩ := hlIdx sl hm
            rw [hpay] at hp
            rw [treeKeys_inner htagI]
            exact List.mem_append_left _
              (treeKeysSlots_subset (slotD_mem t hj) k hp)
          · rw [hlu] at hk2
            exact treeKeys_child_subset htagI hgcBx k hk2
        · intro k hk
          rw [treeKeys_inner (show r.tag = .basicInner by
            rw [hrt, htagI])] at hk
          rcases List.mem_append.mp hk with hk1 | hk2
          · obtain ⟨sl, hm, hp⟩ := mem_treeKeysSlots hk1
            obtain ⟨j, _, hj, _, hpay⟩ := hrIdx sl hm
            rw [hpay] at hp
            rw [treeKeys_inner htagI]
            exact List.mem_append_left _
              (treeKeysSlots_subset (slotD_mem t hj) k hp)
          · rw [hru] at hk2
            exact treeKeys_child_subset htagI hgcU k hk2

/-! ### Parent step of a split -/

theorem compactify_slotD_key (n : BTreeNode) (hf : fencesOk n) (j : Nat) :
    (n.compactify.slotD j).key = (n.slotD j).key := by
  unfold BTreeNode.slotD
  rw [compactify_slots hf]
  by_cases hj : j < n.slots.length
  · rw [List.getD_eq_getElem _ _ (by simpa using hj),
      List.getD_eq_getElem _ _ hj]
    simp
  · rw [List.getD_eq_default _ _ (by simpa using hj),
      List.getD_eq_default _ _ (by omega)]

theorem compactify_slotD_payload (n : BTreeNode) (hf : fencesOk n) (j : Nat) :
    (n.compactify.slotD j).payload = (n.slotD j).payload := by
  unfold BTreeNode.slotD
  rw [compactify_slots hf]
  by_cases hj : j < n.slots.length
  · rw [List.getD_eq_getElem _ _ (by simpa using hj),
      List.getD_eq_getElem _ _ hj]
    simp
  · rw [List.getD_eq_default _ _ (by simpa using hj),
      List.getD_eq_default _ _ (by omega)]

theorem getD_insertIdx_gt {α : Type} {l : List α} {p j : Nat} (x d : α)
    (hp : p ≤ l.length) (hj : p < j) :
    (l.insertIdx p x).getD j d = l.getD (j - 1) d := by
  induction l generalizing p j with
  | nil =>
    have hp0 : p = 0 := by simpa using hp
    subst hp0
    cases j with
    | zero => omega
    | succ j =>
      show ([x].getD (j + 1) d) = _
      cases j <;> rfl
  | cons a rest ih =>
    cases p with
    | zero =>
      cases j with
      | zero => omega
      | succ j =>
        show (a :: rest).getD j d = (a :: rest).getD (j + 1 - 1) d
        rfl
    | succ p =>
      cases j with
      | zero => omega
      | succ j =>
        show (rest.insertIdx p x).getD j d = (a :: rest).getD (j + 1 - 1) d
        have h2 : (a :: rest).getD (j + 1 - 1) d
            = (a :: rest).getD j d := rfl
        rw [h2]
        cases j with
        | zero => omega
        | succ j =>
          show (rest.insertIdx p x).getD (j + 1) d = rest.getD j d
          have := ih (p := p) (j := j + 1) (by simpa using hp) (by omega)
          rw [this]
          rfl

/-- The parent step of a successful `splitNode` on a fence-linked child:
the separator insert lands exactly at the child's routing slot, succeeds,
and produces the parent page with the separator entry added there. -/
theorem splitNode_parent_step (t P l r p2 : BTreeNode) (ipos pos : Nat)
    (hw : WfT t) (hts : treeSized t) (hsOk : splitOk t)
    (hwP : WfT P) (haccP : spaceAcc P) (htagP : P.tag = .basicInner)
    (hposle : pos ≤ P.count)
    (htlf : t.lowerFence = childLF P pos)
    (htuf : t.upperFence
      = (if pos = P.count then P.upperFence else P.fullKey (P.slotD pos)))
    (hsplit : t.splitNode P = .ok (some (l, r, p2, ipos))) :
    ipos = pos ∧
    p2.tag = P.tag ∧ p2.upper = P.upper ∧ p2.lowerFence = P.lowerFence ∧
    p2.upperFence = P.upperFence ∧ p2.prefixLength = P.prefixLength ∧
    wfPage p2 ∧
    coverS P.lowerFence P.upperFence (t.getSep t.findSeparator) ∧
    t.getSep t.findSeparator ≠ [] ∧
    (t.getSep t.findSeparator).length ≤ maxKVSize ∧
    allBytes (t.getSep t.findSeparator) ∧
    t.getSep t.findSeparator
      = P.prefixBytes ++ (t.getSep t.findSeparator).drop P.prefixLength ∧
    ∃ P1, (P1 = P ∨ P1 = P.compactify) ∧
      p2.slots = P1.slots.insertIdx pos
        (mkSlot ((t.getSep t.findSeparator).drop P.prefixLength)
          (Payload.child l)) ∧
      (∀ j, (P1.slotD j).key = (P.slotD j).key) ∧
      (∀ j, (P1.slotD j).payload = (P.slotD j).payload) ∧
      P1.count = P.count ∧
      spaceAcc P1 ∧
      p2.spaceUsed = P1.spaceUsed
        + ((t.getSep t.findSeparator).drop P.prefixLength).length
        + childRefSize ∧
      P1.lowerFence = P.lowerFence ∧ P1.upperFence = P.upperFence := by
  obtain ⟨hs, hh, hkb, hhint⟩ := hw.toWfPage
  have hfok := hw.toFencesOk
  have hfb := hw.toFenceBytes
  have hpsT : pageSized t := ((treeSized_iff t).mp hts).1.1
  have hcnt1 : 1 < t.count := hsOk.1
  have hsl : t.prefixLength ≤ t.lowerFence.length := by
    rw [hfok]
    exact commonPrefixLen_le_left _ _
  obtain ⟨hSlen, hSbytes, hSsize'⟩ :=
    getSep_facts t ⟨hs, hh, hkb, hhint⟩ hfok hfb (by omega)
  have hSsize := hSsize' hpsT
  have hcovLt : ∀ sl ∈ t.slots,
      t.lowerFence = [] ∨ blt t.lowerFence (t.fullKey sl) := by
    cases hw with
    | leaf _ _ _ _ _ hcov _ => exact fun sl hm => (hcov sl hm).1
    | inner _ _ _ _ _ _ hcovS _ _ _ _ _ _ _ _ =>
      exact fun sl hm => (hcovS sl hm).1
  have hcovUt : ∀ sl ∈ t.slots,
      t.upperFence = [] ∨ ble (t.fullKey sl) t.upperFence := by
    cases hw with
    | leaf _ _ _ _ _ hcov _ => exact fun sl hm => (hcov sl hm).2
    | inner _ _ _ _ _ _ hcovS _ _ _ _ _ _ _ _ =>
      intro sl hm
      rcases (hcovS sl hm).2 with h | h
      · exact Or.inl h
      · exact Or.inr (ble_of_blt h)
  obtain ⟨hSlo, hShi, hSne⟩ := sep_strict2 t hw hsOk
  obtain ⟨_, _, _, _, _, _, _, _, _, _, _, _, _, _, _, _, _, _, hpar⟩ :=
    splitNode_parts t P l r p2 ipos hsOk.2.2 hsplit
  obtain ⟨P1, b, hp1, hreq, hins⟩ := hpar
  set S := t.getSep t.findSeparator with hSdef
  cases hwP with
  | leaf _ htagL _ _ _ _ _ =>
    rw [htagP] at htagL
    cases htagL
  | inner _ uP htgP hwpP hfokP hfbP hcovSP hsneP hupP hchsomeP hchwfP
      hchfenceP hwuP hulfP huufP =>
    obtain ⟨hsP, hhP, hkbP, hhintP⟩ := hwpP
    have hlinkL : pos = 0 ∨
        (1 ≤ pos ∧ t.lowerFence = P.fullKey (P.slotD (pos - 1)) ∧
          blt t.lowerFence S) := by
      by_cases hpos0 : pos = 0
      · exact Or.inl hpos0
      · refine Or.inr ⟨by omega, ?_⟩
        have hposm : pos - 1 < P.count := by omega
        have hlfeq : t.lowerFence = P.fullKey (P.slotD (pos - 1)) := by
          rw [htlf]
          unfold childLF
          rw [if_neg hpos0]
        have htne : t.lowerFence ≠ [] := by
          rw [hlfeq]
          exact hsneP _ (slotD_mem P hposm)
        refine ⟨hlfeq, ?_⟩
        rcases hSlo with h | h
        · exact absurd h htne
        · exact h
    have hlinkU : pos = P.count ∨
        (pos < P.count ∧ t.upperFence = P.fullKey (P.slotD pos) ∧
          blt S t.upperFence) := by
      by_cases hposC : pos = P.count
      · exact Or.inl hposC
      · refine Or.inr ⟨by omega, ?_⟩
        have hposlt : pos < P.count := by omega
        have hufeq : t.upperFence = P.fullKey (P.slotD pos) := by
          rw [htuf, if_neg hposC]
        have htne : t.upperFence ≠ [] := by
          rw [hufeq]
          exact hsneP _ (slotD_mem P hposlt)
        refine ⟨hufeq, ?_⟩
        rcases hShi with h | h
        · exact absurd h htne
        · exact h
    have hcovPS : coverS P.lowerFence P.upperFence S := by
      refine ⟨?_, ?_⟩
      · rcases hlinkL with hpos0 | ⟨hpos1, hlfeq, hblt⟩
        · have hlfeq : t.lowerFence = P.lowerFence := by
            rw [htlf]
            unfold childLF
            rw [if_pos hpos0]
          rcases hSlo with h | h
          · rw [hlfeq] at h
            exact Or.inl h
          · rw [hlfeq] at h
            exact Or.inr h
        · have hposm : pos - 1 < P.count := by omega
          rcases (hcovSP _ (slotD_mem P hposm)).1 with h1 | h1
          · exact Or.inl h1
          · refine Or.inr (blt_trans ?_ hblt)
            rw [hlfeq]
            exact h1
      · rcases hlinkU with hposC | ⟨hposlt, hufeq, hblt⟩
        · have hufeq : t.upperFence = P.upperFence := by
            rw [htuf, if_pos hposC]
          rcases hShi with h | h
          · rw [hufeq] at h
            exact Or.inl h
          · rw [hufeq] at h
            exact Or.inr h
        ·
          rcases (hcovSP _ (slotD_mem P hposlt)).2 with h1 | h1
          · exact Or.inl h1
          · refine Or.inr (blt_trans hblt ?_)
            rw [hufeq]
            exact h1
    have hcovPS2 : cover P.lowerFence P.upperFence S := by
      refine ⟨hcovPS.1, ?_⟩
      rcases hcovPS.2 with h | h
      · exact Or.inl h
      · exact Or.inr (ble_of_blt h)
    have hSpre := cover_prefixOk hfokP hcovPS2
    have hSdecomp : S = P.prefixBytes ++ S.drop P.prefixLength :=
      cover_key_decomp hfokP hcovPS2
    have hwin1 : ∀ j, j < pos → blt (P.fullKey (P.slotD j)) S := by
      intro j hj
      rcases hlinkL with h0 | ⟨hpos1, heq, hblt⟩
      · omega
      · rcases Nat.lt_or_ge j (pos - 1) with hjlt | hjge
        · refine blt_trans ?_ (heq ▸ hblt)
          unfold BTreeNode.fullKey
          exact blt_append.mpr (sorted_lt hsP hjlt (by omega))
        · have hjeq : j = pos - 1 := by omega
          subst hjeq
          exact heq ▸ hblt
    have hwin2 : ∀ j, pos ≤ j → j < P.count →
        blt S (P.fullKey (P.slotD j)) := by
      intro j hj1 hj2
      rcases hlinkU with h0 | ⟨hposlt2, heq, hblt⟩
      · omega
      · rcases Nat.lt_or_ge pos j with hjlt | hjge
        · refine blt_trans (heq ▸ hblt) ?_
          unfold BTreeNode.fullKey
          exact blt_append.mpr (sorted_lt hsP hjlt hj2)
        · have hjeq : j = pos := by omega
          subst hjeq
          exact heq ▸ hblt
    have hwin1' : ∀ j, j < pos →
        blt (P.slotD j).key (S.drop P.prefixLength) := by
      intro j hj
      have h := hwin1 j hj
      rw [hSdecomp] at h
      unfold BTreeNode.fullKey at h
      exact blt_append.mp h
    have hwin2' : ∀ j, pos ≤ j → j < P.count →
        blt (S.drop P.prefixLength) (P.slotD j).key := by
      intro j hj1 hj2
      have h := hwin2 j hj1 hj2
      rw [hSdecomp] at h
      unfold BTreeNode.fullKey at h
      exact blt_append.mp h
    have hP1k : ∀ j, (P1.slotD j).key = (P.slotD j).key := by
      rcases hp1 with he | he
      · subst he
        intro j
        rfl
      · subst he
        exact compactify_slotD_key P hfokP
    have hP1p : ∀ j, (P1.slotD j).payload = (P.slotD j).payload := by
      rcases hp1 with he | he
      · subst he
        intro j
        rfl
      · subst he
        exact compactify_slotD_payload P hfokP
    have hP1c : P1.count = P.count := by
      rcases hp1 with he | he
      · subst he
        rfl
      · subst he
        exact compactify_count P hfokP
    have hP1w : wfPage P1 := by
      rcases hp1 with he | he
      · subst he
        exact ⟨hsP, hhP, hkbP, hhintP⟩
      · subst he
        exact compactify_wfPage ⟨hsP, hhP, hkbP, hhintP⟩ hfokP
    have hP1pl : P1.prefixLength = P.prefixLength := by
      rcases hp1 with he | he
      · subst he
        rfl
      · subst he
        exact compactify_prefixLength hfokP
    have hP1pb : P1.prefixBytes = P.prefixBytes := by
      rcases hp1 with he | he
      · subst he
        rfl
      · subst he
        exact compactify_prefixBytes hfokP
    have hP1tag : P1.tag = P.tag := by
      rcases hp1 with he | he
      · subst he
        rfl
      · subst he
        exact compactify_tag P
    have hP1up : P1.upper = P.upper := by
      rcases hp1 with he | he
      · subst he
        rfl
      · subst he
        exact compactify_upper P
    have hP1lf : P1.lowerFence = P.lowerFence := by
      rcases hp1 with he | he
      · subst he
        rfl
      · subst he
        exact compactify_lowerFence P
    have hP1uf : P1.upperFence = P.upperFence := by
      rcases hp1 with he | he
      · subst he
        rfl
      · subst he
        exact compactify_upperFence P
    have hplEq : S.drop P1.prefixLength = S.drop P.prefixLength := by
      rw [hP1pl]
    obtain ⟨pos1, found1, hlb, hposle1, hwinA, hfT, hfF⟩ :=
      lowerBound_spec P1 S hP1w (by rw [hP1pl]; exact hSpre.1)
        (by rw [hP1pl, hP1pb]; exact hSpre.2)
        (by rw [hP1pl]; exact allBytes_drop _ hSbytes)
    have hfound : found1 = false := by
      cases found1 with
      | false => rfl
      | true =>
        obtain ⟨hplt, hkeq⟩ := hfT rfl
        rw [hP1k, hplEq] at hkeq
        rcases Nat.lt_or_ge pos1 pos with hc | hc
        · have h := hwin1' pos1 hc
          rw [hkeq] at h
          exact absurd h (blt_irrefl _)
        · have h := hwin2' pos1 hc (by rw [← hP1c]; exact hplt)
          rw [hkeq] at h
          exact absurd h (blt_irrefl _)
    subst hfound
    have hpinned : pos1 = pos := by
      by_contra hne
      rcases Nat.lt_or_ge pos1 pos with hc | hc
      · have h1 := hfF rfl pos1 (le_refl _)
          (by rw [hP1c]; exact lt_of_lt_of_le hc hposle)
        have h2 := hwin1' pos1 hc
        rw [hP1k, hplEq] at h1
        exact absurd h2 (blt_asymm h1)
      · have hc2 : pos < pos1 := by omega
        have h1 := hwinA pos hc2
        have h2 := hwin2' pos (le_refl _)
          (by
            have := hposle1
            rw [hP1c] at this
            omega)
        rw [hP1k, hplEq] at h1
        exact absurd h1 (blt_asymm h2)
    have hneedEq : P1.spaceNeeded S.length (Payload.child l).len
        = P.spaceNeededInner t.findSeparator.length := by
      unfold BTreeNode.spaceNeededInner BTreeNode.spaceNeeded
      rw [hSlen, hP1pl]
      rfl
    have hreq2 : P1.requestSpaceFor
        (P1.spaceNeeded S.length (Payload.child l).len) = (true, P1) := by
      rw [hneedEq]
      exact request_again_true P P1 _ hfokP haccP hreq
    have hinsEq := insert_of_request_self P1 S (Payload.child l) hreq2 hlb
    unfold BTreeNode.insertInner at hins
    rw [hinsEq] at hins
    injection hins with hins2
    injection hins2 with hb hbc
    injection hbc with hp2eq hiposeq
    obtain ⟨g1, g2, g3, g4, g5, g6, g7, g8⟩ := inserted_node_spec P1
      ((P1.insertKV pos1 (S.drop P1.prefixLength)
        (Payload.child l)).updateHint pos1)
      (S.drop P1.prefixLength) (Payload.child l) pos1 rfl hP1w hposle1
      hwinA (fun j hj1 hj2 => hfF rfl j hj1 hj2)
      (by rw [hP1pl]; exact allBytes_drop _ hSbytes)
    have hpin2 : ipos = pos := by
      rw [← hiposeq]
      exact hpinned
    have hslots2 : p2.slots = P1.slots.insertIdx pos
        (mkSlot (S.drop P.prefixLength) (Payload.child l)) := by
      have h0 : ((P1.insertKV pos1 (S.drop P1.prefixLength)
          (Payload.child l)).updateHint pos1).slots
          = P1.slots.insertIdx pos1
            (mkSlot (S.drop P1.prefixLength) (Payload.child l)) := rfl
      rw [← hp2eq, h0, hpinned, hplEq]
    have hP1acc : spaceAcc P1 := by
      rcases hp1 with he | he
      · subst he
        exact haccP
      · subst he
        exact compactify_spaceAcc P hfokP
    have hsu2 : p2.spaceUsed = P1.spaceUsed
        + (S.drop P.prefixLength).length + childRefSize := by
      rw [← hp2eq]
      show P1.spaceUsed + kvSpace (S.drop P1.prefixLength) (Payload.child l)
        = _
      rw [hplEq]
      rfl
    refine ⟨hpin2, ?_, ?_, ?_, ?_, ?_, ?_, hcovPS, hSne, hSsize, hSbytes,
      hSdecomp, P1, hp1, hslots2, hP1k, hP1p, hP1c, hP1acc, hsu2, hP1lf,
      hP1uf⟩
    · rw [← hp2eq, g1, hP1tag]
    · rw [← hp2eq, g2, hP1up]
    · rw [← hp2eq, g3, hP1lf]
    · rw [← hp2eq, g4, hP1uf]
    · rw [← hp2eq, g5, hP1pl]
    · rw [← hp2eq]
      exact g8

/-! ### Replacing a child pointer preserves the page and tree invariants -/

theorem upperFence_setChild (n : BTreeNode) (pos : Nat) (c : BTreeNode) :
    (n.setChild pos c).upperFence = n.upperFence := by
  unfold BTreeNode.setChild
  split
  · rfl
  · rfl

theorem tag_setChild (n : BTreeNode) (pos : Nat) (c : BTreeNode) :
    (n.setChild pos c).tag = n.tag := by
  unfold BTreeNode.setChild
  split
  · rfl
  · rfl

theorem childLF_setChild (n : BTreeNode) (pos : Nat) (c : BTreeNode)
    (i : Nat) : childLF (n.setChild pos c) i = childLF n i := by
  unfold childLF
  by_cases h0 : i = 0
  · rw [if_pos h0, if_pos h0, lowerFence_setChild]
  · rw [if_neg h0, if_neg h0]
    unfold BTreeNode.fullKey BTreeNode.prefixBytes
    rw [lowerFence_setChild, prefixLength_setChild, slotD_setChild_key]

theorem fullKey_setChild (n : BTreeNode) (pos : Nat) (c : BTreeNode)
    (i : Nat) :
    (n.setChild pos c).fullKey ((n.setChild pos c).slotD i)
      = n.fullKey (n.slotD i) := by
  unfold BTreeNode.fullKey BTreeNode.prefixBytes
  rw [lowerFence_setChild, prefixLength_setChild, slotD_setChild_key]

theorem fullKey_setChild_any (n : BTreeNode) (pos : Nat) (c : BTreeNode)
    (sl : FatSlot) :
    (n.setChild pos c).fullKey sl = n.fullKey sl := by
  unfold BTreeNode.fullKey BTreeNode.prefixBytes
  rw [lowerFence_setChild, prefixLength_setChild]

theorem getChild_setChild_ne (n : BTreeNode) (pos : Nat) (c : BTreeNode)
    (j : Nat) (hne : j ≠ pos) :
    (n.setChild pos c).getChild j = n.getChild j := by
  unfold BTreeNode.getChild
  by_cases hj : j = n.count
  · rw [if_pos (show j = (n.setChild pos c).count from by
      rw [count_setChild]; exact hj), if_pos hj]
    unfold BTreeNode.setChild
    rw [if_neg (show ¬ pos = n.count from fun h => hne (hj.trans h.symm))]
    rfl
  · rw [if_neg (show ¬ j = (n.setChild pos c).count from by
      rw [count_setChild]; exact hj), if_neg hj]
    have hk : ((n.setChild pos c).slotD j).payload = (n.slotD j).payload := by
      unfold BTreeNode.setChild
      split
      · rfl
      · show ((n.slots.set pos _).getD j _).payload = _
        rw [getD_set_ne (Ne.symm hne)]
        rfl
    rw [hk]

theorem set_getD_self {α : Type} (l : List α) (i : Nat) (d : α)
    (h : i < l.length) : l.set i (l.getD i d) = l := by
  induction l generalizing i with
  | nil => rfl
  | cons a rest ih =>
    cases i with
    | zero => rfl
    | succ i =>
      show a :: rest.set i (rest.getD i d) = a :: rest
      rw [ih i (by simpa using h)]

theorem wfPage_setChild (n : BTreeNode) (pos : Nat) (c : BTreeNode)
    (hw : wfPage n) : wfPage (n.setChild pos c) := by
  obtain ⟨hs, hh, hkb, hhint⟩ := hw
  have hlen : (n.setChild pos c).slots.length = n.slots.length :=
    count_setChild n pos c
  refine ⟨?_, ?_, ?_, ?_⟩
  · show (n.setChild pos c).slots.Pairwise _
    rw [List.pairwise_iff_getElem]
    intro i j hi hj hij
    have hi' : i < n.slots.length := by omega
    have hj' : j < n.slots.length := by omega
    have hki : ((n.setChild pos c).slots[i]).key = (n.slots[i]).key := by
      rw [← slotD_eq_getElem (n.setChild pos c) hi, ← slotD_eq_getElem n hi']
      exact slotD_setChild_key n pos c i
    have hkj : ((n.setChild pos c).slots[j]).key = (n.slots[j]).key := by
      rw [← slotD_eq_getElem (n.setChild pos c) hj, ← slotD_eq_getElem n hj']
      exact slotD_setChild_key n pos c j
    show blt _ _
    rw [hki, hkj]
    exact List.pairwise_iff_getElem.mp hs i j hi' hj' hij
  · intro sl hm
    obtain ⟨j, hj, hje⟩ := List.mem_iff_getElem.mp hm
    have hj' : j < n.slots.length := by omega
    have h1 : sl.key = (n.slotD j).key := by
      rw [← hje, ← slotD_eq_getElem (n.setChild pos c) hj]
      exact slotD_setChild_key n pos c j
    have h2 : sl.head = (n.slotD j).head := by
      rw [← hje, ← slotD_eq_getElem (n.setChild pos c) hj]
      exact slotD_setChild_head n pos c j
    rw [h1, h2]
    exact hh _ (slotD_mem n hj')
  · intro sl hm
    obtain ⟨j, hj, hje⟩ := List.mem_iff_getElem.mp hm
    have hj' : j < n.slots.length := by omega
    have h1 : sl.key = (n.slotD j).key := by
      rw [← hje, ← slotD_eq_getElem (n.setChild pos c) hj]
      exact slotD_setChild_key n pos c j
    rw [h1]
    exact hkb _ (slotD_mem n hj')
  · refine ⟨?_, ?_⟩
    · rw [hint_setChild]
      exact hhint.1
    · intro i hi
      rw [hint_setChild, count_setChild, slotD_setChild_head]
      exact hhint.2 i hi

theorem slotD_setChild_payload (n : BTreeNode) (pos : Nat) (c : BTreeNode)
    (j : Nat) (hne : j ≠ pos) :
    ((n.setChild pos c).slotD j).payload = (n.slotD j).payload := by
  unfold BTreeNode.setChild
  split
  · rfl
  · show ((n.slots.set pos _).getD j _).payload = _
    rw [getD_set_ne (Ne.symm hne)]
    rfl

theorem slotD_setChild_payload_self (n : BTreeNode) (pos : Nat)
    (c : BTreeNode) (hpos : pos < n.count) :
    ((n.setChild pos c).slotD pos).payload = .child c := by
  rw [BTreeNode.setChild_eq_of_lt n c (by omega)]
  show ((n.slots.set pos _).getD pos _).payload = _
  rw [getD_set_self hpos]
  rfl

theorem pageSized_setChild (n : BTreeNode) (pos : Nat) (c c0 : BTreeNode)
    (hps : pageSized n)
    (hpay : pos < n.count → (n.slotD pos).payload = .child c0) :
    pageSized (n.setChild pos c) := by
  refine ⟨by rw [lowerFence_setChild]; exact hps.1,
    by rw [upperFence_setChild]; exact hps.2.1, ?_⟩
  intro sl hm
  obtain ⟨j, hj, hje⟩ := List.mem_iff_getElem.mp hm
  have hlen : (n.setChild pos c).slots.length = n.slots.length :=
    count_setChild n pos c
  have hj' : j < n.slots.length := by omega
  have hsd : (n.setChild pos c).slotD j = sl := by
    rw [slotD_eq_getElem _ hj]
    exact hje
  have h1 : sl.key = (n.slotD j).key := by
    rw [← hsd]
    exact slotD_setChild_key n pos c j
  have hb := hps.2.2 _ (slotD_mem n hj')
  rw [prefixLength_setChild, h1]
  refine ⟨hb.1, ?_⟩
  have h2 : sl.payload.len = ((n.slotD j).payload).len := by
    by_cases hjp : j = pos
    · subst hjp
      have hx := slotD_setChild_payload_self n j c hj'
      rw [hsd] at hx
      rw [hx, hpay hj']
      rfl
    · have hx := slotD_setChild_payload n pos c j hjp
      rw [hsd] at hx
      rw [hx]
  rw [h2]
  exact hb.2

theorem spaceAcc_setChild (n : BTreeNode) (pos : Nat) (c c0 : BTreeNode)
    (hacc : spaceAcc n)
    (hpay : pos < n.count → (n.slotD pos).payload = .child c0) :
    spaceAcc (n.setChild pos c) := by
  unfold spaceAcc
  have hsu : (n.setChild pos c).spaceUsed = n.spaceUsed := by
    unfold BTreeNode.setChild
    split
    · rfl
    · rfl
  rw [hsu, lowerFence_setChild, upperFence_setChild]
  have hslots : ((n.setChild pos c).slots.map
        fun sl => sl.key.length + sl.payload.len)
      = n.slots.map fun sl => sl.key.length + sl.payload.len := by
    by_cases hpc : pos = n.count
    · rw [BTreeNode.setChild_eq_of_eq n c hpc]
      rfl
    · rw [BTreeNode.setChild_eq_of_lt n c hpc]
      rw [BTreeNode.slots_setSlots, List.map_set]
      by_cases hlt : pos < n.slots.length
      · have hv : (FatSlot.mk (n.slotD pos).key (.child c)
              (n.slotD pos).head).key.length
            + (FatSlot.mk (n.slotD pos).key (.child c)
              (n.slotD pos).head).payload.len
            = (n.slots.map fun sl => sl.key.length + sl.payload.len).getD
                pos 0 := by
          rw [List.getD_eq_getElem _ _ (by simpa using hlt),
            List.getElem_map, ← slotD_eq_getElem n hlt, hpay hlt]
          rfl
        rw [hv, set_getD_self _ _ _ (by simpa using hlt)]
      · rw [List.set_eq_of_length_le (by simp; omega)]
  rw [hslots]
  exact hacc

theorem treeSizedSlots_setChild (n : BTreeNode) (pos : Nat) (c : BTreeNode)
    (hts : treeSizedSlots n.slots) (htsc : treeSized c) :
    treeSizedSlots (n.setChild pos c).slots := by
  rw [treeSizedSlots_iff]
  intro sl hm
  obtain ⟨j, hj, hje⟩ := List.mem_iff_getElem.mp hm
  have hlen : (n.setChild pos c).slots.length = n.slots.length :=
    count_setChild n pos c
  have hj' : j < n.slots.length := by omega
  have hsd : (n.setChild pos c).slotD j = sl := by
    rw [slotD_eq_getElem _ hj]
    exact hje
  by_cases hjp : j = pos
  · subst hjp
    have hx := slotD_setChild_payload_self n j c hj'
    rw [hsd] at hx
    rw [hx]
    exact htsc
  · have hx := slotD_setChild_payload n pos c j hjp
    rw [hsd] at hx
    rw [hx]
    exact (treeSizedSlots_iff n.slots).mp hts _ (slotD_mem n hj')

theorem treeSized_setChild (n : BTreeNode) (pos : Nat) (c c0 : BTreeNode)
    (hts : treeSized n) (htsc : treeSized c)
    (hpay : pos < n.count → (n.slotD pos).payload = .child c0) :
    treeSized (n.setChild pos c) := by
  rw [treeSized_iff] at hts ⊢
  refine ⟨⟨pageSized_setChild n pos c c0 hts.1.1 hpay,
    spaceAcc_setChild n pos c c0 hts.1.2 hpay⟩,
    treeSizedSlots_setChild n pos c hts.2.1 htsc, ?_⟩
  by_cases hpc : pos = n.count
  · rw [BTreeNode.setChild_eq_of_eq n c hpc]
    show treeSizedOpt (some c)
    exact htsc
  · rw [BTreeNode.setChild_eq_of_lt n c hpc]
    exact hts.2.2

/-- Replacing a child with a well-formed node carrying the same fences
keeps the tree well formed. -/
theorem setChild_wfT (n c c' : BTreeNode) (pos : Nat)
    (hw : WfT n) (hgc : n.getChild pos = some c)
    (hwc : WfT c') (hlfc : c'.lowerFence = c.lowerFence)
    (hufc : c'.upperFence = c.upperFence) :
    WfT (n.setChild pos c') := by
  cases hw with
  | leaf _ htagL hwp hfok hfb hcov hpay =>
    rcases getChild_cases hgc with ⟨hpc, hupc⟩ | ⟨hlt, hpl⟩
    · rw [BTreeNode.setChild_eq_of_eq n c' hpc]
      exact WfT.leaf _ htagL hwp hfok hfb hcov hpay
    · obtain ⟨v, hv⟩ := hpay _ (slotD_mem n hlt)
      rw [hv] at hpl
      cases hpl
  | inner _ u htg hwp hfok hfb hcovS hsne hup hchsome hchwf hchfence hwu
      hulf huuf =>
    have hwp' := wfPage_setChild n pos c' hwp
    have hfok' : fencesOk (n.setChild pos c') := by
      unfold fencesOk
      rw [prefixLength_setChild, lowerFence_setChild, upperFence_setChild]
      exact hfok
    have hfb' : fenceBytes (n.setChild pos c') := by
      unfold fenceBytes
      rw [lowerFence_setChild, upperFence_setChild]
      exact hfb
    have hkey : ∀ sl ∈ (n.setChild pos c').slots, ∃ j, j < n.count ∧
        sl.key = (n.slotD j).key := by
      intro sl hm
      obtain ⟨j, hj, hje⟩ := List.mem_iff_getElem.mp hm
      have hlen : (n.setChild pos c').slots.length = n.slots.length :=
        count_setChild n pos c'
      have hj' : j < n.slots.length := by omega
      refine ⟨j, hj', ?_⟩
      rw [← hje, ← slotD_eq_getElem (n.setChild pos c') hj]
      exact slotD_setChild_key n pos c' j
    have hcovS' : ∀ sl ∈ (n.setChild pos c').slots,
        coverS (n.setChild pos c').lowerFence (n.setChild pos c').upperFence
          ((n.setChild pos c').fullKey sl) := by
      intro sl hm
      obtain ⟨j, hj, hk⟩ := hkey sl hm
      rw [lowerFence_setChild, upperFence_setChild, fullKey_setChild_any]
      have hx : n.fullKey sl = n.fullKey (n.slotD j) := by
        unfold BTreeNode.fullKey
        rw [hk]
      rw [hx]
      exact hcovS _ (slotD_mem n hj)
    have hsne' : ∀ sl ∈ (n.setChild pos c').slots,
        (n.setChild pos c').fullKey sl ≠ [] := by
      intro sl hm
      obtain ⟨j, hj, hk⟩ := hkey sl hm
      rw [fullKey_setChild_any]
      have hx : n.fullKey sl = n.fullKey (n.slotD j) := by
        unfold BTreeNode.fullKey
        rw [hk]
      rw [hx]
      exact hsne _ (slotD_mem n hj)
    rcases getChild_cases hgc with ⟨hpc, hupc⟩ | ⟨hlt, hpl⟩
    · have hcu : u = c := by
        rw [hup] at hupc
        exact Option.some.inj hupc
      refine WfT.inner _ c' (by rw [tag_setChild]; exact htg) hwp' hfok' hfb'
        hcovS' hsne' ?_ ?_ ?_ ?_ hwc ?_ ?_
      · rw [BTreeNode.setChild_eq_of_eq n c' hpc]
        rfl
      · intro i hi
        have hi' : i < n.count := by
          rw [count_setChild] at hi
          exact hi
        rw [getChild_setChild_ne n pos c' i (by omega)]
        exact hchsome i hi'
      · intro i cc hi hgc2
        have hi' : i < n.count := by
          rw [count_setChild] at hi
          exact hi
        rw [getChild_setChild_ne n pos c' i (by omega)] at hgc2
        exact hchwf i cc hi' hgc2
      · intro i cc hi hgc2
        have hi' : i < n.count := by
          rw [count_setChild] at hi
          exact hi
        rw [getChild_setChild_ne n pos c' i (by omega)] at hgc2
        obtain ⟨h1, h2⟩ := hchfence i cc hi' hgc2
        exact ⟨by rw [h1, childLF_setChild],
          by rw [h2, fullKey_setChild]⟩
      · rw [childLF_setChild, count_setChild, hlfc]
        exact hcu ▸ hulf
      · rw [upperFence_setChild, hufc]
        exact hcu ▸ huuf
    · have hupKeep : (n.setChild pos c').upper = n.upper := by
        rw [BTreeNode.setChild_eq_of_lt n c' (by omega)]
        rfl
      obtain ⟨hc1, hc2⟩ := hchfence pos c hlt hgc
      refine WfT.inner _ u (by rw [tag_setChild]; exact htg) hwp' hfok' hfb'
        hcovS' hsne' (by rw [hupKeep]; exact hup) ?_ ?_ ?_ hwu ?_ ?_
      · intro i hi
        have hi' : i < n.count := by
          rw [count_setChild] at hi
          exact hi
        by_cases hip : i = pos
        · subst hip
          rw [getChild_setChild_self n i c' (by omega)]
          rfl
        · rw [getChild_setChild_ne n pos c' i hip]
          exact hchsome i hi'
      · intro i cc hi hgc2
        have hi' : i < n.count := by
          rw [count_setChild] at hi
          exact hi
        by_cases hip : i = pos
        · subst hip
          rw [getChild_setChild_self n i c' (by omega)] at hgc2
          injection hgc2 with h
          rw [← h]
          exact hwc
        · rw [getChild_setChild_ne n pos c' i hip] at hgc2
          exact hchwf i cc hi' hgc2
      · intro i cc hi hgc2
        have hi' : i < n.count := by
          rw [count_setChild] at hi
          exact hi
        by_cases hip : i = pos
        · subst hip
          rw [getChild_setChild_self n i c' (by omega)] at hgc2
          injection hgc2 with h
          subst h
          refine ⟨?_, ?_⟩
          · rw [childLF_setChild, hlfc, hc1]
          · rw [fullKey_setChild, hufc, hc2]
        · rw [getChild_setChild_ne n pos c' i hip] at hgc2
          obtain ⟨h1, h2⟩ := hchfence i cc hi' hgc2
          exact ⟨by rw [h1, childLF_setChild],
            by rw [h2, fullKey_setChild]⟩
      · rw [childLF_setChild, count_setChild]
        exact hulf
      · rw [upperFence_setChild]
        exact huuf

/-! ### Key-set preservation of the split step -/

theorem treeKeys_makeInner (t : BTreeNode) :
    treeKeys (makeInner t) = treeKeys t := rfl

/-- Replacing a child of an inner node only introduces the new child's
keys. -/
theorem treeKeys_setChild_sub (n : BTreeNode) (pos : Nat) (c : BTreeNode)
    (htag : n.tag = .basicInner) :
    ∀ k ∈ treeKeys (n.setChild pos c), k ∈ treeKeys n ∨ k ∈ treeKeys c := by
  intro k hk
  unfold BTreeNode.setChild at hk
  by_cases hp : pos = n.count
  · rw [if_pos hp] at hk
    rw [treeKeys_inner (show (n.setUpper (some c)).tag = .basicInner by
      rw [BTreeNode.tag_setUpper]; exact htag)] at hk
    rw [BTreeNode.slots_setUpper, BTreeNode.upper_setUpper] at hk
    rcases List.mem_append.mp hk with h1 | h2
    · left
      rw [treeKeys_inner htag]
      exact List.mem_append_left _ h1
    · right
      exact h2
  · rw [if_neg hp] at hk
    rw [treeKeys_inner (show (n.setSlots (n.slots.set pos
        (.mk (n.slotD pos).key (.child c) (n.slotD pos).head))).tag
          = .basicInner by
      rw [BTreeNode.tag_setSlots]; exact htag)] at hk
    rw [BTreeNode.slots_setSlots, BTreeNode.upper_setSlots] at hk
    rcases List.mem_append.mp hk with h1 | h2
    · obtain ⟨sl, hm, hpayk⟩ := mem_treeKeysSlots h1
      rcases List.mem_or_eq_of_mem_set hm with hmem | heq
      · left
        rw [treeKeys_inner htag]
        exact List.mem_append_left _ (treeKeysSlots_subset hmem k hpayk)
      · subst heq
        right
        exact hpayk
    · left
      rw [treeKeys_inner htag]
      exact List.mem_append_right _ h2

/-- A successful descent result does not depend on the fuel bound. -/
theorem descendPath_det : ∀ (f1 : Nat) (n : BTreeNode) (key : List Nat)
    (r1 : List (BTreeNode × Nat) × BTreeNode),
    descendPath f1 n key = .ok r1 →
    ∀ (f2 : Nat) (r2 : List (BTreeNode × Nat) × BTreeNode),
      descendPath f2 n key = .ok r2 → r1 = r2 := by
  intro f1
  induction f1 with
  | zero =>
    intro n key r1 h1
    cases h1
  | succ f1 ih =>
    intro n key r1 h1 f2 r2 h2
    cases f2 with
    | zero => cases h2
    | succ f2 =>
      unfold descendPath at h1 h2
      by_cases hin : n.isInner = true
      · rw [if_pos hin] at h1 h2
        rcases hlb : n.lowerBound key with u | ⟨pos, fnd⟩
        · rw [hlb] at h1
          cases h1
        · rw [hlb] at h1 h2
          simp only [] at h1 h2
          rcases hgc : n.getChild pos with _ | c
          · rw [hgc] at h1
            cases h1
          · rw [hgc] at h1 h2
            simp only [] at h1 h2
            rcases hd1 : descendPath f1 c key with e1 | ⟨p1, l1⟩
            · rw [hd1] at h1
              cases h1
            · rcases hd2 : descendPath f2 c key with e2 | ⟨q2, m2⟩
              · rw [hd2] at h2
                cases h2
              · rw [hd1] at h1
                rw [hd2] at h2
                simp only [] at h1 h2
                have heq := ih c key (p1, l1) hd1 f2 (q2, m2) hd2
                injection h1 with h1
                injection h2 with h2
                rw [← h1, ← h2]
                injection heq with heqa heqb
                rw [heqa, heqb]
      · rw [if_neg hin] at h1 h2
        injection h1 with h1
        injection h2 with h2
        rw [← h1, ← h2]

/-- Splicing a well-formed same-fence subtree back along a descent path
keeps the whole tree well formed and size bounded. -/
theorem rebuild_wfT (key : List Nat) :
    ∀ (path : List (BTreeNode × Nat)) (n leaf : BTreeNode),
      PathOk key n path leaf → WfT n → treeSized n →
      ∀ (d : Nat), d ≤ path.length →
      ∀ (sub : BTreeNode), WfT sub → treeSized sub →
      sub.lowerFence = (nodeAtDepth path leaf d).lowerFence →
      sub.upperFence = (nodeAtDepth path leaf d).upperFence →
      WfT (rebuild (path.take d) sub) ∧
      treeSized (rebuild (path.take d) sub) ∧
      (rebuild (path.take d) sub).lowerFence = n.lowerFence ∧
      (rebuild (path.take d) sub).upperFence = n.upperFence := by
  intro path
  induction path with
  | nil =>
    intro n leaf hp hw hts d hd sub hws htss hlf huf
    have hd0 : d = 0 := by simpa using hd
    subst hd0
    cases hp with
    | nil _ hleaf =>
      refine ⟨hws, htss, ?_, ?_⟩
      · show sub.lowerFence = n.lowerFence
        rw [hlf]
        unfold nodeAtDepth
        simp
      · show sub.upperFence = n.upperFence
        rw [huf]
        unfold nodeAtDepth
        simp
  | cons a rest ih =>
    intro n leaf hp hw hts d hd sub hws htss hlf huf
    cases hp with
    | cons _ c _ pos found _ hin hlb hgc hrest =>
      cases d with
      | zero =>
        have hn0 : nodeAtDepth ((n, pos) :: rest) leaf 0 = n := by
          unfold nodeAtDepth
          rw [if_pos (by simp)]
          rfl
        rw [hn0] at hlf huf
        exact ⟨hws, htss, hlf, huf⟩
      | succ d =>
        have htag : n.tag = .basicInner := (isInner_iff n).mp hin
        obtain ⟨hwc, _, _⟩ := wfT_child hw htag hgc
        have htc : treeSized c := treeSized_child hts hgc
        have hd' : d ≤ rest.length := by simpa using hd
        have hnd : nodeAtDepth ((n, pos) :: rest) leaf (d + 1)
            = nodeAtDepth rest leaf d := nodeAtDepth_cons _ _ _ _
        rw [hnd] at hlf huf
        obtain ⟨hw2, hts2, hlf2, huf2⟩ := ih c leaf hrest hwc htc d hd' sub
          hws htss hlf huf
        have hreb : rebuild (((n, pos) :: rest).take (d + 1)) sub
            = n.setChild pos (rebuild (rest.take d) sub) := rfl
        rw [hreb]
        have hxw := setChild_wfT n c (rebuild (rest.take d) sub) pos hw hgc
          hw2 hlf2 huf2
        have hpay : pos < n.count → (n.slotD pos).payload = .child c := by
          intro hlt
          rcases getChild_cases hgc with ⟨hpc, _⟩ | ⟨_, hpl⟩
          · omega
          · exact hpl
        have hxts := treeSized_setChild n pos (rebuild (rest.take d) sub) c
          hts hts2 hpay
        exact ⟨hxw, hxts, by rw [lowerFence_setChild],
          by rw [upperFence_setChild]⟩

/-- Splicing a subtree whose keys lie in the keys of the node it replaces
introduces no new keys along the path. -/
theorem rebuild_keys (key : List Nat) :
    ∀ (path : List (BTreeNode × Nat)) (n leaf : BTreeNode),
      PathOk key n path leaf →
      ∀ (d : Nat), d ≤ path.length →
      ∀ (sub : BTreeNode),
      (∀ k ∈ treeKeys sub, k ∈ treeKeys (nodeAtDepth path leaf d)) →
      ∀ k ∈ treeKeys (rebuild (path.take d) sub), k ∈ treeKeys n := by
  intro path
  induction path with
  | nil =>
    intro n leaf hp d hd sub hsub k hk
    have hd0 : d = 0 := by simpa using hd
    subst hd0
    cases hp with
    | nil _ hleaf =>
      have hk2 : k ∈ treeKeys sub := hk
      have := hsub k hk2
      unfold nodeAtDepth at this
      simpa using this
  | cons a rest ih =>
    intro n leaf hp d hd sub hsub k hk
    cases hp with
    | cons _ c _ pos found _ hin hlb hgc hrest =>
      have htag : n.tag = .basicInner := (isInner_iff n).mp hin
      cases d with
      | zero =>
        have hk2 : k ∈ treeKeys sub := hk
        have h2 := hsub k hk2
        rw [pathOk_head key n leaf ((n, pos) :: rest)
          (PathOk.cons n c leaf pos found rest hin hlb hgc hrest)] at h2
        exact h2
      | succ d =>
        have hk2 : k ∈ treeKeys
            (n.setChild pos (rebuild (rest.take d) sub)) := hk
        rcases treeKeys_setChild_sub n pos (rebuild (rest.take d) sub)
            htag k hk2 with h1 | h2
        · exact h1
        · have hsub2 : ∀ k2 ∈ treeKeys sub,
              k2 ∈ treeKeys (nodeAtDepth rest leaf d) := by
            intro k2 hk2b
            have := hsub k2 hk2b
            rw [nodeAtDepth_cons] at this
            exact this
          have hkc := ih c leaf hrest d (by simpa using hd) sub hsub2 k h2
          exact treeKeys_child_subset htag hgc k hkc

/-- The fresh root parent built by `BTree::ensureSpace` for a root split is
well formed whenever the root carries infinite fences. -/
theorem wfT_makeInner (t : BTreeNode) (hw : WfT t)
    (hlf : t.lowerFence = []) (huf : t.upperFence = []) :
    WfT (makeInner t) := by
  refine WfT.inner (makeInner t) t rfl ?_ rfl ?_ ?_ ?_ rfl ?_ ?_ ?_ hw ?_ ?_
  · refine ⟨List.Pairwise.nil, ?_, ?_, ?_, ?_⟩
    · intro sl hm
      cases hm
    · intro sl hm
      cases hm
    · rfl
    · intro i hi
      have hi16 : i < 16 := hi
      interval_cases i <;> rfl
  · refine ⟨?_, ?_⟩
    · intro b hb
      cases hb
    · intro b hb
      cases hb
  · intro sl hm
    cases hm
  · intro sl hm
    cases hm
  · intro i hi
    cases hi
  · intro i c hi
    cases hi
  · intro i c hi
    cases hi
  · rw [hlf]
    rfl
  · rw [huf]
    rfl

theorem treeSized_makeInner (t : BTreeNode) (hts : treeSized t) :
    treeSized (makeInner t) := by
  rw [treeSized_iff]
  refine ⟨⟨⟨Nat.zero_le _, Nat.zero_le _, ?_⟩, rfl⟩, trivial, ?_⟩
  · intro sl hm
    cases hm
  · show treeSizedOpt (some t)
    exact hts

theorem getChild_makeInner (t : BTreeNode) :
    (makeInner t).getChild 0 = some t := by
  unfold BTreeNode.getChild
  rw [if_pos (show 0 = (makeInner t).count from rfl)]
  rfl

theorem sum_insertIdx (l : List Nat) (p : Nat) (x : Nat) (hp : p ≤ l.length) :
    (l.insertIdx p x).sum = l.sum + x := by
  induction l generalizing p with
  | nil =>
    have hp0 : p = 0 := by simpa using hp
    subst hp0
    simp
  | cons a rest ih =>
    cases p with
    | zero =>
      show (x :: a :: rest).sum = _
      simp only [List.sum_cons]
      omega
    | succ p =>
      show (a :: rest.insertIdx p x).sum = _
      simp only [List.sum_cons]
      rw [ih p (by simpa using hp)]
      omega

/-- The full effect of `BTree::splitNode`'s child-split step on the parent:
rewiring the stale child reference to the right sibling after the separator
insert yields a well-formed, size-bounded parent page with unchanged
fences. -/
theorem split_assembled (t P l r p2 : BTreeNode) (ipos pos : Nat)
    (hw : WfT t) (hts : treeSized t) (hsOk : splitOk t)
    (hwP : WfT P) (htsP : treeSized P) (htagP : P.tag = .basicInner)
    (hgcP : P.getChild pos = some t)
    (hsplit : t.splitNode P = .ok (some (l, r, p2, ipos))) :
    WfT (p2.setChild (if ipos ≤ pos then pos + 1 else pos) r) ∧
    treeSized (p2.setChild (if ipos ≤ pos then pos + 1 else pos) r) ∧
    (p2.setChild (if ipos ≤ pos then pos + 1 else pos) r).lowerFence
      = P.lowerFence ∧
    (p2.setChild (if ipos ≤ pos then pos + 1 else pos) r).upperFence
      = P.upperFence := by
  have haccP : spaceAcc P := ((treeSized_iff P).mp htsP).1.2
  have hpsP : pageSized P := ((treeSized_iff P).mp htsP).1.1
  have htsPsl : treeSizedSlots P.slots := ((treeSized_iff P).mp htsP).2.1
  have htsPup : treeSizedOpt P.upper := ((treeSized_iff P).mp htsP).2.2
  have hposle : pos ≤ P.count := by
    rcases getChild_cases hgcP with ⟨h, _⟩ | ⟨h, _⟩
    · omega
    · omega
  obtain ⟨_, htlf, htuf⟩ := wfT_child hwP htagP hgcP
  obtain ⟨hpin, f1, f2, f3, f4, f5, hwp2, hcovPS, hSne, hSsize, hSbytes,
    hSdecomp, P1, hp1, hslots2, hP1k, hP1p, hP1c, hP1acc, hsu2, hP1lf,
    hP1uf⟩ :=
    splitNode_parent_step t P l r p2 ipos pos hw hts hsOk hwP haccP htagP
      hposle htlf htuf hsplit
  obtain ⟨hwl, hwr, htsl, htsr, hllf, hluf, hrlf, hruf, hkeysl, hkeysr⟩ :=
    splitNode_sibs t P l r p2 ipos hw hts hsOk hsplit
  rw [hpin, if_pos (le_refl pos)]
  set S := t.getSep t.findSeparator with hSdef
  cases hwP with
  | leaf _ htagL _ _ _ _ _ =>
    rw [htagP] at htagL
    cases htagL
  | inner _ uP htgP hwpP hfokP hfbP hcovSP hsneP hupP hchsomeP hchwfP
      hchfenceP hwuP hulfP huufP =>
    have hslP : P.prefixLength ≤ P.lowerFence.length := by
      rw [hfokP]
      exact commonPrefixLen_le_left _ _
    have hpbP : P.prefixBytes.length = P.prefixLength :=
      prefixBytes_length P hslP
    have hposle1 : pos ≤ P1.slots.length := by
      have h1 : P1.slots.length = P.slots.length := hP1c
      have h2 : pos ≤ P.slots.length := hposle
      omega
    have hk2a : ∀ j, j < pos → p2.slotD j = P1.slotD j := by
      intro j hj
      show p2.slots.getD j _ = P1.slots.getD j _
      rw [hslots2]
      exact getD_insertIdx_lt _ _ hposle1 hj
    have hk2b : p2.slotD pos
        = mkSlot (S.drop P.prefixLength) (.child l) := by
      show p2.slots.getD pos _ = _
      rw [hslots2]
      exact getD_insertIdx_self _ _ hposle1
    have hk2c : ∀ j, pos < j → p2.slotD j = P1.slotD (j - 1) := by
      intro j hj
      show p2.slots.getD j _ = P1.slots.getD (j - 1) _
      rw [hslots2]
      exact getD_insertIdx_gt _ _ hposle1 hj
    have hcP2 : p2.count = P.count + 1 := by
      show p2.slots.length = _
      rw [hslots2, List.length_insertIdx _ _ hposle1]
      have h1 : P1.slots.length = P.slots.length := hP1c
      have h2 : P.slots.length = P.count := rfl
      omega
    have hc3' : (p2.setChild (pos + 1) r).count = P.count + 1 := by
      rw [count_setChild, hcP2]
    have hk3a : ∀ j, j < pos →
        ((p2.setChild (pos + 1) r).slotD j).key = (P.slotD j).key := by
      intro j hj
      rw [slotD_setChild_key, hk2a j hj, hP1k]
    have hk3b : ((p2.setChild (pos + 1) r).slotD pos).key
        = S.drop P.prefixLength := by
      rw [slotD_setChild_key, hk2b]
      rfl
    have hk3c : ∀ j, pos < j →
        ((p2.setChild (pos + 1) r).slotD j).key = (P.slotD (j - 1)).key := by
      intro j hj
      rw [slotD_setChild_key, hk2c j hj, hP1k]
    have hp3a : ∀ j, j < pos →
        ((p2.setChild (pos + 1) r).slotD j).payload
          = (P.slotD j).payload := by
      intro j hj
      rw [slotD_setChild_payload _ _ _ _ (by omega), hk2a j hj, hP1p]
    have hp3b : ((p2.setChild (pos + 1) r).slotD pos).payload
        = .child l := by
      rw [slotD_setChild_payload _ _ _ _ (by omega), hk2b]
      rfl
    have hp3c : pos < P.count →
        ((p2.setChild (pos + 1) r).slotD (pos + 1)).payload = .child r := by
      intro hlt
      refine slotD_setChild_payload_self p2 (pos + 1) r ?_
      rw [hcP2]
      omega
    have hp3d : ∀ j, pos + 1 < j →
        ((p2.setChild (pos + 1) r).slotD j).payload
          = (P.slotD (j - 1)).payload := by
      intro j hj
      rw [slotD_setChild_payload _ _ _ _ (by omega), hk2c j (by omega), hP1p]
    have h3lf : (p2.setChild (pos + 1) r).lowerFence = P.lowerFence := by
      rw [lowerFence_setChild, f3]
    have h3uf : (p2.setChild (pos + 1) r).upperFence = P.upperFence := by
      rw [upperFence_setChild, f4]
    have h3pl : (p2.setChild (pos + 1) r).prefixLength = P.prefixLength := by
      rw [prefixLength_setChild, f5]
    have h3pb : (p2.setChild (pos + 1) r).prefixBytes = P.prefixBytes := by
      unfold BTreeNode.prefixBytes
      rw [h3lf, h3pl]
    have hfk3 : ∀ sl, (p2.setChild (pos + 1) r).fullKey sl
        = P.prefixBytes ++ sl.key := by
      intro sl
      unfold BTreeNode.fullKey
      rw [h3pb]
    have hgc3a : ∀ i, i < pos →
        (p2.setChild (pos + 1) r).getChild i = P.getChild i := by
      intro i hi
      unfold BTreeNode.getChild
      rw [if_neg (show ¬ i = (p2.setChild (pos + 1) r).count by
          rw [hc3']; omega),
        if_neg (show ¬ i = P.count by omega), hp3a i hi]
    have hgc3b : (p2.setChild (pos + 1) r).getChild pos = some l := by
      unfold BTreeNode.getChild
      rw [if_neg (show ¬ pos = (p2.setChild (pos + 1) r).count by
          rw [hc3']; omega), hp3b]
    have hgc3c : (p2.setChild (pos + 1) r).getChild (pos + 1) = some r := by
      by_cases hlt : pos < P.count
      · unfold BTreeNode.getChild
        rw [if_neg (show ¬ pos + 1 = (p2.setChild (pos + 1) r).count by
            rw [hc3']; omega), hp3c hlt]
      · have heq : pos + 1 = p2.count := by
          rw [hcP2]
          omega
        rw [BTreeNode.setChild_eq_of_eq p2 r heq]
        unfold BTreeNode.getChild
        rw [if_pos (show pos + 1 = (p2.setUpper (some r)).count from heq)]
        rfl
    have hgc3d : ∀ i, pos + 1 < i → i < P.count + 1 →
        (p2.setChild (pos + 1) r).getChild i = P.getChild (i - 1) := by
      intro i hi1 hi2
      unfold BTreeNode.getChild
      rw [if_neg (show ¬ i = (p2.setChild (pos + 1) r).count by
          rw [hc3']; omega),
        if_neg (show ¬ i - 1 = P.count by omega), hp3d i hi1]
    have hup3 : pos < P.count →
        (p2.setChild (pos + 1) r).upper = P.upper := by
      intro hlt
      have hne : pos + 1 ≠ p2.count := by
        rw [hcP2]
        omega
      rw [BTreeNode.setChild_eq_of_lt p2 r hne]
      show p2.upper = P.upper
      exact f2
    have hup3' : pos = P.count →
        (p2.setChild (pos + 1) r).upper = some r := by
      intro hpc
      have heq : pos + 1 = p2.count := by
        rw [hcP2]
        omega
      rw [BTreeNode.setChild_eq_of_eq p2 r heq]
      rfl
    have hkeyIdx : ∀ sl ∈ (p2.setChild (pos + 1) r).slots,
        ∃ j, j < P.count + 1 ∧ (p2.setChild (pos + 1) r).slotD j = sl := by
      intro sl hm
      obtain ⟨j, hj, hje⟩ := List.mem_iff_getElem.mp hm
      have hlen : (p2.setChild (pos + 1) r).slots.length = P.count + 1 :=
        hc3'
      refine ⟨j, by omega, ?_⟩
      rw [slotD_eq_getElem _ hj]
      exact hje
    have hcovS3 : ∀ sl ∈ (p2.setChild (pos + 1) r).slots,
        coverS (p2.setChild (pos + 1) r).lowerFence
          (p2.setChild (pos + 1) r).upperFence
          ((p2.setChild (pos + 1) r).fullKey sl) := by
      intro sl hm
      obtain ⟨j, hj, hsd⟩ := hkeyIdx sl hm
      rw [h3lf, h3uf, hfk3]
      rcases Nat.lt_trichotomy j pos with hc | hc | hc
      · rw [← hsd, hk3a j hc]
        exact hcovSP _ (slotD_mem P (by omega))
      · subst hc
        rw [← hsd, hk3b, ← hSdecomp]
        exact hcovPS
      · rw [← hsd, hk3c j hc]
        exact hcovSP _ (slotD_mem P (by omega))
    have hsne3 : ∀ sl ∈ (p2.setChild (pos + 1) r).slots,
        (p2.setChild (pos + 1) r).fullKey sl ≠ [] := by
      intro sl hm
      obtain ⟨j, hj, hsd⟩ := hkeyIdx sl hm
      rw [hfk3]
      rcases Nat.lt_trichotomy j pos with hc | hc | hc
      · rw [← hsd, hk3a j hc]
        exact hsneP _ (slotD_mem P (by omega))
      · subst hc
        rw [← hsd, hk3b, ← hSdecomp]
        exact hSne
      · rw [← hsd, hk3c j hc]
        exact hsneP _ (slotD_mem P (by omega))
    have hwp3 : wfPage (p2.setChild (pos + 1) r) :=
      wfPage_setChild _ _ _ hwp2
    have hfok3 : fencesOk (p2.setChild (pos + 1) r) := by
      unfold fencesOk
      rw [h3pl, h3lf, h3uf]
      exact hfokP
    have hfb3 : fenceBytes (p2.setChild (pos + 1) r) := by
      unfold fenceBytes
      rw [h3lf, h3uf]
      exact hfbP
    have htag3 : (p2.setChild (pos + 1) r).tag = .basicInner := by
      rw [tag_setChild, f1, htagP]
    have hchsome3 : ∀ i, i < (p2.setChild (pos + 1) r).count →
        ((p2.setChild (pos + 1) r).getChild i).isSome = true := by
      intro i hi
      rw [hc3'] at hi
      rcases Nat.lt_trichotomy i pos with hc | hc | hc
      · rw [hgc3a i hc]
        exact hchsomeP i (by omega)
      · subst hc
        rw [hgc3b]
        rfl
      · by_cases hip : i = pos + 1
        · subst hip
          rw [hgc3c]
          rfl
        · rw [hgc3d i (by omega) hi]
          exact hchsomeP _ (by omega)
    have hchwf3 : ∀ i c, i < (p2.setChild (pos + 1) r).count →
        (p2.setChild (pos + 1) r).getChild i = some c → WfT c := by
      intro i c hi hgc2
      rw [hc3'] at hi
      rcases Nat.lt_trichotomy i pos with hc | hc | hc
      · rw [hgc3a i hc] at hgc2
        exact hchwfP i c (by omega) hgc2
      · subst hc
        rw [hgc3b] at hgc2
        rw [← Option.some.inj hgc2]
        exact hwl
      · by_cases hip : i = pos + 1
        · subst hip
          rw [hgc3c] at hgc2
          rw [← Option.some.inj hgc2]
          exact hwr
        · rw [hgc3d i (by omega) hi] at hgc2
          exact hchwfP _ c (by omega) hgc2
    have hchlf3 : ∀ i, 1 ≤ i → childLF (p2.setChild (pos + 1) r) i
        = P.prefixBytes ++ ((p2.setChild (pos + 1) r).slotD (i - 1)).key := by
      intro i hi
      unfold childLF
      rw [if_neg (by omega)]
      exact hfk3 _
    have hchlfP : ∀ i, 1 ≤ i → childLF P i
        = P.prefixBytes ++ (P.slotD (i - 1)).key := by
      intro i hi
      unfold childLF
      rw [if_neg (by omega)]
      rfl
    have hchlfEq : ∀ i, i ≤ pos →
        childLF (p2.setChild (pos + 1) r) i = childLF P i := by
      intro i hi
      by_cases hi0 : i = 0
      · subst hi0
        unfold childLF
        rw [if_pos rfl, if_pos rfl]
        exact h3lf
      · rw [hchlf3 i (by omega), hchlfP i (by omega), hk3a (i - 1) (by omega)]
    have hchfence3 : ∀ i c, i < (p2.setChild (pos + 1) r).count →
        (p2.setChild (pos + 1) r).getChild i = some c →
        c.lowerFence = childLF (p2.setChild (pos + 1) r) i ∧
        c.upperFence = (p2.setChild (pos + 1) r).fullKey
          ((p2.setChild (pos + 1) r).slotD i) := by
      intro i c hi hgc2
      rw [hc3'] at hi
      rcases Nat.lt_trichotomy i pos with hc | hc | hc
      · rw [hgc3a i hc] at hgc2
        obtain ⟨g1, g2⟩ := hchfenceP i c (by omega) hgc2
        refine ⟨?_, ?_⟩
        · rw [g1, hchlfEq i (by omega)]
        · rw [g2, hfk3, hk3a i hc]
          rfl
      · subst hc
        rw [hgc3b] at hgc2
        rw [← Option.some.inj hgc2]
        refine ⟨?_, ?_⟩
        · rw [hllf, htlf, hchlfEq i (le_refl i)]
        · rw [hluf, hfk3, hk3b, ← hSdecomp]
      · by_cases hip : i = pos + 1
        · subst hip
          have hlt : pos < P.count := by omega
          rw [hgc3c] at hgc2
          rw [← Option.some.inj hgc2]
          refine ⟨?_, ?_⟩
          · rw [hrlf, hchlf3 _ (by omega)]
            have hidx : pos + 1 - 1 = pos := by omega
            rw [hidx, hk3b, ← hSdecomp]
          · rw [hruf, htuf, if_neg (by omega), hfk3,
              hk3c (pos + 1) (by omega)]
            have hidx : pos + 1 - 1 = pos := by omega
            rw [hidx]
            rfl
        · rw [hgc3d i (by omega) hi] at hgc2
          obtain ⟨g1, g2⟩ := hchfenceP _ c (by omega) hgc2
          refine ⟨?_, ?_⟩
          · rw [g1, hchlfP _ (by omega), hchlf3 _ (by omega),
              hk3c (i - 1) (by omega)]
          · rw [g2, hfk3, hk3c i (by omega)]
            rfl
    have hlWfT : WfT (p2.setChild (pos + 1) r) := by
      by_cases hposC : pos = P.count
      · refine WfT.inner _ r htag3 hwp3 hfok3 hfb3 hcovS3 hsne3
          (hup3' hposC) hchsome3 hchwf3 hchfence3 hwr ?_ ?_
        · rw [hrlf]
          have hcnt : (p2.setChild (pos + 1) r).count = pos + 1 := by
            rw [hc3', hposC]
          rw [hcnt, hchlf3 (pos + 1) (by omega)]
          have hidx : pos + 1 - 1 = pos := by omega
          rw [hidx, hk3b]
          exact hSdecomp
        · rw [hruf, htuf, if_pos hposC, h3uf]
      · have hposlt : pos < P.count := by omega
        refine WfT.inner _ uP htag3 hwp3 hfok3 hfb3 hcovS3 hsne3
          (by rw [hup3 hposlt]; exact hupP) hchsome3 hchwf3 hchfence3
          hwuP ?_ ?_
        · rw [hulfP]
          have hcnt : (p2.setChild (pos + 1) r).count = P.count + 1 := hc3'
          rw [hcnt, hchlf3 (P.count + 1) (by omega), hchlfP P.count
            (by omega)]
          have hidx : P.count + 1 - 1 = P.count := by omega
          rw [hidx, hk3c P.count (by omega)]
        · rw [huufP, h3uf]
    have hpay2 : pos + 1 < p2.count →
        (p2.slotD (pos + 1)).payload = .child t := by
      intro hlt
      rw [hcP2] at hlt
      have hx := hk2c (pos + 1) (by omega)
      rw [hx]
      have hidx : pos + 1 - 1 = pos := by omega
      rw [hidx, hP1p]
      rcases getChild_cases hgcP with ⟨hpc, _⟩ | ⟨_, hpl⟩
      · omega
      · exact hpl
    have hsum2 : (p2.slots.map fun sl => sl.key.length + sl.payload.len).sum
        = (P1.slots.map fun sl => sl.key.length + sl.payload.len).sum
          + ((S.drop P.prefixLength).length + childRefSize) := by
      rw [hslots2, map_insertIdx]
      rw [sum_insertIdx _ _ _ (by rw [List.length_map]; exact hposle1)]
      rfl
    have hacc2 : spaceAcc p2 := by
      unfold spaceAcc
      unfold spaceAcc at hP1acc
      rw [hsu2, hP1acc, hsum2]
      have hlf2 : p2.lowerFence = P1.lowerFence := by
        rw [f3, hP1lf]
      have huf2 : p2.upperFence = P1.upperFence := by
        rw [f4, hP1uf]
      rw [hlf2, huf2]
      omega
    have hps2entry : ∀ sl ∈ (p2.setChild (pos + 1) r).slots,
        (p2.setChild (pos + 1) r).prefixLength + sl.key.length ≤ maxKVSize ∧
        (p2.setChild (pos + 1) r).prefixLength + sl.key.length
          + sl.payload.len ≤ maxKVSize + childRefSize := by
      intro sl hm
      obtain ⟨j, hj, hsd⟩ := hkeyIdx sl hm
      rw [h3pl]
      rcases Nat.lt_trichotomy j pos with hc | hc | hc
      · have hk := hk3a j hc
        rw [hsd] at hk
        have hp := hp3a j hc
        rw [hsd] at hp
        have hb := hpsP.2.2 _ (slotD_mem P (show j < P.count by omega))
        rw [hk, hp]
        exact hb
      · subst hc
        have hk := hk3b
        rw [hsd] at hk
        have hp := hp3b
        rw [hsd] at hp
        have hlen : P.prefixLength + (S.drop P.prefixLength).length
            = S.length := by
          have := congrArg List.length hSdecomp
          rw [List.length_append, hpbP] at this
          omega
        rw [hk, hp]
        have hcrs : (Payload.child l).len = childRefSize := rfl
        rw [hcrs]
        omega
      · by_cases hip : j = pos + 1
        · subst hip
          have hlt : pos < P.count := by omega
          have hk := hk3c (pos + 1) (by omega)
          rw [hsd] at hk
          have hp := hp3c hlt
          rw [hsd] at hp
          have hidx : pos + 1 - 1 = pos := by omega
          rw [hidx] at hk
          have hb := hpsP.2.2 _ (slotD_mem P hlt)
          rw [hk, hp]
          have hcrs : (Payload.child r).len = childRefSize := rfl
          rw [hcrs]
          have hb1 := hb.1
          refine ⟨hb1, by omega⟩
        · have hk := hk3c j hc
          rw [hsd] at hk
          have hp := hp3d j (by omega)
          rw [hsd] at hp
          have hb := hpsP.2.2 _ (slotD_mem P (show j - 1 < P.count by omega))
          rw [hk, hp]
          exact hb
    have hps3 : pageSized (p2.setChild (pos + 1) r) := by
      refine ⟨by rw [h3lf]; exact hpsP.1, by rw [h3uf]; exact hpsP.2.1,
        hps2entry⟩
    have hacc3 : spaceAcc (p2.setChild (pos + 1) r) :=
      spaceAcc_setChild p2 (pos + 1) r t hacc2 hpay2
    have htsP1sl : treeSizedSlots P1.slots := by
      rcases hp1 with he | he
      · subst he
        exact htsPsl
      · subst he
        rw [treeSizedSlots_iff]
        intro sl hm
        rw [compactify_slots hfokP] at hm
        obtain ⟨sl0, hm0, he2⟩ := List.mem_map.mp hm
        have hpeq : sl.payload = sl0.payload := by
          rw [← he2]
          rfl
        rw [hpeq]
        exact (treeSizedSlots_iff P.slots).mp htsPsl _ hm0
    have hts2sl : treeSizedSlots p2.slots := by
      rw [treeSizedSlots_iff]
      intro sl hm
      rw [hslots2] at hm
      rcases (List.mem_insertIdx hposle1).mp hm with he | hmo
      · subst he
        show treeSizedPayload (Payload.child l)
        exact htsl
      · exact (treeSizedSlots_iff P1.slots).mp htsP1sl _ hmo
    have hts3sl : treeSizedSlots (p2.setChild (pos + 1) r).slots :=
      treeSizedSlots_setChild p2 (pos + 1) r hts2sl htsr
    have hts3up : treeSizedOpt (p2.setChild (pos + 1) r).upper := by
      by_cases hposC : pos = P.count
      · rw [hup3' hposC]
        show treeSizedOpt (some r)
        exact htsr
      · rw [hup3 (by omega)]
        exact htsPup
    refine ⟨hlWfT, ?_, h3lf, h3uf⟩
    rw [treeSized_iff]
    exact ⟨⟨hps3, hacc3⟩, hts3sl, hts3up⟩

/-- The reassembled parent page after a child split carries no keys beyond
the original parent's: the two siblings' keys come from the split child. -/
theorem split_assembled_keys (t P l r p2 : BTreeNode) (ipos pos : Nat)
    (hw : WfT t) (hts : treeSized t) (hsOk : splitOk t)
    (hwP : WfT P) (htsP : treeSized P) (htagP : P.tag = .basicInner)
    (hgcP : P.getChild pos = some t)
    (hsplit : t.splitNode P = .ok (some (l, r, p2, ipos))) :
    ∀ k ∈ treeKeys (p2.setChild (if ipos ≤ pos then pos + 1 else pos) r),
      k ∈ treeKeys P := by
  have haccP : spaceAcc P := ((treeSized_iff P).mp htsP).1.2
  have hfokP : fencesOk P := hwP.toFencesOk
  have hposle : pos ≤ P.count := by
    rcases getChild_cases hgcP with ⟨h, _⟩ | ⟨h, _⟩
    · omega
    · omega
  obtain ⟨_, htlf, htuf⟩ := wfT_child hwP htagP hgcP
  obtain ⟨hpin, f1, f2, _, _, _, _, _, _, _, _, _, P1, hp1, hslots2, _, _,
    hP1c, _, _, _, _⟩ :=
    splitNode_parent_step t P l r p2 ipos pos hw hts hsOk hwP haccP htagP
      hposle htlf htuf hsplit
  obtain ⟨_, _, _, _, _, _, _, _, hkeysl, hkeysr⟩ :=
    splitNode_sibs t P l r p2 ipos hw hts hsOk hsplit
  rw [hpin, if_pos (le_refl pos)]
  intro k hk
  have htagp2 : p2.tag = .basicInner := by
    rw [f1]
    exact htagP
  have hposle1 : pos ≤ P1.slots.length := by
    have h1 : P1.slots.length = P.slots.length := hP1c
    have h2 : pos ≤ P.slots.length := hposle
    omega
  rcases treeKeys_setChild_sub p2 (pos + 1) r htagp2 k hk with hk1 | hk2
  · rw [treeKeys_inner htagp2] at hk1
    rcases List.mem_append.mp hk1 with hs1 | hs2
    · obtain ⟨sl, hm, hpayk⟩ := mem_treeKeysSlots hs1
      rw [hslots2] at hm
      rcases (List.mem_insertIdx hposle1).mp hm with he | hmo
      · subst he
        exact treeKeys_child_subset htagP hgcP k (hkeysl k hpayk)
      · rcases hp1 with he1 | he1
        · subst he1
          rw [treeKeys_inner htagP]
          exact List.mem_append_left _ (treeKeysSlots_subset hmo k hpayk)
        · subst he1
          rw [compactify_slots hfokP] at hmo
          obtain ⟨sl0, hm0, he0⟩ := List.mem_map.mp hmo
          rw [treeKeys_inner htagP]
          refine List.mem_append_left _ (treeKeysSlots_subset hm0 k ?_)
          rw [← he0] at hpayk
          exact hpayk
    · rw [f2] at hs2
      rw [treeKeys_inner htagP]
      exact List.mem_append_right _ hs2
  · exact treeKeys_child_subset htagP hgcP k (hkeysr k hk2)

/-! ### Totality and fullness facts of the split step -/

theorem getD_irrel {α : Type} (l : List α) (i : Nat) (h : i < l.length)
    (d1 d2 : α) : l.getD i d1 = l.getD i d2 := by
  rw [List.getD_eq_getElem _ _ h, List.getD_eq_getElem _ _ h]

theorem nodeAtDepth_len (path : List (BTreeNode × Nat)) (leaf : BTreeNode) :
    nodeAtDepth path leaf path.length = leaf := by
  unfold nodeAtDepth
  rw [if_neg (by omega)]

theorem nodeAtDepth_lt (path : List (BTreeNode × Nat)) (leaf : BTreeNode)
    (d : Nat) (h : d < path.length) :
    nodeAtDepth path leaf d = (path.getD d (leaf, 0)).1 := by
  unfold nodeAtDepth
  rw [if_pos h]

/-- The separator extracted from a child addressed by routing position `pos`
of a well-formed inner parent lies inside the parent's fence interval. -/
theorem sep_cover_parent (t P : BTreeNode) (pos : Nat)
    (hw : WfT t) (hsOk : splitOk t)
    (hwP : WfT P) (htagP : P.tag = .basicInner)
    (hposle : pos ≤ P.count)
    (htlf : t.lowerFence = childLF P pos)
    (htuf : t.upperFence
      = (if pos = P.count then P.upperFence else P.fullKey (P.slotD pos))) :
    cover P.lowerFence P.upperFence (t.getSep t.findSeparator) := by
  obtain ⟨hs, hh, hkb, hhint⟩ := hw.toWfPage
  have hfok := hw.toFencesOk
  have hsl : t.prefixLength ≤ t.lowerFence.length := by
    rw [hfok]
    exact commonPrefixLen_le_left _ _
  have hcovLt : ∀ sl ∈ t.slots,
      t.lowerFence = [] ∨ blt t.lowerFence (t.fullKey sl) := by
    cases hw with
    | leaf _ _ _ _ _ hcov _ => exact fun sl hm => (hcov sl hm).1
    | inner _ _ _ _ _ _ hcovS _ _ _ _ _ _ _ _ =>
      exact fun sl hm => (hcovS sl hm).1
  have hcovUt : ∀ sl ∈ t.slots,
      t.upperFence = [] ∨ ble (t.fullKey sl) t.upperFence := by
    cases hw with
    | leaf _ _ _ _ _ hcov _ => exact fun sl hm => (hcov sl hm).2
    | inner _ _ _ _ _ _ hcovS _ _ _ _ _ _ _ _ =>
      intro sl hm
      rcases (hcovS sl hm).2 with h | h
      · exact Or.inl h
      · exact Or.inr (ble_of_blt h)
  obtain ⟨hSlo, hShi, hSne⟩ := sep_strict2 t hw hsOk
  set S := t.getSep t.findSeparator with hSdef
  cases hwP with
  | leaf _ htagL _ _ _ _ _ =>
    rw [htagP] at htagL
    cases htagL
  | inner _ uP htgP hwpP hfokP hfbP hcovSP hsneP hupP hchsomeP hchwfP
      hchfenceP hwuP hulfP huufP =>
    refine ⟨?_, ?_⟩
    · by_cases hpos0 : pos = 0
      · have hlfeq : t.lowerFence = P.lowerFence := by
          rw [htlf]
          unfold childLF
          rw [if_pos hpos0]
        rcases hSlo with h | h
        · rw [hlfeq] at h
          exact Or.inl h
        · rw [hlfeq] at h
          exact Or.inr h
      · have hposm : pos - 1 < P.count := by omega
        have hlfeq : t.lowerFence = P.fullKey (P.slotD (pos - 1)) := by
          rw [htlf]
          unfold childLF
          rw [if_neg hpos0]
        have htne : t.lowerFence ≠ [] := by
          rw [hlfeq]
          exact hsneP _ (slotD_mem P hposm)
        have hblt : blt t.lowerFence S := by
          rcases hSlo with h | h
          · exact absurd h htne
          · exact h
        rcases (hcovSP _ (slotD_mem P hposm)).1 with h1 | h1
        · exact Or.inl h1
        · refine Or.inr (blt_trans ?_ hblt)
          rw [hlfeq]
          exact h1
    · by_cases hposC : pos = P.count
      · have hufeq : t.upperFence = P.upperFence := by
          rw [htuf, if_pos hposC]
        rcases hShi with h | h
        · rw [hufeq] at h
          exact Or.inl h
        · rw [hufeq] at h
          exact Or.inr (ble_of_blt h)
      · have hposlt : pos < P.count := by omega
        have hufeq : t.upperFence = P.fullKey (P.slotD pos) := by
          rw [htuf, if_neg hposC]
        have htne : t.upperFence ≠ [] := by
          rw [hufeq]
          exact hsneP _ (slotD_mem P hposlt)
        have hblt : blt S t.upperFence := by
          rcases hShi with h | h
          · exact absurd h htne
          · exact h
        rcases (hcovSP _ (slotD_mem P hposlt)).2 with h1 | h1
        · exact Or.inl h1
        · refine Or.inr (ble_of_blt (blt_trans hblt ?_))
          rw [hufeq]
          exact h1

/-- `splitNode` reaches no abort when the separator carries the parent's
prefix: the only fallible step is the parent-side `insert`, which
`insert_no_abort` covers (also through the possible compaction). -/
theorem splitNode_no_abort (t P : BTreeNode) (hfokP : fencesOk P)
    (hpl : P.prefixLength ≤ (t.getSep t.findSeparator).length)
    (hpre : (t.getSep t.findSeparator).take P.prefixLength
      = P.prefixBytes) :
    t.splitNode P ≠ .error () := by
  intro hsplit
  unfold BTreeNode.splitNode at hsplit
  simp only [] at hsplit
  rcases hreq : P.requestSpaceFor
      (P.spaceNeededInner t.findSeparator.length) with ⟨b0, P1⟩
  rw [hreq] at hsplit
  have hp1 : P1 = P ∨ P1 = P.compactify := by
    rcases requestSpaceFor_cases P
        (P.spaceNeededInner t.findSeparator.length) with h | h | h
    · rw [hreq] at h
      exact Or.inl (congrArg Prod.snd h)
    · rw [hreq] at h
      exact Or.inl (congrArg Prod.snd h)
    · rw [hreq] at h
      exact Or.inr (congrArg Prod.snd h)
  have hfok1 : fencesOk P1 := by
    rcases hp1 with he | he
    · subst he
      exact hfokP
    · subst he
      exact compactify_fencesOk P
  have hpl1 : P1.prefixLength = P.prefixLength := by
    rcases hp1 with he | he
    · subst he
      rfl
    · subst he
      exact compactify_prefixLength hfokP
  have hpb1 : P1.prefixBytes = P.prefixBytes := by
    rcases hp1 with he | he
    · subst he
      rfl
    · subst he
      exact compactify_prefixBytes hfokP
  have hne : ∀ c, P1.insertInner (t.getSep t.findSeparator) c
      ≠ .error () := by
    intro c
    exact insert_no_abort P1 _ _ hfok1 (by rw [hpl1]; exact hpl)
      (by rw [hpl1, hpb1]; exact hpre)
  cases b0 with
  | false => simp at hsplit
  | true =>
    simp only at hsplit
    by_cases hleaf : t.isLeaf = true
    · rw [if_pos hleaf] at hsplit
      rcases hins : P1.insertInner (t.getSep t.findSeparator)
          (copyKeyValueRange t ((newNode t.tag).setFences t.lowerFence
            (t.getSep t.findSeparator)) 0 (t.findSeparator.slot + 1)).makeHint
        with u | ⟨bx, p2x, iposx⟩
      · exact hne _ hins
      · rw [hins] at hsplit
        simp at hsplit
    · rw [if_neg hleaf] at hsplit
      rcases hins : P1.insertInner (t.getSep t.findSeparator)
          ((copyKeyValueRange t ((newNode t.tag).setFences t.lowerFence
              (t.getSep t.findSeparator)) 0 t.findSeparator.slot).setUpper
            (t.getChild (copyKeyValueRange t ((newNode t.tag).setFences
              t.lowerFence (t.getSep t.findSeparator)) 0
                t.findSeparator.slot).count)).makeHint
        with u | ⟨bx, p2x, iposx⟩
      · exact hne _ hins
      · rw [hins] at hsplit
        simp at hsplit

/-- `splitNode` answers `none` exactly on the parent-side space failure, so
the parent was full for the separator even after compaction. -/
theorem splitNode_none_full (t P : BTreeNode)
    (hsplit : t.splitNode P = .ok none) :
    P.freeSpaceAfterCompaction
      < P.spaceNeededInner t.findSeparator.length := by
  unfold BTreeNode.splitNode at hsplit
  simp only [] at hsplit
  rcases hreq : P.requestSpaceFor
      (P.spaceNeededInner t.findSeparator.length) with ⟨b0, P1⟩
  rw [hreq] at hsplit
  cases b0 with
  | false => exact requestSpaceFor_false hreq rfl
  | true =>
    simp only at hsplit
    by_cases hleaf : t.isLeaf = true
    · rw [if_pos hleaf] at hsplit
      rcases hins : P1.insertInner (t.getSep t.findSeparator)
          (copyKeyValueRange t ((newNode t.tag).setFences t.lowerFence
            (t.getSep t.findSeparator)) 0 (t.findSeparator.slot + 1)).makeHint
        with u | ⟨bx, p2x, iposx⟩
      · rw [hins] at hsplit
        simp at hsplit
      · rw [hins] at hsplit
        simp at hsplit
    · rw [if_neg hleaf] at hsplit
      rcases hins : P1.insertInner (t.getSep t.findSeparator)
          ((copyKeyValueRange t ((newNode t.tag).setFences t.lowerFence
              (t.getSep t.findSeparator)) 0 t.findSeparator.slot).setUpper
            (t.getChild (copyKeyValueRange t ((newNode t.tag).setFences
              t.lowerFence (t.getSep t.findSeparator)) 0
                t.findSeparator.slot).count)).makeHint
        with u | ⟨bx, p2x, iposx⟩
      · rw [hins] at hsplit
        simp at hsplit
      · rw [hins] at hsplit
        simp at hsplit

/-- `BasicNode::insert` reports `false` exactly on a space failure, so the
page was full for the entry even after compaction. -/
theorem insert_false_full (n : BTreeNode) (key : List Nat)
    (payload : Payload) {m : BTreeNode} {j : Nat}
    (h : n.insert key payload = .ok (false, m, j)) :
    n.freeSpaceAfterCompaction
      < n.spaceNeeded key.length payload.len := by
  unfold BTreeNode.insert at h
  rcases hreq : n.requestSpaceFor (n.spaceNeeded key.length payload.len)
    with ⟨b0, n1⟩
  rw [hreq] at h
  cases b0 with
  | false => exact requestSpaceFor_false hreq rfl
  | true =>
    simp only at h
    rcases hlb : n1.lowerBound key with u | ⟨pos, found⟩
    · rw [hlb] at h
      simp at h
    · rw [hlb] at h
      simp at h

/-- `BTree::splitNode`/`ensureSpace` at any depth of the descent path of a
well-formed, size-bounded tree with open root fences: the split never
reaches `lowerBound`'s abort (a node too small to satisfy the split
asserts surfaces as `assertFail`, never as an abort), and a produced tree
keeps all the invariants and the open fences. -/
theorem splitAtDepth_spec (fuel : Nat) (root : BTreeNode) (key : List Nat)
    (hw : WfT root) (hts : treeSized root)
    (hrlf : root.lowerFence = []) (hruf : root.upperFence = [])
    (path : List (BTreeNode × Nat)) (leaf : BTreeNode)
    (hdesc : descendPath fuel root key = .ok (path, leaf)) :
    ∀ d, d ≤ path.length →
      BTree.splitAtDepth fuel root key d ≠ .error .lbAbort ∧
      ∀ root2, BTree.splitAtDepth fuel root key d = .ok root2 →
        WfT root2 ∧ treeSized root2 ∧
        root2.lowerFence = [] ∧ root2.upperFence = [] ∧
        (∀ k ∈ treeKeys root2, k ∈ treeKeys root) := by
  have hPathOk := descendPath_pathOk fuel root key path leaf hdesc
  obtain ⟨hwleaf, htsleaf, hchain⟩ :=
    pathOk_nodeFacts key root path leaf hPathOk hw hts
  have hnadW : ∀ d', d' ≤ path.length →
      WfT (nodeAtDepth path leaf d') ∧
      treeSized (nodeAtDepth path leaf d') := by
    intro d' hd'
    rcases Nat.lt_or_ge d' path.length with h | h
    · rw [nodeAtDepth_lt _ _ _ h]
      exact ⟨(hchain d' h).1, (hchain d' h).2.1⟩
    · have hde : d' = path.length := by omega
      subst hde
      rw [nodeAtDepth_len]
      exact ⟨hwleaf, htsleaf⟩
  have h0 := pathOk_head key root leaf path hPathOk
  intro d
  induction d with
  | zero =>
    intro hd
    have hE : BTree.splitAtDepth fuel root key 0
        = (if root.count ≤ 1 then (.error .assertFail : Except Err BTreeNode)
          else match root.splitNode (makeInner root) with
          | .error () =>
            if splitSlotOk root then .error Err.lbAbort
            else .error Err.assertFail
          | .ok none => .error Err.stuck
          | .ok (some (_, r, p2, ipos)) =>
            if splitSlotOk root then
              .ok (p2.setChild (if ipos ≤ 0 then 1 else 0) r)
            else .error Err.assertFail) := by
      unfold BTree.splitAtDepth
      rw [hdesc]
      simp only []
      cases path with
      | nil =>
        cases hPathOk with
        | nil _ hinner =>
          simp only [List.head?_nil]
      | cons a rest =>
        cases hPathOk with
        | cons _ c _ pos found _ hin hlb hgc hrest =>
          simp only [List.head?_cons]
    by_cases hct : root.count ≤ 1
    · rw [if_pos hct] at hE
      rw [hE]
      refine ⟨by simp, ?_⟩
      intro root2 h2
      simp at h2
    · rw [if_neg hct] at hE
      by_cases hgd : splitSlotOk root
      · have hsOk : splitOk root := ⟨by omega, hgd⟩
        rcases hsres : root.splitNode (makeInner root) with u | o
        · cases u
          exact absurd hsres
            (splitNode_no_abort root (makeInner root) rfl (Nat.zero_le _)
              rfl)
        · rcases o with _ | ⟨l, r, p2, ipos⟩
          · rw [hsres] at hE
            simp only [] at hE
            rw [hE]
            refine ⟨by simp, ?_⟩
            intro root2 h2
            simp at h2
          · rw [hsres] at hE
            simp only [] at hE
            rw [if_pos hgd] at hE
            rw [hE]
            refine ⟨by simp, ?_⟩
            intro root2 h2
            have h2' : p2.setChild (if ipos ≤ 0 then 1 else 0) r
                = root2 := by
              injection h2 with h3
            subst h2'
            obtain ⟨hA, hB, hC, hD⟩ :=
              split_assembled root (makeInner root) l r p2 ipos 0 hw hts
                hsOk (wfT_makeInner root hw hrlf hruf)
                (treeSized_makeInner root hts)
                rfl (getChild_makeInner root) hsres
            refine ⟨hA, hB, hC, hD, ?_⟩
            intro k hk
            have hks := split_assembled_keys root (makeInner root) l r p2
              ipos 0 hw hts hsOk (wfT_makeInner root hw hrlf hruf)
              (treeSized_makeInner root hts) rfl (getChild_makeInner root)
              hsres k hk
            rw [treeKeys_makeInner] at hks
            exact hks
      · rcases hsres : root.splitNode (makeInner root) with u | o
        · cases u
          rw [hsres] at hE
          simp only [] at hE
          rw [if_neg hgd] at hE
          rw [hE]
          refine ⟨by simp, ?_⟩
          intro root2 h2
          simp at h2
        · rcases o with _ | ⟨l, r, p2, ipos⟩
          · rw [hsres] at hE
            simp only [] at hE
            rw [hE]
            refine ⟨by simp, ?_⟩
            intro root2 h2
            simp at h2
          · rw [hsres] at hE
            simp only [] at hE
            rw [if_neg hgd] at hE
            rw [hE]
            refine ⟨by simp, ?_⟩
            intro root2 h2
            simp at h2
  | succ d ih =>
    intro hd
    have hdlt : d < path.length := by omega
    set T := nodeAtDepth path leaf (d + 1) with hT
    rcases hTd : path.getD (d + 1) (leaf, 0) with ⟨Tn, Tpos⟩
    rcases hPd : path.getD d (root, 0) with ⟨Pn, Ppos⟩
    have htgtE2 : (if d + 1 < path.length then Tn else leaf) = T := by
      rw [hT]
      unfold nodeAtDepth
      by_cases hlt : d + 1 < path.length
      · rw [if_pos hlt, if_pos hlt, hTd]
      · rw [if_neg hlt, if_neg hlt]
    have hE : BTree.splitAtDepth fuel root key (d + 1)
        = (if T.count ≤ 1 then (.error .assertFail : Except Err BTreeNode)
          else match T.splitNode Pn with
          | .error () =>
            if splitSlotOk T then .error Err.lbAbort
            else .error Err.assertFail
          | .ok none => BTree.splitAtDepth fuel root key d
          | .ok (some (_, r, p2, ipos)) =>
            if splitSlotOk T then
              .ok (rebuild (path.take d) (p2.setChild
                (if ipos ≤ Ppos then Ppos + 1 else Ppos) r))
            else .error Err.assertFail) := by
      conv_lhs => rw [BTree.splitAtDepth]
      rw [hdesc]
      simp only []
      rw [hTd, hPd]
      simp only []
      rw [htgtE2]
    have hPd' : path.getD d (leaf, 0) = (Pn, Ppos) := by
      rw [getD_irrel path d hdlt (leaf, 0) (root, 0), hPd]
    have hcc := hchain d hdlt
    rw [hPd'] at hcc
    obtain ⟨hwPn0, htsPn0, hinPn0, hlbPn0, hgcPn0⟩ := hcc
    have hwPn : WfT Pn := hwPn0
    have htsPn : treeSized Pn := htsPn0
    have hinPn : Pn.isInner = true := hinPn0
    have hgcPn : Pn.getChild Ppos = some T := hgcPn0
    have htagPn : Pn.tag = .basicInner := (isInner_iff Pn).mp hinPn
    have hwT : WfT T := (hnadW (d + 1) hd).1
    have htsT : treeSized T := (hnadW (d + 1) hd).2
    have hposle : Ppos ≤ Pn.count := by
      rcases getChild_cases hgcPn with ⟨h, _⟩ | ⟨h, _⟩
      · omega
      · omega
    obtain ⟨_, hTlf, hTuf⟩ := wfT_child hwPn htagPn hgcPn
    by_cases hct : T.count ≤ 1
    · rw [if_pos hct] at hE
      rw [hE]
      refine ⟨by simp, ?_⟩
      intro root2 h2
      simp at h2
    · rw [if_neg hct] at hE
      by_cases hgd : splitSlotOk T
      · have hsOk : splitOk T := ⟨by omega, hgd⟩
        rcases hsres : T.splitNode Pn with u | o
        · cases u
          have hcov := sep_cover_parent T Pn Ppos hwT hsOk hwPn htagPn
            hposle hTlf hTuf
          obtain ⟨hpl, hpre⟩ := cover_prefixOk hwPn.toFencesOk hcov
          exact absurd hsres
            (splitNode_no_abort T Pn hwPn.toFencesOk hpl hpre)
        · rcases o with _ | ⟨l, r, p2, ipos⟩
          · rw [hsres] at hE
            simp only [] at hE
            rw [hE]
            exact ih (by omega)
          · rw [hsres] at hE
            simp only [] at hE
            rw [if_pos hgd] at hE
            rw [hE]
            refine ⟨by simp, ?_⟩
            intro root2 h2
            have h2' : rebuild (path.take d)
                (p2.setChild (if ipos ≤ Ppos then Ppos + 1 else Ppos) r)
                  = root2 := by
              injection h2 with h3
            subst h2'
            obtain ⟨hA, hB, hC, hD⟩ :=
              split_assembled T Pn l r p2 ipos Ppos hwT htsT hsOk hwPn
                htsPn htagPn hgcPn hsres
            have hfl : (p2.setChild (if ipos ≤ Ppos then Ppos + 1 else Ppos)
                r).lowerFence = (nodeAtDepth path leaf d).lowerFence := by
              rw [nodeAtDepth_lt _ _ _ hdlt, hPd']
              exact hC
            have hfu : (p2.setChild (if ipos ≤ Ppos then Ppos + 1 else Ppos)
                r).upperFence = (nodeAtDepth path leaf d).upperFence := by
              rw [nodeAtDepth_lt _ _ _ hdlt, hPd']
              exact hD
            obtain ⟨hW2, hT2, hL2, hU2⟩ :=
              rebuild_wfT key path root leaf hPathOk hw hts d (by omega) _
                hA hB hfl hfu
            refine ⟨hW2, hT2, ?_, ?_, ?_⟩
            · rw [hL2, hrlf]
            · rw [hU2, hruf]
            · refine rebuild_keys key path root leaf hPathOk d (by omega)
                _ ?_
              intro k2 hk2
              have hks := split_assembled_keys T Pn l r p2 ipos Ppos hwT
                htsT hsOk hwPn htsPn htagPn hgcPn hsres k2 hk2
              rw [nodeAtDepth_lt _ _ _ hdlt, hPd']
              exact hks
      · rcases hsres : T.splitNode Pn with u | o
        · cases u
          rw [hsres] at hE
          simp only [] at hE
          rw [if_neg hgd] at hE
          rw [hE]
          refine ⟨by simp, ?_⟩
          intro root2 h2
          simp at h2
        · rcases o with _ | ⟨l, r, p2, ipos⟩
          · rw [hsres] at hE
            simp only [] at hE
            rw [hE]
            exact ih (by omega)
          · rw [hsres] at hE
            simp only [] at hE
            rw [if_neg hgd] at hE
            rw [hE]
            refine ⟨by simp, ?_⟩
            intro root2 h2
            simp at h2

/-! ### The three public drivers never reach `lowerBound`'s abort -/

/-- `BasicNode::remove` never aborts on a page whose prefix the key
carries. -/
theorem remove_node_no_abort (n : BTreeNode) (key : List Nat)
    (hpl : n.prefixLength ≤ key.length)
    (hpre : key.take n.prefixLength = n.prefixBytes) :
    n.remove key ≠ .error () := by
  obtain ⟨pos, found, hlb⟩ := lowerBound_no_abort n key hpl hpre
  intro h
  unfold BTreeNode.remove at h
  rw [hlb] at h
  simp only [] at h
  cases found <;> simp at h

/-- `BTree::lookup` on a well-formed tree with open root fences never
returns the `lowerBound` abort. -/
theorem lookup_no_abort_tree (fuel : Nat) (root : BTreeNode)
    (key : List Nat) (hw : WfT root)
    (hrlf : root.lowerFence = []) (hruf : root.upperFence = [])
    (hkb : allBytes key) :
    BTree.lookup fuel root key ≠ .error .lbAbort := by
  obtain ⟨hnd, hok⟩ := descendPath_spec fuel root key hw
    ⟨Or.inl hrlf, Or.inl hruf⟩ hkb
  intro hcontra
  unfold BTree.lookup at hcontra
  rcases hdres : descendPath fuel root key with e | ⟨path, leaf⟩
  · rw [hdres] at hcontra
    simp only [] at hcontra
    cases e with
    | lbAbort => exact hnd hdres
    | stuck => simp at hcontra
    | assertFail => simp at hcontra
  · rw [hdres] at hcontra
    simp only [] at hcontra
    obtain ⟨hwleaf, htag, hcovleaf, _⟩ := hok path leaf hdres
    obtain ⟨hpl, hpre⟩ := cover_prefixOk hwleaf.toFencesOk hcovleaf
    obtain ⟨pos, found, hlb⟩ := lowerBound_no_abort leaf key hpl hpre
    rw [hlb] at hcontra
    simp only [] at hcontra
    cases found with
    | false => simp at hcontra
    | true =>
      simp only [if_pos rfl] at hcontra
      rcases hpay : (leaf.slotD pos).payload with v | c
      · rw [hpay] at hcontra
        simp at hcontra
      · rw [hpay] at hcontra
        simp at hcontra

/-- `BTree::remove` on a well-formed tree with open root fences never
returns the `lowerBound` abort. -/
theorem remove_no_abort_tree (fuel : Nat) (root : BTreeNode)
    (key : List Nat) (hw : WfT root)
    (hrlf : root.lowerFence = []) (hruf : root.upperFence = [])
    (hkb : allBytes key) :
    BTree.remove fuel root key ≠ .error .lbAbort := by
  obtain ⟨hnd, hok⟩ := descendPath_spec fuel root key hw
    ⟨Or.inl hrlf, Or.inl hruf⟩ hkb
  intro hcontra
  unfold BTree.remove at hcontra
  rcases hdres : descendPath fuel root key with e | ⟨path, leaf⟩
  · rw [hdres] at hcontra
    simp only [] at hcontra
    cases e with
    | lbAbort => exact hnd hdres
    | stuck => simp at hcontra
    | assertFail => simp at hcontra
  · rw [hdres] at hcontra
    simp only [] at hcontra
    obtain ⟨hwleaf, htag, hcovleaf, _⟩ := hok path leaf hdres
    obtain ⟨hpl, hpre⟩ := cover_prefixOk hwleaf.toFencesOk hcovleaf
    rcases hrres : leaf.remove key with u | ⟨b, leaf2⟩
    · cases u
      exact remove_node_no_abort leaf key hpl hpre hrres
    · rw [hrres] at hcontra
      cases b with
      | false => simp at hcontra
      | true =>
        simp only [] at hcontra
        split at hcontra <;> simp at hcontra

/-- `BTree::insert` on a well-formed tree within the entry-size regime,
with open root fences, never returns the `lowerBound` abort: the leaf
insert carries the page prefix, and on a space failure every cascading
split either preserves the invariants or stops at an assert, so the
restarted insert does too. -/
theorem insert_no_abort_tree : ∀ (fuel : Nat) (root : BTreeNode)
    (key payload : List Nat),
    WfT root → treeSized root →
    root.lowerFence = [] → root.upperFence = [] →
    allBytes key →
    BTree.insert fuel root key payload ≠ .error .lbAbort := by
  intro fuel
  induction fuel with
  | zero =>
    intro root key payload _ _ _ _ _
    simp [BTree.insert]
  | succ fuel ih =>
    intro root key payload hw hts hrlf hruf hkb
    obtain ⟨hnd, hok⟩ := descendPath_spec (fuel + 1) root key hw
      ⟨Or.inl hrlf, Or.inl hruf⟩ hkb
    have hE0 : BTree.insert (fuel + 1) root key payload
        = (match descendPath (fuel + 1) root key with
          | .error e => .error e
          | .ok (path, leaf) =>
            match leaf.insert key (.bytes payload) with
            | .error () => .error Err.lbAbort
            | .ok (true, leaf2, _) => .ok (rebuild path leaf2)
            | .ok (false, _, _) =>
              match BTree.splitAtDepth (fuel + 1) root key path.length with
              | .error e => .error e
              | .ok root2 => BTree.insert fuel root2 key payload) := by
      conv_lhs => rw [BTree.insert]
    intro hcontra
    rw [hE0] at hcontra
    rcases hdres : descendPath (fuel + 1) root key with e | ⟨path, leaf⟩
    · rw [hdres] at hcontra
      simp only [] at hcontra
      cases e with
      | lbAbort => exact hnd hdres
      | stuck => simp at hcontra
      | assertFail => simp at hcontra
    · rw [hdres] at hcontra
      simp only [] at hcontra
      obtain ⟨hwleaf, htag, hcovleaf, _⟩ := hok path leaf hdres
      obtain ⟨hpl, hpre⟩ := cover_prefixOk hwleaf.toFencesOk hcovleaf
      rcases hires : leaf.insert key (.bytes payload) with u | ⟨b, leaf2, sl⟩
      · cases u
        exact insert_no_abort leaf key _ hwleaf.toFencesOk hpl hpre hires
      · rw [hires] at hcontra
        cases b with
        | true => simp at hcontra
        | false =>
          simp only [] at hcontra
          obtain ⟨hsnd, hsok⟩ := splitAtDepth_spec (fuel + 1) root key hw
            hts hrlf hruf path leaf hdres path.length (le_refl _)
          rcases hsres : BTree.splitAtDepth (fuel + 1) root key path.length
            with e2 | root2
          · rw [hsres] at hcontra
            simp only [] at hcontra
            cases e2 with
            | lbAbort => exact hsnd hsres
            | stuck => simp at hcontra
            | assertFail => simp at hcontra
          · rw [hsres] at hcontra
            simp only [] at hcontra
            obtain ⟨hw2, hts2, hlf2, huf2, _⟩ := hsok root2 hsres
            exact ih root2 key payload hw2 hts2 hlf2 huf2 hkb hcontra

/-- C3: on a well-formed tree within the driver's `maxKVSize` entry
regime whose root fences are open (the state the engine maintains from
`BTree::BTree()` onward), with a byte-string key, the descent routes the
key only to nodes whose fences cover it, so the key always carries the
reached node's prefix with `keyLen ≥ prefixLength`: the three abort
branches at the start of `BasicNode::lowerBound` are unreachable, and
neither `BTree::lookup` nor `BTree::remove` nor `BTree::insert`
(including its cascading splits and restarts, for payloads of any size)
ever returns the `lbAbort` error.  A node too small for the split's
asserts surfaces as the distinct `assertFail` crash, exactly as the
source's active asserts abort before any `lowerBound` call. -/
theorem c3_lowerBound_abort_unreachable (fuel : Nat) (root : BTreeNode)
    (key payload : List Nat)
    (hw : WfT root) (hts : treeSized root)
    (hrlf : root.lowerFence = []) (hruf : root.upperFence = [])
    (hkb : allBytes key) :
    BTree.lookup fuel root key ≠ .error .lbAbort ∧
    BTree.remove fuel root key ≠ .error .lbAbort ∧
    BTree.insert fuel root key payload ≠ .error .lbAbort :=
  ⟨lookup_no_abort_tree fuel root key hw hrlf hruf hkb,
   remove_no_abort_tree fuel root key hw hrlf hruf hkb,
   insert_no_abort_tree fuel root key payload hw hts hrlf hruf hkb⟩

/-- The empty tree is size bounded. -/
theorem treeSized_emptyTree : treeSized emptyTree := by
  rw [treeSized_iff]
  refine ⟨⟨⟨by decide, by decide, ?_⟩, ?_⟩, ?_, ?_⟩
  · intro sl h
    cases h
  · rfl
  · exact trivial
  · exact trivial

/-- Witness for C3 at a concrete instance: the empty tree, key `[1]`,
payload `[7]`, fuel `2`. -/
theorem c3_lowerBound_abort_unreachable_witness :
    BTree.lookup 2 emptyTree [1] ≠ .error .lbAbort ∧
    BTree.remove 2 emptyTree [1] ≠ .error .lbAbort ∧
    BTree.insert 2 emptyTree [1] [7] ≠ .error .lbAbort :=
  c3_lowerBound_abort_unreachable 2 emptyTree [1] [7] wfT_emptyTree
    treeSized_emptyTree rfl rfl (by decide)

/-- C1 (amended): insert then lookup returns the inserted payload for keys
not already present: on a well-formed tree in the entry-size regime with
open root fences, if `BTree::insert` of an absent key completes — through
any number of page splits and restarts — then every completing
`BTree::lookup` of that key on the produced tree returns a payload view of
exactly `v`. -/
theorem c1_insert_lookup_absent : ∀ (fuel : Nat) (root : BTreeNode)
    (key v : List Nat) (t2 : BTreeNode),
    WfT root → treeSized root →
    root.lowerFence = [] → root.upperFence = [] →
    allBytes key → key ∉ treeKeys root →
    BTree.insert fuel root key v = .ok t2 →
    ∀ (fuel2 : Nat) (res : Option (List Nat)),
      BTree.lookup fuel2 t2 key = .ok res → res = some v := by
  intro fuel
  induction fuel with
  | zero =>
    intro root key v t2 _ _ _ _ _ _ hrun
    cases hrun
  | succ fuel ih =>
    intro root key v t2 hw hts hrlf hruf hkb habs hrun
    obtain ⟨hnd, hok⟩ := descendPath_spec (fuel + 1) root key hw
      ⟨Or.inl hrlf, Or.inl hruf⟩ hkb
    have hE0 : BTree.insert (fuel + 1) root key v
        = (match descendPath (fuel + 1) root key with
          | .error e => .error e
          | .ok (path, leaf) =>
            match leaf.insert key (.bytes v) with
            | .error () => .error Err.lbAbort
            | .ok (true, leaf2, _) => .ok (rebuild path leaf2)
            | .ok (false, _, _) =>
              match BTree.splitAtDepth (fuel + 1) root key path.length with
              | .error e => .error e
              | .ok root2 => BTree.insert fuel root2 key v) := by
      conv_lhs => rw [BTree.insert]
    rw [hE0] at hrun
    rcases hdres : descendPath (fuel + 1) root key with e | ⟨path, leaf⟩
    · rw [hdres] at hrun
      cases hrun
    · rw [hdres] at hrun
      simp only [] at hrun
      obtain ⟨hwl, htl, hcl, hsub⟩ := hok path leaf hdres
      have hfokl := hwl.toFencesOk
      have hprefix := cover_prefixOk hfokl hcl
      have hqb2 : allBytes (key.drop leaf.prefixLength) :=
        allBytes_drop _ hkb
      rcases hires : leaf.insert key (.bytes v) with u | ⟨b, leaf2, sid⟩
      · rw [hires] at hrun
        cases hrun
      · rw [hires] at hrun
        cases b with
        | false =>
          simp only [] at hrun
          rcases hsres : BTree.splitAtDepth (fuel + 1) root key path.length
            with e2 | root2
          · rw [hsres] at hrun
            cases hrun
          · rw [hsres] at hrun
            simp only [] at hrun
            obtain ⟨hsnd, hsok⟩ := splitAtDepth_spec (fuel + 1) root key hw
              hts hrlf hruf path leaf hdres path.length (le_refl _)
            obtain ⟨hw2, hts2, hlf2, huf2, hkeys2⟩ := hsok root2 hsres
            have habs2 : key ∉ treeKeys root2 := fun hmem =>
              habs (hkeys2 key hmem)
            exact ih root2 key v t2 hw2 hts2 hlf2 huf2 hkb habs2 hrun
        | true =>
          simp only [] at hrun
          have ht2 : rebuild path leaf2 = t2 := by
            injection hrun with h3
          subst ht2
          have habs_leaf : ∀ sl ∈ leaf.slots,
              sl.key ≠ key.drop leaf.prefixLength := by
            intro sl hmem heq
            apply habs
            refine hsub _ ?_
            rw [treeKeys_leaf htl]
            exact List.mem_map.mpr ⟨sl, hmem,
              by rw [heq]; exact (cover_key_decomp hfokl hcl).symm⟩
          rcases insert_spec leaf key (.bytes v) hwl.toWfPage hfokl
              hprefix.1 hprefix.2 hqb2 habs_leaf with hfail | hmain
          · exfalso
            rw [hires] at hfail
            injection hfail with hX
            injection hX with hb _
            cases hb
          · obtain ⟨n2x, sidx, heq, hsid, htag2, hup2, hlf2, huf2, hplen2,
              hkeys2, hpays2, hw2, hfok2⟩ := hmain
            rw [hires] at heq
            injection heq with hX
            injection hX with _ hY
            injection hY with hn2 hsid2
            subst hn2
            subst hsid2
            have hcnt2 : leaf2.count = leaf.count + 1 := by
              have := congrArg List.length hkeys2
              rw [List.length_map, List.length_insertIdx _ _
                (by rw [List.length_map]; exact hsid)] at this
              rw [List.length_map] at this
              exact this
            have hsid2 : sid < leaf2.count := by omega
            have ekey : (leaf2.slotD sid).key
                = key.drop leaf.prefixLength := by
              have e1 := congrArg (fun l => l.getD sid defaultSlot.key)
                hkeys2
              simp only [] at e1
              rw [getD_map FatSlot.key leaf2.slots sid defaultSlot] at e1
              rw [getD_insertIdx_self _ _
                (by rw [List.length_map]; exact hsid)] at e1
              exact e1
            have epay : (leaf2.slotD sid).payload = .bytes v := by
              have e1 := congrArg (fun l => l.getD sid defaultSlot.payload)
                hpays2
              simp only [] at e1
              rw [getD_map FatSlot.payload leaf2.slots sid defaultSlot]
                at e1
              rw [getD_insertIdx_self _ _
                (by rw [List.length_map]; exact hsid)] at e1
              exact e1
            have hlb2 : leaf2.lowerBound key = .ok (sid, true) := by
              refine lowerBound_found_of_mem leaf2 key hw2 ?_ ?_ ?_ sid
                hsid2 ?_
              · rw [hplen2]
                exact hprefix.1
              · rw [hplen2]
                show key.take leaf.prefixLength = leaf2.prefixBytes
                rw [show leaf2.prefixBytes = leaf.prefixBytes by
                  unfold BTreeNode.prefixBytes; rw [hlf2, hplen2]]
                exact hprefix.2
              · rw [hplen2]
                exact hqb2
              · rw [hplen2]
                exact ekey
            have hsub_inner : leaf2.isInner = false := by
              unfold BTreeNode.isInner BTreeNode.isLeaf
              rw [htag2, htl]
              rfl
            have hplen : path.length < fuel + 1 :=
              descendPath_length _ _ _ _ _ hdres
            obtain ⟨path2, hd2⟩ := rebuild_descend key path root leaf leaf2
              (descendPath_pathOk _ _ _ _ _ hdres) hsub_inner (fuel + 1)
              hplen
            intro fuel2 res hlook
            unfold BTree.lookup at hlook
            rcases hdres2 : descendPath fuel2 (rebuild path leaf2) key
              with e3 | ⟨pathX, leafX⟩
            · rw [hdres2] at hlook
              cases hlook
            · rw [hdres2] at hlook
              simp only [] at hlook
              have hdet := descendPath_det fuel2 (rebuild path leaf2) key
                (pathX, leafX) hdres2 (fuel + 1) (path2, leaf2) hd2
              have hleafX : leafX = leaf2 := by
                injection hdet with _ h
              subst hleafX
              rw [hlb2] at hlook
              simp only [if_pos rfl] at hlook
              rw [epay] at hlook
              simp only [] at hlook
              injection hlook with hres
              rw [← hres]

/-- Witness for C1 at a concrete instance: inserting `[1] ↦ [7]` into the
empty tree and looking `[1]` up. -/
theorem c1_insert_lookup_absent_witness :
    BTree.insert 1 emptyTree [1] [7] = .ok (rebuild [] insertedC1) ∧
    BTree.lookup 1 (rebuild [] insertedC1) [1] = .ok (some [7]) ∧
    (some [7] : Option (List Nat)) = some [7] :=
  ⟨rfl, rfl,
    c1_insert_lookup_absent 1 emptyTree [1] [7] (rebuild [] insertedC1)
      wfT_emptyTree treeSized_emptyTree rfl rfl (by decide) (by decide)
      (by rfl) 1 (some [7]) (by rfl)⟩

end BtreeSpec
